import Mathlib

/-!
# CRT strip-hit clustering and truth matching (sbndcode)

A shallow embedding of

* `sbndcode/CRT/CRTReco/CRTClusterProducer_module.cc`
  (`GroupStripHits`, `CreateClusters`, `CharacteriseCluster`, `produce`) and
* `sbndcode/CRT/CRTBackTracker/CRTBackTrackerAlg.cc`
  (`SetupMaps`, `RollUpID`, `TruthMatching`),

followed by theorems about these definitions.

Conventions of the embedding.

* `std::vector<T>` is a `List T`; a range-`for` over it is a fold.
* `uint16_t` / `uint32_t` values are natural numbers; every operation that can
  overflow is followed by an explicit reduction modulo `65536` / `4294967296`.
* A `for` loop driven by a `uint16_t` counter can fail to terminate, so such a
  loop takes a step budget (`fuel`) and reports `Fault.outOfFuel` when the
  budget is used up.
* `std::map<K, V>` is a key-ordered association list (`StdMap`).
* A `float` or `double` value is a rational number; the result of a `double`
  division is a `DoubleVal`, which adds the IEEE 754 values a division by zero
  produces. The back-tracker is embedded twice. `SetupMaps` and `TruthMatching`
  compute with exact rationals; they carry the theorems that no rounding can
  affect. `Rounded.SetupMaps` and `Rounded.TruthMatching` are the same
  functions with every `float` and `double` operation followed by the rounding
  of a `FloatArith`; `ieee` rounds to the nearest value of 24 and 53
  significant bits, ties to even. They carry the theorems on the computed
  energies, purities and completeness. The exponent range is not bounded, so
  neither overflow nor underflow occurs; the energies and coordinates of a
  deposit are `float` values, whose sums and quotients lie far inside the
  exponent range of a `double`.
-/

namespace sbnd.crt

/-! ## Machine integers -/

/-- Number of values of a `uint16_t`. -/
def UINT16_SIZE : Nat := 65536

/-- Number of values of a `uint32_t`. -/
def UINT32_SIZE : Nat := 4294967296

/-- Subtraction of two `uint32_t` values: the result wraps modulo `2^32`. -/
def sub_u32 (a b : Nat) : Nat :=
  (a % UINT32_SIZE + UINT32_SIZE - b % UINT32_SIZE) % UINT32_SIZE

/-- Addition into a `uint32_t` accumulator (`acc += v`): wraps modulo `2^32`. -/
def add_u32 (acc v : Nat) : Nat := (acc + v) % UINT32_SIZE

/-- Increment of a `uint16_t` loop counter (`++i`, and the initialiser
`uint16_t ii = i+1`): wraps modulo `2^16`. -/
def incr_u16 (i : Nat) : Nat := (i + 1) % UINT16_SIZE

/-- The ways a run of the embedded code can fail to return a value. -/
inductive Fault where
  /-- the step budget of the model is used up before the loop exits -/
  | outOfFuel
  /-- the call `std::vector::at` throws `std::out_of_range` -/
  | outOfRange
  /-- integer division by zero -/
  | divByZero
  /-- an `assert` fails and the program aborts -/
  | assertFailed
deriving DecidableEq

/-! ## Values of `double` expressions -/

/-- The value of a `double` expression in the arithmetic of this development:
a rational number (rounded where the operation that produced it rounds), or
one of the IEEE 754 non-finite values that a division by zero produces. -/
inductive DoubleVal where
  | finite (q : ℚ)
  | posInf
  | negInf
  | nan
deriving DecidableEq

namespace DoubleVal

/-- The quotient `a / b` of two finite doubles: a zero divisor gives `NaN` for
a zero dividend and an infinity with the sign of the dividend otherwise. -/
def div (a b : ℚ) : DoubleVal :=
  if b = 0 then (if a = 0 then nan else if 0 < a then posInf else negInf)
  else finite (a / b)

/-- The comparison `x > y` of two doubles; it is false when either is `NaN`. -/
def gt : DoubleVal → DoubleVal → Bool
  | nan, _ => false
  | _, nan => false
  | finite a, finite b => decide (b < a)
  | finite _, posInf => false
  | finite _, negInf => true
  | posInf, posInf => false
  | posInf, _ => true
  | negInf, _ => false

/-- The comparison `x <= y` of two doubles; it is false when either is `NaN`. -/
def le : DoubleVal → DoubleVal → Bool
  | nan, _ => false
  | _, nan => false
  | finite a, finite b => decide (a ≤ b)
  | finite _, posInf => true
  | finite _, negInf => false
  | posInf, posInf => true
  | posInf, _ => false
  | negInf, _ => true

end DoubleVal

/-! ## Data model -/

/-- Modelled from the spec: the enumeration `CRTTagger` is declared outside the
available sources; a tagger is represented by the integer value of its
enumerator, which is also the order `std::map<CRTTagger, _>` uses. -/
abbrev CRTTagger : Type := Int

/-- Modelled from the spec: the class `CRTStripHit` is declared outside the
available sources. The spec gives it a channel, two unsigned timestamps `ts0`,
`ts1` and a unix-seconds stamp; the accessors used by the code are `Channel()`,
`Ts0()`, `Ts1()` and `UnixS()`. The stamps are `uint32_t` values. -/
structure CRTStripHit where
  channel : Nat
  ts0 : Nat
  ts1 : Nat
  unixS : Nat
deriving DecidableEq

/-- An `art::Ptr<T>`: the index (`key()`) of an element of a data product,
together with the element it points to. -/
structure Ptr (α : Type) where
  key : Nat
  obj : α
deriving DecidableEq

/-- Modelled from the spec: the class `CRTCluster` is declared outside the
available sources; its fields are the arguments of the constructor call
`CRTCluster(ts0, ts1, s, nHits, tagger, threeD)` in `CharacteriseCluster`. -/
structure CRTCluster where
  ts0 : Nat
  ts1 : Nat
  unixS : Nat
  nHits : Nat
  tagger : CRTTagger
  threeD : Bool
deriving DecidableEq

/-- Modelled from the spec: the geometry service `CRTGeoAlg` is outside the
available sources and is consumed as a collection of pure functions:
channel to tagger, channel to strip, the orientation test on two strips and
position to tagger. -/
structure CRTGeoAlg where
  /-- the type `CRTStripGeo` of strip descriptions -/
  CRTStripGeo : Type
  ChannelToTaggerEnum : Nat → CRTTagger
  GetStrip : Nat → CRTStripGeo
  DifferentOrientations : CRTStripGeo → CRTStripGeo → Bool
  WhichTagger : ℚ → ℚ → ℚ → CRTTagger

/-! ## `std::map` as a key-ordered association list -/

/-- The entries of a `std::map<κ, ν>`, in iteration (ascending key) order. -/
abbrev StdMap (κ ν : Type) : Type := List (κ × ν)

namespace StdMap

variable {κ ν : Type} [LinearOrder κ]

/-- Lookup `m.find(k)`: descends by key comparison, `none` stands for `end()`. -/
def find : StdMap κ ν → κ → Option ν
  | [], _ => none
  | (k', v) :: rest, k =>
    if k < k' then none
    else if k = k' then some v
    else find rest k

/-- The access `m[k]` followed by an update of the referenced value by `f`:
when `k` is absent a value-initialised entry `dflt` is inserted first.
`m[k] = v` is `subscript dflt (fun _ => v)`, `m[k] += e` is
`subscript 0 (· + e)`, a plain read of `m[k]` is `subscript dflt id`. -/
def subscript (dflt : ν) (f : ν → ν) : StdMap κ ν → κ → StdMap κ ν
  | [], k => [(k, f dflt)]
  | (k', v) :: rest, k =>
    if k < k' then (k, f dflt) :: (k', v) :: rest
    else if k = k' then (k', f v) :: rest
    else (k', v) :: subscript dflt f rest k

/-- The value read by `m[k]`: the stored value, or `dflt` for an absent key. -/
def read (dflt : ν) (m : StdMap κ ν) (k : κ) : ν := (find m k).getD dflt

/-- Strictly ascending keys: the representation invariant of a `std::map`. -/
def Ordered (m : StdMap κ ν) : Prop := m.Pairwise (fun a b => a.1 < b.1)

end StdMap

/-! ## `CRTClusterProducer` -/

namespace CRTClusterProducer

/-- The accumulators of the loop of `CharacteriseCluster`. -/
structure Sums where
  ts0 : Nat
  ts1 : Nat
  s : Nat
  threeD : Bool
deriving DecidableEq

/-- The loop `for(uint16_t i = 0; i < clusteredHits.size(); ++i)` of
`CharacteriseCluster`, started at counter value `i`. -/
def CharacteriseCluster.loop (geo : CRTGeoAlg) (strip0 : geo.CRTStripGeo)
    (clusteredHits : List (Ptr CRTStripHit)) : Nat → Nat → Sums → Except Fault Sums
  | 0, _, _ => .error .outOfFuel
  | fuel + 1, i, acc =>
    if h : i < clusteredHits.length then
      let hit := clusteredHits[i]
      let strip := geo.GetStrip hit.obj.channel
      loop geo strip0 clusteredHits fuel (incr_u16 i)
        { ts0 := add_u32 acc.ts0 hit.obj.ts0
          ts1 := add_u32 acc.ts1 hit.obj.ts1
          s := add_u32 acc.s hit.obj.unixS
          threeD := acc.threeD || geo.DifferentOrientations strip0 strip }
    else .ok acc

/-- The member function `CRTClusterProducer::CharacteriseCluster`. -/
def CharacteriseCluster (geo : CRTGeoAlg) (clusteredHits : List (Ptr CRTStripHit))
    (fuel : Nat) : Except Fault CRTCluster :=
  let nHits := clusteredHits.length % UINT16_SIZE
  match clusteredHits with
  | [] => .error .outOfRange
  | hit0 :: _ =>
    let strip0 := geo.GetStrip hit0.obj.channel
    let tagger := geo.ChannelToTaggerEnum hit0.obj.channel
    match CharacteriseCluster.loop geo strip0 clusteredHits fuel 0
        { ts0 := 0, ts1 := 0, s := 0, threeD := false } with
    | .error e => .error e
    | .ok acc =>
      if nHits = 0 then .error .divByZero
      else .ok
        { ts0 := acc.ts0 / nHits
          ts1 := acc.ts1 / nHits
          unixS := acc.s / nHits
          nHits := nHits
          tagger := tagger
          threeD := acc.threeD }

/-- The coincidence test
`stripHit->Ts1() - initialStripHit->Ts1() < fCoincidenceTimeRequirement`. -/
def coincident (fCoincidenceTimeRequirement : Nat) (initialStripHit stripHit : Ptr CRTStripHit) :
    Bool :=
  decide (sub_u32 stripHit.obj.ts1 initialStripHit.obj.ts1 < fCoincidenceTimeRequirement)

/-- The inner loop `for(uint16_t ii = i+1; ii < stripHits.size(); ++ii)` of
`CreateClusters`, started at counter value `ii`; returns the `used` flags and
the hits clustered so far. -/
def CreateClusters.inner (fCoincidenceTimeRequirement : Nat) (stripHits : List (Ptr CRTStripHit))
    (initialStripHit : Ptr CRTStripHit) :
    Nat → Nat → List Bool → List (Ptr CRTStripHit) →
      Except Fault (List Bool × List (Ptr CRTStripHit))
  | 0, _, _, _ => .error .outOfFuel
  | fuel + 1, ii, used, clusteredHits =>
    if h : ii < stripHits.length then
      let stripHit := stripHits[ii]
      if !used.getD ii false then
        if coincident fCoincidenceTimeRequirement initialStripHit stripHit then
          inner fCoincidenceTimeRequirement stripHits initialStripHit fuel (incr_u16 ii)
            (used.set ii true) (clusteredHits ++ [stripHit])
        else
          inner fCoincidenceTimeRequirement stripHits initialStripHit fuel (incr_u16 ii)
            used clusteredHits
      else
        inner fCoincidenceTimeRequirement stripHits initialStripHit fuel (incr_u16 ii)
          used clusteredHits
    else .ok (used, clusteredHits)

/-- The outer loop `for(uint16_t i = 0; i < stripHits.size(); ++i)` of
`CreateClusters`, started at counter value `i`. -/
def CreateClusters.outer (geo : CRTGeoAlg) (fCoincidenceTimeRequirement : Nat)
    (stripHits : List (Ptr CRTStripHit)) :
    Nat → Nat → List Bool → List (CRTCluster × List (Ptr CRTStripHit)) →
      Except Fault (List (CRTCluster × List (Ptr CRTStripHit)))
  | 0, _, _, _ => .error .outOfFuel
  | fuel + 1, i, used, clustersAndHits =>
    if h : i < stripHits.length then
      let initialStripHit := stripHits[i]
      if !used.getD i false then
        match CreateClusters.inner fCoincidenceTimeRequirement stripHits initialStripHit fuel
            (incr_u16 i) (used.set i true) [initialStripHit] with
        | .error e => .error e
        | .ok (used', clusteredHits) =>
          match CharacteriseCluster geo clusteredHits fuel with
          | .error e => .error e
          | .ok cluster =>
            outer geo fCoincidenceTimeRequirement stripHits fuel (incr_u16 i) used'
              (clustersAndHits ++ [(cluster, clusteredHits)])
      else
        outer geo fCoincidenceTimeRequirement stripHits fuel (incr_u16 i) used clustersAndHits
    else .ok clustersAndHits

/-- The member function `CRTClusterProducer::CreateClusters`. -/
def CreateClusters (geo : CRTGeoAlg) (fCoincidenceTimeRequirement : Nat)
    (stripHits : List (Ptr CRTStripHit)) (fuel : Nat) :
    Except Fault (List (CRTCluster × List (Ptr CRTStripHit))) :=
  CreateClusters.outer geo fCoincidenceTimeRequirement stripHits fuel 0
    (List.replicate stripHits.length false) []

/-- The body of the loop `for(const art::Ptr<CRTStripHit> &stripHit : CRTStripHitVec)`
of `GroupStripHits`. -/
def groupStep (geo : CRTGeoAlg) (taggerStripHitsMap : StdMap CRTTagger (List (Ptr CRTStripHit)))
    (stripHit : Ptr CRTStripHit) : StdMap CRTTagger (List (Ptr CRTStripHit)) :=
  let tagger := geo.ChannelToTaggerEnum stripHit.obj.channel
  if (StdMap.find taggerStripHitsMap tagger).isSome then
    StdMap.subscript [] (fun v => v ++ [stripHit]) taggerStripHitsMap tagger
  else
    StdMap.subscript [] (fun v => v ++ [stripHit])
      (StdMap.subscript [] (fun _ => []) taggerStripHitsMap tagger) tagger

/-- The member function `CRTClusterProducer::GroupStripHits`. -/
def GroupStripHits (geo : CRTGeoAlg) (CRTStripHitVec : List (Ptr CRTStripHit)) :
    StdMap CRTTagger (List (Ptr CRTStripHit)) :=
  CRTStripHitVec.foldl (groupStep geo) []

/-- Ascending order by `ts1`, the order `std::sort` with the comparator
`a->Ts1() < b->Ts1()` establishes. -/
def SortedByTs1 (l : List (Ptr CRTStripHit)) : Prop :=
  l.Pairwise (fun a b => a.obj.ts1 ≤ b.obj.ts1)

/-- The contract of `std::sort` called with the comparator
`a->Ts1() < b->Ts1()`: the result is a rearrangement of the argument in which
no element compares less than an earlier one. The order of hits with equal
`ts1` is left open, as it is by `std::sort`. -/
def StdSortByTs1 (sort : List (Ptr CRTStripHit) → List (Ptr CRTStripHit)) : Prop :=
  ∀ l, List.Perm (sort l) l ∧ SortedByTs1 (sort l)

/-- The body of the loop over `clustersAndHits` in `produce`: the cluster is
pushed to `clusterVec` and `util::CreateAssn` associates the element just
pushed (index `size - 1`) with each of its hits. -/
def produce.store (products : List CRTCluster × List (Nat × Ptr CRTStripHit))
    (clusterAndHits : CRTCluster × List (Ptr CRTStripHit)) :
    List CRTCluster × List (Nat × Ptr CRTStripHit) :=
  (products.1 ++ [clusterAndHits.1],
   products.2 ++ clusterAndHits.2.map (fun hit => (products.1.length, hit)))

/-- The loop `for(auto& [tagger, stripHits] : taggerStripHitsMap)` of `produce`. -/
def produce.taggerLoop (geo : CRTGeoAlg) (fCoincidenceTimeRequirement : Nat)
    (sort : List (Ptr CRTStripHit) → List (Ptr CRTStripHit)) (fuel : Nat) :
    StdMap CRTTagger (List (Ptr CRTStripHit)) →
      List CRTCluster × List (Nat × Ptr CRTStripHit) →
      Except Fault (List CRTCluster × List (Nat × Ptr CRTStripHit))
  | [], products => .ok products
  | (_, stripHits) :: rest, products =>
    match CreateClusters geo fCoincidenceTimeRequirement (sort stripHits) fuel with
    | .error e => .error e
    | .ok clustersAndHits =>
      produce.taggerLoop geo fCoincidenceTimeRequirement sort fuel rest
        (clustersAndHits.foldl produce.store products)

/-- The member function `CRTClusterProducer::produce`: the two data products put into the event,
the cluster vector and the cluster-to-hit associations (cluster index, hit). -/
def produce (geo : CRTGeoAlg) (fCoincidenceTimeRequirement : Nat)
    (sort : List (Ptr CRTStripHit) → List (Ptr CRTStripHit))
    (CRTStripHitVec : List (Ptr CRTStripHit)) (fuel : Nat) :
    Except Fault (List CRTCluster × List (Nat × Ptr CRTStripHit)) :=
  produce.taggerLoop geo fCoincidenceTimeRequirement sort fuel
    (GroupStripHits geo CRTStripHitVec) ([], [])

/-! ### Descriptions of the loops used in the proofs -/

/-- One admissible behaviour of the `std::sort` call of `produce`: insertion
sort by `ts1`. -/
def insertionSortByTs1 (l : List (Ptr CRTStripHit)) : List (Ptr CRTStripHit) :=
  l.insertionSort (fun a b => a.obj.ts1 ≤ b.obj.ts1)

/-- The elements of a vector whose `used` flag is still `false`. -/
def unusedOf {α : Type} : List α → List Bool → List α
  | h :: suf, u :: usuf => if u then unusedOf suf usuf else h :: unusedOf suf usuf
  | _, _ => []

/-- The `used` flags after every unused element satisfying `p` was marked. -/
def markUsed {α : Type} (p : α → Bool) : List α → List Bool → List Bool
  | h :: suf, u :: usuf => (u || p h) :: markUsed p suf usuf
  | _, usuf => usuf

/-- One iteration of the loop of `CharacteriseCluster`. -/
def sumsStep (geo : CRTGeoAlg) (strip0 : geo.CRTStripGeo) (acc : Sums) (hit : Ptr CRTStripHit) :
    Sums :=
  { ts0 := add_u32 acc.ts0 hit.obj.ts0
    ts1 := add_u32 acc.ts1 hit.obj.ts1
    s := add_u32 acc.s hit.obj.unixS
    threeD := acc.threeD || geo.DifferentOrientations strip0 (geo.GetStrip hit.obj.channel) }

/-- The record `CharacteriseCluster` builds from a member list: wrapped 32-bit
sums divided by the 16-bit member count, the tagger of the first member, and
the orientation test of every member against the first. -/
def clusterOf (geo : CRTGeoAlg) (m : List (Ptr CRTStripHit)) : CRTCluster :=
  { ts0 := ((m.map (fun h => h.obj.ts0)).sum % UINT32_SIZE) / (m.length % UINT16_SIZE)
    ts1 := ((m.map (fun h => h.obj.ts1)).sum % UINT32_SIZE) / (m.length % UINT16_SIZE)
    unixS := ((m.map (fun h => h.obj.unixS)).sum % UINT32_SIZE) / (m.length % UINT16_SIZE)
    nHits := m.length % UINT16_SIZE
    tagger := match m with
      | [] => 0
      | hit0 :: _ => geo.ChannelToTaggerEnum hit0.obj.channel
    threeD := match m with
      | [] => false
      | hit0 :: _ =>
        m.any (fun h => geo.DifferentOrientations (geo.GetStrip hit0.obj.channel)
          (geo.GetStrip h.obj.channel)) }

/-- The anchor-fixed greedy partition written as a recursion on the list of
still unused hits: the first one is the anchor, it takes every later hit that
passes the coincidence test against it, and the rest is partitioned in turn. -/
def anchorClusters (w : Nat) : List (Ptr CRTStripHit) → List (List (Ptr CRTStripHit))
  | [] => []
  | a :: rest =>
    (a :: rest.filter (coincident w a)) ::
      anchorClusters w (rest.filter (fun c => !coincident w a c))
termination_by l => l.length
decreasing_by
  simp only [List.length_cons]
  exact Nat.lt_succ_of_le (List.length_filter_le _ _)

/-- The hits of a vector whose channel maps to tagger `t`, in vector order. -/
def hitsOfTagger (geo : CRTGeoAlg) (t : CRTTagger) (vec : List (Ptr CRTStripHit)) :
    List (Ptr CRTStripHit) :=
  vec.filter (fun h => decide (geo.ChannelToTaggerEnum h.obj.channel = t))

/-- The flag `is3D` as the spec words it: true if any two members' strips have
different sensor orientation, for an orientation function on strips. -/
def is3D_anyTwoMembers (geo : CRTGeoAlg) {O : Type} [DecidableEq O]
    (orientation : geo.CRTStripGeo → O) (members : List (Ptr CRTStripHit)) : Bool :=
  members.any (fun a => members.any (fun b =>
    decide (orientation (geo.GetStrip a.obj.channel)
      ≠ orientation (geo.GetStrip b.obj.channel))))

end CRTClusterProducer

/-! ## `CRTBackTrackerAlg` -/

namespace CRTBackTrackerAlg

/-- Modelled from the spec: `sim::AuxDetIDE` is declared outside the available
sources; one energy deposit with its track id, deposited energy and entry and
exit coordinates. Its `float` quantities are rational numbers here. -/
structure AuxDetIDE where
  trackID : Int
  energyDeposited : ℚ
  entryX : ℚ
  entryY : ℚ
  entryZ : ℚ
  exitX : ℚ
  exitY : ℚ
  exitZ : ℚ
deriving DecidableEq

/-- The map data members of `CRTBackTrackerAlg` (`CRTBackTrackerAlg.h`). -/
structure State where
  fMCPnIDEsMap : StdMap Int (StdMap CRTTagger Int)
  fMCPIDEsEnergyMap : StdMap Int (StdMap CRTTagger ℚ)
  fMCPRecoMap : StdMap Int Bool
  fIDERecoMap : StdMap Int Bool
  fTrackIDMotherMap : StdMap Int Int
deriving DecidableEq

/-- The member function `CRTBackTrackerAlg::RollUpID`: the returned id and the
state after the call (the member function is not `const` and reads through `operator[]`). -/
def RollUpID (self : State) (id : Int) : Int × State :=
  if (StdMap.find self.fTrackIDMotherMap id).isSome then
    (StdMap.read 0 self.fTrackIDMotherMap id,
     { self with
       fTrackIDMotherMap := StdMap.subscript 0 (fun v => v) self.fTrackIDMotherMap id })
  else (id, self)

/-- The tagger of a deposit: `WhichTagger` at the midpoint of entry and exit. -/
def ideTagger (geo : CRTGeoAlg) (ide : Ptr AuxDetIDE) : CRTTagger :=
  let x := (ide.obj.entryX + ide.obj.exitX) / 2
  let y := (ide.obj.entryY + ide.obj.exitY) / 2
  let z := (ide.obj.entryZ + ide.obj.exitZ) / 2
  geo.WhichTagger x y z

/-- The loop of `SetupMaps` over the dropped-track-id maps (lines 35-42). -/
def SetupMaps.motherLoop (self : State) (droppedTrackIdMaps : List (StdMap Int (List Int))) :
    State :=
  droppedTrackIdMaps.foldl
    (fun self droppedTrackIdMap =>
      droppedTrackIdMap.foldl
        (fun self entry =>
          entry.2.foldl
            (fun self id =>
              { self with
                fTrackIDMotherMap :=
                  StdMap.subscript 0 (fun _ => entry.1) self.fTrackIDMotherMap id })
            self)
        self)
    self

/-- The first loop of `SetupMaps` over the deposits (lines 51-60): collects the
`std::set` of (rolled-up id, tagger) categories. -/
def SetupMaps.categoryLoop (geo : CRTGeoAlg) (self : State) (ideVec : List (Ptr AuxDetIDE)) :
    State × StdMap (Lex (Int × CRTTagger)) Unit :=
  ideVec.foldl
    (fun acc ide =>
      let tagger := ideTagger geo ide
      let r1 := RollUpID acc.1 ide.obj.trackID
      let depositCategories := StdMap.subscript () (fun _ => ()) acc.2 (toLex (r1.1, tagger))
      let r2 := RollUpID r1.2 ide.obj.trackID
      ({ r2.2 with fMCPRecoMap := StdMap.subscript false (fun _ => false) r2.2.fMCPRecoMap r2.1 },
       depositCategories))
    (self, [])

/-- The loop of `SetupMaps` over the categories (lines 62-66). -/
def SetupMaps.initLoop (self : State) (depositCategories : StdMap (Lex (Int × CRTTagger)) Unit) :
    State :=
  depositCategories.foldl
    (fun self category =>
      let self1 : State :=
        { self with
          fMCPnIDEsMap :=
            StdMap.subscript [] (fun byTagger =>
              StdMap.subscript 0 (fun _ => 0) byTagger (ofLex category.1).2)
              self.fMCPnIDEsMap (ofLex category.1).1 }
      { self1 with
        fMCPIDEsEnergyMap :=
          StdMap.subscript [] (fun byTagger =>
            StdMap.subscript 0 (fun _ => 0) byTagger (ofLex category.1).2)
            self1.fMCPIDEsEnergyMap (ofLex category.1).1 })
    self

/-- The second loop of `SetupMaps` over the deposits (lines 68-78). -/
def SetupMaps.fillLoop (geo : CRTGeoAlg) (self : State) (ideVec : List (Ptr AuxDetIDE)) : State :=
  ideVec.foldl
    (fun self ide =>
      let tagger := ideTagger geo ide
      let r1 := RollUpID self ide.obj.trackID
      let self1 : State :=
        { r1.2 with
          fMCPnIDEsMap :=
            StdMap.subscript [] (fun byTagger => StdMap.subscript 0 (fun n => n + 1) byTagger tagger)
              r1.2.fMCPnIDEsMap r1.1 }
      let r2 := RollUpID self1 ide.obj.trackID
      let self2 : State :=
        { r2.2 with
          fMCPIDEsEnergyMap :=
            StdMap.subscript [] (fun byTagger =>
              StdMap.subscript 0 (fun e => e + ide.obj.energyDeposited) byTagger tagger)
              r2.2.fMCPIDEsEnergyMap r2.1 }
      { self2 with
        fIDERecoMap := StdMap.subscript false (fun _ => false) self2.fIDERecoMap (ide.key : Int) })
    self

/-- The member function `CRTBackTrackerAlg::SetupMaps`. The event supplies the
dropped-track-id maps (`getMany`) and the deposits (`ideVec`); the previous contents of the
members are cleared first. -/
def SetupMaps (geo : CRTGeoAlg) (_self : State)
    (droppedTrackIdMaps : List (StdMap Int (List Int))) (ideVec : List (Ptr AuxDetIDE)) : State :=
  let cleared : State :=
    { fMCPnIDEsMap := [], fMCPIDEsEnergyMap := [], fMCPRecoMap := [], fIDERecoMap := [],
      fTrackIDMotherMap := [] }
  let self1 := SetupMaps.motherLoop cleared droppedTrackIdMaps
  let r := SetupMaps.categoryLoop geo self1 ideVec
  let self2 := SetupMaps.initLoop r.1 r.2
  SetupMaps.fillLoop geo self2 ideVec

/-- Modelled from the spec: `FEBTruthInfo` is declared outside the available
sources; the per-deposit annotation of a board-to-deposit association, read
through `GetChannel()` (an `int`). -/
structure FEBTruthInfo where
  channel : Int
deriving DecidableEq

/-- The association look-ups `TruthMatching` makes on the event
(`art::FindManyP`): strip hit key to the keys of its `FEBData` records,
`FEBData` key to its deposits with their annotations (the parallel vectors
`at(key)` and `data(key)`), cluster key to its strip hits. -/
structure EventAssns where
  stripHitToFEBData : Nat → List Nat
  febDataToIDEs : Nat → List (Ptr AuxDetIDE × FEBTruthInfo)
  clusterToStripHits : Nat → List (Ptr CRTStripHit)

/-- The struct `CRTBackTrackerAlg::TruthMatchMetrics`. -/
structure TruthMatchMetrics where
  trackid : Int
  completeness : DoubleVal
  purity : DoubleVal
deriving DecidableEq

/-- The filter `(uint) febTruthInfo->GetChannel() == (stripHit->Channel() % 32)`;
the cast of the `int` to `unsigned` wraps modulo `2^32`. -/
def channelMatches (febTruthInfo : FEBTruthInfo) (stripHit : Ptr CRTStripHit) : Bool :=
  decide ((febTruthInfo.channel % 4294967296).toNat = stripHit.obj.channel % 32)

/-- The locals `idToEnergyMap` and `totalEnergy` of `TruthMatching`, with the
state of the algorithm object. -/
structure Accum where
  self : State
  idToEnergyMap : StdMap Int ℚ
  totalEnergy : ℚ

/-- The statements executed for one deposit that passes the channel filter:
`idToEnergyMap[RollUpID(ide->trackID)] += ide->energyDeposited` and
`totalEnergy += ide->energyDeposited`. -/
def TruthMatching.addDeposit (acc : Accum) (ide : Ptr AuxDetIDE) : Accum :=
  let r := RollUpID acc.self ide.obj.trackID
  { self := r.2
    idToEnergyMap :=
      StdMap.subscript 0 (fun e => e + ide.obj.energyDeposited) acc.idToEnergyMap r.1
    totalEnergy := acc.totalEnergy + ide.obj.energyDeposited }

/-- The loop `for(unsigned i = 0; i < assnIDEVec.size(); ++i)` of
`TruthMatching` (the same text in both overloads). The 32-bit counter is not
modelled: an association holds far fewer than `2^32` deposits, so the loop is
a fold over the associated deposits. -/
def TruthMatching.ideLoop (stripHit : Ptr CRTStripHit)
    (assnIDEVec : List (Ptr AuxDetIDE × FEBTruthInfo)) (acc : Accum) : Accum :=
  assnIDEVec.foldl
    (fun acc entry =>
      if channelMatches entry.2 stripHit then TruthMatching.addDeposit acc entry.1 else acc)
    acc

/-- The statements `assert(febData.size() == 1)` and `febData.at(0)`: with
assertions compiled in, a size other than one aborts; with `NDEBUG` the
assertion is absent, `at(0)` throws on an empty vector and otherwise yields
the first record. -/
def TruthMatching.febOf (ndebug : Bool) (febData : List Nat) : Except Fault Nat :=
  if !ndebug && febData.length != 1 then .error .assertFailed
  else
    match febData with
    | [] => .error .outOfRange
    | feb :: _ => .ok feb

/-- The locals `trackid`, `bestPur`, `comp` of `TruthMatching`, with the state
of the algorithm object. -/
structure Best where
  self : State
  trackid : Int
  bestPur : DoubleVal
  comp : DoubleVal

/-- The body of the loop `for(auto const [id, en] : idToEnergyMap)` of
`TruthMatching`; the read `fMCPIDEsEnergyMap[id][tagger]` goes through
`operator[]` on both levels. -/
def TruthMatching.selectStep (tagger : CRTTagger) (totalEnergy : ℚ) (best : Best)
    (entry : Int × ℚ) : Best :=
  let pur := DoubleVal.div entry.2 totalEnergy
  if DoubleVal.gt pur best.bestPur then
    { self :=
        { best.self with
          fMCPIDEsEnergyMap :=
            StdMap.subscript [] (fun byTagger => StdMap.subscript 0 (fun v => v) byTagger tagger)
              best.self.fMCPIDEsEnergyMap entry.1 }
      trackid := entry.1
      bestPur := pur
      comp :=
        DoubleVal.div entry.2
          (StdMap.read 0 (StdMap.read [] best.self.fMCPIDEsEnergyMap entry.1) tagger) }
  else best

/-- The declarations `double bestPur = 0., comp = 0.; int trackid = -99999;`
followed by the loop over `idToEnergyMap`. -/
def TruthMatching.select (tagger : CRTTagger) (acc : Accum) : Best :=
  acc.idToEnergyMap.foldl (TruthMatching.selectStep tagger acc.totalEnergy)
    { self := acc.self, trackid := -99999, bestPur := .finite 0, comp := .finite 0 }

/-- The overload `CRTBackTrackerAlg::TruthMatching(event, stripHit)`: the
returned metrics and the state after the call. -/
def TruthMatching.stripHit (geo : CRTGeoAlg) (ndebug : Bool) (event : EventAssns) (self : State)
    (stripHit : Ptr CRTStripHit) : Except Fault (TruthMatchMetrics × State) :=
  let tagger := geo.ChannelToTaggerEnum stripHit.obj.channel
  match TruthMatching.febOf ndebug (event.stripHitToFEBData stripHit.key) with
  | .error e => .error e
  | .ok feb =>
    let acc := TruthMatching.ideLoop stripHit (event.febDataToIDEs feb)
      { self := self, idToEnergyMap := [], totalEnergy := 0 }
    let best := TruthMatching.select tagger acc
    .ok ({ trackid := best.trackid, completeness := best.comp, purity := best.bestPur },
         best.self)

/-- The loop `for(auto const stripHit : assnStripHitVec)` of the cluster
overload of `TruthMatching`. -/
def TruthMatching.hitLoop (ndebug : Bool) (event : EventAssns) :
    List (Ptr CRTStripHit) → Accum → Except Fault Accum
  | [], acc => .ok acc
  | stripHit :: rest, acc =>
    match TruthMatching.febOf ndebug (event.stripHitToFEBData stripHit.key) with
    | .error e => .error e
    | .ok feb =>
      TruthMatching.hitLoop ndebug event rest
        (TruthMatching.ideLoop stripHit (event.febDataToIDEs feb) acc)

/-- The overload `CRTBackTrackerAlg::TruthMatching(event, cluster)`: the
returned metrics and the state after the call. -/
def TruthMatching.cluster (ndebug : Bool) (event : EventAssns) (self : State)
    (cluster : Ptr CRTCluster) : Except Fault (TruthMatchMetrics × State) :=
  match TruthMatching.hitLoop ndebug event (event.clusterToStripHits cluster.key)
      { self := self, idToEnergyMap := [], totalEnergy := 0 } with
  | .error e => .error e
  | .ok acc =>
    let best := TruthMatching.select cluster.obj.tagger acc
    .ok ({ trackid := best.trackid, completeness := best.comp, purity := best.bestPur },
         best.self)

/-- A query of `TruthMatching`: one of its two overloads with its argument. -/
inductive TruthQuery where
  | ofStripHit (stripHit : Ptr CRTStripHit)
  | ofCluster (cluster : Ptr CRTCluster)

/-- The call of `TruthMatching` a query stands for. -/
def TruthQuery.run (geo : CRTGeoAlg) (ndebug : Bool) (event : EventAssns) (self : State) :
    TruthQuery → Except Fault (TruthMatchMetrics × State)
  | .ofStripHit stripHit => TruthMatching.stripHit geo ndebug event self stripHit
  | .ofCluster cluster => TruthMatching.cluster ndebug event self cluster

end CRTBackTrackerAlg

open CRTClusterProducer CRTBackTrackerAlg

/-! ## Inputs for worked examples -/

/-- A geometry for worked examples: the tagger of a channel is the channel
number divided by 100, a strip is described by its channel number and two
strips differ in orientation when their numbers differ in parity. -/
def exampleGeo : CRTGeoAlg :=
  { CRTStripGeo := Nat
    ChannelToTaggerEnum := fun c => ((c / 100 : Nat) : Int)
    GetStrip := fun c => c
    DifferentOrientations := fun a b => decide (a % 2 ≠ b % 2)
    WhichTagger := fun _ _ _ => 0 }

/-- A strip hit for worked examples, given by its key, channel and `ts1`. -/
def exampleHit (key channel ts1 : Nat) : Ptr CRTStripHit :=
  { key := key, obj := { channel := channel, ts0 := 0, ts1 := ts1, unixS := 0 } }

/-- A strip hit for worked examples, given by key, channel, `ts0` and `unixS`. -/
def exampleStamped (key channel ts0 unixS : Nat) : Ptr CRTStripHit :=
  { key := key, obj := { channel := channel, ts0 := ts0, ts1 := 0, unixS := unixS } }

/-! ## The products of `produce` -/

/-- Every association stored so far points at a stored cluster whose tagger is
the tagger of the associated hit. -/
def AssnsAgree (geo : CRTGeoAlg) (products : List CRTCluster × List (Nat × Ptr CRTStripHit)) :
    Prop :=
  ∀ k hit, (k, hit) ∈ products.2 →
    ∃ cluster, products.1[k]? = some cluster ∧
      cluster.tagger = geo.ChannelToTaggerEnum hit.obj.channel

/-! ## Descriptions of the back-tracker loops used in the proofs -/

/-- The id `RollUpID` returns for a given ancestor map: the mapped value of a
key, the id itself otherwise. -/
def rollUp (fTrackIDMotherMap : StdMap Int Int) (id : Int) : Int :=
  (StdMap.find fTrackIDMotherMap id).getD id

/-- The assignments `fTrackIDMotherMap[id] = mother` made by `SetupMaps`, as
pairs (id, mother) in the order the three nested loops make them. -/
def motherWrites (droppedTrackIdMaps : List (StdMap Int (List Int))) : List (Int × Int) :=
  droppedTrackIdMaps.flatMap (fun droppedTrackIdMap =>
    droppedTrackIdMap.flatMap (fun entry => entry.2.map (fun id => (id, entry.1))))

/-- The look-up of a (track id, tagger) pair in a two-level map such as
`fMCPIDEsEnergyMap`, without the insertions `operator[]` makes. -/
def find2 {ν : Type} (m : StdMap Int (StdMap CRTTagger ν)) (a : Int) (t : CRTTagger) : Option ν :=
  (StdMap.find m a).bind (fun byTagger => StdMap.find byTagger t)

/-- The deposits of the event that roll up to ancestor `a` and whose midpoint
lies in tagger `t`, in event order. -/
def depositsOf (geo : CRTGeoAlg) (fTrackIDMotherMap : StdMap Int Int) (a : Int) (t : CRTTagger)
    (ideVec : List (Ptr AuxDetIDE)) : List (Ptr AuxDetIDE) :=
  ideVec.filter (fun ide =>
    decide (rollUp fTrackIDMotherMap ide.obj.trackID = a) && decide (ideTagger geo ide = t))

/-- The deposits of an association that pass the channel filter of a hit. -/
def retained (stripHit : Ptr CRTStripHit) (assnIDEVec : List (Ptr AuxDetIDE × FEBTruthInfo)) :
    List (Ptr AuxDetIDE) :=
  (assnIDEVec.filter (fun entry => channelMatches entry.2 stripHit)).map Prod.fst

/-- The summed energy of the deposits of a list that roll up to ancestor `a`. -/
def energyOf (fTrackIDMotherMap : StdMap Int Int) (a : Int) (deposits : List (Ptr AuxDetIDE)) : ℚ :=
  ((deposits.filter (fun ide => decide (rollUp fTrackIDMotherMap ide.obj.trackID = a))).map
    (fun ide => ide.obj.energyDeposited)).sum

/-- The summed energy of all deposits of a list. -/
def totalOf (deposits : List (Ptr AuxDetIDE)) : ℚ :=
  (deposits.map (fun ide => ide.obj.energyDeposited)).sum

/-- The result `TruthMatching` returns when no ancestor is selected. -/
def sentinel : TruthMatchMetrics :=
  { trackid := -99999, completeness := .finite 0, purity := .finite 0 }

/-- The ancestor map `SetupMaps` builds from the supplied maps. -/
def motherMapOf (droppedTrackIdMaps : List (StdMap Int (List Int))) : StdMap Int Int :=
  (motherWrites droppedTrackIdMaps).foldl (fun m w => StdMap.subscript 0 (fun _ => w.2) m w.1) []

/-- The deposits retained for a strip hit: those of the first board record of
its hit-to-board association that pass the channel filter. -/
def hitDeposits (event : EventAssns) (stripHit : Ptr CRTStripHit) : List (Ptr AuxDetIDE) :=
  retained stripHit (event.febDataToIDEs ((event.stripHitToFEBData stripHit.key).headD 0))

/-- The deposits retained for a cluster: those of its member hits, in order. -/
def clusterDeposits (event : EventAssns) (cluster : Ptr CRTCluster) : List (Ptr AuxDetIDE) :=
  (event.clusterToStripHits cluster.key).flatMap (hitDeposits event)

/-- The per-ancestor accumulation `idToEnergyMap` built from a list of
retained deposits. -/
def energyMapOf (fTrackIDMotherMap : StdMap Int Int) (deposits : List (Ptr AuxDetIDE)) :
    StdMap Int ℚ :=
  deposits.foldl
    (fun m ide =>
      StdMap.subscript 0 (fun e => e + ide.obj.energyDeposited) m
        (rollUp fTrackIDMotherMap ide.obj.trackID))
    []

/-- The energy `fMCPIDEsEnergyMap[id][tagger]` reads: the stored value, zero
for an absent entry. -/
def indexedEnergy (self : State) (tagger : CRTTagger) (id : Int) : ℚ :=
  StdMap.read 0 (StdMap.read [] self.fMCPIDEsEnergyMap id) tagger

/-- The common part of the two overloads of `TruthMatching`: accumulation over
the retained deposits, selection, and the returned pair. -/
def matchOf (tagger : CRTTagger) (self : State) (deposits : List (Ptr AuxDetIDE)) :
    TruthMatchMetrics × State :=
  let acc := deposits.foldl TruthMatching.addDeposit
    { self := self, idToEnergyMap := [], totalEnergy := 0 }
  let best := TruthMatching.select tagger acc
  ({ trackid := best.trackid, completeness := best.comp, purity := best.bestPur }, best.self)

/-- The tagger a query reads the deposit index at: channel-derived for a strip
hit, the stored tagger for a cluster. -/
def CRTBackTrackerAlg.TruthQuery.tagger (geo : CRTGeoAlg) : TruthQuery → CRTTagger
  | .ofStripHit stripHit => geo.ChannelToTaggerEnum stripHit.obj.channel
  | .ofCluster cluster => cluster.obj.tagger

/-- The deposits retained for a query. -/
def CRTBackTrackerAlg.TruthQuery.deposits (event : EventAssns) : TruthQuery → List (Ptr AuxDetIDE)
  | .ofStripHit stripHit => hitDeposits event stripHit
  | .ofCluster cluster => clusterDeposits event cluster

/-- The precondition of a query: every hit it walks has exactly one board
record in its hit-to-board association. -/
def CRTBackTrackerAlg.TruthQuery.OneBoard (event : EventAssns) : TruthQuery → Prop
  | .ofStripHit stripHit => (event.stripHitToFEBData stripHit.key).length = 1
  | .ofCluster cluster =>
    ∀ h ∈ event.clusterToStripHits cluster.key, (event.stripHitToFEBData h.key).length = 1

/-! ## Inputs for worked examples of truth matching -/

/-- A deposit for worked examples, given by key, track id and energy, at the
origin. -/
def exampleIDE (key : Nat) (trackID : Int) (energy : ℚ) : Ptr AuxDetIDE :=
  { key := key
    obj :=
      { trackID := trackID, energyDeposited := energy, entryX := 0, entryY := 0, entryZ := 0,
        exitX := 0, exitY := 0, exitZ := 0 } }

/-- The deposits of the worked examples: track 3 with energy 1, track 4 with
energies 2 and 7. -/
def exampleIDEs : List (Ptr AuxDetIDE) :=
  [exampleIDE 0 3 1, exampleIDE 1 4 2, exampleIDE 2 4 7]

/-- An event for worked examples: hit `k` has the one board `k`; every board
carries the three deposits, the first two on local channel 5 and the third on
local channel 6; every cluster has the single member hit on channel 5. -/
def exampleEvent : EventAssns :=
  { stripHitToFEBData := fun k => [k]
    febDataToIDEs := fun _ =>
      [(exampleIDE 0 3 1, { channel := 5 }), (exampleIDE 1 4 2, { channel := 5 }),
       (exampleIDE 2 4 7, { channel := 6 })]
    clusterToStripHits := fun _ => [exampleHit 0 5 0] }

/-- The state `SetupMaps` builds for the worked examples (no merged tracks). -/
def exampleState : State :=
  SetupMaps exampleGeo
    { fMCPnIDEsMap := [], fMCPIDEsEnergyMap := [], fMCPRecoMap := [], fIDERecoMap := [],
      fTrackIDMotherMap := [] }
    [] exampleIDEs

/-- The strip-hit query of the worked examples: the hit with key 0 on
channel 5, whose board channel is 5 and whose tagger is 0. -/
def exampleQuery : TruthQuery :=
  .ofStripHit (exampleHit 0 5 0)

/-- The cluster query of the worked examples: a cluster of tagger 0 whose one
member is the hit on channel 5. -/
def exampleClusterQuery : TruthQuery :=
  .ofCluster
    { key := 0
      obj := { ts0 := 0, ts1 := 0, unixS := 0, nHits := 1, tagger := 0, threeD := false } }
/-! ## Descriptions used for the claims on clustering of sorted input -/

/-- The left-to-right sweep over hits sorted by `ts1`, with the current anchor
and the members of the current cluster: a hit whose `ts1` exceeds the anchor's
by the window or more closes the current cluster and becomes the anchor of a
new one, any other hit joins the current cluster. -/
def sweepFrom (w : Nat) :
    Ptr CRTStripHit → List (Ptr CRTStripHit) → List (Ptr CRTStripHit) →
      List (List (Ptr CRTStripHit))
  | _, current, [] => [current]
  | anchor, current, c :: rest =>
    if w ≤ c.obj.ts1 - anchor.obj.ts1 then current :: sweepFrom w c [c] rest
    else sweepFrom w anchor (current ++ [c]) rest

/-- The single left-to-right sweep that starts a new cluster whenever
`ts1 - (current anchor's ts1) >= coincidence_window`. -/
def sweepClusters (w : Nat) : List (Ptr CRTStripHit) → List (List (Ptr CRTStripHit))
  | [] => []
  | a :: rest => sweepFrom w a [a] rest

/-- What the claim on averaging says of one averaged field of a cluster, given
the values of the field over the members: the average is the sum reduced
modulo `2^32` divided by the number of members; it is the truncated mean
exactly when the sum is below `2^32`; and it is the truncated mean and lies
between every lower bound and every upper bound of the member values (between
the minimum and the maximum) exactly when the sum is below `2^32`. -/
def WrappedMean (vals : List Nat) (avg : Nat) : Prop :=
  avg = (vals.sum % UINT32_SIZE) / vals.length ∧
  (avg = vals.sum / vals.length ↔ vals.sum < UINT32_SIZE) ∧
  ((avg = vals.sum / vals.length ∧
      (∀ lo, (∀ v ∈ vals, lo ≤ v) → lo ≤ avg) ∧ (∀ hi, (∀ v ∈ vals, v ≤ hi) → avg ≤ hi))
    ↔ vals.sum < UINT32_SIZE)

/-! ## Descriptions used for the claims on queries -/

/-- The strip hits a query walks: the hit itself, or the hits associated with
the cluster. -/
def CRTBackTrackerAlg.TruthQuery.hits (event : EventAssns) : TruthQuery → List (Ptr CRTStripHit)
  | .ofStripHit stripHit => [stripHit]
  | .ofCluster cluster => event.clusterToStripHits cluster.key

/-- The associated deposits of a hit's board records whose local-channel
annotation equals the hit's channel mod 32, with their annotations. -/
def channelDeposits (event : EventAssns) (stripHit : Ptr CRTStripHit) :
    List (Ptr AuxDetIDE × FEBTruthInfo) :=
  (event.stripHitToFEBData stripHit.key).flatMap (fun feb =>
    (event.febDataToIDEs feb).filter (fun entry =>
      decide (entry.2.channel = ((stripHit.obj.channel % 32 : Nat) : Int))))

/-- The local-channel annotations of the deposits associated with a hit's
board records are values of a 32-bit `int`, the return type of `GetChannel()`. -/
def AnnotationsInIntRange (event : EventAssns) (stripHit : Ptr CRTStripHit) : Prop :=
  ∀ feb ∈ event.stripHitToFEBData stripHit.key, ∀ entry ∈ event.febDataToIDEs feb,
    -2147483648 ≤ entry.2.channel ∧ entry.2.channel < 2147483648

/-- A sequence of calls of `TruthMatching` on one algorithm object, each on
the state the previous one left: the state after the last call. -/
def runQueries (geo : CRTGeoAlg) (ndebug : Bool) (event : EventAssns) :
    State → List TruthQuery → Except Fault State
  | self, [] => .ok self
  | self, p :: ps =>
    match p.run geo ndebug event self with
    | .error e => .error e
    | .ok (_, st) => runQueries geo ndebug event st ps

/-- An event for worked examples in which every hit has two board records:
hit `k` has the boards `k` and `k + 1`; board 0 carries the three deposits of
`exampleEvent`, every other board carries the deposit of energy 7 on local
channel 5. -/
def exampleEventTwoBoards : EventAssns :=
  { stripHitToFEBData := fun k => [k, k + 1]
    febDataToIDEs := fun feb =>
      if feb = 0 then
        [(exampleIDE 0 3 1, { channel := 5 }), (exampleIDE 1 4 2, { channel := 5 }),
         (exampleIDE 2 4 7, { channel := 6 })]
      else [(exampleIDE 2 4 7, { channel := 5 })]
    clusterToStripHits := fun _ => [exampleHit 0 5 0] }

/-- An event for worked examples that agrees with `exampleEvent` on the
deposits annotated with local channel 5 and differs in the others: every board
carries a deposit of energy 100 on local channel 7 in place of the deposit on
local channel 6. -/
def exampleEventOtherChannels : EventAssns :=
  { stripHitToFEBData := fun k => [k]
    febDataToIDEs := fun _ =>
      [(exampleIDE 9 8 100, { channel := 7 }), (exampleIDE 0 3 1, { channel := 5 }),
       (exampleIDE 1 4 2, { channel := 5 })]
    clusterToStripHits := fun _ => [exampleHit 0 5 0] }

/-! ## Floating-point rounding -/

/-- Rounding of a rational to the nearest integer, ties to the even one. -/
def roundHalfEven (x : ℚ) : ℤ :=
  if x - ⌊x⌋ < 1 / 2 then ⌊x⌋
  else if 1 / 2 < x - ⌊x⌋ then ⌊x⌋ + 1
  else if ⌊x⌋ % 2 = 0 then ⌊x⌋ else ⌊x⌋ + 1

/-- The exponent of the unit in the last place of a positive rational in a
binary format with `n` fraction bits: the scaled value `q / 2 ^ ulpExponent n q`
lies in `[2 ^ n, 2 ^ (n + 1))`. -/
def ulpExponent (n : ℕ) (q : ℚ) : ℤ := Int.log 2 q - (n : ℤ)

/-- Rounding to the nearest value of a binary floating-point format with `n`
fraction bits (a significand of `n + 1` bits), ties to even; the exponent range
is not bounded, so neither overflow nor underflow occurs. -/
def roundNearestEven (n : ℕ) (q : ℚ) : ℚ :=
  if 0 < q then
    (roundHalfEven (q / (2 : ℚ) ^ ulpExponent n q) : ℚ) * (2 : ℚ) ^ ulpExponent n q
  else if q < 0 then
    -((roundHalfEven (-q / (2 : ℚ) ^ ulpExponent n (-q)) : ℚ) * (2 : ℚ) ^ ulpExponent n (-q))
  else 0

/-- Rounding to the binary64 format of a `double`: 52 fraction bits. -/
def binary64 (q : ℚ) : ℚ := roundNearestEven 52 q

/-- Rounding to the binary32 format of a `float`: 23 fraction bits. -/
def binary32 (q : ℚ) : ℚ := roundNearestEven 23 q

/-- The roundings applied to the results of the floating-point operations of
the code: `rnd32` to a result of type `float`, `rnd64` to a result of type
`double`. A finite result is the rounded exact result; overflow to an infinity
is not modelled. -/
structure FloatArith where
  rnd32 : ℚ → ℚ
  rnd64 : ℚ → ℚ

/-- The addition of two doubles (`a += b`). -/
def FloatArith.add (fp : FloatArith) (a b : ℚ) : ℚ := fp.rnd64 (a + b)

/-- The division `a / b` of two finite doubles: the IEEE value for a zero
divisor, the rounded quotient otherwise. -/
def FloatArith.div (fp : FloatArith) (a b : ℚ) : DoubleVal :=
  if b = 0 then DoubleVal.div a b else .finite (fp.rnd64 (a / b))

/-- The arithmetic of IEEE 754 `float` and `double` with round-to-nearest-even. -/
def ieee : FloatArith := { rnd32 := binary32, rnd64 := binary64 }

/-- The properties of the rounding of `double` results that the proofs use, on
non-negative arguments: rounding is monotone, leaves a rounded value as it is,
leaves 0 and 1 as they are, and gives a positive value for a positive argument
(no underflow to zero). -/
structure FloatArith.Lawful (fp : FloatArith) : Prop where
  mono : ∀ x y, 0 ≤ x → x ≤ y → fp.rnd64 x ≤ fp.rnd64 y
  idem : ∀ x, 0 ≤ x → fp.rnd64 (fp.rnd64 x) = fp.rnd64 x
  zero : fp.rnd64 0 = 0
  one : fp.rnd64 1 = 1
  pos : ∀ x, 0 < x → 0 < fp.rnd64 x

/-- The value of a `double` accumulator that starts at zero and is increased
by the given values in list order (`acc += v`). -/
def accumulate (fp : FloatArith) (vals : List ℚ) : ℚ := vals.foldl fp.add 0

/-! ## The back-tracker with its floating-point operations rounded -/

/-- The tagger of a deposit as lines 53-56 and 70-73 compute it: the
coordinates are `float`, so each sum of two is rounded to `float`; the
division by `2.` of the promoted sum is exact. -/
def Rounded.ideTagger (fp : FloatArith) (geo : CRTGeoAlg) (ide : Ptr AuxDetIDE) : CRTTagger :=
  let x := fp.rnd32 (ide.obj.entryX + ide.obj.exitX) / 2
  let y := fp.rnd32 (ide.obj.entryY + ide.obj.exitY) / 2
  let z := fp.rnd32 (ide.obj.entryZ + ide.obj.exitZ) / 2
  geo.WhichTagger x y z

/-- The first loop of `SetupMaps` over the deposits (lines 51-60), with the
rounded midpoint. -/
def Rounded.SetupMaps.categoryLoop (fp : FloatArith) (geo : CRTGeoAlg) (self : State)
    (ideVec : List (Ptr AuxDetIDE)) : State × StdMap (Lex (Int × CRTTagger)) Unit :=
  ideVec.foldl
    (fun acc ide =>
      let tagger := Rounded.ideTagger fp geo ide
      let r1 := RollUpID acc.1 ide.obj.trackID
      let depositCategories := StdMap.subscript () (fun _ => ()) acc.2 (toLex (r1.1, tagger))
      let r2 := RollUpID r1.2 ide.obj.trackID
      ({ r2.2 with fMCPRecoMap := StdMap.subscript false (fun _ => false) r2.2.fMCPRecoMap r2.1 },
       depositCategories))
    (self, [])

/-- The second loop of `SetupMaps` over the deposits (lines 68-78), with the
rounded midpoint and the rounded addition
`fMCPIDEsEnergyMap[...][tagger] += ide->energyDeposited`. -/
def Rounded.SetupMaps.fillLoop (fp : FloatArith) (geo : CRTGeoAlg) (self : State)
    (ideVec : List (Ptr AuxDetIDE)) : State :=
  ideVec.foldl
    (fun self ide =>
      let tagger := Rounded.ideTagger fp geo ide
      let r1 := RollUpID self ide.obj.trackID
      let self1 : State :=
        { r1.2 with
          fMCPnIDEsMap :=
            StdMap.subscript [] (fun byTagger => StdMap.subscript 0 (fun n => n + 1) byTagger tagger)
              r1.2.fMCPnIDEsMap r1.1 }
      let r2 := RollUpID self1 ide.obj.trackID
      let self2 : State :=
        { r2.2 with
          fMCPIDEsEnergyMap :=
            StdMap.subscript [] (fun byTagger =>
              StdMap.subscript 0 (fun e => fp.add e ide.obj.energyDeposited) byTagger tagger)
              r2.2.fMCPIDEsEnergyMap r2.1 }
      { self2 with
        fIDERecoMap := StdMap.subscript false (fun _ => false) self2.fIDERecoMap (ide.key : Int) })
    self

/-- The member function `CRTBackTrackerAlg::SetupMaps` with its floating-point
operations rounded; the loops without floating-point operations are those of
`SetupMaps`. -/
def Rounded.SetupMaps (fp : FloatArith) (geo : CRTGeoAlg) (_self : State)
    (droppedTrackIdMaps : List (StdMap Int (List Int))) (ideVec : List (Ptr AuxDetIDE)) : State :=
  let cleared : State :=
    { fMCPnIDEsMap := [], fMCPIDEsEnergyMap := [], fMCPRecoMap := [], fIDERecoMap := [],
      fTrackIDMotherMap := [] }
  let self1 := SetupMaps.motherLoop cleared droppedTrackIdMaps
  let r := Rounded.SetupMaps.categoryLoop fp geo self1 ideVec
  let self2 := SetupMaps.initLoop r.1 r.2
  Rounded.SetupMaps.fillLoop fp geo self2 ideVec

/-- The statements executed for one deposit that passes the channel filter,
with the rounded additions `idToEnergyMap[...] += ide->energyDeposited` and
`totalEnergy += ide->energyDeposited`. -/
def Rounded.TruthMatching.addDeposit (fp : FloatArith) (acc : Accum) (ide : Ptr AuxDetIDE) :
    Accum :=
  let r := RollUpID acc.self ide.obj.trackID
  { self := r.2
    idToEnergyMap :=
      StdMap.subscript 0 (fun e => fp.add e ide.obj.energyDeposited) acc.idToEnergyMap r.1
    totalEnergy := fp.add acc.totalEnergy ide.obj.energyDeposited }

/-- The loop `for(unsigned i = 0; i < assnIDEVec.size(); ++i)` of
`TruthMatching`, with rounded additions. -/
def Rounded.TruthMatching.ideLoop (fp : FloatArith) (stripHit : Ptr CRTStripHit)
    (assnIDEVec : List (Ptr AuxDetIDE × FEBTruthInfo)) (acc : Accum) : Accum :=
  assnIDEVec.foldl
    (fun acc entry =>
      if channelMatches entry.2 stripHit then Rounded.TruthMatching.addDeposit fp acc entry.1
      else acc)
    acc

/-- The body of the loop `for(auto const [id, en] : idToEnergyMap)` of
`TruthMatching`, with the rounded quotients `en / totalEnergy` and
`en / fMCPIDEsEnergyMap[id][tagger]`. -/
def Rounded.TruthMatching.selectStep (fp : FloatArith) (tagger : CRTTagger) (totalEnergy : ℚ)
    (best : Best) (entry : Int × ℚ) : Best :=
  let pur := fp.div entry.2 totalEnergy
  if DoubleVal.gt pur best.bestPur then
    { self :=
        { best.self with
          fMCPIDEsEnergyMap :=
            StdMap.subscript [] (fun byTagger => StdMap.subscript 0 (fun v => v) byTagger tagger)
              best.self.fMCPIDEsEnergyMap entry.1 }
      trackid := entry.1
      bestPur := pur
      comp :=
        fp.div entry.2
          (StdMap.read 0 (StdMap.read [] best.self.fMCPIDEsEnergyMap entry.1) tagger) }
  else best

/-- The declarations `double bestPur = 0., comp = 0.; int trackid = -99999;`
followed by the loop over `idToEnergyMap`, with rounded quotients. -/
def Rounded.TruthMatching.select (fp : FloatArith) (tagger : CRTTagger) (acc : Accum) : Best :=
  acc.idToEnergyMap.foldl (Rounded.TruthMatching.selectStep fp tagger acc.totalEnergy)
    { self := acc.self, trackid := -99999, bestPur := .finite 0, comp := .finite 0 }

/-- The overload `CRTBackTrackerAlg::TruthMatching(event, stripHit)` with its
floating-point operations rounded. -/
def Rounded.TruthMatching.stripHit (fp : FloatArith) (geo : CRTGeoAlg) (ndebug : Bool)
    (event : EventAssns) (self : State) (stripHit : Ptr CRTStripHit) :
    Except Fault (TruthMatchMetrics × State) :=
  let tagger := geo.ChannelToTaggerEnum stripHit.obj.channel
  match TruthMatching.febOf ndebug (event.stripHitToFEBData stripHit.key) with
  | .error e => .error e
  | .ok feb =>
    let acc := Rounded.TruthMatching.ideLoop fp stripHit (event.febDataToIDEs feb)
      { self := self, idToEnergyMap := [], totalEnergy := 0 }
    let best := Rounded.TruthMatching.select fp tagger acc
    .ok ({ trackid := best.trackid, completeness := best.comp, purity := best.bestPur },
         best.self)

/-- The loop `for(auto const stripHit : assnStripHitVec)` of the cluster
overload of `TruthMatching`, with rounded additions. -/
def Rounded.TruthMatching.hitLoop (fp : FloatArith) (ndebug : Bool) (event : EventAssns) :
    List (Ptr CRTStripHit) → Accum → Except Fault Accum
  | [], acc => .ok acc
  | stripHit :: rest, acc =>
    match TruthMatching.febOf ndebug (event.stripHitToFEBData stripHit.key) with
    | .error e => .error e
    | .ok feb =>
      Rounded.TruthMatching.hitLoop fp ndebug event rest
        (Rounded.TruthMatching.ideLoop fp stripHit (event.febDataToIDEs feb) acc)

/-- The overload `CRTBackTrackerAlg::TruthMatching(event, cluster)` with its
floating-point operations rounded. -/
def Rounded.TruthMatching.cluster (fp : FloatArith) (ndebug : Bool) (event : EventAssns)
    (self : State) (cluster : Ptr CRTCluster) : Except Fault (TruthMatchMetrics × State) :=
  match Rounded.TruthMatching.hitLoop fp ndebug event (event.clusterToStripHits cluster.key)
      { self := self, idToEnergyMap := [], totalEnergy := 0 } with
  | .error e => .error e
  | .ok acc =>
    let best := Rounded.TruthMatching.select fp cluster.obj.tagger acc
    .ok ({ trackid := best.trackid, completeness := best.comp, purity := best.bestPur },
         best.self)

/-- The call of the rounded `TruthMatching` a query stands for. -/
def Rounded.run (fp : FloatArith) (geo : CRTGeoAlg) (ndebug : Bool) (event : EventAssns)
    (self : State) : TruthQuery → Except Fault (TruthMatchMetrics × State)
  | .ofStripHit stripHit => Rounded.TruthMatching.stripHit fp geo ndebug event self stripHit
  | .ofCluster cluster => Rounded.TruthMatching.cluster fp ndebug event self cluster

/-! ### Descriptions of the rounded loops used in the proofs -/

/-- The geometry whose position look-up first rounds the doubled coordinates
to `float` and halves them: at an exact midpoint it gives the tagger of the
rounded midpoint. -/
def withRounding (fp : FloatArith) (geo : CRTGeoAlg) : CRTGeoAlg :=
  { geo with
    WhichTagger := fun x y z =>
      geo.WhichTagger (fp.rnd32 (2 * x) / 2) (fp.rnd32 (2 * y) / 2) (fp.rnd32 (2 * z) / 2) }

/-- The deposits of the event that roll up to ancestor `a` and whose rounded
midpoint lies in tagger `t`, in event order. -/
def Rounded.depositsOf (fp : FloatArith) (geo : CRTGeoAlg) (fTrackIDMotherMap : StdMap Int Int)
    (a : Int) (t : CRTTagger) (ideVec : List (Ptr AuxDetIDE)) : List (Ptr AuxDetIDE) :=
  ideVec.filter (fun ide =>
    decide (rollUp fTrackIDMotherMap ide.obj.trackID = a) &&
      decide (Rounded.ideTagger fp geo ide = t))

/-- The energy a `double` accumulator holds after the deposits of a list that
roll up to ancestor `a` were added to it in list order. -/
def Rounded.energyOf (fp : FloatArith) (fTrackIDMotherMap : StdMap Int Int) (a : Int)
    (deposits : List (Ptr AuxDetIDE)) : ℚ :=
  accumulate fp
    ((deposits.filter (fun ide => decide (rollUp fTrackIDMotherMap ide.obj.trackID = a))).map
      (fun ide => ide.obj.energyDeposited))

/-- The energy a `double` accumulator holds after all deposits of a list were
added to it in list order. -/
def Rounded.totalOf (fp : FloatArith) (deposits : List (Ptr AuxDetIDE)) : ℚ :=
  accumulate fp (deposits.map (fun ide => ide.obj.energyDeposited))

/-- The per-ancestor accumulation `idToEnergyMap` built from a list of
retained deposits with rounded additions. -/
def Rounded.energyMapOf (fp : FloatArith) (fTrackIDMotherMap : StdMap Int Int)
    (deposits : List (Ptr AuxDetIDE)) : StdMap Int ℚ :=
  deposits.foldl
    (fun m ide =>
      StdMap.subscript 0 (fun e => fp.add e ide.obj.energyDeposited) m
        (rollUp fTrackIDMotherMap ide.obj.trackID))
    []

/-- The common part of the two overloads of the rounded `TruthMatching`. -/
def Rounded.matchOf (fp : FloatArith) (tagger : CRTTagger) (self : State)
    (deposits : List (Ptr AuxDetIDE)) : TruthMatchMetrics × State :=
  let acc := deposits.foldl (Rounded.TruthMatching.addDeposit fp)
    { self := self, idToEnergyMap := [], totalEnergy := 0 }
  let best := Rounded.TruthMatching.select fp tagger acc
  ({ trackid := best.trackid, completeness := best.comp, purity := best.bestPur }, best.self)

/-! ## Inputs for worked examples of rounded arithmetic -/

/-- The state of a back-tracker before the first call of `SetupMaps`. -/
def emptyState : State :=
  { fMCPnIDEsMap := [], fMCPIDEsEnergyMap := [], fMCPRecoMap := [], fIDERecoMap := [],
    fTrackIDMotherMap := [] }

/-- Three deposits of track 3, of energies 1, `2^-53` and `2^-53`. Added to 1
one after the other, each small energy is half a unit in the last place and is
rounded away; added to each other first, they make a full unit. -/
def roundingIDEs : List (Ptr AuxDetIDE) :=
  [exampleIDE 0 3 1, exampleIDE 1 3 (1 / 2 ^ 53), exampleIDE 2 3 (1 / 2 ^ 53)]

/-- The state the rounded `SetupMaps` builds from `roundingIDEs` in `binary64`
(no merged tracks). -/
def roundingState : State := Rounded.SetupMaps ieee exampleGeo emptyState [] roundingIDEs

/-- An event for worked examples: hit `k` has the one board `k`; every board
carries the deposits of `roundingIDEs` on local channel 5, in the order of
`roundingIDEs`. -/
def roundingEventInOrder : EventAssns :=
  { stripHitToFEBData := fun k => [k]
    febDataToIDEs := fun _ =>
      [(exampleIDE 0 3 1, { channel := 5 }), (exampleIDE 1 3 (1 / 2 ^ 53), { channel := 5 }),
       (exampleIDE 2 3 (1 / 2 ^ 53), { channel := 5 })]
    clusterToStripHits := fun _ => [exampleHit 0 5 0] }

/-- An event for worked examples: as `roundingEventInOrder`, but every board
lists the two small deposits before the deposit of energy 1. -/
def roundingEventSmallFirst : EventAssns :=
  { stripHitToFEBData := fun k => [k]
    febDataToIDEs := fun _ =>
      [(exampleIDE 1 3 (1 / 2 ^ 53), { channel := 5 }),
       (exampleIDE 2 3 (1 / 2 ^ 53), { channel := 5 }), (exampleIDE 0 3 1, { channel := 5 })]
    clusterToStripHits := fun _ => [exampleHit 0 5 0] }

/-- An event for worked examples: hit `k` has the one board `k`; board 0
carries the deposit of energy 1, every other board the two small deposits, all
on local channel 5; every cluster has the two member hits with keys 0 and 1 on
channel 5. -/
def roundingEventTwoHits : EventAssns :=
  { stripHitToFEBData := fun k => [k]
    febDataToIDEs := fun feb =>
      if feb = 0 then [(exampleIDE 0 3 1, { channel := 5 })]
      else
        [(exampleIDE 1 3 (1 / 2 ^ 53), { channel := 5 }),
         (exampleIDE 2 3 (1 / 2 ^ 53), { channel := 5 })]
    clusterToStripHits := fun _ => [exampleHit 0 5 0, exampleHit 1 5 0] }

/-- A cluster of tagger 0 with two member hits. -/
def twoHitCluster : Ptr CRTCluster :=
  { key := 0
    obj := { ts0 := 0, ts1 := 0, unixS := 0, nHits := 2, tagger := 0, threeD := false } }

/-- An event for worked examples: hit `k` has the one board `k`; every board
carries, on local channel 5, a deposit of energy 1 of track 3 and a deposit of
energy 3 of track 4. -/
def quartersEvent : EventAssns :=
  { stripHitToFEBData := fun k => [k]
    febDataToIDEs := fun _ =>
      [(exampleIDE 0 3 1, { channel := 5 }), (exampleIDE 1 4 3, { channel := 5 })]
    clusterToStripHits := fun _ => [exampleHit 0 5 0] }

/-- The state the rounded `SetupMaps` builds from the deposits of
`quartersEvent` in `binary64`. -/
def quartersState : State :=
  Rounded.SetupMaps ieee exampleGeo emptyState [] [exampleIDE 0 3 1, exampleIDE 1 4 3]

/-- An event for worked examples: hit `k` has the one board `k`; every board
carries, on local channel 5, a deposit of energy 1 of track 3 and three
deposits of track 4, of energies 1, `2^-53` and `2^-53` in this order. -/
def orderEventLargeFirst : EventAssns :=
  { stripHitToFEBData := fun k => [k]
    febDataToIDEs := fun _ =>
      [(exampleIDE 0 3 1, { channel := 5 }), (exampleIDE 1 4 1, { channel := 5 }),
       (exampleIDE 2 4 (1 / 2 ^ 53), { channel := 5 }),
       (exampleIDE 3 4 (1 / 2 ^ 53), { channel := 5 })]
    clusterToStripHits := fun _ => [exampleHit 0 5 0] }

/-- An event for worked examples: the deposits of `orderEventLargeFirst`, with
the two small deposits of track 4 listed before its deposit of energy 1. -/
def orderEventSmallFirst : EventAssns :=
  { stripHitToFEBData := fun k => [k]
    febDataToIDEs := fun _ =>
      [(exampleIDE 0 3 1, { channel := 5 }), (exampleIDE 2 4 (1 / 2 ^ 53), { channel := 5 }),
       (exampleIDE 3 4 (1 / 2 ^ 53), { channel := 5 }), (exampleIDE 1 4 1, { channel := 5 })]
    clusterToStripHits := fun _ => [exampleHit 0 5 0] }

/-! ## Lemmas on `StdMap` -/

namespace StdMap

variable {κ ν : Type} [LinearOrder κ]

theorem find_subscript_self (d : ν) (f : ν → ν) :
    ∀ (m : StdMap κ ν) (k : κ), find (subscript d f m k) k = some (f ((find m k).getD d))
  | [], k => by simp [subscript, find]
  | (k', v) :: rest, k => by
    have ih := find_subscript_self d f rest k
    rcases lt_trichotomy k k' with h | h | h
    · simp [subscript, find, h]
    · subst h; simp [subscript, find]
    · have h1 : ¬ k < k' := not_lt_of_gt h
      have h2 : k ≠ k' := ne_of_gt h
      simp [subscript, find, h1, h2, ih]

theorem find_subscript_ne (d : ν) (f : ν → ν) :
    ∀ (m : StdMap κ ν) (k k'' : κ), k'' ≠ k → find (subscript d f m k) k'' = find m k''
  | [], k, k'', hne => by
    simp only [subscript, find]
    split
    · rfl
    · simp [hne]
  | (k', v) :: rest, k, k'', hne => by
    have ih := find_subscript_ne d f rest k k'' hne
    rcases lt_trichotomy k k' with h | h | h
    · simp only [subscript, h, if_true]
      rw [find]
      by_cases h3 : k'' < k
      · have : k'' < k' := lt_trans h3 h
        simp [find, h3, this]
      · simp [h3, hne]
    · subst h
      simp only [subscript, lt_irrefl, if_false, if_true]
      simp [find, hne]
    · have h1 : ¬ k < k' := not_lt_of_gt h
      have h2 : k ≠ k' := ne_of_gt h
      simp only [subscript, h1, h2, if_false]
      simp only [find, ih]

theorem subscript_subscript (d : ν) (f g : ν → ν) :
    ∀ (m : StdMap κ ν) (k : κ),
      subscript d f (subscript d g m k) k
        = subscript d (fun v => f (if (find m k).isSome then g v else g d)) m k
  | [], k => by simp [subscript, find]
  | (k', v) :: rest, k => by
    have ih := subscript_subscript d f g rest k
    rcases lt_trichotomy k k' with h | h | h
    · simp [subscript, find, h]
    · subst h; simp [subscript, find]
    · have h1 : ¬ k < k' := not_lt_of_gt h
      have h2 : k ≠ k' := ne_of_gt h
      simp [subscript, find, h1, h2, ih]

theorem subscript_congr_absent (d : ν) (f g : ν → ν) (hfg : f d = g d) :
    ∀ (m : StdMap κ ν) (k : κ), find m k = none → subscript d f m k = subscript d g m k
  | [], k, _ => by simp [subscript, hfg]
  | (k', v) :: rest, k, hn => by
    rcases lt_trichotomy k k' with h | h | h
    · simp [subscript, h, hfg]
    · subst h; simp [find] at hn
    · have h1 : ¬ k < k' := not_lt_of_gt h
      have h2 : k ≠ k' := ne_of_gt h
      simp only [find, h1, h2, if_false] at hn
      simp [subscript, h1, h2, subscript_congr_absent d f g hfg rest k hn]

theorem find_subscript_of_some (d : ν) (m : StdMap κ ν) (k : κ) :
    ∀ (v : ν), find m k = some v → subscript d (fun x => x) m k = m := by
  induction m with
  | nil => intro v h; simp [find] at h
  | cons p rest ih =>
    obtain ⟨k', v'⟩ := p
    intro v h
    rcases lt_trichotomy k k' with hk | hk | hk
    · simp [find, hk] at h
    · subst hk; simp [subscript]
    · have h1 : ¬ k < k' := not_lt_of_gt hk
      have h2 : k ≠ k' := ne_of_gt hk
      simp only [find, h1, h2, if_false] at h
      simp [subscript, h1, h2, ih v h]

theorem mem_subscript (d : ν) (f : ν → ν) :
    ∀ (m : StdMap κ ν) (k : κ) (p : κ × ν), p ∈ subscript d f m k → p.1 = k ∨ p.1 ∈ m.map Prod.fst
  | [], k, p, hp => by
    simp only [subscript, List.mem_singleton] at hp
    left; rw [hp]
  | (k', v) :: rest, k, p, hp => by
    rcases lt_trichotomy k k' with h | h | h
    · simp only [subscript, h, if_true, List.mem_cons] at hp
      rcases hp with rfl | rfl | hp
      · left; rfl
      · right; simp
      · right; exact List.mem_map.mpr ⟨p, List.mem_cons_of_mem _ hp, rfl⟩
    · subst h
      simp only [subscript, lt_irrefl, if_false, if_true, List.mem_cons] at hp
      rcases hp with rfl | hp
      · left; rfl
      · right; exact List.mem_map.mpr ⟨p, List.mem_cons_of_mem _ hp, rfl⟩
    · have h1 : ¬ k < k' := not_lt_of_gt h
      have h2 : k ≠ k' := ne_of_gt h
      simp only [subscript, h1, h2, if_false, List.mem_cons] at hp
      rcases hp with rfl | hp
      · right; simp
      · rcases mem_subscript d f rest k p hp with h3 | h3
        · left; exact h3
        · right; simp only [List.map_cons, List.mem_cons]; right; exact h3

theorem ordered_subscript (d : ν) (f : ν → ν) :
    ∀ (m : StdMap κ ν) (k : κ), Ordered m → Ordered (subscript d f m k)
  | [], k, _ => by simp [subscript, Ordered]
  | (k', v) :: rest, k, ho => by
    have ho' := List.pairwise_cons.mp ho
    rcases lt_trichotomy k k' with h | h | h
    · simp only [subscript, h, if_true]
      refine List.pairwise_cons.mpr ⟨?_, ho⟩
      intro p hp
      rcases List.mem_cons.mp hp with rfl | hp
      · exact h
      · exact lt_trans h (ho'.1 p hp)
    · subst h
      simp only [subscript, lt_irrefl, if_false, if_true]
      exact List.pairwise_cons.mpr ⟨ho'.1, ho'.2⟩
    · have h1 : ¬ k < k' := not_lt_of_gt h
      have h2 : k ≠ k' := ne_of_gt h
      simp only [subscript, h1, h2, if_false]
      refine List.pairwise_cons.mpr ⟨?_, ordered_subscript d f rest k ho'.2⟩
      intro p hp
      rcases mem_subscript d f rest k p hp with h3 | h3
      · show k' < p.1
        rw [h3]; exact h
      · obtain ⟨q, hq, hqp⟩ := List.mem_map.mp h3
        have := ho'.1 q hq
        show k' < p.1
        rw [← hqp]; exact this

theorem find_of_mem_ordered :
    ∀ (m : StdMap κ ν), Ordered m → ∀ p ∈ m, find m p.1 = some p.2
  | [], _, p, hp => by simp at hp
  | (k', v) :: rest, ho, p, hp => by
    have ho' := List.pairwise_cons.mp ho
    rcases List.mem_cons.mp hp with rfl | hp
    · simp [find]
    · have hlt : k' < p.1 := ho'.1 p hp
      have h1 : ¬ p.1 < k' := not_lt_of_gt hlt
      have h2 : p.1 ≠ k' := ne_of_gt hlt
      simp only [find, h1, h2, if_false]
      exact find_of_mem_ordered rest ho'.2 p hp

end StdMap

/-! ## Lemmas on `CRTClusterProducer` -/

namespace CRTClusterProducer

/-! ### The loops compute their descriptions -/

theorem incr_u16_of_lt {i n : Nat} (hi : i < n) (hn : n < UINT16_SIZE) : incr_u16 i = i + 1 := by
  unfold incr_u16
  exact Nat.mod_eq_of_lt (by omega)

theorem unusedOf_markUsed {α : Type} (p : α → Bool) :
    ∀ (suf : List α) (usuf : List Bool),
      unusedOf suf (markUsed p suf usuf) = (unusedOf suf usuf).filter (fun c => !p c)
  | [], usuf => by cases usuf <;> simp [unusedOf, markUsed]
  | h :: suf, [] => by simp [unusedOf, markUsed]
  | h :: suf, u :: usuf => by
    have ih := unusedOf_markUsed p suf usuf
    cases u <;> cases hp : p h <;> simp [unusedOf, markUsed, hp, ih]

theorem length_markUsed {α : Type} (p : α → Bool) :
    ∀ (suf : List α) (usuf : List Bool), (markUsed p suf usuf).length = usuf.length
  | [], usuf => by cases usuf <;> simp [markUsed]
  | h :: suf, [] => by simp [markUsed]
  | h :: suf, u :: usuf => by simp [markUsed, length_markUsed p suf usuf]

theorem length_unusedOf_le {α : Type} :
    ∀ (suf : List α) (usuf : List Bool), (unusedOf suf usuf).length ≤ suf.length
  | [], usuf => by cases usuf <;> simp [unusedOf]
  | h :: suf, [] => by simp [unusedOf]
  | h :: suf, u :: usuf => by
    have := length_unusedOf_le suf usuf
    cases u <;> simp [unusedOf] <;> omega

theorem unusedOf_replicate_false {α : Type} :
    ∀ (l : List α), unusedOf l (List.replicate l.length false) = l
  | [] => rfl
  | h :: l => by simp [unusedOf, List.replicate_succ, unusedOf_replicate_false l]

theorem inner_eq (w : Nat) (a : Ptr CRTStripHit) :
    ∀ (suf pre : List (Ptr CRTStripHit)) (usuf upre : List Bool) (cl : List (Ptr CRTStripHit))
      (fuel : Nat), usuf.length = suf.length → upre.length = pre.length →
      (pre ++ suf).length < UINT16_SIZE → suf.length + 1 ≤ fuel →
      CreateClusters.inner w (pre ++ suf) a fuel pre.length (upre ++ usuf) cl
        = .ok (upre ++ markUsed (coincident w a) suf usuf,
               cl ++ (unusedOf suf usuf).filter (coincident w a)) := by
  intro suf
  induction suf with
  | nil =>
    intro pre usuf upre cl fuel hu _ _ hf
    obtain ⟨f, rfl⟩ : ∃ f, fuel = f + 1 := ⟨fuel - 1, by omega⟩
    have : usuf = [] := List.length_eq_zero.mp hu
    subst this
    simp [CreateClusters.inner, markUsed, unusedOf]
  | cons h t ih =>
    intro pre usuf upre cl fuel hu hup hlen hf
    obtain ⟨f, rfl⟩ : ∃ f, fuel = f + 1 := ⟨fuel - 1, by omega⟩
    obtain ⟨u, ut, rfl⟩ : ∃ u ut, usuf = u :: ut := by
      cases usuf with
      | nil => simp at hu
      | cons u ut => exact ⟨u, ut, rfl⟩
    have hlt : pre.length < (pre ++ h :: t).length := by simp
    have hinc : incr_u16 pre.length = (pre ++ [h]).length := by
      rw [incr_u16_of_lt hlt hlen]; simp
    have hsplit : pre ++ h :: t = (pre ++ [h]) ++ t := by simp
    have hget : (upre ++ u :: ut).getD pre.length false = u := by
      rw [← hup, List.getD_eq_getElem?_getD, List.getElem?_append_right (le_refl _)]; simp
    have hset : (upre ++ u :: ut).set pre.length true = (upre ++ [true]) ++ ut := by
      rw [← hup]; simp [List.set_append]
    have hu' : ut.length = t.length := by simpa using hu
    have hlen' : ((pre ++ [h]) ++ t).length < UINT16_SIZE := by simpa using hlen
    have hf' : t.length + 1 ≤ f := by simp only [List.length_cons] at hf; omega
    rw [CreateClusters.inner]
    simp only [hlt, dite_true, hget, hinc]
    have hidx : (pre ++ h :: t)[pre.length] = h := by
      rw [List.getElem_append_right (le_refl _)]; simp
    rw [hidx]
    cases u with
    | true =>
      simp only [Bool.not_true, Bool.false_eq_true, if_false]
      have := ih (pre ++ [h]) ut (upre ++ [true]) cl f hu' (by simp [hup]) hlen' hf'
      rw [hsplit]
      have hs2 : upre ++ true :: ut = (upre ++ [true]) ++ ut := by simp
      rw [hs2, this]
      simp [markUsed, unusedOf]
    | false =>
      simp only [Bool.not_false, if_true]
      cases hc : coincident w a h with
      | true =>
        simp only [if_true]
        have := ih (pre ++ [h]) ut (upre ++ [true]) (cl ++ [h]) f hu' (by simp [hup]) hlen' hf'
        rw [hset, hsplit, this]
        simp [markUsed, unusedOf, hc]
      | false =>
        simp only [Bool.false_eq_true, if_false]
        have := ih (pre ++ [h]) ut (upre ++ [false]) cl f hu' (by simp [hup]) hlen' hf'
        have hs2 : upre ++ false :: ut = (upre ++ [false]) ++ ut := by simp
        rw [hs2, hsplit, this]
        simp [markUsed, unusedOf, hc]

theorem loop_eq (geo : CRTGeoAlg) (strip0 : geo.CRTStripGeo) :
    ∀ (suf pre : List (Ptr CRTStripHit)) (acc : Sums) (fuel : Nat),
      (pre ++ suf).length < UINT16_SIZE → suf.length + 1 ≤ fuel →
      CharacteriseCluster.loop geo strip0 (pre ++ suf) fuel pre.length acc
        = .ok (suf.foldl (sumsStep geo strip0) acc) := by
  intro suf
  induction suf with
  | nil =>
    intro pre acc fuel _ hf
    obtain ⟨f, rfl⟩ : ∃ f, fuel = f + 1 := ⟨fuel - 1, by omega⟩
    simp [CharacteriseCluster.loop]
  | cons h t ih =>
    intro pre acc fuel hlen hf
    obtain ⟨f, rfl⟩ : ∃ f, fuel = f + 1 := ⟨fuel - 1, by omega⟩
    have hlt : pre.length < (pre ++ h :: t).length := by simp
    have hinc : incr_u16 pre.length = (pre ++ [h]).length := by
      rw [incr_u16_of_lt hlt hlen]; simp
    have hsplit : pre ++ h :: t = (pre ++ [h]) ++ t := by simp
    have hidx : (pre ++ h :: t)[pre.length] = h := by
      rw [List.getElem_append_right (le_refl _)]; simp
    have hlen' : ((pre ++ [h]) ++ t).length < UINT16_SIZE := by simpa using hlen
    have hf' : t.length + 1 ≤ f := by simp only [List.length_cons] at hf; omega
    rw [CharacteriseCluster.loop]
    simp only [hlt, dite_true, hinc, hidx]
    rw [hsplit, ih (pre ++ [h]) _ f hlen' hf']
    rfl

theorem foldl_sumsStep_ts0 (geo : CRTGeoAlg) (strip0 : geo.CRTStripGeo) :
    ∀ (l : List (Ptr CRTStripHit)) (acc : Sums), acc.ts0 < UINT32_SIZE →
      (l.foldl (sumsStep geo strip0) acc).ts0
        = (acc.ts0 + (l.map (fun h => h.obj.ts0)).sum) % UINT32_SIZE
  | [], acc, h => by simp [Nat.mod_eq_of_lt h]
  | x :: l, acc, _ => by
    have hlt : (sumsStep geo strip0 acc x).ts0 < UINT32_SIZE :=
      Nat.mod_lt _ (by decide)
    rw [List.foldl_cons, foldl_sumsStep_ts0 geo strip0 l _ hlt]
    simp only [sumsStep, add_u32, List.map_cons, List.sum_cons]
    rw [Nat.add_mod, Nat.mod_mod, ← Nat.add_mod, Nat.add_assoc]

theorem foldl_sumsStep_ts1 (geo : CRTGeoAlg) (strip0 : geo.CRTStripGeo) :
    ∀ (l : List (Ptr CRTStripHit)) (acc : Sums), acc.ts1 < UINT32_SIZE →
      (l.foldl (sumsStep geo strip0) acc).ts1
        = (acc.ts1 + (l.map (fun h => h.obj.ts1)).sum) % UINT32_SIZE
  | [], acc, h => by simp [Nat.mod_eq_of_lt h]
  | x :: l, acc, _ => by
    have hlt : (sumsStep geo strip0 acc x).ts1 < UINT32_SIZE :=
      Nat.mod_lt _ (by decide)
    rw [List.foldl_cons, foldl_sumsStep_ts1 geo strip0 l _ hlt]
    simp only [sumsStep, add_u32, List.map_cons, List.sum_cons]
    rw [Nat.add_mod, Nat.mod_mod, ← Nat.add_mod, Nat.add_assoc]

theorem foldl_sumsStep_s (geo : CRTGeoAlg) (strip0 : geo.CRTStripGeo) :
    ∀ (l : List (Ptr CRTStripHit)) (acc : Sums), acc.s < UINT32_SIZE →
      (l.foldl (sumsStep geo strip0) acc).s
        = (acc.s + (l.map (fun h => h.obj.unixS)).sum) % UINT32_SIZE
  | [], acc, h => by simp [Nat.mod_eq_of_lt h]
  | x :: l, acc, _ => by
    have hlt : (sumsStep geo strip0 acc x).s < UINT32_SIZE :=
      Nat.mod_lt _ (by decide)
    rw [List.foldl_cons, foldl_sumsStep_s geo strip0 l _ hlt]
    simp only [sumsStep, add_u32, List.map_cons, List.sum_cons]
    rw [Nat.add_mod, Nat.mod_mod, ← Nat.add_mod, Nat.add_assoc]

theorem foldl_sumsStep_threeD (geo : CRTGeoAlg) (strip0 : geo.CRTStripGeo) :
    ∀ (l : List (Ptr CRTStripHit)) (acc : Sums),
      (l.foldl (sumsStep geo strip0) acc).threeD
        = (acc.threeD ||
            l.any (fun h => geo.DifferentOrientations strip0 (geo.GetStrip h.obj.channel)))
  | [], acc => by simp
  | x :: l, acc => by
    rw [List.foldl_cons, foldl_sumsStep_threeD geo strip0 l]
    simp [sumsStep, Bool.or_assoc]

theorem CharacteriseCluster_eq (geo : CRTGeoAlg) (m : List (Ptr CRTStripHit)) (fuel : Nat)
    (hne : m ≠ []) (hlen : m.length < UINT16_SIZE) (hf : m.length + 1 ≤ fuel) :
    CharacteriseCluster geo m fuel = .ok (clusterOf geo m) := by
  cases m with
  | nil => exact absurd rfl hne
  | cons hit0 t =>
    have hl := loop_eq geo (geo.GetStrip hit0.obj.channel) (hit0 :: t) [] 
      { ts0 := 0, ts1 := 0, s := 0, threeD := false } fuel (by simpa using hlen) hf
    simp only [List.nil_append, List.length_nil] at hl
    have hn : (hit0 :: t).length % UINT16_SIZE ≠ 0 := by
      rw [Nat.mod_eq_of_lt hlen]; simp
    simp only [CharacteriseCluster, hl, hn, if_false]
    have h32 : (0 : Nat) < UINT32_SIZE := by decide
    rw [foldl_sumsStep_ts0 _ _ _ _ h32, foldl_sumsStep_ts1 _ _ _ _ h32,
      foldl_sumsStep_s _ _ _ _ h32, foldl_sumsStep_threeD]
    simp [clusterOf]

theorem anchorClusters_cons (w : Nat) (a : Ptr CRTStripHit) (rest : List (Ptr CRTStripHit)) :
    anchorClusters w (a :: rest)
      = (a :: rest.filter (coincident w a)) ::
          anchorClusters w (rest.filter (fun c => !coincident w a c)) := by
  rw [anchorClusters]

theorem anchorClusters_nil (w : Nat) : anchorClusters w [] = [] := by
  rw [anchorClusters]

theorem outer_eq (geo : CRTGeoAlg) (w : Nat) :
    ∀ (suf pre : List (Ptr CRTStripHit)) (usuf upre : List Bool)
      (acc : List (CRTCluster × List (Ptr CRTStripHit))) (fuel : Nat),
      usuf.length = suf.length → upre.length = pre.length →
      (pre ++ suf).length < UINT16_SIZE → suf.length + 2 ≤ fuel →
      CreateClusters.outer geo w (pre ++ suf) fuel pre.length (upre ++ usuf) acc
        = .ok (acc ++ (anchorClusters w (unusedOf suf usuf)).map
            (fun m => (clusterOf geo m, m))) := by
  intro suf
  induction suf with
  | nil =>
    intro pre usuf upre acc fuel hu _ _ hf
    obtain ⟨f, rfl⟩ : ∃ f, fuel = f + 1 := ⟨fuel - 1, by omega⟩
    have : usuf = [] := List.length_eq_zero.mp hu
    subst this
    simp [CreateClusters.outer, unusedOf, anchorClusters]
  | cons h t ih =>
    intro pre usuf upre acc fuel hu hup hlen hf
    obtain ⟨f, rfl⟩ : ∃ f, fuel = f + 1 := ⟨fuel - 1, by omega⟩
    obtain ⟨u, ut, rfl⟩ : ∃ u ut, usuf = u :: ut := by
      cases usuf with
      | nil => simp at hu
      | cons u ut => exact ⟨u, ut, rfl⟩
    have hlt : pre.length < (pre ++ h :: t).length := by simp
    have hinc : incr_u16 pre.length = (pre ++ [h]).length := by
      rw [incr_u16_of_lt hlt hlen]; simp
    have hsplit : pre ++ h :: t = (pre ++ [h]) ++ t := by simp
    have hget : (upre ++ u :: ut).getD pre.length false = u := by
      rw [← hup, List.getD_eq_getElem?_getD, List.getElem?_append_right (le_refl _)]; simp
    have hset : (upre ++ u :: ut).set pre.length true = (upre ++ [true]) ++ ut := by
      rw [← hup]; simp [List.set_append]
    have hidx : (pre ++ h :: t)[pre.length] = h := by
      rw [List.getElem_append_right (le_refl _)]; simp
    have hu' : ut.length = t.length := by simpa using hu
    have hlen' : ((pre ++ [h]) ++ t).length < UINT16_SIZE := by simpa using hlen
    have hf' : t.length + 2 ≤ f := by simp only [List.length_cons] at hf; omega
    have hup' : ∀ b : Bool, (upre ++ [b]).length = (pre ++ [h]).length := by
      intro b; simp [hup]
    rw [CreateClusters.outer]
    simp only [hlt, dite_true, hget, hinc, hidx]
    cases u with
    | true =>
      simp only [Bool.not_true, Bool.false_eq_true, if_false]
      have hs2 : upre ++ true :: ut = (upre ++ [true]) ++ ut := by simp
      rw [hs2, hsplit, ih (pre ++ [h]) ut (upre ++ [true]) acc f hu' (hup' true) hlen' hf']
      simp [unusedOf]
    | false =>
      simp only [Bool.not_false, if_true]
      have hin := inner_eq w h t (pre ++ [h]) ut (upre ++ [true]) [h] f hu' (hup' true) hlen'
        (by omega)
      rw [hset]
      conv_lhs => rw [hsplit]
      rw [hin]
      simp only []
      have hcl : [h] ++ (unusedOf t ut).filter (coincident w h)
          = h :: (unusedOf t ut).filter (coincident w h) := rfl
      rw [hcl]
      have hcle : (h :: (unusedOf t ut).filter (coincident w h)).length ≤ t.length + 1 := by
        simp only [List.length_cons]
        have h1 := List.length_filter_le (coincident w h) (unusedOf t ut)
        have h2 := length_unusedOf_le t ut
        omega
      have hlt' : t.length + 1 < UINT16_SIZE := by
        simp only [List.length_append, List.length_cons] at hlen; omega
      rw [CharacteriseCluster_eq geo _ f (by simp) (by omega) (by omega)]
      simp only []
      rw [ih (pre ++ [h]) (markUsed (coincident w h) t ut) (upre ++ [true]) _ f
        (by rw [length_markUsed]; exact hu') (hup' true) hlen' hf']
      rw [unusedOf_markUsed]
      simp [unusedOf, anchorClusters_cons]

theorem CreateClusters_eq (geo : CRTGeoAlg) (w : Nat) (stripHits : List (Ptr CRTStripHit))
    (fuel : Nat) (hlen : stripHits.length < UINT16_SIZE) (hf : stripHits.length + 2 ≤ fuel) :
    CreateClusters geo w stripHits fuel
      = .ok ((anchorClusters w stripHits).map (fun m => (clusterOf geo m, m))) := by
  have := outer_eq geo w stripHits [] (List.replicate stripHits.length false) [] [] fuel
    (by simp) rfl (by simpa using hlen) hf
  simpa [CreateClusters, unusedOf_replicate_false] using this

/-! ### More fuel never changes a returned value -/

theorem loop_fuel_succ (geo : CRTGeoAlg) (strip0 : geo.CRTStripGeo)
    (hits : List (Ptr CRTStripHit)) :
    ∀ (fuel i : Nat) (acc r : Sums),
      CharacteriseCluster.loop geo strip0 hits fuel i acc = .ok r →
      CharacteriseCluster.loop geo strip0 hits (fuel + 1) i acc = .ok r := by
  intro fuel
  induction fuel with
  | zero => intro i acc r h; simp [CharacteriseCluster.loop] at h
  | succ f ih =>
    intro i acc r h
    rw [CharacteriseCluster.loop] at h ⊢
    by_cases hi : i < hits.length
    · simp only [hi, dite_true] at h ⊢
      exact ih _ _ _ h
    · simp only [hi, dite_false] at h ⊢
      exact h

theorem CharacteriseCluster_fuel_succ (geo : CRTGeoAlg) (m : List (Ptr CRTStripHit))
    (fuel : Nat) (c : CRTCluster) (h : CharacteriseCluster geo m fuel = .ok c) :
    CharacteriseCluster geo m (fuel + 1) = .ok c := by
  cases m with
  | nil => simp [CharacteriseCluster] at h
  | cons hit0 t =>
    simp only [CharacteriseCluster] at h ⊢
    cases hl : CharacteriseCluster.loop geo (geo.GetStrip hit0.obj.channel) (hit0 :: t) fuel 0
        { ts0 := 0, ts1 := 0, s := 0, threeD := false } with
    | error e => simp [hl] at h
    | ok acc =>
      rw [loop_fuel_succ geo _ _ _ _ _ _ hl]
      simpa [hl] using h

theorem CharacteriseCluster_fuel_mono (geo : CRTGeoAlg) (m : List (Ptr CRTStripHit))
    (c : CRTCluster) :
    ∀ (k fuel : Nat), CharacteriseCluster geo m fuel = .ok c →
      CharacteriseCluster geo m (fuel + k) = .ok c
  | 0, _, h => h
  | k + 1, fuel, h =>
    CharacteriseCluster_fuel_succ geo m _ c (CharacteriseCluster_fuel_mono geo m c k fuel h)

theorem inner_fuel_succ (w : Nat) (hits : List (Ptr CRTStripHit)) (a : Ptr CRTStripHit) :
    ∀ (fuel ii : Nat) (used : List Bool) (cl : List (Ptr CRTStripHit))
      (r : List Bool × List (Ptr CRTStripHit)),
      CreateClusters.inner w hits a fuel ii used cl = .ok r →
      CreateClusters.inner w hits a (fuel + 1) ii used cl = .ok r := by
  intro fuel
  induction fuel with
  | zero => intro ii used cl r h; simp [CreateClusters.inner] at h
  | succ f ih =>
    intro ii used cl r h
    rw [CreateClusters.inner] at h ⊢
    by_cases hi : ii < hits.length
    · simp only [hi, dite_true] at h ⊢
      split at h
      · split at h
        · rename_i h1 h2
          simp only [h1, h2, if_true]
          exact ih _ _ _ _ h
        · rename_i h1 h2
          simp only [h1, h2, if_true, if_false]
          exact ih _ _ _ _ h
      · rename_i h1
        simp only [h1, if_false]
        exact ih _ _ _ _ h
    · simp only [hi, dite_false] at h ⊢
      exact h

theorem outer_fuel_succ (geo : CRTGeoAlg) (w : Nat) (hits : List (Ptr CRTStripHit)) :
    ∀ (fuel i : Nat) (used : List Bool) (acc r : List (CRTCluster × List (Ptr CRTStripHit))),
      CreateClusters.outer geo w hits fuel i used acc = .ok r →
      CreateClusters.outer geo w hits (fuel + 1) i used acc = .ok r := by
  intro fuel
  induction fuel with
  | zero => intro i used acc r h; simp [CreateClusters.outer] at h
  | succ f ih =>
    intro i used acc r h
    rw [CreateClusters.outer] at h ⊢
    by_cases hi : i < hits.length
    · simp only [hi, dite_true] at h ⊢
      by_cases hu : (!used.getD i false) = true
      · simp only [hu, if_true] at h ⊢
        cases hin : CreateClusters.inner w hits hits[i] f (incr_u16 i) (used.set i true)
            [hits[i]] with
        | error e => simp [hin] at h
        | ok p =>
          obtain ⟨used', cl⟩ := p
          rw [inner_fuel_succ w hits _ _ _ _ _ _ hin]
          simp only [hin] at h ⊢
          cases hc : CharacteriseCluster geo cl f with
          | error e => simp [hc] at h
          | ok c =>
            rw [CharacteriseCluster_fuel_succ geo cl f c hc]
            simp only [hc] at h ⊢
            exact ih _ _ _ _ h
      · simp only [hu, if_false] at h ⊢
        exact ih _ _ _ _ h
    · simp only [hi, dite_false] at h ⊢
      exact h

theorem CreateClusters_fuel_mono (geo : CRTGeoAlg) (w : Nat) (hits : List (Ptr CRTStripHit))
    (r : List (CRTCluster × List (Ptr CRTStripHit))) :
    ∀ (k fuel : Nat), CreateClusters geo w hits fuel = .ok r →
      CreateClusters geo w hits (fuel + k) = .ok r
  | 0, _, h => h
  | k + 1, fuel, h => by
    have := CreateClusters_fuel_mono geo w hits r k fuel h
    exact outer_fuel_succ geo w hits _ _ _ _ _ this

/-! ### With 65536 or more hits the 16-bit counters never reach the size -/

theorem incr_u16_lt (i : Nat) : incr_u16 i < UINT16_SIZE :=
  Nat.mod_lt _ (by decide)

theorem loop_never (geo : CRTGeoAlg) (strip0 : geo.CRTStripGeo)
    (hits : List (Ptr CRTStripHit)) (hlen : UINT16_SIZE ≤ hits.length) :
    ∀ (fuel i : Nat) (acc : Sums), i < UINT16_SIZE →
      CharacteriseCluster.loop geo strip0 hits fuel i acc = .error .outOfFuel := by
  intro fuel
  induction fuel with
  | zero => intro i acc _; rfl
  | succ f ih =>
    intro i acc hi
    rw [CharacteriseCluster.loop]
    have : i < hits.length := by omega
    simp only [this, dite_true]
    exact ih _ _ (incr_u16_lt i)

theorem inner_never (w : Nat) (hits : List (Ptr CRTStripHit)) (a : Ptr CRTStripHit)
    (hlen : UINT16_SIZE ≤ hits.length) :
    ∀ (fuel ii : Nat) (used : List Bool) (cl : List (Ptr CRTStripHit)), ii < UINT16_SIZE →
      CreateClusters.inner w hits a fuel ii used cl = .error .outOfFuel := by
  intro fuel
  induction fuel with
  | zero => intro ii used cl _; rfl
  | succ f ih =>
    intro ii used cl hi
    rw [CreateClusters.inner]
    have : ii < hits.length := by omega
    simp only [this, dite_true]
    split
    · split
      · exact ih _ _ _ (incr_u16_lt ii)
      · exact ih _ _ _ (incr_u16_lt ii)
    · exact ih _ _ _ (incr_u16_lt ii)

theorem outer_never (geo : CRTGeoAlg) (w : Nat) (hits : List (Ptr CRTStripHit))
    (hlen : UINT16_SIZE ≤ hits.length) :
    ∀ (fuel i : Nat) (used : List Bool) (acc : List (CRTCluster × List (Ptr CRTStripHit))),
      i < UINT16_SIZE →
      CreateClusters.outer geo w hits fuel i used acc = .error .outOfFuel := by
  intro fuel
  induction fuel with
  | zero => intro i used acc _; rfl
  | succ f ih =>
    intro i used acc hi
    rw [CreateClusters.outer]
    have : i < hits.length := by omega
    simp only [this, dite_true]
    split
    · rw [inner_never w hits _ hlen f _ _ _ (incr_u16_lt i)]
    · exact ih _ _ _ (incr_u16_lt i)

theorem CreateClusters_never (geo : CRTGeoAlg) (w : Nat) (hits : List (Ptr CRTStripHit))
    (hlen : UINT16_SIZE ≤ hits.length) (fuel : Nat) :
    CreateClusters geo w hits fuel = .error .outOfFuel :=
  outer_never geo w hits hlen fuel 0 _ _ (by decide)

theorem CharacteriseCluster_never (geo : CRTGeoAlg) (m : List (Ptr CRTStripHit))
    (hlen : UINT16_SIZE ≤ m.length) (fuel : Nat) :
    CharacteriseCluster geo m fuel = .error .outOfFuel := by
  cases m with
  | nil => simp [UINT16_SIZE] at hlen
  | cons hit0 t =>
    simp only [CharacteriseCluster]
    rw [loop_never geo _ _ hlen fuel 0 _ (by decide)]

/-- Whatever the step budget, a returned value is the anchor-fixed partition
of an input of fewer than 65536 hits. -/
theorem CreateClusters_ok_iff (geo : CRTGeoAlg) (w : Nat) (hits : List (Ptr CRTStripHit))
    (fuel : Nat) (r : List (CRTCluster × List (Ptr CRTStripHit)))
    (h : CreateClusters geo w hits fuel = .ok r) :
    hits.length < UINT16_SIZE ∧
      r = (anchorClusters w hits).map (fun m => (clusterOf geo m, m)) := by
  have hlen : hits.length < UINT16_SIZE := by
    by_contra hge
    rw [CreateClusters_never geo w hits (Nat.le_of_not_lt hge) fuel] at h
    cases h
  refine ⟨hlen, ?_⟩
  have h1 := CreateClusters_fuel_mono geo w hits r (hits.length + 2) fuel h
  rw [CreateClusters_eq geo w hits _ hlen (by omega)] at h1
  exact (Except.ok.inj h1).symm

theorem CharacteriseCluster_ok (geo : CRTGeoAlg) (m : List (Ptr CRTStripHit)) (fuel : Nat)
    (c : CRTCluster) (h : CharacteriseCluster geo m fuel = .ok c) :
    m ≠ [] ∧ m.length < UINT16_SIZE ∧ c = clusterOf geo m := by
  have hne : m ≠ [] := by
    rintro rfl
    simp [CharacteriseCluster] at h
  have hlen : m.length < UINT16_SIZE := by
    by_contra hge
    rw [CharacteriseCluster_never geo m (Nat.le_of_not_lt hge) fuel] at h
    cases h
  refine ⟨hne, hlen, ?_⟩
  have h1 := CharacteriseCluster_fuel_mono geo m c (m.length + 1) fuel h
  rw [CharacteriseCluster_eq geo m _ hne hlen (by omega)] at h1
  exact (Except.ok.inj h1).symm

/-! ### The anchor-fixed partition -/

theorem sub_u32_of_le {a c : Nat} (hac : a ≤ c) (hc : c < UINT32_SIZE) : sub_u32 c a = c - a := by
  unfold sub_u32 UINT32_SIZE at *
  omega

theorem coincident_iff_of_le (w : Nat) (a c : Ptr CRTStripHit) (hac : a.obj.ts1 ≤ c.obj.ts1)
    (hc : c.obj.ts1 < UINT32_SIZE) :
    coincident w a c = true ↔ c.obj.ts1 - a.obj.ts1 < w := by
  simp [coincident, sub_u32_of_le hac hc]

theorem anchorClusters_perm (w : Nat) :
    ∀ (n : Nat) (l : List (Ptr CRTStripHit)), l.length ≤ n →
      List.Perm (anchorClusters w l).flatten l := by
  intro n
  induction n with
  | zero =>
    intro l hl
    have : l = [] := List.length_eq_zero.mp (Nat.le_zero.mp hl)
    subst this
    simp [anchorClusters_nil]
  | succ n ih =>
    intro l hl
    cases l with
    | nil => simp [anchorClusters_nil]
    | cons a rest =>
      rw [anchorClusters_cons, List.flatten_cons, List.cons_append]
      have hshort : (rest.filter (fun c => !coincident w a c)).length ≤ n := by
        have := List.length_filter_le (fun c => !coincident w a c) rest
        simp only [List.length_cons] at hl
        omega
      exact List.Perm.cons a
        ((List.Perm.append_left _ (ih _ hshort)).trans (List.filter_append_perm _ rest))

theorem anchorClusters_ne_nil (w : Nat) :
    ∀ (n : Nat) (l : List (Ptr CRTStripHit)), l.length ≤ n →
      ∀ m ∈ anchorClusters w l, m ≠ [] := by
  intro n
  induction n with
  | zero =>
    intro l hl m hm
    have : l = [] := List.length_eq_zero.mp (Nat.le_zero.mp hl)
    subst this
    simp [anchorClusters_nil] at hm
  | succ n ih =>
    intro l hl m hm
    cases l with
    | nil => simp [anchorClusters_nil] at hm
    | cons a rest =>
      rw [anchorClusters_cons, List.mem_cons] at hm
      have hshort : (rest.filter (fun c => !coincident w a c)).length ≤ n := by
        have := List.length_filter_le (fun c => !coincident w a c) rest
        simp only [List.length_cons] at hl
        omega
      rcases hm with rfl | hm
      · simp
      · exact ih _ hshort m hm

theorem anchorClusters_anchor (w : Nat) :
    ∀ (n : Nat) (l : List (Ptr CRTStripHit)), l.length ≤ n → SortedByTs1 l →
      (∀ h ∈ l, h.obj.ts1 < UINT32_SIZE) →
      ∀ (pre : List (List (Ptr CRTStripHit))) (m : List (Ptr CRTStripHit))
        (post : List (List (Ptr CRTStripHit))),
        anchorClusters w l = pre ++ m :: post →
        ∃ anchor rest, m = anchor :: rest ∧
          (∀ c ∈ rest, anchor.obj.ts1 ≤ c.obj.ts1 ∧ c.obj.ts1 - anchor.obj.ts1 < w) ∧
          (∀ m' ∈ post, ∀ c ∈ m',
            anchor.obj.ts1 ≤ c.obj.ts1 ∧ w ≤ c.obj.ts1 - anchor.obj.ts1) := by
  intro n
  induction n with
  | zero =>
    intro l hl _ _ pre m post h
    have : l = [] := List.length_eq_zero.mp (Nat.le_zero.mp hl)
    subst this
    simp [anchorClusters_nil] at h
  | succ n ih =>
    intro l hl hs hwf pre m post h
    cases l with
    | nil => simp [anchorClusters_nil] at h
    | cons a rest =>
      rw [anchorClusters_cons] at h
      have hshort : (rest.filter (fun c => !coincident w a c)).length ≤ n := by
        have := List.length_filter_le (fun c => !coincident w a c) rest
        simp only [List.length_cons] at hl
        omega
      have hge : ∀ c ∈ rest, a.obj.ts1 ≤ c.obj.ts1 := (List.pairwise_cons.mp hs).1
      have hs' : SortedByTs1 (rest.filter (fun c => !coincident w a c)) :=
        List.Pairwise.sublist (List.filter_sublist _) (List.pairwise_cons.mp hs).2
      have hwf' : ∀ h ∈ rest.filter (fun c => !coincident w a c), h.obj.ts1 < UINT32_SIZE :=
        fun h hh => hwf h (List.mem_cons_of_mem _ (List.mem_of_mem_filter hh))
      cases pre with
      | nil =>
        simp only [List.nil_append, List.cons.injEq] at h
        obtain ⟨hm, hpost⟩ := h
        refine ⟨a, rest.filter (coincident w a), hm.symm, ?_, ?_⟩
        · intro c hc
          have hcr := List.mem_filter.mp hc
          have hle := hge c hcr.1
          exact ⟨hle, (coincident_iff_of_le w a c hle
            (hwf c (List.mem_cons_of_mem _ hcr.1))).mp hcr.2⟩
        · intro m' hm' c hc
          have hcf : c ∈ (anchorClusters w (rest.filter (fun c => !coincident w a c))).flatten := by
            rw [hpost]; exact List.mem_flatten.mpr ⟨m', hm', hc⟩
          have hcr := List.mem_filter.mp
            (((anchorClusters_perm w _ _ (le_refl _)).mem_iff).mp hcf)
          have hle := hge c hcr.1
          refine ⟨hle, ?_⟩
          have hnot : ¬ coincident w a c = true := by simpa using hcr.2
          have := (coincident_iff_of_le w a c hle (hwf c (List.mem_cons_of_mem _ hcr.1))).not.mp hnot
          omega
      | cons x pre' =>
        simp only [List.cons_append, List.cons.injEq] at h
        exact ih _ hshort hs' hwf' pre' m post h.2

theorem map_snd_clusterOf (geo : CRTGeoAlg) (l : List (List (Ptr CRTStripHit))) :
    (l.map (fun m => (clusterOf geo m, m))).map Prod.snd = l := by
  induction l with
  | nil => rfl
  | cons a t ih => simp only [List.map_cons, ih]

theorem mem_of_mem_anchorClusters (w : Nat) (l m : List (Ptr CRTStripHit))
    (hm : m ∈ anchorClusters w l) (h : Ptr CRTStripHit) (hh : h ∈ m) : h ∈ l :=
  ((anchorClusters_perm w _ l (le_refl _)).mem_iff).mp (List.mem_flatten.mpr ⟨m, hm, hh⟩)

/-! ### Grouping and sorting -/

theorem GroupStripHits_eq_foldl (geo : CRTGeoAlg) (vec : List (Ptr CRTStripHit)) :
    GroupStripHits geo vec = vec.foldl (groupStep geo) [] := rfl

theorem groupStep_eq (geo : CRTGeoAlg) (m : StdMap CRTTagger (List (Ptr CRTStripHit)))
    (x : Ptr CRTStripHit) :
    groupStep geo m x
      = StdMap.subscript [] (fun v => v ++ [x]) m (geo.ChannelToTaggerEnum x.obj.channel) := by
  unfold groupStep
  simp only []
  split
  · rfl
  · rename_i hn
    have hnone : StdMap.find m (geo.ChannelToTaggerEnum x.obj.channel) = none := by
      cases hf : StdMap.find m (geo.ChannelToTaggerEnum x.obj.channel) with
      | none => rfl
      | some v => simp [hf] at hn
    rw [StdMap.subscript_subscript]
    exact StdMap.subscript_congr_absent [] _ _ (by simp [hnone]) m _ hnone

theorem find_foldl_groupStep (geo : CRTGeoAlg) (t : CRTTagger) :
    ∀ (vec : List (Ptr CRTStripHit)) (m : StdMap CRTTagger (List (Ptr CRTStripHit))),
      StdMap.find (vec.foldl (groupStep geo) m) t
        = if (StdMap.find m t).isSome ∨ hitsOfTagger geo t vec ≠ [] then
            some ((StdMap.find m t).getD [] ++ hitsOfTagger geo t vec)
          else none
  | [], m => by
    cases h : StdMap.find m t <;> simp [hitsOfTagger, h]
  | x :: vec, m => by
    rw [List.foldl_cons, find_foldl_groupStep geo t vec, groupStep_eq]
    by_cases hx : geo.ChannelToTaggerEnum x.obj.channel = t
    · subst hx
      rw [StdMap.find_subscript_self]
      simp [hitsOfTagger]
    · rw [StdMap.find_subscript_ne _ _ _ _ _ (Ne.symm hx)]
      simp [hitsOfTagger, hx]

theorem ordered_foldl_groupStep (geo : CRTGeoAlg) :
    ∀ (vec : List (Ptr CRTStripHit)) (m : StdMap CRTTagger (List (Ptr CRTStripHit))),
      StdMap.Ordered m → StdMap.Ordered (vec.foldl (groupStep geo) m)
  | [], _, h => h
  | x :: vec, m, h => by
    rw [List.foldl_cons, groupStep_eq]
    exact ordered_foldl_groupStep geo vec _ (StdMap.ordered_subscript _ _ _ _ h)

theorem perm_subscript_append (x : Ptr CRTStripHit) :
    ∀ (m : StdMap CRTTagger (List (Ptr CRTStripHit))) (k : CRTTagger),
      List.Perm ((StdMap.subscript [] (fun v => v ++ [x]) m k).map Prod.snd).flatten
        (x :: (m.map Prod.snd).flatten)
  | [], k => by simp [StdMap.subscript]
  | (k', v) :: rest, k => by
    rcases lt_trichotomy k k' with h | h | h
    · simp [StdMap.subscript, h]
    · subst h
      simp only [StdMap.subscript, lt_irrefl, if_false, if_true, List.map_cons,
        List.flatten_cons, List.append_assoc]
      exact (List.perm_middle).trans (List.Perm.refl _) |>.trans (by simp)
    · have h1 : ¬ k < k' := not_lt_of_gt h
      have h2 : k ≠ k' := ne_of_gt h
      simp only [StdMap.subscript, h1, h2, if_false, List.map_cons, List.flatten_cons]
      exact (List.Perm.append_left v (perm_subscript_append x rest k)).trans List.perm_middle

theorem perm_foldl_groupStep (geo : CRTGeoAlg) :
    ∀ (vec : List (Ptr CRTStripHit)) (m : StdMap CRTTagger (List (Ptr CRTStripHit))),
      List.Perm (((vec.foldl (groupStep geo) m).map Prod.snd).flatten)
        ((m.map Prod.snd).flatten ++ vec)
  | [], m => by simp
  | x :: vec, m => by
    rw [List.foldl_cons, groupStep_eq]
    refine (perm_foldl_groupStep geo vec _).trans ?_
    refine (List.Perm.append_right vec (perm_subscript_append x m _)).trans ?_
    simp only [List.cons_append]
    exact List.perm_middle.symm

theorem GroupStripHits_find (geo : CRTGeoAlg) (vec : List (Ptr CRTStripHit)) (t : CRTTagger) :
    StdMap.find (GroupStripHits geo vec) t
      = if hitsOfTagger geo t vec = [] then none else some (hitsOfTagger geo t vec) := by
  rw [GroupStripHits_eq_foldl, find_foldl_groupStep]
  by_cases h : hitsOfTagger geo t vec = [] <;> simp [StdMap.find, h]

theorem GroupStripHits_ordered (geo : CRTGeoAlg) (vec : List (Ptr CRTStripHit)) :
    StdMap.Ordered (GroupStripHits geo vec) := by
  rw [GroupStripHits_eq_foldl]
  exact ordered_foldl_groupStep geo vec [] List.Pairwise.nil

theorem GroupStripHits_entry (geo : CRTGeoAlg) (vec : List (Ptr CRTStripHit))
    (p : CRTTagger × List (Ptr CRTStripHit)) (hp : p ∈ GroupStripHits geo vec) :
    p.2 = hitsOfTagger geo p.1 vec ∧ p.2 ≠ [] := by
  have h1 := StdMap.find_of_mem_ordered _ (GroupStripHits_ordered geo vec) p hp
  rw [GroupStripHits_find] at h1
  by_cases h : hitsOfTagger geo p.1 vec = []
  · simp [h] at h1
  · simp only [h, if_false, Option.some.injEq] at h1
    exact ⟨h1.symm, by rw [← h1]; exact h⟩

theorem GroupStripHits_perm (geo : CRTGeoAlg) (vec : List (Ptr CRTStripHit)) :
    List.Perm ((GroupStripHits geo vec).map Prod.snd).flatten vec := by
  rw [GroupStripHits_eq_foldl]
  simpa using perm_foldl_groupStep geo vec []

theorem sort_eq_of_strict :
    ∀ (l l' : List (Ptr CRTStripHit)), l.Pairwise (fun a b => a.obj.ts1 < b.obj.ts1) →
      List.Perm l' l → SortedByTs1 l' → l' = l
  | [], l', _, hp, _ => List.Perm.eq_nil hp
  | a :: t, [], _, hp, _ => by
    have := List.Perm.length_eq hp
    simp at this
  | a :: t, b :: t', hl, hp, hs => by
    have hl' := List.pairwise_cons.mp hl
    have hs' := List.pairwise_cons.mp hs
    have hb : b ∈ a :: t := hp.mem_iff.mp (List.mem_cons_self _ _)
    have hba : b = a := by
      rcases List.mem_cons.mp hb with h | h
      · exact h
      · exfalso
        have h1 : a.obj.ts1 < b.obj.ts1 := hl'.1 b h
        have ha : a ∈ b :: t' := hp.mem_iff.mpr (List.mem_cons_self _ _)
        rcases List.mem_cons.mp ha with h2 | h2
        · rw [h2] at h1; exact lt_irrefl _ h1
        · have := hs'.1 a h2
          omega
    subst hba
    rw [sort_eq_of_strict t t' hl'.2 hp.cons_inv hs'.2]

theorem insertionSortByTs1_spec : StdSortByTs1 insertionSortByTs1 := by
  intro l
  refine ⟨List.perm_insertionSort _ l, ?_⟩
  exact @List.sorted_insertionSort _ (fun a b : Ptr CRTStripHit => a.obj.ts1 ≤ b.obj.ts1) _
    ⟨fun a b => Nat.le_total a.obj.ts1 b.obj.ts1⟩
    ⟨fun _ _ _ hab hbc => Nat.le_trans hab hbc⟩ l

end CRTClusterProducer

/-! ## Lemmas on `CRTBackTrackerAlg` -/

namespace CRTBackTrackerAlg

theorem RollUpID_spec (self : State) (id : Int) :
    (RollUpID self id).1 = (StdMap.find self.fTrackIDMotherMap id).getD id ∧
      (RollUpID self id).2 = self := by
  unfold RollUpID
  cases h : StdMap.find self.fTrackIDMotherMap id with
  | none => simp
  | some v =>
    have := StdMap.find_subscript_of_some (0 : Int) self.fTrackIDMotherMap id v h
    simp [StdMap.read, h, this]

end CRTBackTrackerAlg

/-! ## Lemmas on `produce` -/

theorem single_tagger_of_group (geo : CRTGeoAlg) (w : Nat)
    (sort : List (Ptr CRTStripHit) → List (Ptr CRTStripHit))
    (hperm : ∀ l, List.Perm (sort l) l) (CRTStripHitVec : List (Ptr CRTStripHit))
    (tagger : CRTTagger) (stripHits : List (Ptr CRTStripHit))
    (hgroup : (tagger, stripHits) ∈ GroupStripHits geo CRTStripHitVec)
    (fuel : Nat) (out : List (CRTCluster × List (Ptr CRTStripHit)))
    (hrun : CreateClusters geo w (sort stripHits) fuel = .ok out)
    (cluster : CRTCluster) (clusteredHits : List (Ptr CRTStripHit))
    (hmem : (cluster, clusteredHits) ∈ out) :
    cluster.tagger = tagger ∧
      clusteredHits ≠ [] ∧
      ∀ hit ∈ clusteredHits, geo.ChannelToTaggerEnum hit.obj.channel = tagger := by
  have hg := (GroupStripHits_entry geo CRTStripHitVec (tagger, stripHits) hgroup).1
  simp only [] at hg
  have hall : ∀ h ∈ sort stripHits, geo.ChannelToTaggerEnum h.obj.channel = tagger := by
    intro h hh
    have h1 : h ∈ stripHits := (hperm stripHits).mem_iff.mp hh
    rw [hg, hitsOfTagger, List.mem_filter] at h1
    simpa using h1.2
  have hout := (CreateClusters_ok_iff geo w _ fuel out hrun).2
  rw [hout, List.mem_map] at hmem
  obtain ⟨m, hm, hpair⟩ := hmem
  have hc : cluster = clusterOf geo m := (congrArg Prod.fst hpair).symm
  have hm' : clusteredHits = m := (congrArg Prod.snd hpair).symm
  subst hm'
  have hne := anchorClusters_ne_nil w _ _ (le_refl _) clusteredHits hm
  have hsub : ∀ hit ∈ clusteredHits, geo.ChannelToTaggerEnum hit.obj.channel = tagger :=
    fun hit hh => hall hit (mem_of_mem_anchorClusters w _ _ hm hit hh)
  refine ⟨?_, hne, hsub⟩
  rw [hc]
  cases clusteredHits with
  | nil => exact absurd rfl hne
  | cons hit0 rest => exact hsub hit0 (List.mem_cons_self _ _)

theorem assnsAgree_store (geo : CRTGeoAlg)
    (products : List CRTCluster × List (Nat × Ptr CRTStripHit))
    (clusterAndHits : CRTCluster × List (Ptr CRTStripHit))
    (hinv : AssnsAgree geo products)
    (hnew : ∀ hit ∈ clusterAndHits.2,
      clusterAndHits.1.tagger = geo.ChannelToTaggerEnum hit.obj.channel) :
    AssnsAgree geo (produce.store products clusterAndHits) := by
  intro k hit hk
  simp only [produce.store, List.mem_append, List.mem_map] at hk
  rcases hk with hk | ⟨hit', hh, hpair⟩
  · obtain ⟨cluster, hc, ht⟩ := hinv k hit hk
    refine ⟨cluster, ?_, ht⟩
    have hlt : k < products.1.length := by
      by_contra hge
      rw [List.getElem?_eq_none (Nat.le_of_not_lt hge)] at hc
      cases hc
    simp only [produce.store]
    rw [List.getElem?_append_left hlt]
    exact hc
  · have hk' : products.1.length = k := congrArg Prod.fst hpair
    have hh' : hit' = hit := congrArg Prod.snd hpair
    subst hk' hh'
    refine ⟨clusterAndHits.1, ?_, hnew hit' hh⟩
    simp [produce.store]

theorem assnsAgree_foldl_store (geo : CRTGeoAlg) :
    ∀ (clustersAndHits : List (CRTCluster × List (Ptr CRTStripHit)))
      (products : List CRTCluster × List (Nat × Ptr CRTStripHit)),
      AssnsAgree geo products →
      (∀ p ∈ clustersAndHits, ∀ hit ∈ p.2,
        p.1.tagger = geo.ChannelToTaggerEnum hit.obj.channel) →
      AssnsAgree geo (clustersAndHits.foldl produce.store products)
  | [], _, hinv, _ => hinv
  | p :: rest, products, hinv, hall => by
    rw [List.foldl_cons]
    exact assnsAgree_foldl_store geo rest _
      (assnsAgree_store geo products p hinv (hall p (List.mem_cons_self _ _)))
      (fun q hq => hall q (List.mem_cons_of_mem _ hq))

theorem assnsAgree_taggerLoop (geo : CRTGeoAlg) (w : Nat)
    (sort : List (Ptr CRTStripHit) → List (Ptr CRTStripHit))
    (hperm : ∀ l, List.Perm (sort l) l) (CRTStripHitVec : List (Ptr CRTStripHit)) (fuel : Nat) :
    ∀ (entries : StdMap CRTTagger (List (Ptr CRTStripHit)))
      (products result : List CRTCluster × List (Nat × Ptr CRTStripHit)),
      (∀ e ∈ entries, e ∈ GroupStripHits geo CRTStripHitVec) →
      AssnsAgree geo products →
      produce.taggerLoop geo w sort fuel entries products = .ok result →
      AssnsAgree geo result
  | [], products, result, _, hinv, hrun => by
    simp only [produce.taggerLoop] at hrun
    rw [← Except.ok.inj hrun]
    exact hinv
  | (tagger, stripHits) :: rest, products, result, hsub, hinv, hrun => by
    simp only [produce.taggerLoop] at hrun
    cases hc : CreateClusters geo w (sort stripHits) fuel with
    | error e => simp [hc] at hrun
    | ok clustersAndHits =>
      simp only [hc] at hrun
      refine assnsAgree_taggerLoop geo w sort hperm CRTStripHitVec fuel rest _ result
        (fun e he => hsub e (List.mem_cons_of_mem _ he)) ?_ hrun
      refine assnsAgree_foldl_store geo clustersAndHits products hinv ?_
      intro p hp hit hh
      have := single_tagger_of_group geo w sort hperm CRTStripHitVec tagger stripHits
        (hsub _ (List.mem_cons_self _ _)) fuel clustersAndHits hc p.1 p.2 hp
      rw [this.1, this.2.2 hit hh]

/-! ## The claims -/

/-- Claim C1. For an input of fewer than 65536 strip hits and any coincidence
window, `CreateClusters` returns (with any step budget of at least the size
plus two), the value does not depend on the budget, and the concatenation of
the returned member lists is a permutation of the input: every input hit occurs
in the member lists exactly as often as in the input. -/
theorem C1_CreateClusters_partition (geo : CRTGeoAlg) (w : Nat)
    (stripHits : List (Ptr CRTStripHit)) (hlen : stripHits.length < UINT16_SIZE) :
    ∃ out,
      (∀ fuel, stripHits.length + 2 ≤ fuel → CreateClusters geo w stripHits fuel = .ok out) ∧
      (∀ fuel out', CreateClusters geo w stripHits fuel = .ok out' → out' = out) ∧
      List.Perm (out.map Prod.snd).flatten stripHits ∧
      (∀ p : Ptr CRTStripHit, ((out.map Prod.snd).flatten).count p = stripHits.count p) := by
  have hperm : List.Perm
      (((anchorClusters w stripHits).map (fun m => (clusterOf geo m, m))).map Prod.snd).flatten
      stripHits := by
    rw [map_snd_clusterOf]
    exact anchorClusters_perm w _ stripHits (le_refl _)
  refine ⟨(anchorClusters w stripHits).map (fun m => (clusterOf geo m, m)), ?_, ?_, hperm, ?_⟩
  · intro fuel hf
    exact CreateClusters_eq geo w stripHits fuel hlen hf
  · intro fuel out' h
    exact (CreateClusters_ok_iff geo w stripHits fuel out' h).2
  · intro p
    exact hperm.count_eq p

/-- Claim C1 at the three hits with `ts1` 0, 5, 9 and window 6. -/
theorem C1_CreateClusters_partition_witness :
    [exampleHit 0 1 0, exampleHit 1 1 5, exampleHit 2 1 9].length < UINT16_SIZE ∧
    ∃ out,
      (∀ fuel, [exampleHit 0 1 0, exampleHit 1 1 5, exampleHit 2 1 9].length + 2 ≤ fuel →
        CreateClusters exampleGeo 6 [exampleHit 0 1 0, exampleHit 1 1 5, exampleHit 2 1 9] fuel
          = .ok out) ∧
      (∀ fuel out',
        CreateClusters exampleGeo 6 [exampleHit 0 1 0, exampleHit 1 1 5, exampleHit 2 1 9] fuel
          = .ok out' → out' = out) ∧
      List.Perm (out.map Prod.snd).flatten
        [exampleHit 0 1 0, exampleHit 1 1 5, exampleHit 2 1 9] ∧
      (∀ p : Ptr CRTStripHit, ((out.map Prod.snd).flatten).count p
        = [exampleHit 0 1 0, exampleHit 1 1 5, exampleHit 2 1 9].count p) :=
  ⟨by decide, C1_CreateClusters_partition exampleGeo 6 _ (by decide)⟩

/-- Claim C2, counterexample to the statement as written: with window 0 a
single hit forms a cluster whose only member, the anchor itself, does not
satisfy `c.ts1 - anchor.ts1 < window`. -/
theorem C2_anchor_fixed_counterexample :
    SortedByTs1 [exampleHit 0 1 7] ∧
    CreateClusters exampleGeo 0 [exampleHit 0 1 7] 3
      = .ok [({ ts0 := 0, ts1 := 7, unixS := 0, nHits := 1, tagger := 0, threeD := false },
              [exampleHit 0 1 7])] ∧
    ¬ (∀ c ∈ [exampleHit 0 1 7], c.obj.ts1 - (exampleHit 0 1 7).obj.ts1 < 0) := by
  refine ⟨by simp [SortedByTs1], rfl, ?_⟩
  simp

/-- Claim C2, amended. For an input sorted ascending by `ts1` (32-bit stamps)
and every cluster `(cl, m)` returned by `CreateClusters`, `m` starts with its
anchor; every other member `c` has `0 ≤ c.ts1 - anchor.ts1 < window` (and so
has the anchor itself once the window is positive); every hit of a later
cluster has `c.ts1 - anchor.ts1 ≥ window`. The hits of the earlier clusters,
of this cluster and of the later clusters together are the input, so the hits
of the later clusters are exactly those that were unused when the anchor was
taken and were not put in its cluster. -/
theorem C2_anchor_fixed (geo : CRTGeoAlg) (w : Nat) (stripHits : List (Ptr CRTStripHit))
    (fuel : Nat) (out : List (CRTCluster × List (Ptr CRTStripHit)))
    (hsorted : SortedByTs1 stripHits)
    (hwf : ∀ h ∈ stripHits, h.obj.ts1 < UINT32_SIZE)
    (hrun : CreateClusters geo w stripHits fuel = .ok out)
    (pre : List (CRTCluster × List (Ptr CRTStripHit))) (cl : CRTCluster)
    (m : List (Ptr CRTStripHit)) (post : List (CRTCluster × List (Ptr CRTStripHit)))
    (hsplit : out = pre ++ (cl, m) :: post) :
    ∃ anchor rest, m = anchor :: rest ∧
      (∀ c ∈ rest, anchor.obj.ts1 ≤ c.obj.ts1 ∧ c.obj.ts1 - anchor.obj.ts1 < w) ∧
      (0 < w → ∀ c ∈ m, c.obj.ts1 - anchor.obj.ts1 < w) ∧
      (∀ p ∈ post, ∀ c ∈ p.2,
        anchor.obj.ts1 ≤ c.obj.ts1 ∧ w ≤ c.obj.ts1 - anchor.obj.ts1) ∧
      List.Perm ((pre.map Prod.snd).flatten ++ (m ++ (post.map Prod.snd).flatten)) stripHits := by
  have hout := (CreateClusters_ok_iff geo w stripHits fuel out hrun).2
  have hsnd : anchorClusters w stripHits = pre.map Prod.snd ++ m :: post.map Prod.snd := by
    have h1 : out.map Prod.snd = anchorClusters w stripHits := by
      rw [hout, map_snd_clusterOf]
    rw [← h1, hsplit]; simp
  obtain ⟨anchor, rest, hm, hin, hlater⟩ :=
    anchorClusters_anchor w _ stripHits (le_refl _) hsorted hwf _ m _ hsnd
  refine ⟨anchor, rest, hm, hin, ?_, ?_, ?_⟩
  · intro hw c hc
    rw [hm] at hc
    rcases List.mem_cons.mp hc with rfl | hc
    · simpa using hw
    · exact (hin c hc).2
  · intro p hp c hc
    exact hlater p.2 (List.mem_map.mpr ⟨p, hp, rfl⟩) c hc
  · have hp := anchorClusters_perm w _ stripHits (le_refl _)
    rw [hsnd, List.flatten_append, List.flatten_cons] at hp
    exact hp

/-- Claim C2 at the hits with `ts1` 0, 5, 9 and window 6: the member lists
are `[0, 5]` and `[9]`; 5 joins the anchor 0, and 9 does not although it is
within the window of 5. -/
theorem C2_anchor_fixed_witness :
    CreateClusters exampleGeo 6 [exampleHit 0 1 0, exampleHit 1 1 5, exampleHit 2 1 9] 5
      = .ok [({ ts0 := 0, ts1 := 2, unixS := 0, nHits := 2, tagger := 0, threeD := false },
              [exampleHit 0 1 0, exampleHit 1 1 5]),
             ({ ts0 := 0, ts1 := 9, unixS := 0, nHits := 1, tagger := 0, threeD := false },
              [exampleHit 2 1 9])] ∧
    ∃ anchor rest, [exampleHit 0 1 0, exampleHit 1 1 5] = anchor :: rest ∧
      (∀ c ∈ rest, anchor.obj.ts1 ≤ c.obj.ts1 ∧ c.obj.ts1 - anchor.obj.ts1 < 6) ∧
      (0 < 6 → ∀ c ∈ [exampleHit 0 1 0, exampleHit 1 1 5], c.obj.ts1 - anchor.obj.ts1 < 6) ∧
      (∀ p ∈ [(({ ts0 := 0, ts1 := 9, unixS := 0, nHits := 1, tagger := 0, threeD := false }
                  : CRTCluster), [exampleHit 2 1 9])],
        ∀ c ∈ p.2, anchor.obj.ts1 ≤ c.obj.ts1 ∧ 6 ≤ c.obj.ts1 - anchor.obj.ts1) ∧
      List.Perm
        ((([] : List (CRTCluster × List (Ptr CRTStripHit))).map Prod.snd).flatten ++
          ([exampleHit 0 1 0, exampleHit 1 1 5] ++
            ([(({ ts0 := 0, ts1 := 9, unixS := 0, nHits := 1, tagger := 0, threeD := false }
                  : CRTCluster), [exampleHit 2 1 9])].map Prod.snd).flatten))
        [exampleHit 0 1 0, exampleHit 1 1 5, exampleHit 2 1 9] :=
  ⟨rfl,
   C2_anchor_fixed exampleGeo 6 [exampleHit 0 1 0, exampleHit 1 1 5, exampleHit 2 1 9] 5 _
     (by simp [SortedByTs1, exampleHit])
     (by simp [exampleHit, UINT32_SIZE])
     rfl [] _ _ _ rfl⟩

/-- Claim C3. `GroupStripHits` stores for every tagger `t` exactly the input
hits whose channel maps to `t`, in input order, and stores no group for a
tagger without hits; the stored keys are strictly ascending (one group per
tagger), every stored group is non-empty and is the sub-list of its own
tagger, and the groups together are a permutation of the input. -/
theorem C3_GroupStripHits_partition (geo : CRTGeoAlg) (CRTStripHitVec : List (Ptr CRTStripHit)) :
    (∀ t : CRTTagger,
      StdMap.find (GroupStripHits geo CRTStripHitVec) t
        = if CRTStripHitVec.filter
              (fun h => decide (geo.ChannelToTaggerEnum h.obj.channel = t)) = [] then none
          else some (CRTStripHitVec.filter
              (fun h => decide (geo.ChannelToTaggerEnum h.obj.channel = t)))) ∧
    (GroupStripHits geo CRTStripHitVec).Pairwise (fun a b => a.1 < b.1) ∧
    (∀ p ∈ GroupStripHits geo CRTStripHitVec,
      p.2 ≠ [] ∧
      p.2 = CRTStripHitVec.filter
        (fun h => decide (geo.ChannelToTaggerEnum h.obj.channel = p.1))) ∧
    List.Perm ((GroupStripHits geo CRTStripHitVec).map Prod.snd).flatten CRTStripHitVec := by
  refine ⟨fun t => GroupStripHits_find geo CRTStripHitVec t,
    GroupStripHits_ordered geo CRTStripHitVec, ?_, GroupStripHits_perm geo CRTStripHitVec⟩
  intro p hp
  have := GroupStripHits_entry geo CRTStripHitVec p hp
  exact ⟨this.2, this.1⟩

/-- Claim C4. Four hits whose channels map to taggers `A, A, A, B` (`A ≠ B`)
with `ts1 = 10, 12, 50, 10` and window 5, run through `produce` (group by
tagger, sort each group by `ts1` with any sorting routine meeting the contract
of `std::sort`, cluster): exactly three clusters come out, tagger `A` gives the
member lists `[10, 12]` and `[50]`, tagger `B` gives `[10]`; the groups are
visited in ascending tagger order. -/
theorem C4_end_to_end (geo : CRTGeoAlg)
    (sort : List (Ptr CRTStripHit) → List (Ptr CRTStripHit)) (hsort : StdSortByTs1 sort)
    (A B : CRTTagger) (hAB : A ≠ B) (h1 h2 h3 h4 : Ptr CRTStripHit)
    (ht1 : geo.ChannelToTaggerEnum h1.obj.channel = A)
    (ht2 : geo.ChannelToTaggerEnum h2.obj.channel = A)
    (ht3 : geo.ChannelToTaggerEnum h3.obj.channel = A)
    (ht4 : geo.ChannelToTaggerEnum h4.obj.channel = B)
    (hs1 : h1.obj.ts1 = 10) (hs2 : h2.obj.ts1 = 12) (hs3 : h3.obj.ts1 = 50)
    (_hs4 : h4.obj.ts1 = 10) (fuel : Nat) (hfuel : 5 ≤ fuel) :
    ∃ cA1 cA2 cB,
      produce geo 5 sort [h1, h2, h3, h4] fuel
        = .ok (if A < B then ([cA1, cA2, cB], [(0, h1), (0, h2), (1, h3), (2, h4)])
               else ([cB, cA1, cA2], [(0, h4), (1, h1), (1, h2), (2, h3)])) ∧
      cA1.tagger = A ∧ cA1.nHits = 2 ∧ cA2.tagger = A ∧ cA2.nHits = 1 ∧
      cB.tagger = B ∧ cB.nHits = 1 := by
  have hg : GroupStripHits geo [h1, h2, h3, h4]
      = if A < B then [(A, [h1, h2, h3]), (B, [h4])] else [(B, [h4]), (A, [h1, h2, h3])] := by
    rw [GroupStripHits_eq_foldl]
    simp only [List.foldl_cons, List.foldl_nil, groupStep_eq, ht1, ht2, ht3, ht4]
    rcases lt_or_gt_of_ne hAB with h | h
    · have h' : ¬ B < A := not_lt_of_gt h
      simp [StdMap.subscript, h, h', hAB.symm]
    · have h' : ¬ A < B := not_lt_of_gt h
      simp [StdMap.subscript, h, h', hAB]
  have hsA : sort [h1, h2, h3] = [h1, h2, h3] :=
    sort_eq_of_strict _ _ (by simp [hs1, hs2, hs3]) (hsort _).1 (hsort _).2
  have hsB : sort [h4] = [h4] :=
    sort_eq_of_strict _ _ (by simp) (hsort _).1 (hsort _).2
  have hcA : CreateClusters geo 5 [h1, h2, h3] fuel
      = .ok [(clusterOf geo [h1, h2], [h1, h2]), (clusterOf geo [h3], [h3])] := by
    rw [CreateClusters_eq geo 5 _ fuel (by simp [UINT16_SIZE])
      (by simp only [List.length_cons, List.length_nil]; omega)]
    simp [anchorClusters_cons, anchorClusters_nil, coincident, sub_u32, UINT32_SIZE,
      hs1, hs2, hs3]
  have hcB : CreateClusters geo 5 [h4] fuel = .ok [(clusterOf geo [h4], [h4])] := by
    rw [CreateClusters_eq geo 5 _ fuel (by simp [UINT16_SIZE])
      (by simp only [List.length_cons, List.length_nil]; omega)]
    simp [anchorClusters_cons, anchorClusters_nil]
  refine ⟨clusterOf geo [h1, h2], clusterOf geo [h3], clusterOf geo [h4], ?_, ?_⟩
  · rw [produce, hg]
    by_cases h : A < B
    · simp [h, produce.taggerLoop, hsA, hsB, hcA, hcB, produce.store]
    · simp [h, produce.taggerLoop, hsA, hsB, hcA, hcB, produce.store]
  · simp [clusterOf, ht1, ht3, ht4, UINT16_SIZE]

/-- Claim C4 at channels 1, 2, 3 (tagger 0) and 101 (tagger 1), sorted by
insertion sort. -/
theorem C4_end_to_end_witness :
    ∃ cA1 cA2 cB,
      produce exampleGeo 5 insertionSortByTs1
          [exampleHit 0 1 10, exampleHit 1 2 12, exampleHit 2 3 50, exampleHit 3 101 10] 5
        = .ok (if (0 : CRTTagger) < 1 then
                ([cA1, cA2, cB],
                 [(0, exampleHit 0 1 10), (0, exampleHit 1 2 12), (1, exampleHit 2 3 50),
                  (2, exampleHit 3 101 10)])
               else
                ([cB, cA1, cA2],
                 [(0, exampleHit 3 101 10), (1, exampleHit 0 1 10), (1, exampleHit 1 2 12),
                  (2, exampleHit 2 3 50)])) ∧
      cA1.tagger = 0 ∧ cA1.nHits = 2 ∧ cA2.tagger = 0 ∧ cA2.nHits = 1 ∧
      cB.tagger = 1 ∧ cB.nHits = 1 :=
  C4_end_to_end exampleGeo insertionSortByTs1 insertionSortByTs1_spec 0 1 (by decide)
    (exampleHit 0 1 10) (exampleHit 1 2 12) (exampleHit 2 3 50) (exampleHit 3 101 10)
    rfl rfl rfl rfl rfl rfl rfl rfl 5 (le_refl 5)

/-- For a non-empty member list of fewer than 65536 hits `CharacteriseCluster`
returns, and each of `ts0`, `ts1`, `unixS` whose sum over the members is below
`2^32` equals the truncated quotient of that sum by the number of members. -/
theorem CharacteriseCluster_mean_of_small_sums
    (geo : CRTGeoAlg) (clusteredHits : List (Ptr CRTStripHit))
    (hne : clusteredHits ≠ []) (hlen : clusteredHits.length < UINT16_SIZE) :
    ∃ cluster,
      (∀ fuel, clusteredHits.length + 1 ≤ fuel →
        CharacteriseCluster geo clusteredHits fuel = .ok cluster) ∧
      (∀ fuel c, CharacteriseCluster geo clusteredHits fuel = .ok c → c = cluster) ∧
      ((clusteredHits.map (fun h => h.obj.ts0)).sum < UINT32_SIZE →
        cluster.ts0 = (clusteredHits.map (fun h => h.obj.ts0)).sum / clusteredHits.length) ∧
      ((clusteredHits.map (fun h => h.obj.ts1)).sum < UINT32_SIZE →
        cluster.ts1 = (clusteredHits.map (fun h => h.obj.ts1)).sum / clusteredHits.length) ∧
      ((clusteredHits.map (fun h => h.obj.unixS)).sum < UINT32_SIZE →
        cluster.unixS
          = (clusteredHits.map (fun h => h.obj.unixS)).sum / clusteredHits.length) := by
  refine ⟨clusterOf geo clusteredHits, ?_, ?_, ?_, ?_, ?_⟩
  · intro fuel hf
    exact CharacteriseCluster_eq geo clusteredHits fuel hne hlen hf
  · intro fuel c h
    exact (CharacteriseCluster_ok geo clusteredHits fuel c h).2.2
  · intro h
    simp only [clusterOf, Nat.mod_eq_of_lt h, Nat.mod_eq_of_lt hlen]
  · intro h
    simp only [clusterOf, Nat.mod_eq_of_lt h, Nat.mod_eq_of_lt hlen]
  · intro h
    simp only [clusterOf, Nat.mod_eq_of_lt h, Nat.mod_eq_of_lt hlen]

/-- Claim C6. For a member list `hit0 :: rest` of fewer than 65536 hits, as is
every member list `CreateClusters` passes, `CharacteriseCluster` returns and
its `threeD` flag is true if and only if
`DifferentOrientations(strip of hit0, strip of h)` holds for some member `h`;
in particular the flag is false when it holds for no member. -/
theorem C6_is3D (geo : CRTGeoAlg) (hit0 : Ptr CRTStripHit) (rest : List (Ptr CRTStripHit))
    (hlen : (hit0 :: rest).length < UINT16_SIZE) :
    ∃ cluster,
      (∀ fuel, (hit0 :: rest).length + 1 ≤ fuel →
        CharacteriseCluster geo (hit0 :: rest) fuel = .ok cluster) ∧
      (∀ fuel c, CharacteriseCluster geo (hit0 :: rest) fuel = .ok c → c = cluster) ∧
      (cluster.threeD = true ↔
        ∃ h ∈ hit0 :: rest,
          geo.DifferentOrientations (geo.GetStrip hit0.obj.channel)
            (geo.GetStrip h.obj.channel) = true) ∧
      ((∀ h ∈ hit0 :: rest,
          geo.DifferentOrientations (geo.GetStrip hit0.obj.channel)
            (geo.GetStrip h.obj.channel) = false) → cluster.threeD = false) := by
  have hflag : (clusterOf geo (hit0 :: rest)).threeD = true ↔
      ∃ h ∈ hit0 :: rest,
        geo.DifferentOrientations (geo.GetStrip hit0.obj.channel)
          (geo.GetStrip h.obj.channel) = true := by
    simp only [clusterOf, List.any_eq_true]
  refine ⟨clusterOf geo (hit0 :: rest), ?_, ?_, hflag, ?_⟩
  · intro fuel hf
    exact CharacteriseCluster_eq geo _ fuel (by simp) hlen hf
  · intro fuel c h
    exact (CharacteriseCluster_ok geo _ fuel c h).2.2
  · intro hall
    cases hc : (clusterOf geo (hit0 :: rest)).threeD with
    | false => rfl
    | true =>
      obtain ⟨h, hh, hd⟩ := hflag.mp hc
      rw [hall h hh] at hd
      cases hd

/-- Claim C6 at three hits on channels 2, 4, 5: the last one differs in
orientation from the first, so the flag is set. -/
theorem C6_is3D_witness :
    CharacteriseCluster exampleGeo [exampleHit 0 2 0, exampleHit 1 4 0, exampleHit 2 5 0] 4
      = .ok { ts0 := 0, ts1 := 0, unixS := 0, nHits := 3, tagger := 0, threeD := true } ∧
    ∃ cluster,
      (∀ fuel, (exampleHit 0 2 0 :: [exampleHit 1 4 0, exampleHit 2 5 0]).length + 1 ≤ fuel →
        CharacteriseCluster exampleGeo
          (exampleHit 0 2 0 :: [exampleHit 1 4 0, exampleHit 2 5 0]) fuel = .ok cluster) ∧
      (∀ fuel c,
        CharacteriseCluster exampleGeo
          (exampleHit 0 2 0 :: [exampleHit 1 4 0, exampleHit 2 5 0]) fuel = .ok c →
        c = cluster) ∧
      (cluster.threeD = true ↔
        ∃ h ∈ exampleHit 0 2 0 :: [exampleHit 1 4 0, exampleHit 2 5 0],
          exampleGeo.DifferentOrientations
            (exampleGeo.GetStrip (exampleHit 0 2 0).obj.channel)
            (exampleGeo.GetStrip h.obj.channel) = true) ∧
      ((∀ h ∈ exampleHit 0 2 0 :: [exampleHit 1 4 0, exampleHit 2 5 0],
          exampleGeo.DifferentOrientations
            (exampleGeo.GetStrip (exampleHit 0 2 0).obj.channel)
            (exampleGeo.GetStrip h.obj.channel) = false) → cluster.threeD = false) :=
  ⟨rfl, C6_is3D exampleGeo (exampleHit 0 2 0) [exampleHit 1 4 0, exampleHit 2 5 0]
    (by decide)⟩

/-- Claim C7. When `DifferentOrientations a b` holds exactly if
`orientation a ≠ orientation b`, then for a non-empty member list of fewer than
65536 hits, as is every member list `CreateClusters` passes,
`CharacteriseCluster` returns and its `threeD` flag, computed against the
first member only, equals the all-pairs flag: it is true if and only if two
members have strips of different orientation. -/
theorem C7_is3D_all_pairs (geo : CRTGeoAlg) {O : Type} [DecidableEq O]
    (orientation : geo.CRTStripGeo → O)
    (hD : ∀ a b, geo.DifferentOrientations a b = true ↔ orientation a ≠ orientation b)
    (clusteredHits : List (Ptr CRTStripHit)) (hne : clusteredHits ≠ [])
    (hlen : clusteredHits.length < UINT16_SIZE) :
    ∃ cluster,
      (∀ fuel, clusteredHits.length + 1 ≤ fuel →
        CharacteriseCluster geo clusteredHits fuel = .ok cluster) ∧
      (∀ fuel c, CharacteriseCluster geo clusteredHits fuel = .ok c → c = cluster) ∧
      cluster.threeD = is3D_anyTwoMembers geo orientation clusteredHits ∧
      (cluster.threeD = true ↔
        ∃ a ∈ clusteredHits, ∃ b ∈ clusteredHits,
          orientation (geo.GetStrip a.obj.channel)
            ≠ orientation (geo.GetStrip b.obj.channel)) := by
  have hiff : (clusterOf geo clusteredHits).threeD = true ↔
      ∃ a ∈ clusteredHits, ∃ b ∈ clusteredHits,
        orientation (geo.GetStrip a.obj.channel)
          ≠ orientation (geo.GetStrip b.obj.channel) := by
    cases clusteredHits with
    | nil => exact absurd rfl hne
    | cons hit0 rest =>
      simp only [clusterOf, List.any_eq_true, hD]
      constructor
      · rintro ⟨h, hh, hd⟩
        exact ⟨hit0, List.mem_cons_self _ _, h, hh, hd⟩
      · rintro ⟨a, ha, b, hb, hab⟩
        by_cases h0 : orientation (geo.GetStrip hit0.obj.channel)
            = orientation (geo.GetStrip a.obj.channel)
        · exact ⟨b, hb, by rw [h0]; exact hab⟩
        · exact ⟨a, ha, h0⟩
  have hspec : is3D_anyTwoMembers geo orientation clusteredHits = true ↔
      ∃ a ∈ clusteredHits, ∃ b ∈ clusteredHits,
        orientation (geo.GetStrip a.obj.channel)
          ≠ orientation (geo.GetStrip b.obj.channel) := by
    simp [is3D_anyTwoMembers]
  refine ⟨clusterOf geo clusteredHits, ?_, ?_, ?_, hiff⟩
  · intro fuel hf
    exact CharacteriseCluster_eq geo _ fuel hne hlen hf
  · intro fuel c h
    exact (CharacteriseCluster_ok geo _ fuel c h).2.2
  · exact Bool.eq_iff_iff.mpr (hiff.trans hspec.symm)

/-- Claim C7 at three hits on channels 2, 5, 7 with orientation the parity of
the channel: the first member differs from the two others. -/
theorem C7_is3D_all_pairs_witness :
    CharacteriseCluster exampleGeo [exampleHit 0 2 0, exampleHit 1 5 0, exampleHit 2 7 0] 4
      = .ok { ts0 := 0, ts1 := 0, unixS := 0, nHits := 3, tagger := 0, threeD := true } ∧
    ∃ cluster,
      (∀ fuel, [exampleHit 0 2 0, exampleHit 1 5 0, exampleHit 2 7 0].length + 1 ≤ fuel →
        CharacteriseCluster exampleGeo [exampleHit 0 2 0, exampleHit 1 5 0, exampleHit 2 7 0]
          fuel = .ok cluster) ∧
      (∀ fuel c,
        CharacteriseCluster exampleGeo [exampleHit 0 2 0, exampleHit 1 5 0, exampleHit 2 7 0]
          fuel = .ok c → c = cluster) ∧
      cluster.threeD
        = is3D_anyTwoMembers exampleGeo (fun s : Nat => s % 2)
            [exampleHit 0 2 0, exampleHit 1 5 0, exampleHit 2 7 0] ∧
      (cluster.threeD = true ↔
        ∃ a ∈ [exampleHit 0 2 0, exampleHit 1 5 0, exampleHit 2 7 0],
          ∃ b ∈ [exampleHit 0 2 0, exampleHit 1 5 0, exampleHit 2 7 0],
            (fun s : Nat => s % 2) (exampleGeo.GetStrip a.obj.channel)
              ≠ (fun s : Nat => s % 2) (exampleGeo.GetStrip b.obj.channel)) :=
  ⟨rfl, C7_is3D_all_pairs exampleGeo (fun s : Nat => s % 2)
    (fun a b => by simp [exampleGeo])
    [exampleHit 0 2 0, exampleHit 1 5 0, exampleHit 2 7 0] (by simp) (by decide)⟩

/-- Claim C8. For every group `(tagger, stripHits)` stored by `GroupStripHits`
and every cluster `CreateClusters` returns on that group (rearranged by the
sort of `produce`), every member hit maps by channel to `tagger`, and the
tagger stored in the cluster, taken from its first member, is `tagger`.
Hence in the products of `produce` every association joins a hit to a stored
cluster whose tagger is the tagger of the hit's channel. -/
theorem C8_single_tagger (geo : CRTGeoAlg) (w : Nat)
    (sort : List (Ptr CRTStripHit) → List (Ptr CRTStripHit))
    (hperm : ∀ l, List.Perm (sort l) l) (CRTStripHitVec : List (Ptr CRTStripHit)) :
    (∀ tagger stripHits, (tagger, stripHits) ∈ GroupStripHits geo CRTStripHitVec →
      ∀ fuel out, CreateClusters geo w (sort stripHits) fuel = .ok out →
      ∀ cluster clusteredHits, (cluster, clusteredHits) ∈ out →
        cluster.tagger = tagger ∧ clusteredHits ≠ [] ∧
        ∀ hit ∈ clusteredHits, geo.ChannelToTaggerEnum hit.obj.channel = tagger) ∧
    (∀ fuel clusterVec clusterStripHitAssn,
      produce geo w sort CRTStripHitVec fuel = .ok (clusterVec, clusterStripHitAssn) →
      ∀ k hit, (k, hit) ∈ clusterStripHitAssn →
        ∃ cluster, clusterVec[k]? = some cluster ∧
          cluster.tagger = geo.ChannelToTaggerEnum hit.obj.channel) := by
  constructor
  · intro tagger stripHits hgroup fuel out hrun cluster clusteredHits hmem
    exact single_tagger_of_group geo w sort hperm CRTStripHitVec tagger stripHits hgroup fuel
      out hrun cluster clusteredHits hmem
  · intro fuel clusterVec clusterStripHitAssn hrun
    exact assnsAgree_taggerLoop geo w sort hperm CRTStripHitVec fuel _ ([], [])
      (clusterVec, clusterStripHitAssn) (fun e he => he)
      (fun k hit hk => by simp at hk) hrun

/-- Claim C8 at the four hits of the end-to-end scenario, sorted by insertion
sort: three clusters, each associated with hits of its own tagger. -/
theorem C8_single_tagger_witness :
    produce exampleGeo 5 insertionSortByTs1
        [exampleHit 0 1 10, exampleHit 1 2 12, exampleHit 2 3 50, exampleHit 3 101 10] 5
      = .ok ([{ ts0 := 0, ts1 := 11, unixS := 0, nHits := 2, tagger := 0, threeD := true },
              { ts0 := 0, ts1 := 50, unixS := 0, nHits := 1, tagger := 0, threeD := false },
              { ts0 := 0, ts1 := 10, unixS := 0, nHits := 1, tagger := 1, threeD := false }],
             [(0, exampleHit 0 1 10), (0, exampleHit 1 2 12), (1, exampleHit 2 3 50),
              (2, exampleHit 3 101 10)]) ∧
    (∀ tagger stripHits,
      (tagger, stripHits) ∈ GroupStripHits exampleGeo
        [exampleHit 0 1 10, exampleHit 1 2 12, exampleHit 2 3 50, exampleHit 3 101 10] →
      ∀ fuel out, CreateClusters exampleGeo 5 (insertionSortByTs1 stripHits) fuel = .ok out →
      ∀ cluster clusteredHits, (cluster, clusteredHits) ∈ out →
        cluster.tagger = tagger ∧ clusteredHits ≠ [] ∧
        ∀ hit ∈ clusteredHits, exampleGeo.ChannelToTaggerEnum hit.obj.channel = tagger) ∧
    (∀ fuel clusterVec clusterStripHitAssn,
      produce exampleGeo 5 insertionSortByTs1
        [exampleHit 0 1 10, exampleHit 1 2 12, exampleHit 2 3 50, exampleHit 3 101 10] fuel
        = .ok (clusterVec, clusterStripHitAssn) →
      ∀ k hit, (k, hit) ∈ clusterStripHitAssn →
        ∃ cluster, clusterVec[k]? = some cluster ∧
          cluster.tagger = exampleGeo.ChannelToTaggerEnum hit.obj.channel) :=
  ⟨rfl,
   C8_single_tagger exampleGeo 5 insertionSortByTs1 (fun l => (insertionSortByTs1_spec l).1)
     [exampleHit 0 1 10, exampleHit 1 2 12, exampleHit 2 3 50, exampleHit 3 101 10]⟩

/-- Claim C9. For every state of the back-tracker and every track id,
`RollUpID` returns the value mapped to the id when the id is a key of
`fTrackIDMotherMap` and the id itself otherwise, and leaves the state, the
ancestor map included, unchanged. -/
theorem C9_RollUpID_lookup (self : State) (id : Int) :
    (RollUpID self id).1
        = (match StdMap.find self.fTrackIDMotherMap id with
           | some mother => mother
           | none => id) ∧
      (RollUpID self id).2 = self ∧
      (RollUpID self id).2.fTrackIDMotherMap = self.fTrackIDMotherMap := by
  have h := RollUpID_spec self id
  refine ⟨?_, h.2, by rw [h.2]⟩
  rw [h.1]
  cases StdMap.find self.fTrackIDMotherMap id <;> rfl

/-- Claim C10. After `SetupMaps` on the merge maps `{1 -> {2}}` and
`{2 -> {3}}` (any geometry, any previous state, no deposits), `RollUpID 3` is 2
while `RollUpID (RollUpID 3)` is 1: the lookup is single-level, it is not
idempotent, and one call does not collapse the two-level chain. -/
theorem C10_RollUpID_single_level (geo : CRTGeoAlg) (self : State) :
    (SetupMaps geo self [[(1, [2])], [(2, [3])]] []).fTrackIDMotherMap = [(2, 1), (3, 2)] ∧
    (RollUpID (SetupMaps geo self [[(1, [2])], [(2, [3])]] []) 3).1 = 2 ∧
    (RollUpID (SetupMaps geo self [[(1, [2])], [(2, [3])]] [])
      (RollUpID (SetupMaps geo self [[(1, [2])], [(2, [3])]] []) 3).1).1 = 1 ∧
    (RollUpID (SetupMaps geo self [[(1, [2])], [(2, [3])]] [])
      (RollUpID (SetupMaps geo self [[(1, [2])], [(2, [3])]] []) 3).1).1
      ≠ (RollUpID (SetupMaps geo self [[(1, [2])], [(2, [3])]] []) 3).1 := by
  refine ⟨rfl, rfl, rfl, ?_⟩
  exact fun h => absurd (show (1 : Int) = 2 from h) (by decide)

/-! ## Further lemmas on `StdMap` -/

namespace StdMap

variable {κ ν : Type} [LinearOrder κ]

theorem mem_of_find : ∀ (m : StdMap κ ν) (k : κ) (v : ν), find m k = some v → (k, v) ∈ m
  | [], _, _, h => by simp [find] at h
  | (k', v') :: rest, k, v, h => by
    rcases lt_trichotomy k k' with hk | hk | hk
    · simp [find, hk] at h
    · subst hk
      simp only [find, lt_irrefl, if_false, if_true, Option.some.injEq] at h
      subst h
      exact List.mem_cons_self _ _
    · have h1 : ¬ k < k' := not_lt_of_gt hk
      have h2 : k ≠ k' := ne_of_gt hk
      simp only [find, h1, h2, if_false] at h
      exact List.mem_cons_of_mem _ (mem_of_find rest k v h)

theorem find_isSome_iff_mem_keys (m : StdMap κ ν) (ho : Ordered m) (k : κ) :
    (find m k).isSome = true ↔ k ∈ m.map Prod.fst := by
  constructor
  · intro h
    obtain ⟨v, hv⟩ := Option.isSome_iff_exists.mp h
    exact List.mem_map.mpr ⟨(k, v), mem_of_find m k v hv, rfl⟩
  · intro h
    obtain ⟨p, hp, hk⟩ := List.mem_map.mp h
    have := find_of_mem_ordered m ho p hp
    rw [hk] at this
    simp [this]

theorem mem_keys_subscript (d : ν) (f : ν → ν) :
    ∀ (m : StdMap κ ν) (k x : κ),
      x ∈ (subscript d f m k).map Prod.fst ↔ x = k ∨ x ∈ m.map Prod.fst
  | [], k, x => by simp [subscript]
  | (k', v) :: rest, k, x => by
    have ih := mem_keys_subscript d f rest k x
    rcases lt_trichotomy k k' with h | h | h
    · simp [subscript, h]
    · subst h; simp [subscript]
    · have h1 : ¬ k < k' := not_lt_of_gt h
      have h2 : k ≠ k' := ne_of_gt h
      simp only [subscript, h1, h2, if_false, List.map_cons, List.mem_cons, ih]
      tauto

theorem sum_values_subscript_add (e : ℚ) :
    ∀ (m : StdMap κ ℚ) (k : κ),
      ((subscript 0 (fun v => v + e) m k).map Prod.snd).sum = (m.map Prod.snd).sum + e
  | [], k => by simp [subscript]
  | (k', v) :: rest, k => by
    have ih := sum_values_subscript_add e rest k
    rcases lt_trichotomy k k' with h | h | h
    · simp [subscript, h]; ring
    · subst h; simp [subscript]; ring
    · have h1 : ¬ k < k' := not_lt_of_gt h
      have h2 : k ≠ k' := ne_of_gt h
      simp only [subscript, h1, h2, if_false, List.map_cons, List.sum_cons, ih]
      ring

end StdMap

/-! ## Folds of keyed updates -/

/-- A fold of updates that each add `val x` at key `key x` of a map-like
store, read through `get`. -/
theorem get_foldl_add {S K V α : Type} [DecidableEq K] [AddCommMonoid V]
    (get : S → K → Option V) (upd : S → α → S) (key : α → K) (val : α → V)
    (hself : ∀ s x, get (upd s x) (key x) = some ((get s (key x)).getD 0 + val x))
    (hne : ∀ s x k, k ≠ key x → get (upd s x) k = get s k) (k : K) :
    ∀ (l : List α) (s : S),
      get (l.foldl upd s) k
        = if (get s k).isSome || l.any (fun x => decide (key x = k)) then
            some ((get s k).getD 0 + ((l.filter (fun x => decide (key x = k))).map val).sum)
          else none
  | [], s => by
    cases h : get s k <;> simp [h]
  | x :: l, s => by
    rw [List.foldl_cons, get_foldl_add get upd key val hself hne k l]
    by_cases hx : key x = k
    · subst hx
      rw [hself]
      simp [add_assoc]
    · rw [hne s x k (Ne.symm hx)]
      simp [hx]

/-- A fold of updates that each store the value `c` at key `key x`. -/
theorem get_foldl_const {S K V α : Type} [DecidableEq K]
    (get : S → K → Option V) (upd : S → α → S) (key : α → K) (c : V)
    (hself : ∀ s x, get (upd s x) (key x) = some c)
    (hne : ∀ s x k, k ≠ key x → get (upd s x) k = get s k) (k : K) :
    ∀ (l : List α) (s : S),
      get (l.foldl upd s) k = if k ∈ l.map key then some c else get s k := by
  intro l
  induction l using List.reverseRecOn with
  | nil => intro s; simp
  | append_singleton l x ih =>
    intro s
    rw [List.foldl_append, List.foldl_cons, List.foldl_nil]
    by_cases hx : key x = k
    · subst hx
      rw [hself]
      simp
    · rw [hne _ x k (Ne.symm hx), ih]
      have : k ≠ key x := Ne.symm hx
      simp [this]

/-! ## Lemmas on `SetupMaps` -/

theorem foldl_flatMap {α β γ : Type} (f : α → List β) (g : γ → β → γ) :
    ∀ (l : List α) (init : γ),
      (l.flatMap f).foldl g init = l.foldl (fun acc x => (f x).foldl g acc) init
  | [], _ => rfl
  | x :: l, init => by
    rw [List.flatMap_cons, List.foldl_append, List.foldl_cons, foldl_flatMap f g l]

theorem find2_subscript_self {ν : Type} (d : ν) (f : ν → ν)
    (m : StdMap Int (StdMap CRTTagger ν)) (a : Int) (t : CRTTagger) :
    find2 (StdMap.subscript [] (fun byTagger => StdMap.subscript d f byTagger t) m a) a t
      = some (f ((find2 m a t).getD d)) := by
  unfold find2
  rw [StdMap.find_subscript_self]
  show StdMap.find (StdMap.subscript d f ((StdMap.find m a).getD []) t) t = _
  rw [StdMap.find_subscript_self]
  cases StdMap.find m a <;> simp [StdMap.find]

theorem find2_subscript_ne {ν : Type} (d : ν) (f : ν → ν)
    (m : StdMap Int (StdMap CRTTagger ν)) (a a' : Int) (t t' : CRTTagger)
    (hne : (a', t') ≠ (a, t)) :
    find2 (StdMap.subscript [] (fun byTagger => StdMap.subscript d f byTagger t) m a) a' t'
      = find2 m a' t' := by
  unfold find2
  by_cases ha : a' = a
  · subst ha
    have ht : t' ≠ t := fun h => hne (by rw [h])
    rw [StdMap.find_subscript_self]
    show StdMap.find (StdMap.subscript d f ((StdMap.find m a').getD []) t) t' = _
    rw [StdMap.find_subscript_ne _ _ _ _ _ ht]
    cases StdMap.find m a' <;> simp [StdMap.find]
  · rw [StdMap.find_subscript_ne _ _ _ _ _ ha]

theorem motherLoop_ids (mother : Int) :
    ∀ (ids : List Int) (s : State),
      ids.foldl
          (fun self id =>
            { self with
              fTrackIDMotherMap := StdMap.subscript 0 (fun _ => mother) self.fTrackIDMotherMap id })
          s
        = { s with
            fTrackIDMotherMap :=
              (ids.map (fun id => (id, mother))).foldl
                (fun m w => StdMap.subscript 0 (fun _ => w.2) m w.1) s.fTrackIDMotherMap }
  | [], s => rfl
  | id :: ids, s => by
    rw [List.foldl_cons, motherLoop_ids mother ids]
    rfl

theorem motherLoop_entries :
    ∀ (entries : StdMap Int (List Int)) (s : State),
      entries.foldl
          (fun self entry =>
            entry.2.foldl
              (fun self id =>
                { self with
                  fTrackIDMotherMap :=
                    StdMap.subscript 0 (fun _ => entry.1) self.fTrackIDMotherMap id })
              self)
          s
        = { s with
            fTrackIDMotherMap :=
              (entries.flatMap (fun entry => entry.2.map (fun id => (id, entry.1)))).foldl
                (fun m w => StdMap.subscript 0 (fun _ => w.2) m w.1) s.fTrackIDMotherMap }
  | [], s => rfl
  | entry :: entries, s => by
    rw [List.foldl_cons, motherLoop_ids, motherLoop_entries entries, List.flatMap_cons,
      List.foldl_append]

theorem motherLoop_eq :
    ∀ (maps : List (StdMap Int (List Int))) (s : State),
      SetupMaps.motherLoop s maps
        = { s with
            fTrackIDMotherMap :=
              (motherWrites maps).foldl
                (fun m w => StdMap.subscript 0 (fun _ => w.2) m w.1) s.fTrackIDMotherMap }
  | [], s => rfl
  | m :: maps, s => by
    have ih := motherLoop_eq maps
    unfold SetupMaps.motherLoop at ih ⊢
    rw [List.foldl_cons, motherLoop_entries, ih]
    simp only [motherWrites, List.flatMap_cons, List.foldl_append]

/-- The map written by a sequence of assignments `m[w.1] = w.2` holds, for
every key, the value of the last assignment to that key. -/
theorem find_foldl_assign :
    ∀ (writes : List (Int × Int)) (m : StdMap Int Int) (d : Int),
      StdMap.find (writes.foldl (fun m w => StdMap.subscript 0 (fun _ => w.2) m w.1) m) d
        = match writes.reverse.find? (fun w => decide (w.1 = d)) with
          | some w => some w.2
          | none => StdMap.find m d := by
  intro writes
  induction writes using List.reverseRecOn with
  | nil => intro m d; rfl
  | append_singleton ws w ih =>
    intro m d
    rw [List.foldl_append, List.foldl_cons, List.foldl_nil, List.reverse_append]
    simp only [List.reverse_cons, List.reverse_nil, List.nil_append, List.singleton_append,
      List.find?_cons]
    by_cases hw : w.1 = d
    · subst hw
      simp [StdMap.find_subscript_self]
    · rw [StdMap.find_subscript_ne _ _ _ _ _ (Ne.symm hw), ih]
      simp [hw]

theorem RollUpID_eq (self : State) (id : Int) :
    RollUpID self id = (rollUp self.fTrackIDMotherMap id, self) := by
  have h := RollUpID_spec self id
  exact Prod.ext h.1 h.2

theorem categoryLoop_foldl (geo : CRTGeoAlg) :
    ∀ (ideVec : List (Ptr AuxDetIDE)) (p : State × StdMap (Lex (Int × CRTTagger)) Unit),
      ideVec.foldl
          (fun acc ide =>
            let tagger := ideTagger geo ide
            let r1 := RollUpID acc.1 ide.obj.trackID
            let depositCategories :=
              StdMap.subscript () (fun _ => ()) acc.2 (toLex (r1.1, tagger))
            let r2 := RollUpID r1.2 ide.obj.trackID
            ({ r2.2 with
               fMCPRecoMap := StdMap.subscript false (fun _ => false) r2.2.fMCPRecoMap r2.1 },
             depositCategories))
          p
        = ({ p.1 with
             fMCPRecoMap :=
               ideVec.foldl
                 (fun m ide =>
                   StdMap.subscript false (fun _ => false) m
                     (rollUp p.1.fTrackIDMotherMap ide.obj.trackID))
                 p.1.fMCPRecoMap },
           ideVec.foldl
             (fun c ide =>
               StdMap.subscript () (fun _ => ()) c
                 (toLex (rollUp p.1.fTrackIDMotherMap ide.obj.trackID, ideTagger geo ide)))
             p.2)
  | [], p => rfl
  | ide :: ideVec, p => by
    rw [List.foldl_cons, categoryLoop_foldl geo ideVec]
    simp only [RollUpID_eq, List.foldl_cons]

theorem categoryLoop_eq (geo : CRTGeoAlg) (self : State) (ideVec : List (Ptr AuxDetIDE)) :
    SetupMaps.categoryLoop geo self ideVec
      = ({ self with
           fMCPRecoMap :=
             ideVec.foldl
               (fun m ide =>
                 StdMap.subscript false (fun _ => false) m
                   (rollUp self.fTrackIDMotherMap ide.obj.trackID))
               self.fMCPRecoMap },
         ideVec.foldl
           (fun c ide =>
             StdMap.subscript () (fun _ => ()) c
               (toLex (rollUp self.fTrackIDMotherMap ide.obj.trackID, ideTagger geo ide)))
           []) :=
  categoryLoop_foldl geo ideVec (self, [])

theorem mem_keys_categories (geo : CRTGeoAlg) (M : StdMap Int Int) (x : Lex (Int × CRTTagger)) :
    ∀ (ideVec : List (Ptr AuxDetIDE)) (c : StdMap (Lex (Int × CRTTagger)) Unit),
      x ∈ (ideVec.foldl
            (fun c ide =>
              StdMap.subscript () (fun _ => ()) c
                (toLex (rollUp M ide.obj.trackID, ideTagger geo ide)))
            c).map Prod.fst
        ↔ x ∈ c.map Prod.fst ∨
          ∃ ide ∈ ideVec, x = toLex (rollUp M ide.obj.trackID, ideTagger geo ide)
  | [], c => by simp
  | ide :: ideVec, c => by
    rw [List.foldl_cons, mem_keys_categories geo M x ideVec, StdMap.mem_keys_subscript]
    simp only [List.mem_cons, exists_eq_or_imp]
    tauto

theorem initLoop_foldl :
    ∀ (cats : StdMap (Lex (Int × CRTTagger)) Unit) (s : State),
      SetupMaps.initLoop s cats
        = { s with
            fMCPnIDEsMap :=
              cats.foldl
                (fun m category =>
                  StdMap.subscript [] (fun byTagger =>
                    StdMap.subscript 0 (fun _ => 0) byTagger (ofLex category.1).2)
                    m (ofLex category.1).1)
                s.fMCPnIDEsMap
            fMCPIDEsEnergyMap :=
              cats.foldl
                (fun m category =>
                  StdMap.subscript [] (fun byTagger =>
                    StdMap.subscript 0 (fun _ => 0) byTagger (ofLex category.1).2)
                    m (ofLex category.1).1)
                s.fMCPIDEsEnergyMap }
  | [], s => rfl
  | c :: cats, s => by
    have ih := initLoop_foldl cats
    unfold SetupMaps.initLoop at ih ⊢
    rw [List.foldl_cons, ih]
    rfl

theorem fillLoop_foldl (geo : CRTGeoAlg) :
    ∀ (ideVec : List (Ptr AuxDetIDE)) (s : State),
      SetupMaps.fillLoop geo s ideVec
        = { s with
            fMCPnIDEsMap :=
              ideVec.foldl
                (fun m ide =>
                  StdMap.subscript [] (fun byTagger =>
                    StdMap.subscript 0 (fun n => n + 1) byTagger (ideTagger geo ide))
                    m (rollUp s.fTrackIDMotherMap ide.obj.trackID))
                s.fMCPnIDEsMap
            fMCPIDEsEnergyMap :=
              ideVec.foldl
                (fun m ide =>
                  StdMap.subscript [] (fun byTagger =>
                    StdMap.subscript 0 (fun e => e + ide.obj.energyDeposited) byTagger
                      (ideTagger geo ide))
                    m (rollUp s.fTrackIDMotherMap ide.obj.trackID))
                s.fMCPIDEsEnergyMap
            fIDERecoMap :=
              ideVec.foldl
                (fun m ide => StdMap.subscript false (fun _ => false) m (ide.key : Int))
                s.fIDERecoMap }
  | [], s => rfl
  | ide :: ideVec, s => by
    have ih := fillLoop_foldl geo ideVec
    unfold SetupMaps.fillLoop at ih ⊢
    rw [List.foldl_cons, ih]
    simp only [RollUpID_eq, List.foldl_cons]

theorem SetupMaps_motherMap (geo : CRTGeoAlg) (self : State)
    (maps : List (StdMap Int (List Int))) (ideVec : List (Ptr AuxDetIDE)) :
    (SetupMaps geo self maps ideVec).fTrackIDMotherMap = motherMapOf maps := by
  simp only [SetupMaps, motherLoop_eq, categoryLoop_eq, initLoop_foldl, fillLoop_foldl,
    motherMapOf]

theorem SetupMaps_energyMap (geo : CRTGeoAlg) (self : State)
    (maps : List (StdMap Int (List Int))) (ideVec : List (Ptr AuxDetIDE)) :
    (SetupMaps geo self maps ideVec).fMCPIDEsEnergyMap
      = ideVec.foldl
          (fun m ide =>
            StdMap.subscript [] (fun byTagger =>
              StdMap.subscript 0 (fun e => e + ide.obj.energyDeposited) byTagger
                (ideTagger geo ide))
              m (rollUp (motherMapOf maps) ide.obj.trackID))
          ((ideVec.foldl
              (fun c ide =>
                StdMap.subscript () (fun _ => ()) c
                  (toLex (rollUp (motherMapOf maps) ide.obj.trackID, ideTagger geo ide)))
              ([] : StdMap (Lex (Int × CRTTagger)) Unit)).foldl
            (fun m category =>
              StdMap.subscript [] (fun byTagger =>
                StdMap.subscript 0 (fun _ => 0) byTagger (ofLex category.1).2)
                m (ofLex category.1).1)
            []) := by
  simp only [SetupMaps, motherLoop_eq, categoryLoop_eq, initLoop_foldl, fillLoop_foldl,
    motherMapOf]

/-- The entries pre-registered by the category loop: value zero at exactly
the (ancestor, tagger) pairs of the deposits. -/
theorem find2_init {ν : Type} [Zero ν] (geo : CRTGeoAlg) (M : StdMap Int Int)
    (ideVec : List (Ptr AuxDetIDE)) (a : Int) (t : CRTTagger) :
    find2
        ((ideVec.foldl
            (fun c ide =>
              StdMap.subscript () (fun _ => ()) c
                (toLex (rollUp M ide.obj.trackID, ideTagger geo ide)))
            ([] : StdMap (Lex (Int × CRTTagger)) Unit)).foldl
          (fun m category =>
            StdMap.subscript [] (fun byTagger =>
              StdMap.subscript (0 : ν) (fun _ => 0) byTagger (ofLex category.1).2)
              m (ofLex category.1).1)
          []) a t
      = if (depositsOf geo M a t ideVec).isEmpty then none else some 0 := by
  have h := get_foldl_const (S := StdMap Int (StdMap CRTTagger ν)) (K := Int × CRTTagger)
    (fun m k => find2 m k.1 k.2)
    (fun m (category : Lex (Int × CRTTagger) × Unit) =>
      StdMap.subscript [] (fun byTagger =>
        StdMap.subscript (0 : ν) (fun _ => 0) byTagger (ofLex category.1).2)
        m (ofLex category.1).1)
    (fun category => ofLex category.1) (0 : ν)
    (fun s x => find2_subscript_self _ _ _ _ _)
    (fun s x k hk => find2_subscript_ne _ _ _ _ _ _ _ hk) (a, t)
    (ideVec.foldl
      (fun c ide =>
        StdMap.subscript () (fun _ => ()) c
          (toLex (rollUp M ide.obj.trackID, ideTagger geo ide)))
      ([] : StdMap (Lex (Int × CRTTagger)) Unit)) []
  simp only at h
  rw [h]
  have hmem : (a, t) ∈ (ideVec.foldl
      (fun c ide =>
        StdMap.subscript () (fun _ => ()) c
          (toLex (rollUp M ide.obj.trackID, ideTagger geo ide)))
      ([] : StdMap (Lex (Int × CRTTagger)) Unit)).map (fun category => ofLex category.1)
      ↔ ¬ (depositsOf geo M a t ideVec).isEmpty = true := by
    have hk := mem_keys_categories geo M (toLex (a, t)) ideVec []
    simp only [List.map_nil, List.not_mem_nil, false_or] at hk
    rw [show (fun category : Lex (Int × CRTTagger) × Unit => ofLex category.1)
        = (fun x => ofLex x) ∘ Prod.fst from rfl, ← List.map_map, List.mem_map]
    constructor
    · rintro ⟨x, hx, hxe⟩
      have hx' : x = toLex (a, t) := by rw [← hxe]; rfl
      rw [hx'] at hx
      obtain ⟨ide, hide, he⟩ := hk.mp hx
      have he' : (rollUp M ide.obj.trackID, ideTagger geo ide) = (a, t) := by
        have := congrArg (fun x => ofLex x) he
        exact this.symm
      intro hemp
      rw [List.isEmpty_iff] at hemp
      have : ide ∈ depositsOf geo M a t ideVec := by
        unfold depositsOf
        rw [List.mem_filter]
        refine ⟨hide, ?_⟩
        have h1 := congrArg Prod.fst he'
        have h2 := congrArg Prod.snd he'
        simp only at h1 h2
        simp [h1, h2]
      rw [hemp] at this
      simp at this
    · intro hne
      have hne' : depositsOf geo M a t ideVec ≠ [] := by
        intro h0; rw [h0] at hne; simp at hne
      obtain ⟨ide, hide⟩ := List.exists_mem_of_ne_nil _ hne'
      unfold depositsOf at hide
      rw [List.mem_filter] at hide
      simp only [Bool.and_eq_true, decide_eq_true_eq] at hide
      refine ⟨toLex (a, t), hk.mpr ⟨ide, hide.1, ?_⟩, rfl⟩
      rw [hide.2.1, hide.2.2]
  by_cases he : (depositsOf geo M a t ideVec).isEmpty = true
  · have : ¬ (a, t) ∈ List.map (fun category => ofLex category.1)
        (ideVec.foldl
          (fun c ide =>
            StdMap.subscript () (fun _ => ()) c
              (toLex (rollUp M ide.obj.trackID, ideTagger geo ide)))
          ([] : StdMap (Lex (Int × CRTTagger)) Unit)) := fun hm => (hmem.mp hm) he
    simp [this, he, find2, StdMap.find]
  · have := hmem.mpr he
    simp [this, he]

theorem filter_key_eq_depositsOf (geo : CRTGeoAlg) (M : StdMap Int Int) (a : Int) (t : CRTTagger)
    (ideVec : List (Ptr AuxDetIDE)) :
    ideVec.filter
        (fun ide => decide ((rollUp M ide.obj.trackID, ideTagger geo ide) = (a, t)))
      = depositsOf geo M a t ideVec := by
  unfold depositsOf
  congr 1
  funext ide
  simp only [Prod.mk.injEq, Bool.decide_and]

theorem any_eq_not_isEmpty_filter {α : Type} (p : α → Bool) :
    ∀ (l : List α), l.any p = !(l.filter p).isEmpty
  | [] => rfl
  | x :: l => by
    cases hp : p x <;> simp [List.filter_cons, hp, any_eq_not_isEmpty_filter p l]

theorem any_key_eq_depositsOf (geo : CRTGeoAlg) (M : StdMap Int Int) (a : Int) (t : CRTTagger)
    (ideVec : List (Ptr AuxDetIDE)) :
    ideVec.any (fun ide => decide ((rollUp M ide.obj.trackID, ideTagger geo ide) = (a, t)))
      = !(depositsOf geo M a t ideVec).isEmpty := by
  rw [← filter_key_eq_depositsOf, any_eq_not_isEmpty_filter]

theorem SetupMaps_find2_energy (geo : CRTGeoAlg) (self : State)
    (maps : List (StdMap Int (List Int))) (ideVec : List (Ptr AuxDetIDE)) (a : Int)
    (t : CRTTagger) :
    find2 (SetupMaps geo self maps ideVec).fMCPIDEsEnergyMap a t
      = if (depositsOf geo (motherMapOf maps) a t ideVec).isEmpty then none
        else some (totalOf (depositsOf geo (motherMapOf maps) a t ideVec)) := by
  rw [SetupMaps_energyMap]
  have h := get_foldl_add (S := StdMap Int (StdMap CRTTagger ℚ)) (K := Int × CRTTagger)
    (fun m k => find2 m k.1 k.2)
    (fun m (ide : Ptr AuxDetIDE) =>
      StdMap.subscript [] (fun byTagger =>
        StdMap.subscript 0 (fun e => e + ide.obj.energyDeposited) byTagger (ideTagger geo ide))
        m (rollUp (motherMapOf maps) ide.obj.trackID))
    (fun ide => (rollUp (motherMapOf maps) ide.obj.trackID, ideTagger geo ide))
    (fun ide => ide.obj.energyDeposited)
    (fun s x => find2_subscript_self _ _ _ _ _)
    (fun s x k hk => find2_subscript_ne _ _ _ _ _ _ _ hk) (a, t) ideVec
  simp only at h
  rw [h, find2_init, filter_key_eq_depositsOf, any_key_eq_depositsOf]
  by_cases he : (depositsOf geo (motherMapOf maps) a t ideVec).isEmpty = true
  · simp [he]
  · simp [he, totalOf]

theorem ideLoop_eq (stripHit : Ptr CRTStripHit) :
    ∀ (assnIDEVec : List (Ptr AuxDetIDE × FEBTruthInfo)) (acc : Accum),
      TruthMatching.ideLoop stripHit assnIDEVec acc
        = (retained stripHit assnIDEVec).foldl TruthMatching.addDeposit acc
  | [], _ => rfl
  | entry :: rest, acc => by
    have ih := ideLoop_eq stripHit rest
    unfold TruthMatching.ideLoop retained at ih ⊢
    rw [List.foldl_cons]
    cases hc : channelMatches entry.2 stripHit
    · simp only [Bool.false_eq_true, if_false, List.filter_cons, hc]
      exact ih acc
    · simp only [if_true, List.filter_cons, hc, List.map_cons, List.foldl_cons]
      exact ih _

theorem addDeposit_foldl :
    ∀ (deposits : List (Ptr AuxDetIDE)) (acc : Accum),
      deposits.foldl TruthMatching.addDeposit acc
        = { self := acc.self
            idToEnergyMap :=
              deposits.foldl
                (fun m ide =>
                  StdMap.subscript 0 (fun e => e + ide.obj.energyDeposited) m
                    (rollUp acc.self.fTrackIDMotherMap ide.obj.trackID))
                acc.idToEnergyMap
            totalEnergy := acc.totalEnergy + totalOf deposits }
  | [], acc => by simp [totalOf]
  | ide :: rest, acc => by
    rw [List.foldl_cons, addDeposit_foldl rest]
    simp only [TruthMatching.addDeposit, RollUpID_eq, List.foldl_cons, totalOf, List.map_cons,
      List.sum_cons, add_assoc]

theorem febOf_of_length_one (ndebug : Bool) (febData : List Nat) (h : febData.length = 1) :
    TruthMatching.febOf ndebug febData = .ok (febData.headD 0) := by
  cases febData with
  | nil => simp at h
  | cons feb rest =>
    simp [TruthMatching.febOf, h]

theorem stripHit_eq_matchOf (geo : CRTGeoAlg) (ndebug : Bool) (event : EventAssns)
    (self : State) (stripHit : Ptr CRTStripHit)
    (hfeb : (event.stripHitToFEBData stripHit.key).length = 1) :
    TruthMatching.stripHit geo ndebug event self stripHit
      = .ok (matchOf (geo.ChannelToTaggerEnum stripHit.obj.channel) self
          (hitDeposits event stripHit)) := by
  simp only [TruthMatching.stripHit, febOf_of_length_one ndebug _ hfeb, ideLoop_eq, matchOf,
    hitDeposits]

theorem hitLoop_eq (ndebug : Bool) (event : EventAssns) :
    ∀ (hits : List (Ptr CRTStripHit)) (acc : Accum),
      (∀ h ∈ hits, (event.stripHitToFEBData h.key).length = 1) →
      TruthMatching.hitLoop ndebug event hits acc
        = .ok ((hits.flatMap (hitDeposits event)).foldl TruthMatching.addDeposit acc)
  | [], _, _ => rfl
  | h :: rest, acc, hall => by
    rw [TruthMatching.hitLoop, febOf_of_length_one ndebug _ (hall h (List.mem_cons_self _ _))]
    simp only []
    rw [hitLoop_eq ndebug event rest _ (fun x hx => hall x (List.mem_cons_of_mem _ hx)),
      ideLoop_eq, List.flatMap_cons, List.foldl_append]
    rfl

theorem cluster_eq_matchOf (ndebug : Bool) (event : EventAssns) (self : State)
    (cluster : Ptr CRTCluster)
    (hfeb : ∀ h ∈ event.clusterToStripHits cluster.key,
      (event.stripHitToFEBData h.key).length = 1) :
    TruthMatching.cluster ndebug event self cluster
      = .ok (matchOf cluster.obj.tagger self (clusterDeposits event cluster)) := by
  simp only [TruthMatching.cluster, hitLoop_eq ndebug event _ _ hfeb, matchOf, clusterDeposits]

theorem find_energyMapOf (M : StdMap Int Int) (deposits : List (Ptr AuxDetIDE)) (a : Int) :
    StdMap.find (energyMapOf M deposits) a
      = if deposits.any (fun ide => decide (rollUp M ide.obj.trackID = a)) then
          some (energyOf M a deposits)
        else none := by
  have h := get_foldl_add (S := StdMap Int ℚ) (K := Int)
    (fun m k => StdMap.find m k)
    (fun m (ide : Ptr AuxDetIDE) =>
      StdMap.subscript 0 (fun e => e + ide.obj.energyDeposited) m
        (rollUp M ide.obj.trackID))
    (fun ide => rollUp M ide.obj.trackID)
    (fun ide => ide.obj.energyDeposited)
    (fun s x => StdMap.find_subscript_self _ _ _ _)
    (fun s x k hk => StdMap.find_subscript_ne _ _ _ _ _ hk) a deposits []
  simp only [StdMap.find, Option.isSome_none, Bool.false_or, Option.getD_none, zero_add] at h
  exact h

theorem ordered_energyMapOf (M : StdMap Int Int) (deposits : List (Ptr AuxDetIDE)) :
    StdMap.Ordered (energyMapOf M deposits) := by
  unfold energyMapOf
  have : ∀ (l : List (Ptr AuxDetIDE)) (m : StdMap Int ℚ), StdMap.Ordered m →
      StdMap.Ordered (l.foldl
        (fun m ide =>
          StdMap.subscript 0 (fun e => e + ide.obj.energyDeposited) m
            (rollUp M ide.obj.trackID)) m) := by
    intro l
    induction l with
    | nil => intro m h; exact h
    | cons x l ih =>
      intro m h
      exact ih _ (StdMap.ordered_subscript _ _ _ _ h)
  exact this deposits [] List.Pairwise.nil

theorem sum_energyMapOf (M : StdMap Int Int) (deposits : List (Ptr AuxDetIDE)) :
    ((energyMapOf M deposits).map Prod.snd).sum = totalOf deposits := by
  unfold energyMapOf totalOf
  have : ∀ (l : List (Ptr AuxDetIDE)) (m : StdMap Int ℚ),
      ((l.foldl
        (fun m ide =>
          StdMap.subscript 0 (fun e => e + ide.obj.energyDeposited) m
            (rollUp M ide.obj.trackID)) m).map Prod.snd).sum
        = (m.map Prod.snd).sum + (l.map (fun ide => ide.obj.energyDeposited)).sum := by
    intro l
    induction l with
    | nil => intro m; simp
    | cons x l ih =>
      intro m
      rw [List.foldl_cons, ih, StdMap.sum_values_subscript_add]
      simp [add_assoc]
  simpa using this deposits []

theorem matchOf_eq (tagger : CRTTagger) (self : State) (deposits : List (Ptr AuxDetIDE)) :
    matchOf tagger self deposits
      = (let best :=
           (energyMapOf self.fTrackIDMotherMap deposits).foldl
             (TruthMatching.selectStep tagger (totalOf deposits))
             { self := self, trackid := -99999, bestPur := .finite 0, comp := .finite 0 }
         ({ trackid := best.trackid, completeness := best.comp, purity := best.bestPur },
          best.self)) := by
  simp only [matchOf, addDeposit_foldl, TruthMatching.select, energyMapOf, zero_add]

theorem indexedEnergy_eq_find2 (self : State) (tagger : CRTTagger) (id : Int) :
    indexedEnergy self tagger id = (find2 self.fMCPIDEsEnergyMap id tagger).getD 0 := by
  unfold indexedEnergy find2 StdMap.read
  cases StdMap.find self.fMCPIDEsEnergyMap id <;> simp [StdMap.find]

theorem selectStep_indexedEnergy (tagger : CRTTagger) (T : ℚ) (best : Best) (entry : Int × ℚ)
    (id : Int) :
    indexedEnergy (TruthMatching.selectStep tagger T best entry).self tagger id
      = indexedEnergy best.self tagger id := by
  unfold TruthMatching.selectStep
  simp only []
  split
  · rw [indexedEnergy_eq_find2, indexedEnergy_eq_find2]
    by_cases h : id = entry.1
    · rw [h]
      simp only [find2_subscript_self]
      cases find2 best.self.fMCPIDEsEnergyMap entry.1 tagger <;> rfl
    · rw [find2_subscript_ne]
      intro hp
      exact h (congrArg Prod.fst hp)
  · rfl

/-- The selection loop for a non-zero total energy: the purities are finite,
the kept purity is the largest one seen (or the initial one), and the entry it
comes from is the first of its purity. -/
theorem select_foldl_finite (tagger : CRTTagger) (T : ℚ) (hT : T ≠ 0) :
    ∀ (es : List (Int × ℚ)) (b0 : Best) (q0 : ℚ), b0.bestPur = .finite q0 →
      ∃ q, (es.foldl (TruthMatching.selectStep tagger T) b0).bestPur = .finite q ∧
        q0 ≤ q ∧ (∀ e ∈ es, e.2 / T ≤ q) ∧
        (((es.foldl (TruthMatching.selectStep tagger T) b0).trackid = b0.trackid ∧ q = q0 ∧
          (es.foldl (TruthMatching.selectStep tagger T) b0).comp = b0.comp) ∨
         (∃ pre e post, es = pre ++ e :: post ∧
          (es.foldl (TruthMatching.selectStep tagger T) b0).trackid = e.1 ∧
          q = e.2 / T ∧ q0 < q ∧
          (es.foldl (TruthMatching.selectStep tagger T) b0).comp
            = DoubleVal.div e.2 (indexedEnergy b0.self tagger e.1) ∧
          (∀ x ∈ pre, x.2 / T < q)))
  | [], b0, q0, h0 => ⟨q0, h0, le_refl _, by simp, Or.inl ⟨rfl, rfl, rfl⟩⟩
  | e :: es, b0, q0, h0 => by
    rw [List.foldl_cons]
    have hdiv : DoubleVal.div e.2 T = .finite (e.2 / T) := by simp [DoubleVal.div, hT]
    by_cases hg : q0 < e.2 / T
    · have hstep : TruthMatching.selectStep tagger T b0 e
          = { self := (TruthMatching.selectStep tagger T b0 e).self
              trackid := e.1
              bestPur := .finite (e.2 / T)
              comp := DoubleVal.div e.2 (indexedEnergy b0.self tagger e.1) } := by
        simp [TruthMatching.selectStep, hdiv, h0, DoubleVal.gt, hg, indexedEnergy]
      obtain ⟨q, hq, hle, hall, hcase⟩ :=
        select_foldl_finite tagger T hT es (TruthMatching.selectStep tagger T b0 e) (e.2 / T)
          (by rw [hstep])
      refine ⟨q, hq, le_trans (le_of_lt hg) hle, ?_, ?_⟩
      · intro x hx
        rcases List.mem_cons.mp hx with rfl | hx
        · exact hle
        · exact hall x hx
      · right
        rcases hcase with ⟨h1, h2, h3⟩ | ⟨pre, e', post, hes, h1, h2, h3, h4, h5⟩
        · refine ⟨[], e, es, rfl, ?_, h2, by rw [h2]; exact hg, ?_, by simp⟩
          · rw [h1, hstep]
          · rw [h3, hstep]
        · refine ⟨e :: pre, e', post, by rw [hes]; rfl, h1, h2, lt_trans hg h3, ?_, ?_⟩
          · rw [h4, selectStep_indexedEnergy]
          · intro x hx
            rcases List.mem_cons.mp hx with rfl | hx
            · exact h3
            · exact h5 x hx
    · have hstep : TruthMatching.selectStep tagger T b0 e = b0 := by
        simp [TruthMatching.selectStep, hdiv, h0, DoubleVal.gt, hg]
      rw [hstep]
      obtain ⟨q, hq, hle, hall, hcase⟩ := select_foldl_finite tagger T hT es b0 q0 h0
      refine ⟨q, hq, hle, ?_, ?_⟩
      · intro x hx
        rcases List.mem_cons.mp hx with rfl | hx
        · exact le_trans (not_lt.mp hg) hle
        · exact hall x hx
      · rcases hcase with h | ⟨pre, e', post, hes, h1, h2, h3, h4, h5⟩
        · exact Or.inl h
        · right
          refine ⟨e :: pre, e', post, by rw [hes]; rfl, h1, h2, h3, h4, ?_⟩
          intro x hx
          rcases List.mem_cons.mp hx with rfl | hx
          · exact lt_of_le_of_lt (not_lt.mp hg) h3
          · exact h5 x hx

theorem energyOf_mem (M : StdMap Int Int) (deposits : List (Ptr AuxDetIDE)) (e : Int × ℚ)
    (he : e ∈ energyMapOf M deposits) :
    deposits.any (fun ide => decide (rollUp M ide.obj.trackID = e.1)) = true ∧
      e.2 = energyOf M e.1 deposits := by
  have h := StdMap.find_of_mem_ordered _ (ordered_energyMapOf M deposits) e he
  rw [find_energyMapOf] at h
  by_cases ha : deposits.any (fun ide => decide (rollUp M ide.obj.trackID = e.1)) = true
  · simp only [ha, if_true, Option.some.injEq] at h
    exact ⟨ha, h.symm⟩
  · simp [ha] at h

theorem mem_energyMapOf (M : StdMap Int Int) (deposits : List (Ptr AuxDetIDE)) (a : Int)
    (ha : deposits.any (fun ide => decide (rollUp M ide.obj.trackID = a)) = true) :
    (a, energyOf M a deposits) ∈ energyMapOf M deposits := by
  apply StdMap.mem_of_find
  rw [find_energyMapOf]
  simp only [ha, if_true]

theorem sum_map_div (T : ℚ) : ∀ (l : List (Int × ℚ)),
    (l.map (fun e => e.2 / T)).sum = (l.map Prod.snd).sum / T
  | [] => by simp
  | x :: l => by simp [sum_map_div T l, add_div]

theorem list_sum_nonpos : ∀ (l : List ℚ), (∀ x ∈ l, x ≤ 0) → l.sum ≤ 0
  | [], _ => by simp
  | x :: l, h => by
    rw [List.sum_cons]
    have h1 := h x (List.mem_cons_self _ _)
    have h2 := list_sum_nonpos l (fun y hy => h y (List.mem_cons_of_mem _ hy))
    linarith

theorem energyOf_nonneg (M : StdMap Int Int) (a : Int) (deposits : List (Ptr AuxDetIDE))
    (hnn : ∀ ide ∈ deposits, 0 ≤ ide.obj.energyDeposited) : 0 ≤ energyOf M a deposits := by
  unfold energyOf
  apply List.sum_nonneg
  intro x hx
  obtain ⟨ide, hide, rfl⟩ := List.mem_map.mp hx
  exact hnn ide (List.mem_of_mem_filter hide)

theorem totalOf_nonneg (deposits : List (Ptr AuxDetIDE))
    (hnn : ∀ ide ∈ deposits, 0 ≤ ide.obj.energyDeposited) : 0 ≤ totalOf deposits := by
  unfold totalOf
  apply List.sum_nonneg
  intro x hx
  obtain ⟨ide, hide, rfl⟩ := List.mem_map.mp hx
  exact hnn ide hide

theorem energyOf_le_totalOf (M : StdMap Int Int) (a : Int) (deposits : List (Ptr AuxDetIDE))
    (hnn : ∀ ide ∈ deposits, 0 ≤ ide.obj.energyDeposited) :
    energyOf M a deposits ≤ totalOf deposits := by
  unfold energyOf totalOf
  apply List.Sublist.sum_le_sum
  · exact List.Sublist.map _ (List.filter_sublist _)
  · intro x hx
    obtain ⟨ide, hide, rfl⟩ := List.mem_map.mp hx
    exact hnn ide hide

/-- For a non-zero total energy the selection returns the first entry of
largest purity, and that purity is positive. -/
theorem matchOf_of_total_ne_zero (tagger : CRTTagger) (self : State)
    (deposits : List (Ptr AuxDetIDE)) (hT : totalOf deposits ≠ 0) :
    ∃ a, (matchOf tagger self deposits).1.trackid = a ∧
      deposits.any (fun ide => decide (rollUp self.fTrackIDMotherMap ide.obj.trackID = a)) = true ∧
      (matchOf tagger self deposits).1.purity
        = .finite (energyOf self.fTrackIDMotherMap a deposits / totalOf deposits) ∧
      0 < energyOf self.fTrackIDMotherMap a deposits / totalOf deposits ∧
      (matchOf tagger self deposits).1.completeness
        = DoubleVal.div (energyOf self.fTrackIDMotherMap a deposits)
            (indexedEnergy self tagger a) ∧
      (∀ b, deposits.any
          (fun ide => decide (rollUp self.fTrackIDMotherMap ide.obj.trackID = b)) = true →
        energyOf self.fTrackIDMotherMap b deposits / totalOf deposits
          ≤ energyOf self.fTrackIDMotherMap a deposits / totalOf deposits) ∧
      (∀ b, deposits.any
          (fun ide => decide (rollUp self.fTrackIDMotherMap ide.obj.trackID = b)) = true →
        energyOf self.fTrackIDMotherMap b deposits / totalOf deposits
          = energyOf self.fTrackIDMotherMap a deposits / totalOf deposits → a ≤ b) := by
  rw [matchOf_eq]
  simp only []
  obtain ⟨q, hq, hq0, hall, hcase⟩ :=
    select_foldl_finite tagger (totalOf deposits) hT
      (energyMapOf self.fTrackIDMotherMap deposits)
      { self := self, trackid := -99999, bestPur := .finite 0, comp := .finite 0 } 0 rfl
  rcases hcase with ⟨_, hkeep, _⟩ | ⟨pre, e, post, hes, h1, h2, h3, h4, h5⟩
  · exfalso
    have hsum : ((energyMapOf self.fTrackIDMotherMap deposits).map
        (fun e => e.2 / totalOf deposits)).sum ≤ 0 := by
      apply list_sum_nonpos
      intro x hx
      obtain ⟨e, he, rfl⟩ := List.mem_map.mp hx
      rw [← hkeep]
      exact hall e he
    rw [sum_map_div, sum_energyMapOf, div_self hT] at hsum
    exact absurd hsum (by norm_num)
  · have hmem : e ∈ energyMapOf self.fTrackIDMotherMap deposits := by
      rw [hes]; exact List.mem_append_right _ (List.mem_cons_self _ _)
    obtain ⟨hany, he2⟩ := energyOf_mem _ _ e hmem
    refine ⟨e.1, h1, hany, ?_, ?_, ?_, ?_, ?_⟩
    · rw [hq, h2, he2]
    · rw [← he2, ← h2]; exact h3
    · rw [h4, he2]
    · intro b hb
      have := hall _ (mem_energyMapOf _ _ b hb)
      rw [h2, he2] at this
      exact this
    · intro b hb heq
      have hbm := mem_energyMapOf _ _ b hb
      have hord := ordered_energyMapOf self.fTrackIDMotherMap deposits
      rw [hes] at hbm hord
      rcases List.mem_append.mp hbm with hpre | hpost
      · have := h5 _ hpre
        rw [h2, he2] at this
        simp only at this
        rw [heq] at this
        exact absurd this (lt_irrefl _)
      · rcases List.mem_cons.mp hpost with heq' | hpost'
        · have : b = e.1 := congrArg Prod.fst heq'
          exact le_of_eq this.symm
        · have hpw := (List.pairwise_append.mp hord).2.1
          have := (List.pairwise_cons.mp hpw).1 _ hpost'
          exact le_of_lt this

theorem selectStep_of_nan (tagger : CRTTagger) (T : ℚ) (best : Best) (entry : Int × ℚ)
    (h : DoubleVal.div entry.2 T = .nan) :
    TruthMatching.selectStep tagger T best entry = best := by
  simp [TruthMatching.selectStep, h, DoubleVal.gt]

theorem foldl_selectStep_of_nan (tagger : CRTTagger) (T : ℚ) :
    ∀ (es : List (Int × ℚ)) (b0 : Best), (∀ e ∈ es, DoubleVal.div e.2 T = .nan) →
      es.foldl (TruthMatching.selectStep tagger T) b0 = b0
  | [], _, _ => rfl
  | e :: es, b0, h => by
    rw [List.foldl_cons, selectStep_of_nan tagger T b0 e (h e (List.mem_cons_self _ _))]
    exact foldl_selectStep_of_nan tagger T es b0 (fun x hx => h x (List.mem_cons_of_mem _ hx))

/-- With non-negative energies and a zero total every purity is `0 / 0`, no
comparison succeeds and the sentinel is returned. -/
theorem matchOf_of_total_zero (tagger : CRTTagger) (self : State)
    (deposits : List (Ptr AuxDetIDE))
    (hnn : ∀ ide ∈ deposits, 0 ≤ ide.obj.energyDeposited) (hT : totalOf deposits = 0) :
    matchOf tagger self deposits = (sentinel, self) := by
  rw [matchOf_eq]
  simp only []
  rw [foldl_selectStep_of_nan]
  · rfl
  · intro e he
    obtain ⟨_, he2⟩ := energyOf_mem _ _ e he
    have h0 : e.2 = 0 := by
      have h1 := energyOf_nonneg self.fTrackIDMotherMap e.1 deposits hnn
      have h2 := energyOf_le_totalOf self.fTrackIDMotherMap e.1 deposits hnn
      rw [hT] at h2
      rw [he2]
      exact le_antisymm h2 h1
    simp [DoubleVal.div, h0, hT]

theorem matchOf_nil (tagger : CRTTagger) (self : State) :
    matchOf tagger self [] = (sentinel, self) := rfl

theorem run_eq_matchOf (geo : CRTGeoAlg) (ndebug : Bool) (event : EventAssns) (self : State)
    (q : TruthQuery) (hboard : q.OneBoard event) :
    q.run geo ndebug event self
      = .ok (matchOf (q.tagger geo) self (q.deposits event)) := by
  cases q with
  | ofStripHit stripHit => exact stripHit_eq_matchOf geo ndebug event self stripHit hboard
  | ofCluster cluster => exact cluster_eq_matchOf ndebug event self cluster hboard

theorem ordered_foldl_assign :
    ∀ (writes : List (Int × Int)) (m : StdMap Int Int), StdMap.Ordered m →
      StdMap.Ordered (writes.foldl (fun m w => StdMap.subscript 0 (fun _ => w.2) m w.1) m)
  | [], _, h => h
  | w :: writes, m, h => by
    rw [List.foldl_cons]
    exact ordered_foldl_assign writes _ (StdMap.ordered_subscript _ _ _ _ h)

theorem mem_motherWrites (maps : List (StdMap Int (List Int))) (w : Int × Int) :
    w ∈ motherWrites maps ↔ ∃ m ∈ maps, ∃ entry ∈ m, w.1 ∈ entry.2 ∧ w.2 = entry.1 := by
  unfold motherWrites
  simp only [List.mem_flatMap, List.mem_map]
  constructor
  · rintro ⟨m, hm, entry, he, id, hid, rfl⟩
    exact ⟨m, hm, entry, he, hid, rfl⟩
  · rintro ⟨m, hm, entry, he, hid, h2⟩
    exact ⟨m, hm, entry, he, w.1, hid, by rw [← h2]⟩

theorem find_foldl_assign_untouched (writes : List (Int × Int)) (m : StdMap Int Int) (d : Int)
    (h : ∀ w ∈ writes, w.1 ≠ d) :
    StdMap.find (writes.foldl (fun m w => StdMap.subscript 0 (fun _ => w.2) m w.1) m) d
      = StdMap.find m d := by
  rw [find_foldl_assign]
  have : writes.reverse.find? (fun w => decide (w.1 = d)) = none := by
    rw [List.find?_eq_none]
    intro w hw
    simpa using h w (List.mem_reverse.mp hw)
  rw [this]

theorem find_foldl_assign_ids (ids : List Int) (mother : Int) (m : StdMap Int Int) (d : Int)
    (hd : d ∈ ids) :
    StdMap.find
        ((ids.map (fun id => (id, mother))).foldl
          (fun m w => StdMap.subscript 0 (fun _ => w.2) m w.1) m) d
      = some mother := by
  rw [find_foldl_assign]
  cases hf : (ids.map (fun id => (id, mother))).reverse.find? (fun w => decide (w.1 = d)) with
  | none =>
    rw [List.find?_eq_none] at hf
    have := hf (d, mother) (List.mem_reverse.mpr (List.mem_map.mpr ⟨d, hd, rfl⟩))
    simp at this
  | some w =>
    have hw := List.mem_of_find?_eq_some hf
    obtain ⟨id, _, rfl⟩ := List.mem_map.mp (List.mem_reverse.mp hw)
    rfl

theorem depositsOf_eq_filter_RollUpID (geo : CRTGeoAlg) (self : State)
    (maps : List (StdMap Int (List Int))) (ideVec : List (Ptr AuxDetIDE)) (a : Int)
    (t : CRTTagger) (l : List (Ptr AuxDetIDE)) :
    l.filter (fun ide =>
        decide ((RollUpID (SetupMaps geo self maps ideVec) ide.obj.trackID).1 = a) &&
          decide (ideTagger geo ide = t))
      = depositsOf geo (motherMapOf maps) a t l := by
  unfold depositsOf
  congr 1
  funext ide
  rw [RollUpID_eq, SetupMaps_motherMap]

theorem any_rollUp_iff (M : StdMap Int Int) (deposits : List (Ptr AuxDetIDE)) (a : Int) :
    deposits.any (fun ide => decide (rollUp M ide.obj.trackID = a)) = true ↔
      ∃ ide ∈ deposits, rollUp M ide.obj.trackID = a := by
  simp [List.any_eq_true]

theorem energyOf_perm (M : StdMap Int Int) (a : Int) (l₁ l₂ : List (Ptr AuxDetIDE))
    (h : List.Perm l₁ l₂) : energyOf M a l₁ = energyOf M a l₂ := by
  unfold energyOf
  exact ((h.filter _).map _).sum_eq

theorem totalOf_perm (l₁ l₂ : List (Ptr AuxDetIDE)) (h : List.Perm l₁ l₂) :
    totalOf l₁ = totalOf l₂ := by
  unfold totalOf
  exact (h.map _).sum_eq

/-- The selected track id depends on the retained deposits only as a
multiset: reading them in another order selects the same ancestor. -/
theorem matchOf_trackid_perm (tagger : CRTTagger) (self : State)
    (l₁ l₂ : List (Ptr AuxDetIDE)) (h : List.Perm l₁ l₂) (hT : totalOf l₁ ≠ 0) :
    (matchOf tagger self l₁).1.trackid = (matchOf tagger self l₂).1.trackid := by
  have hT2 : totalOf l₂ ≠ 0 := by rw [← totalOf_perm l₁ l₂ h]; exact hT
  obtain ⟨a, ha, hany, _, _, _, hmax, htie⟩ := matchOf_of_total_ne_zero tagger self l₁ hT
  obtain ⟨b, hb, hany', _, _, _, hmax', htie'⟩ := matchOf_of_total_ne_zero tagger self l₂ hT2
  rw [ha, hb]
  have hb1 : l₁.any (fun ide => decide (rollUp self.fTrackIDMotherMap ide.obj.trackID = b))
      = true := by
    rw [any_rollUp_iff] at hany' ⊢
    obtain ⟨ide, hide, hr⟩ := hany'
    exact ⟨ide, h.mem_iff.mpr hide, hr⟩
  have ha2 : l₂.any (fun ide => decide (rollUp self.fTrackIDMotherMap ide.obj.trackID = a))
      = true := by
    rw [any_rollUp_iff] at hany ⊢
    obtain ⟨ide, hide, hr⟩ := hany
    exact ⟨ide, h.mem_iff.mp hide, hr⟩
  have h1 := hmax b hb1
  have h2 := hmax' a ha2
  simp only [← energyOf_perm _ _ l₁ l₂ h, ← totalOf_perm l₁ l₂ h] at h2 htie'
  have heq := le_antisymm h1 h2
  exact le_antisymm (htie b hb1 heq) (htie' a ha2 heq.symm)

/-- The energy `fMCPIDEsEnergyMap[a][t]` reads in the state `SetupMaps` built:
the summed energy of the indexed deposits of (a, t). -/
theorem SetupMaps_indexedEnergy (geo : CRTGeoAlg) (self : State)
    (maps : List (StdMap Int (List Int))) (ideVec : List (Ptr AuxDetIDE)) (a : Int)
    (t : CRTTagger) :
    indexedEnergy (SetupMaps geo self maps ideVec) t a
      = totalOf (depositsOf geo (motherMapOf maps) a t ideVec) := by
  rw [indexedEnergy_eq_find2, SetupMaps_find2_energy]
  by_cases he : (depositsOf geo (motherMapOf maps) a t ideVec).isEmpty = true
  · rw [if_pos he, List.isEmpty_iff.mp he]
    rfl
  · rw [if_neg he]
    rfl

theorem sum_energy_le_of_subperm (l₁ l₂ : List (Ptr AuxDetIDE)) (h : List.Subperm l₁ l₂)
    (hnn : ∀ ide ∈ l₂, 0 ≤ ide.obj.energyDeposited) : totalOf l₁ ≤ totalOf l₂ := by
  obtain ⟨l, hl, hsub⟩ := h
  rw [← totalOf_perm l l₁ hl]
  unfold totalOf
  apply List.Sublist.sum_le_sum (hsub.map _)
  intro x hx
  obtain ⟨ide, hide, rfl⟩ := List.mem_map.mp hx
  exact hnn ide hide

theorem energyOf_eq_totalOf_filter (M : StdMap Int Int) (a : Int)
    (deposits : List (Ptr AuxDetIDE)) :
    energyOf M a deposits
      = totalOf (deposits.filter (fun ide => decide (rollUp M ide.obj.trackID = a))) := rfl

/-- The bounds of a result: with non-negative energies in the retained
deposits and in the index, purity lies in [0, 1] and completeness is
non-negative (possibly infinite). -/
theorem matchOf_bounds (tagger : CRTTagger) (self : State) (deposits : List (Ptr AuxDetIDE))
    (hnn : ∀ ide ∈ deposits, 0 ≤ ide.obj.energyDeposited)
    (hidx : ∀ a, 0 ≤ indexedEnergy self tagger a) :
    DoubleVal.le (.finite 0) (matchOf tagger self deposits).1.purity = true ∧
    DoubleVal.le (matchOf tagger self deposits).1.purity (.finite 1) = true ∧
    DoubleVal.le (.finite 0) (matchOf tagger self deposits).1.completeness = true := by
  by_cases hT : totalOf deposits = 0
  · rw [matchOf_of_total_zero tagger self deposits hnn hT]
    simp [sentinel, DoubleVal.le]
  · obtain ⟨a, _, _, hpur, hpos, hcomp, _, _⟩ := matchOf_of_total_ne_zero tagger self deposits hT
    have hTpos : 0 < totalOf deposits := lt_of_le_of_ne (totalOf_nonneg deposits hnn) (Ne.symm hT)
    have hE : 0 < energyOf self.fTrackIDMotherMap a deposits := by
      rcases (div_pos_iff.mp hpos) with h | h
      · exact h.1
      · exact absurd h.2 (not_lt.mpr hTpos.le)
    rw [hpur, hcomp]
    refine ⟨?_, ?_, ?_⟩
    · simpa [DoubleVal.le] using hpos.le
    · simpa [DoubleVal.le] using
        (div_le_one hTpos).mpr (energyOf_le_totalOf self.fTrackIDMotherMap a deposits hnn)
    · by_cases h0 : indexedEnergy self tagger a = 0
      · simp [DoubleVal.div, h0, hE, hE.ne', DoubleVal.le]
      · have := div_nonneg hE.le (hidx a)
        simpa [DoubleVal.div, h0, DoubleVal.le] using this

/-! ## Worked examples of truth matching -/

theorem exampleClusterQuery_deposits :
    exampleClusterQuery.deposits exampleEvent = [exampleIDE 0 3 1, exampleIDE 1 4 2] := rfl

theorem exampleIDEs_nonneg : ∀ ide ∈ exampleIDEs, 0 ≤ ide.obj.energyDeposited := by
  intro ide hide
  simp only [exampleIDEs, List.mem_cons, List.mem_singleton, List.not_mem_nil, or_false] at hide
  rcases hide with rfl | rfl | rfl <;> simp [exampleIDE]

theorem exampleRetained_nonneg :
    ∀ ide ∈ [exampleIDE 0 3 1, exampleIDE 1 4 2], 0 ≤ ide.obj.energyDeposited := by
  intro ide hide
  simp only [List.mem_cons, List.mem_singleton, List.not_mem_nil, or_false] at hide
  rcases hide with rfl | rfl <;> simp [exampleIDE]

theorem exampleRetained_total : totalOf [exampleIDE 0 3 1, exampleIDE 1 4 2] = 3 := by
  simp [totalOf, exampleIDE]
  norm_num

theorem exampleState_indexed_tagger0 : indexedEnergy exampleState 0 4 = 9 := by
  rw [exampleState, SetupMaps_indexedEnergy,
    show depositsOf exampleGeo (motherMapOf []) 4 0 exampleIDEs
      = [exampleIDE 1 4 2, exampleIDE 2 4 7] from rfl]
  simp [totalOf, exampleIDE]
  norm_num

/-- The result of matching the two deposits retained on board channel 5:
track 4 with purity 2/3, and as completeness its energy 2 over the indexed
energy of (4, tagger). -/
theorem exampleMatch (tagger : CRTTagger) :
    (matchOf tagger exampleState [exampleIDE 0 3 1, exampleIDE 1 4 2]).1
      = { trackid := 4
          completeness := DoubleVal.div 2 (indexedEnergy exampleState tagger 4)
          purity := .finite (2 / 3) } := by
  obtain ⟨a, ha, hany, hpur, _, hcomp, hmax, _⟩ :=
    matchOf_of_total_ne_zero tagger exampleState [exampleIDE 0 3 1, exampleIDE 1 4 2]
      (by rw [exampleRetained_total]; norm_num)
  have hM : exampleState.fTrackIDMotherMap = [] := rfl
  have e3 : energyOf [] 3 [exampleIDE 0 3 1, exampleIDE 1 4 2] = 1 := by
    simp [energyOf, rollUp, StdMap.find, exampleIDE]
  have e4 : energyOf [] 4 [exampleIDE 0 3 1, exampleIDE 1 4 2] = 2 := by
    simp [energyOf, rollUp, StdMap.find, exampleIDE]
  rw [hM, exampleRetained_total] at hpur hmax
  rw [hM] at hany hcomp
  have h4 := hmax 4 (by simp [rollUp, StdMap.find, exampleIDE])
  have ha4 : a = 4 := by
    simp [rollUp, StdMap.find, exampleIDE] at hany
    rcases hany with h | h
    · rw [← h, e3, e4] at h4
      norm_num at h4
    · exact h.symm
  rw [ha4] at ha hpur hcomp
  rw [e4] at hpur hcomp
  have heta : (matchOf tagger exampleState [exampleIDE 0 3 1, exampleIDE 1 4 2]).1
      = { trackid := (matchOf tagger exampleState [exampleIDE 0 3 1, exampleIDE 1 4 2]).1.trackid
          completeness :=
            (matchOf tagger exampleState [exampleIDE 0 3 1, exampleIDE 1 4 2]).1.completeness
          purity :=
            (matchOf tagger exampleState [exampleIDE 0 3 1, exampleIDE 1 4 2]).1.purity } := rfl
  rw [heta, ha, hpur, hcomp]

/-! ## The claims on the maps of `SetupMaps` and on `TruthMatching` -/

/-- Claim C11. After `SetupMaps` (any geometry, prior state and deposits) the
ancestor map has strictly ascending keys; an id is a key exactly when it
occurs in a descendant set of a supplied map; and when `entry` is the last
pair, in iteration order over the maps and their pairs, whose descendant set
contains `d`, the key `d` is mapped to the ancestor of `entry`. -/
theorem C11_ancestor_map_last_write (geo : CRTGeoAlg) (self : State)
    (droppedTrackIdMaps : List (StdMap Int (List Int))) (ideVec : List (Ptr AuxDetIDE)) :
    StdMap.Ordered (SetupMaps geo self droppedTrackIdMaps ideVec).fTrackIDMotherMap ∧
    (∀ d,
      d ∈ (SetupMaps geo self droppedTrackIdMaps ideVec).fTrackIDMotherMap.map Prod.fst ↔
        ∃ m ∈ droppedTrackIdMaps, ∃ entry ∈ m, d ∈ entry.2) ∧
    (∀ before m after ebefore entry eafter d,
      droppedTrackIdMaps = before ++ m :: after → m = ebefore ++ entry :: eafter →
      d ∈ entry.2 → (∀ e ∈ eafter, d ∉ e.2) → (∀ m' ∈ after, ∀ e ∈ m', d ∉ e.2) →
      StdMap.find (SetupMaps geo self droppedTrackIdMaps ideVec).fTrackIDMotherMap d
        = some entry.1) := by
  rw [SetupMaps_motherMap]
  have hord : StdMap.Ordered (motherMapOf droppedTrackIdMaps) :=
    ordered_foldl_assign _ [] List.Pairwise.nil
  refine ⟨hord, ?_, ?_⟩
  · intro d
    rw [← StdMap.find_isSome_iff_mem_keys _ hord]
    unfold motherMapOf
    rw [find_foldl_assign]
    constructor
    · intro h
      cases hf : (motherWrites droppedTrackIdMaps).reverse.find? (fun w => decide (w.1 = d)) with
      | none => rw [hf] at h; simp [StdMap.find] at h
      | some w =>
        have hw := List.mem_reverse.mp (List.mem_of_find?_eq_some hf)
        have hd : w.1 = d := by simpa using List.find?_some hf
        obtain ⟨m, hm, entry, he, hin, _⟩ := (mem_motherWrites _ w).mp hw
        exact ⟨m, hm, entry, he, hd ▸ hin⟩
    · rintro ⟨m, hm, entry, he, hin⟩
      cases hf : (motherWrites droppedTrackIdMaps).reverse.find? (fun w => decide (w.1 = d)) with
      | none =>
        rw [List.find?_eq_none] at hf
        have := hf (d, entry.1) (List.mem_reverse.mpr
          ((mem_motherWrites _ (d, entry.1)).mpr ⟨m, hm, entry, he, hin, rfl⟩))
        simp at this
      | some w => rfl
  · intro before m after ebefore entry eafter d hmaps hm hd heafter hafter
    unfold motherMapOf
    have hsplit : motherWrites droppedTrackIdMaps
        = (motherWrites before
            ++ ebefore.flatMap (fun entry => entry.2.map (fun id => (id, entry.1))))
          ++ (entry.2.map (fun id => (id, entry.1))
            ++ (eafter.flatMap (fun entry => entry.2.map (fun id => (id, entry.1)))
              ++ motherWrites after)) := by
      rw [hmaps, hm]
      simp [motherWrites, List.flatMap_append, List.flatMap_cons]
    rw [hsplit, List.foldl_append, List.foldl_append, find_foldl_assign_untouched]
    · exact find_foldl_assign_ids _ _ _ _ hd
    · intro w hw
      rcases List.mem_append.mp hw with hw | hw
      · obtain ⟨e, he, hwe⟩ := List.mem_flatMap.mp hw
        obtain ⟨id, hid, rfl⟩ := List.mem_map.mp hwe
        intro h
        exact heafter e he (h ▸ hid)
      · obtain ⟨m', hm', e, he, hin, _⟩ := (mem_motherWrites _ w).mp hw
        intro h
        exact hafter m' hm' e he (h ▸ hin)

/-- Claim C13. The result of `SetupMaps`, every map of the back-tracker
included, does not depend on the state before the call: for two prior states
and the same event inputs the states after the call are equal. -/
theorem C13_SetupMaps_rebuilds (geo : CRTGeoAlg) (self1 self2 : State)
    (droppedTrackIdMaps : List (StdMap Int (List Int))) (ideVec : List (Ptr AuxDetIDE)) :
    SetupMaps geo self1 droppedTrackIdMaps ideVec = SetupMaps geo self2 droppedTrackIdMaps ideVec ∧
    (SetupMaps geo self1 droppedTrackIdMaps ideVec).fTrackIDMotherMap
      = (SetupMaps geo self2 droppedTrackIdMaps ideVec).fTrackIDMotherMap ∧
    (SetupMaps geo self1 droppedTrackIdMaps ideVec).fMCPnIDEsMap
      = (SetupMaps geo self2 droppedTrackIdMaps ideVec).fMCPnIDEsMap ∧
    (SetupMaps geo self1 droppedTrackIdMaps ideVec).fMCPIDEsEnergyMap
      = (SetupMaps geo self2 droppedTrackIdMaps ideVec).fMCPIDEsEnergyMap :=
  ⟨rfl, rfl, rfl, rfl⟩

/-- Claim C17. For a strip hit or cluster whose hits each have exactly one
board record and whose retained deposit list is empty, `TruthMatching` returns
exactly track id -99999, completeness 0 and purity 0, and the state is
unchanged. -/
theorem C17_sentinel_on_empty (geo : CRTGeoAlg) (ndebug : Bool) (event : EventAssns)
    (self : State) (q : TruthQuery) (hboard : q.OneBoard event)
    (hempty : q.deposits event = []) :
    q.run geo ndebug event self
      = .ok ({ trackid := -99999, completeness := .finite 0, purity := .finite 0 }, self) := by
  rw [run_eq_matchOf geo ndebug event self q hboard, hempty]
  rfl

/-- Claim C17 at a strip hit on channel 105: its board channel 9 carries no
deposit, and the sentinel is returned. -/
theorem C17_sentinel_on_empty_witness :
    (TruthQuery.ofStripHit (exampleHit 0 105 0)).run exampleGeo false exampleEvent exampleState
      = .ok ({ trackid := -99999, completeness := .finite 0, purity := .finite 0 },
          exampleState) :=
  C17_sentinel_on_empty exampleGeo false exampleEvent exampleState
    (.ofStripHit (exampleHit 0 105 0)) rfl rfl

/-- Claim C19. In the state `SetupMaps` builds from deposits of non-negative
energy, a query whose hits each have exactly one board record and whose
retained deposits have non-negative energies returns a result with
0 <= purity <= 1 and 0 <= completeness; this holds for every returned result,
the sentinel included, and a completeness that is a quotient by zero is the
positive infinity. -/
theorem C19_purity_completeness_bounds (geo : CRTGeoAlg) (ndebug : Bool) (event : EventAssns)
    (self : State) (maps : List (StdMap Int (List Int))) (ideVec : List (Ptr AuxDetIDE))
    (q : TruthQuery) (hboard : q.OneBoard event)
    (hidx : ∀ ide ∈ ideVec, 0 ≤ ide.obj.energyDeposited)
    (hnn : ∀ ide ∈ q.deposits event, 0 ≤ ide.obj.energyDeposited) :
    ∃ r st, q.run geo ndebug event (SetupMaps geo self maps ideVec) = .ok (r, st) ∧
      DoubleVal.le (.finite 0) r.purity = true ∧
      DoubleVal.le r.purity (.finite 1) = true ∧
      DoubleVal.le (.finite 0) r.completeness = true := by
  refine ⟨(matchOf (q.tagger geo) (SetupMaps geo self maps ideVec) (q.deposits event)).1,
    (matchOf (q.tagger geo) (SetupMaps geo self maps ideVec) (q.deposits event)).2,
    run_eq_matchOf geo ndebug event _ q hboard, ?_⟩
  apply matchOf_bounds _ _ _ hnn
  intro a
  rw [SetupMaps_indexedEnergy]
  apply totalOf_nonneg
  intro ide hide
  exact hidx ide (List.mem_of_mem_filter hide)

/-- Claim C19 at the cluster of the worked example, in the state `SetupMaps`
builds from the three deposits of energies 1, 2 and 7. -/
theorem C19_purity_completeness_bounds_witness :
    ∃ r st, exampleClusterQuery.run exampleGeo false exampleEvent exampleState = .ok (r, st) ∧
      DoubleVal.le (.finite 0) r.purity = true ∧
      DoubleVal.le r.purity (.finite 1) = true ∧
      DoubleVal.le (.finite 0) r.completeness = true :=
  C19_purity_completeness_bounds exampleGeo false exampleEvent
    { fMCPnIDEsMap := [], fMCPIDEsEnergyMap := [], fMCPRecoMap := [], fIDERecoMap := [],
      fTrackIDMotherMap := [] }
    [] exampleIDEs exampleClusterQuery (fun _ _ => rfl) exampleIDEs_nonneg
    (by rw [exampleClusterQuery_deposits]; exact exampleRetained_nonneg)

/-! ## Further lemmas on the anchor-fixed partition -/

theorem anchorClusters_sublist (w : Nat) :
    ∀ (n : Nat) (l : List (Ptr CRTStripHit)), l.length ≤ n →
      ∀ m ∈ anchorClusters w l, List.Sublist m l := by
  intro n
  induction n with
  | zero =>
    intro l hl m hm
    have : l = [] := List.length_eq_zero.mp (Nat.le_zero.mp hl)
    subst this
    simp [anchorClusters_nil] at hm
  | succ n ih =>
    intro l hl m hm
    cases l with
    | nil => simp [anchorClusters_nil] at hm
    | cons a rest =>
      rw [anchorClusters_cons, List.mem_cons] at hm
      have hshort : (rest.filter (fun c => !coincident w a c)).length ≤ n := by
        have := List.length_filter_le (fun c => !coincident w a c) rest
        simp only [List.length_cons] at hl
        omega
      rcases hm with rfl | hm
      · exact List.Sublist.cons₂ a (List.filter_sublist _)
      · exact ((ih _ hshort m hm).trans (List.filter_sublist _)).trans
          (List.sublist_cons_self a rest)

/-- Every cluster of the partition is its anchor followed by hits that passed
the coincidence test against the anchor. -/
theorem anchorClusters_head (w : Nat) :
    ∀ (n : Nat) (l : List (Ptr CRTStripHit)), l.length ≤ n →
      ∀ m ∈ anchorClusters w l,
        ∃ anchor rest, m = anchor :: rest ∧ ∀ c ∈ rest, coincident w anchor c = true := by
  intro n
  induction n with
  | zero =>
    intro l hl m hm
    have : l = [] := List.length_eq_zero.mp (Nat.le_zero.mp hl)
    subst this
    simp [anchorClusters_nil] at hm
  | succ n ih =>
    intro l hl m hm
    cases l with
    | nil => simp [anchorClusters_nil] at hm
    | cons a rest =>
      rw [anchorClusters_cons, List.mem_cons] at hm
      have hshort : (rest.filter (fun c => !coincident w a c)).length ≤ n := by
        have := List.length_filter_le (fun c => !coincident w a c) rest
        simp only [List.length_cons] at hl
        omega
      rcases hm with rfl | hm
      · exact ⟨a, _, rfl, fun c hc => (List.mem_filter.mp hc).2⟩
      · exact ih _ hshort m hm

/-! ## Lemmas on clustering of sorted input -/

/-- On a list along which `p` can only switch from true to false, filtering
by `p` takes a prefix and filtering by its negation drops that prefix. -/
theorem filter_eq_takeWhile_of_antitone {α : Type} (p : α → Bool) :
    ∀ (l : List α), l.Pairwise (fun x y => p y = true → p x = true) →
      l.filter p = l.takeWhile p ∧ l.filter (fun x => !p x) = l.dropWhile p
  | [], _ => ⟨rfl, rfl⟩
  | x :: xs, h => by
    have hx := (List.pairwise_cons.mp h).1
    have ih := filter_eq_takeWhile_of_antitone p xs (List.pairwise_cons.mp h).2
    by_cases hp : p x = true
    · simp [List.filter_cons, List.takeWhile_cons, List.dropWhile_cons, hp, ih.1, ih.2]
    · have hall : ∀ y ∈ xs, p y = false := by
        intro y hy
        by_contra hc
        exact hp (hx y hy (by simpa using hc))
      have h1 : xs.filter p = [] := by
        rw [List.filter_eq_nil_iff]
        intro y hy
        simp [hall y hy]
      have h2 : xs.filter (fun x => !p x) = xs := by
        rw [List.filter_eq_self]
        intro y hy
        simp [hall y hy]
      simp [List.filter_cons, List.takeWhile_cons, List.dropWhile_cons, hp, h1, h2]

theorem sweepFrom_eq (w : Nat) (a : Ptr CRTStripHit) :
    ∀ (rest cur : List (Ptr CRTStripHit)),
      sweepFrom w a cur rest
        = (cur ++ rest.takeWhile (fun c => decide (c.obj.ts1 - a.obj.ts1 < w))) ::
            sweepClusters w (rest.dropWhile (fun c => decide (c.obj.ts1 - a.obj.ts1 < w)))
  | [], cur => by simp [sweepFrom, sweepClusters]
  | c :: cs, cur => by
    by_cases hc : w ≤ c.obj.ts1 - a.obj.ts1
    · have hn : ¬ c.obj.ts1 - a.obj.ts1 < w := not_lt.mpr hc
      simp [sweepFrom, sweepClusters, hc, hn, List.takeWhile_cons, List.dropWhile_cons]
    · have hn : c.obj.ts1 - a.obj.ts1 < w := not_le.mp hc
      rw [sweepFrom, if_neg hc, sweepFrom_eq w a cs (cur ++ [c])]
      simp [hn, List.takeWhile_cons, List.dropWhile_cons]

theorem flatten_sweepFrom (w : Nat) :
    ∀ (rest : List (Ptr CRTStripHit)) (a : Ptr CRTStripHit) (cur : List (Ptr CRTStripHit)),
      (sweepFrom w a cur rest).flatten = cur ++ rest
  | [], a, cur => by simp [sweepFrom]
  | c :: cs, a, cur => by
    by_cases hc : w ≤ c.obj.ts1 - a.obj.ts1
    · rw [sweepFrom, if_pos hc, List.flatten_cons, flatten_sweepFrom w cs c [c]]
      simp
    · rw [sweepFrom, if_neg hc, flatten_sweepFrom w cs a (cur ++ [c])]
      simp

theorem flatten_sweepClusters (w : Nat) (l : List (Ptr CRTStripHit)) :
    (sweepClusters w l).flatten = l := by
  cases l with
  | nil => rfl
  | cons a rest =>
    rw [sweepClusters, flatten_sweepFrom]
    rfl

/-- On sorted input with 32-bit stamps the two tests of a later hit against
an anchor agree, and split the later hits into a prefix and the rest. -/
theorem filter_coincident_sorted (w : Nat) (a : Ptr CRTStripHit) (rest : List (Ptr CRTStripHit))
    (hsorted : SortedByTs1 (a :: rest)) (hwf : ∀ h ∈ a :: rest, h.obj.ts1 < UINT32_SIZE) :
    rest.filter (coincident w a)
        = rest.takeWhile (fun c => decide (c.obj.ts1 - a.obj.ts1 < w)) ∧
      rest.filter (fun c => !coincident w a c)
        = rest.dropWhile (fun c => decide (c.obj.ts1 - a.obj.ts1 < w)) := by
  have hle : ∀ c ∈ rest, a.obj.ts1 ≤ c.obj.ts1 := (List.pairwise_cons.mp hsorted).1
  have hco : ∀ c ∈ rest, coincident w a c = decide (c.obj.ts1 - a.obj.ts1 < w) := by
    intro c hc
    have h := coincident_iff_of_le w a c (hle c hc) (hwf c (List.mem_cons_of_mem _ hc))
    by_cases hd : c.obj.ts1 - a.obj.ts1 < w
    · rw [h.mpr hd, decide_eq_true hd]
    · rw [decide_eq_false hd]
      cases hcc : coincident w a c with
      | false => rfl
      | true => exact absurd (h.mp hcc) hd
  have h1 : rest.filter (coincident w a)
      = rest.filter (fun c => decide (c.obj.ts1 - a.obj.ts1 < w)) :=
    List.filter_congr (fun c hc => hco c hc)
  have h2 : rest.filter (fun c => !coincident w a c)
      = rest.filter (fun c => !decide (c.obj.ts1 - a.obj.ts1 < w)) :=
    List.filter_congr (fun c hc => by rw [hco c hc])
  have hanti : rest.Pairwise (fun x y =>
      decide (y.obj.ts1 - a.obj.ts1 < w) = true → decide (x.obj.ts1 - a.obj.ts1 < w) = true) := by
    refine List.Pairwise.imp ?_ (List.pairwise_cons.mp hsorted).2
    intro x y hxy hy
    have hy' := of_decide_eq_true hy
    exact decide_eq_true (by omega)
  have h := filter_eq_takeWhile_of_antitone
    (fun c : Ptr CRTStripHit => decide (c.obj.ts1 - a.obj.ts1 < w)) rest hanti
  rw [h1, h2]
  exact h

/-- On sorted input with 32-bit stamps the anchor-fixed partition is the
single sweep. -/
theorem anchorClusters_eq_sweepClusters (w : Nat) :
    ∀ (n : Nat) (l : List (Ptr CRTStripHit)), l.length ≤ n → SortedByTs1 l →
      (∀ h ∈ l, h.obj.ts1 < UINT32_SIZE) → anchorClusters w l = sweepClusters w l := by
  intro n
  induction n with
  | zero =>
    intro l hl _ _
    have : l = [] := List.length_eq_zero.mp (Nat.le_zero.mp hl)
    subst this
    rw [anchorClusters_nil]
    rfl
  | succ n ih =>
    intro l hl hsorted hwf
    cases l with
    | nil =>
      rw [anchorClusters_nil]
      rfl
    | cons a rest =>
      obtain ⟨h1, h2⟩ := filter_coincident_sorted w a rest hsorted hwf
      have hsub : List.Sublist
          (rest.dropWhile (fun c => decide (c.obj.ts1 - a.obj.ts1 < w))) rest :=
        List.dropWhile_sublist _
      rw [anchorClusters_cons, h1, h2, sweepClusters, sweepFrom_eq]
      rw [ih _ (by
            have := hsub.length_le
            simp only [List.length_cons] at hl
            omega)
          ((List.pairwise_cons.mp hsorted).2.sublist hsub)
          (fun h hh => hwf h (List.mem_cons_of_mem _ (hsub.subset hh)))]
      rfl

/-- On sorted input with 32-bit stamps the anchors of the partition are
separated by the window. -/
theorem anchorClusters_pairwise (w : Nat) :
    ∀ (n : Nat) (l : List (Ptr CRTStripHit)), l.length ≤ n → SortedByTs1 l →
      (∀ h ∈ l, h.obj.ts1 < UINT32_SIZE) →
      (anchorClusters w l).Pairwise (fun m m' =>
        ∃ a r b s, m = a :: r ∧ m' = b :: s ∧ a.obj.ts1 + w ≤ b.obj.ts1 ∧
          a.obj.ts1 ≤ b.obj.ts1 ∧ coincident w a b = false) := by
  intro n
  induction n with
  | zero =>
    intro l hl _ _
    have : l = [] := List.length_eq_zero.mp (Nat.le_zero.mp hl)
    subst this
    rw [anchorClusters_nil]
    exact List.Pairwise.nil
  | succ n ih =>
    intro l hl hsorted hwf
    cases l with
    | nil =>
      rw [anchorClusters_nil]
      exact List.Pairwise.nil
    | cons a rest =>
      have hsub : List.Sublist (rest.filter (fun c => !coincident w a c)) rest :=
        List.filter_sublist _
      have hshort : (rest.filter (fun c => !coincident w a c)).length ≤ n := by
        have := hsub.length_le
        simp only [List.length_cons] at hl
        omega
      rw [anchorClusters_cons]
      refine List.Pairwise.cons ?_ (ih _ hshort ((List.pairwise_cons.mp hsorted).2.sublist hsub)
        (fun h hh => hwf h (List.mem_cons_of_mem _ (hsub.subset hh))))
      intro m' hm'
      obtain ⟨b, s, hm'eq, _⟩ := anchorClusters_head w _ _ (le_refl _) m' hm'
      have hb : b ∈ rest.filter (fun c => !coincident w a c) :=
        mem_of_mem_anchorClusters w _ m' hm' b (by rw [hm'eq]; exact List.mem_cons_self _ _)
      obtain ⟨hbrest, hbn⟩ := List.mem_filter.mp hb
      have hle : a.obj.ts1 ≤ b.obj.ts1 := (List.pairwise_cons.mp hsorted).1 b hbrest
      have hco : coincident w a b = false := by simpa using hbn
      have hiff := coincident_iff_of_le w a b hle (hwf b (List.mem_cons_of_mem _ hbrest))
      have hge : ¬ b.obj.ts1 - a.obj.ts1 < w := by
        intro hlt
        rw [hiff.mpr hlt] at hco
        cases hco
      exact ⟨a, _, b, s, rfl, hm'eq, by omega, hle, hco⟩

/-! ## Lemmas on the averaged fields -/

theorem wrappedMean_of (vals : List Nat) (hne : vals ≠ [])
    (hlen : vals.length < UINT16_SIZE) :
    WrappedMean vals ((vals.sum % UINT32_SIZE) / vals.length) := by
  have hpos : 0 < vals.length := List.length_pos.mpr hne
  have hbounds : (∀ lo, (∀ v ∈ vals, lo ≤ v) → lo ≤ vals.sum / vals.length) ∧
      (∀ hi, (∀ v ∈ vals, v ≤ hi) → vals.sum / vals.length ≤ hi) := by
    constructor
    · intro lo hlo
      rw [Nat.le_div_iff_mul_le hpos]
      have := List.card_nsmul_le_sum vals lo hlo
      simpa [mul_comm] using this
    · intro hi hhi
      have := List.sum_le_card_nsmul vals hi hhi
      exact Nat.div_le_of_le_mul (by simpa using this)
  have hback : (vals.sum % UINT32_SIZE) / vals.length = vals.sum / vals.length →
      vals.sum < UINT32_SIZE := by
    intro heq
    by_contra hge
    have hge' : UINT32_SIZE ≤ vals.sum := not_lt.mp hge
    have h1 : vals.sum % UINT32_SIZE ≤ vals.sum - UINT32_SIZE := by
      rw [Nat.mod_eq_sub_mod hge']
      exact Nat.mod_le _ _
    have h2 : (vals.sum % UINT32_SIZE) / vals.length ≤ (vals.sum - UINT32_SIZE) / vals.length :=
      Nat.div_le_div_right h1
    have h3 : 1 ≤ UINT32_SIZE / vals.length :=
      Nat.div_pos (by simp only [UINT16_SIZE, UINT32_SIZE] at hlen ⊢; omega) hpos
    have h4 := Nat.add_div_le_add_div (vals.sum - UINT32_SIZE) UINT32_SIZE vals.length
    rw [Nat.sub_add_cancel hge'] at h4
    omega
  refine ⟨rfl, ⟨hback, ?_⟩, ⟨fun h => hback h.1, ?_⟩⟩
  · intro hlt
    rw [Nat.mod_eq_of_lt hlt]
  · intro hlt
    rw [Nat.mod_eq_of_lt hlt]
    exact ⟨rfl, hbounds⟩

/-- The range property alone does not detect a wrapped sum: members with
`unixS` = 0, 4294967295, 4294967295 have the sum 8589934590, which wraps to
4294967294, and the reported average 1431655764 lies between the minimum and
the maximum although it is not the truncated mean 2863311530. -/
theorem wrapped_average_within_range :
    CharacteriseCluster exampleGeo
        [exampleStamped 0 1 0 0, exampleStamped 1 1 0 4294967295,
         exampleStamped 2 1 0 4294967295] 4
      = .ok { ts0 := 0, ts1 := 0, unixS := 1431655764, nHits := 3, tagger := 0,
              threeD := false } := rfl

/-! ## Lemmas on the channel filter and the board precondition -/

/-- For an annotation in the range of a 32-bit `int` the comparison after the
cast to `unsigned` is the comparison of the values. -/
theorem channelMatches_iff (info : FEBTruthInfo) (stripHit : Ptr CRTStripHit)
    (hlo : -2147483648 ≤ info.channel) (hhi : info.channel < 2147483648) :
    channelMatches info stripHit
      = decide (info.channel = ((stripHit.obj.channel % 32 : Nat) : Int)) := by
  unfold channelMatches
  have hk : stripHit.obj.channel % 32 < 32 := Nat.mod_lt _ (by decide)
  by_cases h : info.channel = ((stripHit.obj.channel % 32 : Nat) : Int)
  · rw [decide_eq_true h, decide_eq_true]
    omega
  · rw [decide_eq_false h, decide_eq_false]
    omega

theorem deposits_eq_flatMap_hits (event : EventAssns) (q : TruthQuery) :
    q.deposits event = (q.hits event).flatMap (hitDeposits event) := by
  cases q with
  | ofStripHit stripHit =>
    simp [TruthQuery.deposits, TruthQuery.hits]
  | ofCluster cluster => rfl

theorem oneBoard_iff_hits (event : EventAssns) (q : TruthQuery) :
    q.OneBoard event ↔ ∀ h ∈ q.hits event, (event.stripHitToFEBData h.key).length = 1 := by
  cases q with
  | ofStripHit stripHit =>
    simp [TruthQuery.OneBoard, TruthQuery.hits]
  | ofCluster cluster => rfl

/-- The deposits retained for a hit with one board record are those of
`channelDeposits`, without their annotations. -/
theorem hitDeposits_eq_channelDeposits (event : EventAssns) (stripHit : Ptr CRTStripHit)
    (hboard : (event.stripHitToFEBData stripHit.key).length = 1)
    (hint : AnnotationsInIntRange event stripHit) :
    hitDeposits event stripHit = (channelDeposits event stripHit).map Prod.fst := by
  obtain ⟨feb, hfeb⟩ : ∃ feb, event.stripHitToFEBData stripHit.key = [feb] := by
    match h : event.stripHitToFEBData stripHit.key, hboard with
    | [feb], _ => exact ⟨feb, rfl⟩
  unfold hitDeposits channelDeposits retained
  rw [hfeb]
  simp only [List.headD_cons, List.flatMap_cons, List.flatMap_nil, List.append_nil]
  congr 1
  apply List.filter_congr
  intro entry hentry
  have hr := hint feb (by rw [hfeb]; exact List.mem_singleton.mpr rfl) entry hentry
  exact channelMatches_iff entry.2 stripHit hr.1 hr.2

theorem febOf_ndebug (febData : List Nat) :
    TruthMatching.febOf true febData
      = match febData with
        | [] => .error .outOfRange
        | feb :: _ => .ok feb := rfl

theorem febOf_assert (febData : List Nat) (h : febData.length ≠ 1) :
    TruthMatching.febOf false febData = .error .assertFailed := by
  unfold TruthMatching.febOf
  simp [h]

theorem febOf_ndebug_of_ne_nil (febData : List Nat) (h : febData ≠ []) :
    TruthMatching.febOf true febData = .ok (febData.headD 0) := by
  cases febData with
  | nil => exact absurd rfl h
  | cons feb rest => rfl

/-- Without the assertion the strip-hit overload goes on with the first board
record whenever there is one. -/
theorem stripHit_ndebug (geo : CRTGeoAlg) (event : EventAssns) (self : State)
    (stripHit : Ptr CRTStripHit) (h : event.stripHitToFEBData stripHit.key ≠ []) :
    TruthMatching.stripHit geo true event self stripHit
      = .ok (matchOf (geo.ChannelToTaggerEnum stripHit.obj.channel) self
          (hitDeposits event stripHit)) := by
  unfold TruthMatching.stripHit
  rw [febOf_ndebug_of_ne_nil _ h]
  simp only [ideLoop_eq]
  rfl

theorem hitLoop_ndebug (event : EventAssns) :
    ∀ (hits : List (Ptr CRTStripHit)) (acc : Accum),
      (∀ h ∈ hits, event.stripHitToFEBData h.key ≠ []) →
      TruthMatching.hitLoop true event hits acc
        = .ok ((hits.flatMap (hitDeposits event)).foldl TruthMatching.addDeposit acc)
  | [], _, _ => rfl
  | h :: rest, acc, hall => by
    rw [TruthMatching.hitLoop, febOf_ndebug_of_ne_nil _ (hall h (List.mem_cons_self _ _))]
    simp only []
    rw [hitLoop_ndebug event rest _ (fun x hx => hall x (List.mem_cons_of_mem _ hx)),
      ideLoop_eq, List.flatMap_cons, List.foldl_append]
    rfl

/-- The loop over the member hits fails with the fault of the first hit whose
board look-up fails. -/
theorem hitLoop_error (ndebug : Bool) (event : EventAssns) (e0 : Fault) :
    ∀ (hits : List (Ptr CRTStripHit)) (acc : Accum),
      (∃ h ∈ hits, ∃ e, TruthMatching.febOf ndebug (event.stripHitToFEBData h.key) = .error e) →
      (∀ h ∈ hits, ∀ e,
        TruthMatching.febOf ndebug (event.stripHitToFEBData h.key) = .error e → e = e0) →
      TruthMatching.hitLoop ndebug event hits acc = .error e0
  | [], _, hex, _ => by
    obtain ⟨h, hh, _⟩ := hex
    exact absurd hh (List.not_mem_nil _)
  | h :: rest, acc, hex, hall => by
    rw [TruthMatching.hitLoop]
    cases hf : TruthMatching.febOf ndebug (event.stripHitToFEBData h.key) with
    | error e =>
      simp only []
      rw [hall h (List.mem_cons_self _ _) e hf]
    | ok feb =>
      simp only []
      apply hitLoop_error ndebug event e0 rest
      · obtain ⟨h', hh', e, he⟩ := hex
        rcases List.mem_cons.mp hh' with rfl | hmem
        · rw [hf] at he
          cases he
        · exact ⟨h', hmem, e, he⟩
      · exact fun x hx => hall x (List.mem_cons_of_mem _ hx)

theorem run_error (geo : CRTGeoAlg) (ndebug : Bool) (event : EventAssns) (self : State)
    (q : TruthQuery) (e0 : Fault)
    (hex : ∃ h ∈ q.hits event, ∃ e,
      TruthMatching.febOf ndebug (event.stripHitToFEBData h.key) = .error e)
    (hall : ∀ h ∈ q.hits event, ∀ e,
      TruthMatching.febOf ndebug (event.stripHitToFEBData h.key) = .error e → e = e0) :
    q.run geo ndebug event self = .error e0 := by
  cases q with
  | ofStripHit stripHit =>
    obtain ⟨h, hh, e, he⟩ := hex
    simp only [TruthQuery.hits, List.mem_singleton] at hh
    subst hh
    have := hall h (by simp [TruthQuery.hits]) e he
    subst this
    simp only [TruthQuery.run, TruthMatching.stripHit, he]
  | ofCluster cluster =>
    simp only [TruthQuery.run, TruthMatching.cluster]
    rw [hitLoop_error ndebug event e0 (event.clusterToStripHits cluster.key) _ hex hall]

theorem run_ndebug (geo : CRTGeoAlg) (event : EventAssns) (self : State) (q : TruthQuery)
    (h : ∀ h ∈ q.hits event, event.stripHitToFEBData h.key ≠ []) :
    q.run geo true event self = .ok (matchOf (q.tagger geo) self (q.deposits event)) := by
  cases q with
  | ofStripHit stripHit =>
    exact stripHit_ndebug geo event self stripHit (h stripHit (by simp [TruthQuery.hits]))
  | ofCluster cluster =>
    simp only [TruthQuery.run, TruthMatching.cluster]
    rw [hitLoop_ndebug event (event.clusterToStripHits cluster.key) _ h]
    rfl

theorem flatMap_congr_mem {α β : Type} (f g : α → List β) :
    ∀ (l : List α), (∀ x ∈ l, f x = g x) → l.flatMap f = l.flatMap g
  | [], _ => rfl
  | x :: xs, h => by
    rw [List.flatMap_cons, List.flatMap_cons, h x (List.mem_cons_self _ _),
      flatMap_congr_mem f g xs (fun y hy => h y (List.mem_cons_of_mem _ hy))]

/-! ## Lemmas on the accumulation over member hits -/

theorem energyOf_append (M : StdMap Int Int) (a : Int) (l₁ l₂ : List (Ptr AuxDetIDE)) :
    energyOf M a (l₁ ++ l₂) = energyOf M a l₁ + energyOf M a l₂ := by
  simp [energyOf, List.filter_append]

theorem energyOf_flatMap {α : Type} (M : StdMap Int Int) (a : Int)
    (f : α → List (Ptr AuxDetIDE)) :
    ∀ (l : List α), energyOf M a (l.flatMap f) = (l.map (fun x => energyOf M a (f x))).sum
  | [] => by simp [energyOf]
  | x :: xs => by
    rw [List.flatMap_cons, energyOf_append, energyOf_flatMap M a f xs]
    simp

theorem read_energyMapOf (M : StdMap Int Int) (deposits : List (Ptr AuxDetIDE)) (a : Int) :
    StdMap.read 0 (energyMapOf M deposits) a = energyOf M a deposits := by
  unfold StdMap.read
  rw [find_energyMapOf]
  by_cases h : deposits.any (fun ide => decide (rollUp M ide.obj.trackID = a)) = true
  · rw [if_pos h]
    rfl
  · rw [if_neg h]
    have hnil : deposits.filter (fun ide => decide (rollUp M ide.obj.trackID = a)) = [] := by
      rw [List.filter_eq_nil_iff]
      intro ide hide hp
      exact h (List.any_eq_true.mpr ⟨ide, hide, hp⟩)
    simp [energyOf, hnil]

/-- The per-ancestor accumulation of the loop over one hit's associated
deposits, started from empty locals. -/
theorem ideLoop_energyMap (self : State) (stripHit : Ptr CRTStripHit)
    (assnIDEVec : List (Ptr AuxDetIDE × FEBTruthInfo)) :
    (TruthMatching.ideLoop stripHit assnIDEVec
        { self := self, idToEnergyMap := [], totalEnergy := 0 }).idToEnergyMap
      = energyMapOf self.fTrackIDMotherMap (retained stripHit assnIDEVec) := by
  rw [ideLoop_eq, addDeposit_foldl]
  rfl

/-! ## Lemmas on the state a query leaves -/

namespace StdMap

variable {κ ν : Type} [LinearOrder κ]

/-- An access `m[k]` whose update leaves the stored value as it is does not
change a map that has the key. -/
theorem subscript_of_fixed (d : ν) (f : ν → ν) (m : StdMap κ ν) (k : κ) :
    ∀ (v : ν), find m k = some v → f v = v → subscript d f m k = m := by
  induction m with
  | nil => intro v h; simp [find] at h
  | cons p rest ih =>
    obtain ⟨k', v'⟩ := p
    intro v h hf
    rcases lt_trichotomy k k' with hk | hk | hk
    · simp [find, hk] at h
    · subst hk
      simp only [find, lt_irrefl, if_false, if_true, Option.some.injEq] at h
      subst h
      simp [subscript, hf]
    · have h1 : ¬ k < k' := not_lt_of_gt hk
      have h2 : k ≠ k' := ne_of_gt hk
      simp only [find, h1, h2, if_false] at h
      simp [subscript, h1, h2, ih v h hf]

end StdMap

theorem subscript2_of_some (m : StdMap Int (StdMap CRTTagger ℚ)) (a : Int) (t : CRTTagger)
    (h : (find2 m a t).isSome = true) :
    StdMap.subscript [] (fun byTagger => StdMap.subscript 0 (fun v => v) byTagger t) m a = m := by
  unfold find2 at h
  cases hm : StdMap.find m a with
  | none => rw [hm] at h; cases h
  | some byTagger =>
    rw [hm] at h
    change (StdMap.find byTagger t).isSome = true at h
    obtain ⟨v, hv⟩ := Option.isSome_iff_exists.mp h
    exact StdMap.subscript_of_fixed [] _ m a byTagger hm
      (StdMap.find_subscript_of_some 0 byTagger t v hv)

theorem selectStep_frame (tagger : CRTTagger) (T : ℚ) (best : Best) (entry : Int × ℚ) :
    (TruthMatching.selectStep tagger T best entry).self.fTrackIDMotherMap
        = best.self.fTrackIDMotherMap ∧
      (TruthMatching.selectStep tagger T best entry).self.fMCPnIDEsMap
        = best.self.fMCPnIDEsMap ∧
      (TruthMatching.selectStep tagger T best entry).self.fMCPRecoMap
        = best.self.fMCPRecoMap ∧
      (TruthMatching.selectStep tagger T best entry).self.fIDERecoMap
        = best.self.fIDERecoMap := by
  unfold TruthMatching.selectStep
  simp only []
  split <;> exact ⟨rfl, rfl, rfl, rfl⟩

/-- One iteration of the selection loop changes the energy map at most by
inserting a zero at the pair (selected id, tagger) when that pair was absent. -/
theorem selectStep_find2 (tagger : CRTTagger) (T : ℚ) (best : Best) (entry : Int × ℚ)
    (a : Int) (t : CRTTagger) :
    find2 (TruthMatching.selectStep tagger T best entry).self.fMCPIDEsEnergyMap a t
        = find2 best.self.fMCPIDEsEnergyMap a t ∨
      (find2 best.self.fMCPIDEsEnergyMap a t = none ∧
        find2 (TruthMatching.selectStep tagger T best entry).self.fMCPIDEsEnergyMap a t
          = some 0 ∧
        t = tagger ∧ a = entry.1) := by
  unfold TruthMatching.selectStep
  simp only []
  split
  · by_cases hp : (a, t) = (entry.1, tagger)
    · obtain ⟨ha, ht⟩ := Prod.mk.inj hp
      subst ha
      subst ht
      rw [find2_subscript_self]
      cases hf : find2 best.self.fMCPIDEsEnergyMap entry.1 t with
      | none => exact Or.inr ⟨rfl, rfl, rfl, rfl⟩
      | some v => exact Or.inl rfl
    · left
      exact find2_subscript_ne _ _ _ _ _ _ _ hp
  · exact Or.inl rfl

theorem selectStep_self_of_present (tagger : CRTTagger) (T : ℚ) (best : Best)
    (entry : Int × ℚ)
    (h : (find2 best.self.fMCPIDEsEnergyMap entry.1 tagger).isSome = true) :
    (TruthMatching.selectStep tagger T best entry).self = best.self := by
  unfold TruthMatching.selectStep
  simp only []
  split
  · simp only [subscript2_of_some _ _ _ h]
  · rfl

theorem foldl_selectStep_frame (tagger : CRTTagger) (T : ℚ) :
    ∀ (es : List (Int × ℚ)) (b0 : Best),
      (es.foldl (TruthMatching.selectStep tagger T) b0).self.fTrackIDMotherMap
          = b0.self.fTrackIDMotherMap ∧
        (es.foldl (TruthMatching.selectStep tagger T) b0).self.fMCPnIDEsMap
          = b0.self.fMCPnIDEsMap ∧
        (es.foldl (TruthMatching.selectStep tagger T) b0).self.fMCPRecoMap
          = b0.self.fMCPRecoMap ∧
        (es.foldl (TruthMatching.selectStep tagger T) b0).self.fIDERecoMap
          = b0.self.fIDERecoMap
  | [], _ => ⟨rfl, rfl, rfl, rfl⟩
  | e :: es, b0 => by
    obtain ⟨h1, h2, h3, h4⟩ := foldl_selectStep_frame tagger T es
      (TruthMatching.selectStep tagger T b0 e)
    obtain ⟨g1, g2, g3, g4⟩ := selectStep_frame tagger T b0 e
    rw [List.foldl_cons]
    exact ⟨h1.trans g1, h2.trans g2, h3.trans g3, h4.trans g4⟩

theorem foldl_selectStep_find2 (tagger : CRTTagger) (T : ℚ) (a : Int) (t : CRTTagger) :
    ∀ (es : List (Int × ℚ)) (b0 : Best),
      find2 (es.foldl (TruthMatching.selectStep tagger T) b0).self.fMCPIDEsEnergyMap a t
          = find2 b0.self.fMCPIDEsEnergyMap a t ∨
        (find2 b0.self.fMCPIDEsEnergyMap a t = none ∧
          find2 (es.foldl (TruthMatching.selectStep tagger T) b0).self.fMCPIDEsEnergyMap a t
            = some 0 ∧
          t = tagger ∧ a ∈ es.map Prod.fst)
  | [], _ => Or.inl rfl
  | e :: es, b0 => by
    rw [List.foldl_cons]
    rcases foldl_selectStep_find2 tagger T a t es (TruthMatching.selectStep tagger T b0 e)
      with ih | ⟨ih1, ih2, ih3, ih4⟩
    · rcases selectStep_find2 tagger T b0 e a t with hs | ⟨hs1, hs2, hs3, hs4⟩
      · exact Or.inl (ih.trans hs)
      · exact Or.inr ⟨hs1, ih.trans hs2, hs3, by rw [hs4]; simp⟩
    · rcases selectStep_find2 tagger T b0 e a t with hs | ⟨_, hs2, _, _⟩
      · exact Or.inr ⟨hs ▸ ih1, ih2, ih3, by
          rw [List.map_cons]
          exact List.mem_cons_of_mem _ ih4⟩
      · rw [hs2] at ih1
        cases ih1

theorem foldl_selectStep_self_of_present (tagger : CRTTagger) (T : ℚ) :
    ∀ (es : List (Int × ℚ)) (b0 : Best),
      (∀ e ∈ es, (find2 b0.self.fMCPIDEsEnergyMap e.1 tagger).isSome = true) →
      (es.foldl (TruthMatching.selectStep tagger T) b0).self = b0.self
  | [], _, _ => rfl
  | e :: es, b0, h => by
    have hstep := selectStep_self_of_present tagger T b0 e (h e (List.mem_cons_self _ _))
    rw [List.foldl_cons, foldl_selectStep_self_of_present tagger T es _ (by
      intro x hx
      rw [hstep]
      exact h x (List.mem_cons_of_mem _ hx)), hstep]

theorem mem_keys_energyMapOf (M : StdMap Int Int) (deposits : List (Ptr AuxDetIDE)) (a : Int)
    (ha : a ∈ (energyMapOf M deposits).map Prod.fst) :
    ∃ ide ∈ deposits, rollUp M ide.obj.trackID = a := by
  obtain ⟨e, he, rfl⟩ := List.mem_map.mp ha
  exact (any_rollUp_iff M deposits e.1).mp (energyOf_mem M deposits e he).1

/-- What a query leaves of the state: four maps as they were, and the energy
map changed at most by zero entries inserted at (ancestor of a retained
deposit, tagger of the query). -/
theorem matchOf_state (tagger : CRTTagger) (self : State) (deposits : List (Ptr AuxDetIDE)) :
    (matchOf tagger self deposits).2.fTrackIDMotherMap = self.fTrackIDMotherMap ∧
    (matchOf tagger self deposits).2.fMCPnIDEsMap = self.fMCPnIDEsMap ∧
    (matchOf tagger self deposits).2.fMCPRecoMap = self.fMCPRecoMap ∧
    (matchOf tagger self deposits).2.fIDERecoMap = self.fIDERecoMap ∧
    (∀ a t,
      find2 (matchOf tagger self deposits).2.fMCPIDEsEnergyMap a t
          = find2 self.fMCPIDEsEnergyMap a t ∨
        (find2 self.fMCPIDEsEnergyMap a t = none ∧
          find2 (matchOf tagger self deposits).2.fMCPIDEsEnergyMap a t = some 0 ∧
          t = tagger ∧ ∃ ide ∈ deposits, rollUp self.fTrackIDMotherMap ide.obj.trackID = a)) ∧
    ((∀ ide ∈ deposits,
        (find2 self.fMCPIDEsEnergyMap (rollUp self.fTrackIDMotherMap ide.obj.trackID)
          tagger).isSome = true) →
      (matchOf tagger self deposits).2 = self) := by
  rw [matchOf_eq]
  simp only []
  obtain ⟨h1, h2, h3, h4⟩ := foldl_selectStep_frame tagger (totalOf deposits)
    (energyMapOf self.fTrackIDMotherMap deposits)
    { self := self, trackid := -99999, bestPur := .finite 0, comp := .finite 0 }
  refine ⟨h1, h2, h3, h4, ?_, ?_⟩
  · intro a t
    rcases foldl_selectStep_find2 tagger (totalOf deposits) a t
      (energyMapOf self.fTrackIDMotherMap deposits)
      { self := self, trackid := -99999, bestPur := .finite 0, comp := .finite 0 }
      with h | ⟨g1, g2, g3, g4⟩
    · exact Or.inl h
    · exact Or.inr ⟨g1, g2, g3, mem_keys_energyMapOf _ _ _ g4⟩
  · intro hall
    apply foldl_selectStep_self_of_present
    intro e he
    obtain ⟨ide, hide, hr⟩ := mem_keys_energyMapOf self.fTrackIDMotherMap deposits e.1
      (List.mem_map.mpr ⟨e, he, rfl⟩)
    rw [← hr]
    exact hall ide hide

/-- Every read of the energy index gives the same value after a query as
before it. -/
theorem matchOf_state_indexedEnergy (tagger : CRTTagger) (self : State)
    (deposits : List (Ptr AuxDetIDE)) (t : CRTTagger) (a : Int) :
    indexedEnergy (matchOf tagger self deposits).2 t a = indexedEnergy self t a := by
  rw [indexedEnergy_eq_find2, indexedEnergy_eq_find2]
  rcases (matchOf_state tagger self deposits).2.2.2.2.1 a t with h | ⟨h1, h2, _, _⟩
  · rw [h]
  · rw [h1, h2]
    rfl

theorem foldl_selectStep_congr (tagger : CRTTagger) (T : ℚ) :
    ∀ (es : List (Int × ℚ)) (b1 b2 : Best),
      b1.trackid = b2.trackid → b1.bestPur = b2.bestPur → b1.comp = b2.comp →
      (∀ a, indexedEnergy b1.self tagger a = indexedEnergy b2.self tagger a) →
      (es.foldl (TruthMatching.selectStep tagger T) b1).trackid
          = (es.foldl (TruthMatching.selectStep tagger T) b2).trackid ∧
        (es.foldl (TruthMatching.selectStep tagger T) b1).bestPur
          = (es.foldl (TruthMatching.selectStep tagger T) b2).bestPur ∧
        (es.foldl (TruthMatching.selectStep tagger T) b1).comp
          = (es.foldl (TruthMatching.selectStep tagger T) b2).comp
  | [], _, _, h1, h2, h3, _ => ⟨h1, h2, h3⟩
  | e :: es, b1, b2, h1, h2, h3, h4 => by
    rw [List.foldl_cons, List.foldl_cons]
    have hread : StdMap.read 0 (StdMap.read [] b1.self.fMCPIDEsEnergyMap e.1) tagger
        = StdMap.read 0 (StdMap.read [] b2.self.fMCPIDEsEnergyMap e.1) tagger := h4 e.1
    apply foldl_selectStep_congr tagger T es
    · unfold TruthMatching.selectStep
      simp only [h2]
      split <;> simp [h1]
    · unfold TruthMatching.selectStep
      simp only [h2]
      split <;> simp [h2]
    · unfold TruthMatching.selectStep
      simp only [h2, hread]
      split <;> simp [h3]
    · intro a
      rw [selectStep_indexedEnergy, selectStep_indexedEnergy]
      exact h4 a

/-- The returned metrics depend on the state only through the ancestor map and
the values read from the energy index. -/
theorem matchOf_congr (tagger : CRTTagger) (self1 self2 : State)
    (deposits : List (Ptr AuxDetIDE))
    (hM : self1.fTrackIDMotherMap = self2.fTrackIDMotherMap)
    (hE : ∀ a, indexedEnergy self1 tagger a = indexedEnergy self2 tagger a) :
    (matchOf tagger self1 deposits).1 = (matchOf tagger self2 deposits).1 := by
  rw [matchOf_eq, matchOf_eq]
  simp only [hM]
  obtain ⟨h1, h2, h3⟩ := foldl_selectStep_congr tagger (totalOf deposits)
    (energyMapOf self2.fTrackIDMotherMap deposits)
    { self := self1, trackid := -99999, bestPur := .finite 0, comp := .finite 0 }
    { self := self2, trackid := -99999, bestPur := .finite 0, comp := .finite 0 }
    rfl rfl rfl hE
  rw [h1, h2, h3]

/-- A sequence of queries, each on hits with one board record, returns and
leaves the ancestor map and every read of the energy index as they were. -/
theorem runQueries_ok (geo : CRTGeoAlg) (ndebug : Bool) (event : EventAssns) :
    ∀ (ps : List TruthQuery) (self : State), (∀ p ∈ ps, p.OneBoard event) →
      ∃ st, runQueries geo ndebug event self ps = .ok st ∧
        st.fTrackIDMotherMap = self.fTrackIDMotherMap ∧
        ∀ t a, indexedEnergy st t a = indexedEnergy self t a
  | [], self, _ => ⟨self, rfl, rfl, fun _ _ => rfl⟩
  | p :: ps, self, h => by
    obtain ⟨st, hst, hM, hE⟩ := runQueries_ok geo ndebug event ps
      (matchOf (p.tagger geo) self (p.deposits event)).2
      (fun x hx => h x (List.mem_cons_of_mem _ hx))
    refine ⟨st, ?_, ?_, ?_⟩
    · rw [runQueries, run_eq_matchOf geo ndebug event self p (h p (List.mem_cons_self _ _))]
      exact hst
    · rw [hM]
      exact (matchOf_state _ _ _).1
    · intro t a
      rw [hE, matchOf_state_indexedEnergy]

/-! ## The claims on queries of `TruthMatching` and on clustering -/

/-- Claim C21. For two events in which the query walks the same hits, each
with exactly one board record and annotations in the range of `int`, and which
agree, hit by hit, on the associated deposits whose local-channel annotation
equals the hit's channel mod 32 (differing arbitrarily in deposits with other
annotations), `TruthMatching` returns the same track id, purity and
completeness, and leaves the same state. A strip-hit query walks the hit
itself, a cluster query its member hits. -/
theorem C21_channel_filter (geo : CRTGeoAlg) (ndebug : Bool) (event1 event2 : EventAssns)
    (self : State) (q : TruthQuery)
    (hhits : q.hits event1 = q.hits event2)
    (hboard1 : q.OneBoard event1) (hboard2 : q.OneBoard event2)
    (hint1 : ∀ h ∈ q.hits event1, AnnotationsInIntRange event1 h)
    (hint2 : ∀ h ∈ q.hits event2, AnnotationsInIntRange event2 h)
    (hagree : ∀ h ∈ q.hits event1, channelDeposits event1 h = channelDeposits event2 h) :
    ∃ r st, q.run geo ndebug event1 self = .ok (r, st) ∧
      q.run geo ndebug event2 self = .ok (r, st) := by
  have hdeps : q.deposits event1 = q.deposits event2 := by
    rw [deposits_eq_flatMap_hits, deposits_eq_flatMap_hits, ← hhits]
    apply flatMap_congr_mem
    intro h hh
    rw [hitDeposits_eq_channelDeposits event1 h ((oneBoard_iff_hits event1 q).mp hboard1 h hh)
        (hint1 h hh),
      hitDeposits_eq_channelDeposits event2 h
        ((oneBoard_iff_hits event2 q).mp hboard2 h (hhits ▸ hh)) (hint2 h (hhits ▸ hh)),
      hagree h hh]
  refine ⟨(matchOf (q.tagger geo) self (q.deposits event1)).1,
    (matchOf (q.tagger geo) self (q.deposits event1)).2,
    run_eq_matchOf geo ndebug event1 self q hboard1, ?_⟩
  rw [run_eq_matchOf geo ndebug event2 self q hboard2, ← hdeps]

/-- Claim C21 at the strip hit on channel 5 and two events whose boards carry
the same two deposits on local channel 5 and different deposits on other
channels. -/
theorem C21_channel_filter_witness :
    exampleEvent.febDataToIDEs 0 ≠ exampleEventOtherChannels.febDataToIDEs 0 ∧
    ∃ r st, exampleQuery.run exampleGeo false exampleEvent exampleState = .ok (r, st) ∧
      exampleQuery.run exampleGeo false exampleEventOtherChannels exampleState = .ok (r, st) :=
  ⟨by simp [exampleEvent, exampleEventOtherChannels, exampleIDE],
   C21_channel_filter exampleGeo false exampleEvent exampleEventOtherChannels exampleState
    exampleQuery rfl rfl rfl
    (by
      intro h hh feb _ entry hentry
      simp only [exampleEvent, List.mem_cons, List.mem_singleton, List.not_mem_nil,
        or_false] at hentry
      rcases hentry with rfl | rfl | rfl <;> decide)
    (by
      intro h hh feb _ entry hentry
      simp only [exampleEventOtherChannels, List.mem_cons, List.mem_singleton,
        List.not_mem_nil, or_false] at hentry
      rcases hentry with rfl | rfl | rfl <;> decide)
    (by
      intro h hh
      simp only [exampleQuery, TruthQuery.hits, List.mem_singleton] at hh
      subst hh
      rfl)⟩

/-- Claim C23 as stated fails when the assertion is compiled out (`NDEBUG`):
the strip hit with key 0 has the two board records 0 and 1, and
`TruthMatching` returns the match of the deposits of board 0, the first one
(track 4, completeness 2/9, purity 2/3). -/
theorem C23_board_precondition_counterexample :
    (exampleEventTwoBoards.stripHitToFEBData (exampleHit 0 5 0).key).length = 2 ∧
    ∃ st, TruthMatching.stripHit exampleGeo true exampleEventTwoBoards exampleState
        (exampleHit 0 5 0)
      = .ok ({ trackid := 4, completeness := .finite (2 / 9), purity := .finite (2 / 3) },
          st) := by
  refine ⟨rfl,
    (matchOf (exampleGeo.ChannelToTaggerEnum (exampleHit 0 5 0).obj.channel) exampleState
      [exampleIDE 0 3 1, exampleIDE 1 4 2]).2, ?_⟩
  rw [stripHit_ndebug exampleGeo exampleEventTwoBoards exampleState (exampleHit 0 5 0)
    (by simp [exampleEventTwoBoards])]
  have hdeps : hitDeposits exampleEventTwoBoards (exampleHit 0 5 0)
      = [exampleIDE 0 3 1, exampleIDE 1 4 2] := rfl
  have h := exampleMatch (exampleGeo.ChannelToTaggerEnum (exampleHit 0 5 0).obj.channel)
  rw [show indexedEnergy exampleState
      (exampleGeo.ChannelToTaggerEnum (exampleHit 0 5 0).obj.channel) 4 = 9
    from exampleState_indexed_tagger0] at h
  have hd : DoubleVal.div 2 9 = .finite (2 / 9) := by
    simp [DoubleVal.div]
  rw [hd] at h
  rw [hdeps, ← h]

/-- Claim C23 (amended). With the assertion compiled in, `TruthMatching` fails
(the assertion aborts) as soon as a hit it walks has zero or more than one
board record. With the assertion compiled out (`NDEBUG`), it fails
(`std::out_of_range` from `at(0)`) when a hit it walks has no board record,
and otherwise returns the match computed from the first board record of every
hit, also when a hit has more than one. -/
theorem C23_board_precondition (geo : CRTGeoAlg) (event : EventAssns) (self : State)
    (q : TruthQuery) :
    ((∃ h ∈ q.hits event, (event.stripHitToFEBData h.key).length ≠ 1) →
      q.run geo false event self = .error .assertFailed) ∧
    ((∃ h ∈ q.hits event, event.stripHitToFEBData h.key = []) →
      q.run geo true event self = .error .outOfRange) ∧
    ((∀ h ∈ q.hits event, event.stripHitToFEBData h.key ≠ []) →
      q.run geo true event self = .ok (matchOf (q.tagger geo) self (q.deposits event))) := by
  refine ⟨?_, ?_, run_ndebug geo event self q⟩
  · rintro ⟨h, hh, hlen⟩
    apply run_error geo false event self q .assertFailed
    · exact ⟨h, hh, _, febOf_assert _ hlen⟩
    · intro x _ e he
      by_cases hx : (event.stripHitToFEBData x.key).length = 1
      · rw [febOf_of_length_one false _ hx] at he
        cases he
      · rw [febOf_assert _ hx] at he
        injection he with he
        exact he.symm
  · rintro ⟨h, hh, hnil⟩
    apply run_error geo true event self q .outOfRange
    · exact ⟨h, hh, _, by rw [hnil]; rfl⟩
    · intro x _ e he
      cases hx : event.stripHitToFEBData x.key with
      | nil =>
        rw [hx] at he
        injection he with he
        exact he.symm
      | cons feb rest =>
        rw [hx] at he
        cases he

/-- Claim C24. For an input of fewer than 65536 strip hits `CreateClusters`
returns, and every returned pair has a member list of at least one and fewer
than 65536 hits, in input order, that starts with its anchor (every other
member passed the coincidence test against the first); `CharacteriseCluster`
returns the stored cluster on that member list, so neither its access to
element 0 nor its division by the member count fails. -/
theorem C24_no_empty_cluster (geo : CRTGeoAlg) (w : Nat) (stripHits : List (Ptr CRTStripHit))
    (hlen : stripHits.length < UINT16_SIZE) :
    ∃ out,
      (∀ fuel, stripHits.length + 2 ≤ fuel → CreateClusters geo w stripHits fuel = .ok out) ∧
      (∀ fuel out', CreateClusters geo w stripHits fuel = .ok out' → out' = out) ∧
      ∀ p ∈ out,
        1 ≤ p.2.length ∧ p.2.length % UINT16_SIZE ≠ 0 ∧
        (∃ anchor rest, p.2 = anchor :: rest ∧ anchor ∈ stripHits ∧
          ∀ c ∈ rest, coincident w anchor c = true) ∧
        List.Sublist p.2 stripHits ∧
        (∀ fuel, p.2.length + 1 ≤ fuel → CharacteriseCluster geo p.2 fuel = .ok p.1) := by
  refine ⟨(anchorClusters w stripHits).map (fun m => (clusterOf geo m, m)), ?_, ?_, ?_⟩
  · intro fuel hf
    exact CreateClusters_eq geo w stripHits fuel hlen hf
  · intro fuel out' h
    exact (CreateClusters_ok_iff geo w stripHits fuel out' h).2
  · intro p hp
    obtain ⟨m, hm, rfl⟩ := List.mem_map.mp hp
    have hsub := anchorClusters_sublist w _ stripHits (le_refl _) m hm
    obtain ⟨anchor, rest, hmeq, hrest⟩ := anchorClusters_head w _ stripHits (le_refl _) m hm
    have hne : m ≠ [] := by rw [hmeq]; simp
    have hpos : 1 ≤ m.length := by
      rw [hmeq]; simp
    have hlt : m.length < UINT16_SIZE := lt_of_le_of_lt hsub.length_le hlen
    refine ⟨hpos, ?_, ⟨anchor, rest, hmeq, ?_, hrest⟩, hsub, ?_⟩
    · show m.length % UINT16_SIZE ≠ 0
      rw [Nat.mod_eq_of_lt hlt]
      omega
    · exact hsub.subset (by rw [hmeq]; exact List.mem_cons_self _ _)
    · intro fuel hf
      exact CharacteriseCluster_eq geo m fuel hne hlt hf

/-- Claim C24 at the three hits with `ts1` = 0, 5, 9 and window 6: the member
lists are [0, 5] and [9]. -/
theorem C24_no_empty_cluster_witness :
    CreateClusters exampleGeo 6 [exampleHit 0 1 0, exampleHit 1 1 5, exampleHit 2 1 9] 5
      = .ok [({ ts0 := 0, ts1 := 2, unixS := 0, nHits := 2, tagger := 0, threeD := false },
              [exampleHit 0 1 0, exampleHit 1 1 5]),
             ({ ts0 := 0, ts1 := 9, unixS := 0, nHits := 1, tagger := 0, threeD := false },
              [exampleHit 2 1 9])] ∧
    ∃ out,
      (∀ fuel, [exampleHit 0 1 0, exampleHit 1 1 5, exampleHit 2 1 9].length + 2 ≤ fuel →
        CreateClusters exampleGeo 6 [exampleHit 0 1 0, exampleHit 1 1 5, exampleHit 2 1 9] fuel
          = .ok out) ∧
      (∀ fuel out',
        CreateClusters exampleGeo 6 [exampleHit 0 1 0, exampleHit 1 1 5, exampleHit 2 1 9] fuel
          = .ok out' → out' = out) ∧
      ∀ p ∈ out,
        1 ≤ p.2.length ∧ p.2.length % UINT16_SIZE ≠ 0 ∧
        (∃ anchor rest, p.2 = anchor :: rest ∧
          anchor ∈ [exampleHit 0 1 0, exampleHit 1 1 5, exampleHit 2 1 9] ∧
          ∀ c ∈ rest, coincident 6 anchor c = true) ∧
        List.Sublist p.2 [exampleHit 0 1 0, exampleHit 1 1 5, exampleHit 2 1 9] ∧
        (∀ fuel, p.2.length + 1 ≤ fuel → CharacteriseCluster exampleGeo p.2 fuel = .ok p.1) :=
  ⟨rfl, C24_no_empty_cluster exampleGeo 6 [exampleHit 0 1 0, exampleHit 1 1 5, exampleHit 2 1 9]
    (by decide)⟩

/-- Claim C25 as stated fails: on a list of 65536 hits no step budget makes
`CreateClusters` return, because its 16-bit counter never reaches the size. -/
theorem C25_CreateClusters_total_counterexample :
    (List.replicate 65536 (exampleHit 0 1 0)).length = 65536 ∧
    ¬ ∃ fuel out,
        CreateClusters exampleGeo 5 (List.replicate 65536 (exampleHit 0 1 0)) fuel = .ok out := by
  refine ⟨List.length_replicate _ _, ?_⟩
  rintro ⟨fuel, out, h⟩
  rw [CreateClusters_never exampleGeo 5 _
    (by rw [List.length_replicate]; exact Nat.le_refl _) fuel] at h
  cases h

/-- Claim C25 (amended). `CreateClusters` returns for every input of fewer
than 65536 strip hits: a step budget of the size plus two suffices and the
value does not depend on the budget. On 65536 or more hits the 16-bit loop
counter stays below the size, the loop condition never fails, and no budget
makes it return. -/
theorem C25_CreateClusters_total (geo : CRTGeoAlg) (w : Nat)
    (stripHits : List (Ptr CRTStripHit)) :
    (stripHits.length < UINT16_SIZE →
      ∃ out,
        (∀ fuel, stripHits.length + 2 ≤ fuel →
          CreateClusters geo w stripHits fuel = .ok out) ∧
        (∀ fuel out', CreateClusters geo w stripHits fuel = .ok out' → out' = out)) ∧
    (UINT16_SIZE ≤ stripHits.length →
      ∀ fuel, CreateClusters geo w stripHits fuel = .error .outOfFuel) := by
  refine ⟨fun hlen => ⟨(anchorClusters w stripHits).map (fun m => (clusterOf geo m, m)),
    fun fuel hf => CreateClusters_eq geo w stripHits fuel hlen hf,
    fun fuel out' h => (CreateClusters_ok_iff geo w stripHits fuel out' h).2⟩, ?_⟩
  intro hlen fuel
  exact CreateClusters_never geo w stripHits hlen fuel

/-- Claim C27. For every state (in particular one built by `SetupMaps`), every
sequence `ps` of queries and every query `q`, all on hits with exactly one
board record: `q` returns, the sequence returns, and `q` issued after the
sequence returns the same track id, completeness and purity as `q` issued
alone. The result of a query therefore does not depend on which queries were
issued before it, nor on their order. -/
theorem C27_queries_independent (geo : CRTGeoAlg) (ndebug : Bool) (event : EventAssns)
    (self : State) (ps : List TruthQuery) (q : TruthQuery)
    (hps : ∀ p ∈ ps, p.OneBoard event) (hq : q.OneBoard event) :
    ∃ r st st1 st2, q.run geo ndebug event self = .ok (r, st) ∧
      runQueries geo ndebug event self ps = .ok st1 ∧
      q.run geo ndebug event st1 = .ok (r, st2) := by
  obtain ⟨st1, hst1, hM, hE⟩ := runQueries_ok geo ndebug event ps self hps
  refine ⟨(matchOf (q.tagger geo) self (q.deposits event)).1,
    (matchOf (q.tagger geo) self (q.deposits event)).2, st1,
    (matchOf (q.tagger geo) st1 (q.deposits event)).2,
    run_eq_matchOf geo ndebug event self q hq, hst1, ?_⟩
  rw [run_eq_matchOf geo ndebug event st1 q hq,
    ← matchOf_congr (q.tagger geo) st1 self (q.deposits event) hM (fun a => hE _ a)]

/-- Claim C27 at the worked example: the query for the hit on channel 5
returns track 4 with completeness 2/9 and purity 2/3, alone and after the
query for the hit on channel 101, which inserts entries into the energy map. -/
theorem C27_queries_independent_witness :
    ∃ r st st1 st2, exampleQuery.run exampleGeo false exampleEvent exampleState = .ok (r, st) ∧
      runQueries exampleGeo false exampleEvent exampleState
        [.ofStripHit (exampleHit 0 101 0), exampleClusterQuery] = .ok st1 ∧
      exampleQuery.run exampleGeo false exampleEvent st1 = .ok (r, st2) :=
  C27_queries_independent exampleGeo false exampleEvent exampleState
    [.ofStripHit (exampleHit 0 101 0), exampleClusterQuery] exampleQuery
    (by
      intro p hp
      simp only [List.mem_cons, List.mem_singleton, List.not_mem_nil, or_false] at hp
      rcases hp with rfl | rfl
      · rfl
      · exact fun _ _ => rfl)
    rfl

/-- Claim C28. For an input of fewer than 65536 hits sorted ascending by `ts1`
(32-bit stamps), `CreateClusters` returns, and for any two clusters of the
output the anchor (first member) of the later one has a `ts1` at least the
window above the `ts1` of the earlier one's anchor: the anchors are in
non-decreasing `ts1` order, and the later anchor fails the coincidence test
against the earlier anchor. -/
theorem C28_anchor_separation (geo : CRTGeoAlg) (w : Nat) (stripHits : List (Ptr CRTStripHit))
    (hlen : stripHits.length < UINT16_SIZE) (hsorted : SortedByTs1 stripHits)
    (hwf : ∀ h ∈ stripHits, h.obj.ts1 < UINT32_SIZE) :
    ∃ out,
      (∀ fuel, stripHits.length + 2 ≤ fuel → CreateClusters geo w stripHits fuel = .ok out) ∧
      (∀ fuel out', CreateClusters geo w stripHits fuel = .ok out' → out' = out) ∧
      out.Pairwise (fun p q =>
        ∃ a r b s, p.2 = a :: r ∧ q.2 = b :: s ∧ a.obj.ts1 + w ≤ b.obj.ts1 ∧
          a.obj.ts1 ≤ b.obj.ts1 ∧ coincident w a b = false) := by
  refine ⟨(anchorClusters w stripHits).map (fun m => (clusterOf geo m, m)),
    fun fuel hf => CreateClusters_eq geo w stripHits fuel hlen hf,
    fun fuel out' h => (CreateClusters_ok_iff geo w stripHits fuel out' h).2, ?_⟩
  rw [List.pairwise_map]
  exact anchorClusters_pairwise w _ stripHits (le_refl _) hsorted hwf

/-- Claim C28 at the three hits with `ts1` = 0, 5, 9 and window 6: the anchors
are the hits at 0 and at 9. -/
theorem C28_anchor_separation_witness :
    CreateClusters exampleGeo 6 [exampleHit 0 1 0, exampleHit 1 1 5, exampleHit 2 1 9] 5
      = .ok [({ ts0 := 0, ts1 := 2, unixS := 0, nHits := 2, tagger := 0, threeD := false },
              [exampleHit 0 1 0, exampleHit 1 1 5]),
             ({ ts0 := 0, ts1 := 9, unixS := 0, nHits := 1, tagger := 0, threeD := false },
              [exampleHit 2 1 9])] ∧
    ∃ out,
      (∀ fuel, [exampleHit 0 1 0, exampleHit 1 1 5, exampleHit 2 1 9].length + 2 ≤ fuel →
        CreateClusters exampleGeo 6 [exampleHit 0 1 0, exampleHit 1 1 5, exampleHit 2 1 9] fuel
          = .ok out) ∧
      (∀ fuel out',
        CreateClusters exampleGeo 6 [exampleHit 0 1 0, exampleHit 1 1 5, exampleHit 2 1 9] fuel
          = .ok out' → out' = out) ∧
      out.Pairwise (fun p q =>
        ∃ a r b s, p.2 = a :: r ∧ q.2 = b :: s ∧ a.obj.ts1 + 6 ≤ b.obj.ts1 ∧
          a.obj.ts1 ≤ b.obj.ts1 ∧ coincident 6 a b = false) :=
  ⟨rfl, C28_anchor_separation exampleGeo 6
    [exampleHit 0 1 0, exampleHit 1 1 5, exampleHit 2 1 9] (by decide)
    (by simp [SortedByTs1, exampleHit])
    (by
      intro h hh
      simp only [List.mem_cons, List.mem_singleton, List.not_mem_nil, or_false] at hh
      rcases hh with rfl | rfl | rfl <;> simp [exampleHit, UINT32_SIZE])⟩

/-- Claim C29. For an input of fewer than 65536 hits sorted ascending by `ts1`
(32-bit stamps), `CreateClusters` returns; its member lists are those of the
single left-to-right sweep that starts a new cluster whenever
`ts1 - (current anchor's ts1) >= coincidence_window`, and their concatenation
in output order is the input list itself: every cluster is a contiguous run
and no hit is skipped. -/
theorem C29_contiguous_runs (geo : CRTGeoAlg) (w : Nat) (stripHits : List (Ptr CRTStripHit))
    (hlen : stripHits.length < UINT16_SIZE) (hsorted : SortedByTs1 stripHits)
    (hwf : ∀ h ∈ stripHits, h.obj.ts1 < UINT32_SIZE) :
    ∃ out,
      (∀ fuel, stripHits.length + 2 ≤ fuel → CreateClusters geo w stripHits fuel = .ok out) ∧
      (∀ fuel out', CreateClusters geo w stripHits fuel = .ok out' → out' = out) ∧
      out.map Prod.snd = sweepClusters w stripHits ∧
      (out.map Prod.snd).flatten = stripHits := by
  have hsweep := anchorClusters_eq_sweepClusters w _ stripHits (le_refl _) hsorted hwf
  refine ⟨(anchorClusters w stripHits).map (fun m => (clusterOf geo m, m)),
    fun fuel hf => CreateClusters_eq geo w stripHits fuel hlen hf,
    fun fuel out' h => (CreateClusters_ok_iff geo w stripHits fuel out' h).2, ?_, ?_⟩
  · rw [map_snd_clusterOf, hsweep]
  · rw [map_snd_clusterOf, hsweep, flatten_sweepClusters]

/-- Claim C29 at the four hits with `ts1` = 10, 12, 14, 50 and window 5: the
sweep gives the runs [10, 12, 14] and [50]. -/
theorem C29_contiguous_runs_witness :
    sweepClusters 5
        [exampleHit 0 1 10, exampleHit 1 1 12, exampleHit 2 1 14, exampleHit 3 1 50]
      = [[exampleHit 0 1 10, exampleHit 1 1 12, exampleHit 2 1 14], [exampleHit 3 1 50]] ∧
    ∃ out,
      (∀ fuel,
        [exampleHit 0 1 10, exampleHit 1 1 12, exampleHit 2 1 14, exampleHit 3 1 50].length + 2
          ≤ fuel →
        CreateClusters exampleGeo 5
          [exampleHit 0 1 10, exampleHit 1 1 12, exampleHit 2 1 14, exampleHit 3 1 50] fuel
          = .ok out) ∧
      (∀ fuel out',
        CreateClusters exampleGeo 5
          [exampleHit 0 1 10, exampleHit 1 1 12, exampleHit 2 1 14, exampleHit 3 1 50] fuel
          = .ok out' → out' = out) ∧
      out.map Prod.snd
        = sweepClusters 5
            [exampleHit 0 1 10, exampleHit 1 1 12, exampleHit 2 1 14, exampleHit 3 1 50] ∧
      (out.map Prod.snd).flatten
        = [exampleHit 0 1 10, exampleHit 1 1 12, exampleHit 2 1 14, exampleHit 3 1 50] :=
  ⟨by decide, C29_contiguous_runs exampleGeo 5
    [exampleHit 0 1 10, exampleHit 1 1 12, exampleHit 2 1 14, exampleHit 3 1 50] (by decide)
    (by simp [SortedByTs1, exampleHit])
    (by
      intro h hh
      simp only [List.mem_cons, List.mem_singleton, List.not_mem_nil, or_false] at hh
      rcases hh with rfl | rfl | rfl | rfl <;> simp [exampleHit, UINT32_SIZE])⟩

/-- Claim C30. For a member list of n hits, 1 <= n < 65536,
`CharacteriseCluster` returns, and each of its `ts0`, `ts1` and `unixS` is the
sum of the field over the members reduced modulo `2^32`, divided by n; the
value is the truncated mean exactly when the sum is below `2^32`, and it then
lies between the minimum and the maximum member value. -/
theorem C30_wraparound_average (geo : CRTGeoAlg) (clusteredHits : List (Ptr CRTStripHit))
    (hne : clusteredHits ≠ []) (hlen : clusteredHits.length < UINT16_SIZE) :
    ∃ cluster,
      (∀ fuel, clusteredHits.length + 1 ≤ fuel →
        CharacteriseCluster geo clusteredHits fuel = .ok cluster) ∧
      (∀ fuel c, CharacteriseCluster geo clusteredHits fuel = .ok c → c = cluster) ∧
      WrappedMean (clusteredHits.map (fun h => h.obj.ts0)) cluster.ts0 ∧
      WrappedMean (clusteredHits.map (fun h => h.obj.ts1)) cluster.ts1 ∧
      WrappedMean (clusteredHits.map (fun h => h.obj.unixS)) cluster.unixS := by
  have hmod : clusteredHits.length % UINT16_SIZE = clusteredHits.length :=
    Nat.mod_eq_of_lt hlen
  have hfield : ∀ f : Ptr CRTStripHit → Nat,
      WrappedMean (clusteredHits.map f)
        (((clusteredHits.map f).sum % UINT32_SIZE) / (clusteredHits.length % UINT16_SIZE)) := by
    intro f
    have h := wrappedMean_of (clusteredHits.map f) (by simpa using hne)
      (by simpa using hlen)
    rw [List.length_map] at h
    rw [hmod]
    exact h
  refine ⟨clusterOf geo clusteredHits,
    fun fuel hf => CharacteriseCluster_eq geo _ fuel hne hlen hf,
    fun fuel c h => (CharacteriseCluster_ok geo _ fuel c h).2.2, ?_, ?_, ?_⟩
  · exact hfield (fun h => h.obj.ts0)
  · exact hfield (fun h => h.obj.ts1)
  · exact hfield (fun h => h.obj.unixS)

/-- Claim C30 at three hits with `unixS = 1700000000`: the sum 5100000000
wraps to 805032704 and the reported average is 268344234, not 1700000000. -/
theorem C30_wraparound_average_witness :
    CharacteriseCluster exampleGeo
        [exampleStamped 0 1 0 1700000000, exampleStamped 1 1 0 1700000000,
         exampleStamped 2 1 0 1700000000] 4
      = .ok { ts0 := 0, ts1 := 0, unixS := 268344234, nHits := 3, tagger := 0,
              threeD := false } ∧
    ∃ cluster,
      (∀ fuel,
        [exampleStamped 0 1 0 1700000000, exampleStamped 1 1 0 1700000000,
         exampleStamped 2 1 0 1700000000].length + 1 ≤ fuel →
        CharacteriseCluster exampleGeo
          [exampleStamped 0 1 0 1700000000, exampleStamped 1 1 0 1700000000,
           exampleStamped 2 1 0 1700000000] fuel = .ok cluster) ∧
      (∀ fuel c,
        CharacteriseCluster exampleGeo
          [exampleStamped 0 1 0 1700000000, exampleStamped 1 1 0 1700000000,
           exampleStamped 2 1 0 1700000000] fuel = .ok c → c = cluster) ∧
      WrappedMean
        ([exampleStamped 0 1 0 1700000000, exampleStamped 1 1 0 1700000000,
          exampleStamped 2 1 0 1700000000].map (fun h => h.obj.ts0)) cluster.ts0 ∧
      WrappedMean
        ([exampleStamped 0 1 0 1700000000, exampleStamped 1 1 0 1700000000,
          exampleStamped 2 1 0 1700000000].map (fun h => h.obj.ts1)) cluster.ts1 ∧
      WrappedMean
        ([exampleStamped 0 1 0 1700000000, exampleStamped 1 1 0 1700000000,
          exampleStamped 2 1 0 1700000000].map (fun h => h.obj.unixS)) cluster.unixS :=
  ⟨rfl, C30_wraparound_average exampleGeo
    [exampleStamped 0 1 0 1700000000, exampleStamped 1 1 0 1700000000,
     exampleStamped 2 1 0 1700000000] (by simp) (by decide)⟩

/-! ## Lemmas on floating-point rounding -/

theorem roundHalfEven_intCast (n : ℤ) : roundHalfEven (n : ℚ) = n := by
  unfold roundHalfEven
  simp

theorem floor_le_roundHalfEven (x : ℚ) : ⌊x⌋ ≤ roundHalfEven x := by
  unfold roundHalfEven
  split
  · exact le_refl _
  · split
    · omega
    · split <;> omega

theorem roundHalfEven_le_floor_add_one (x : ℚ) : roundHalfEven x ≤ ⌊x⌋ + 1 := by
  unfold roundHalfEven
  split
  · omega
  · split
    · exact le_refl _
    · split <;> omega

theorem roundHalfEven_mono {x y : ℚ} (h : x ≤ y) : roundHalfEven x ≤ roundHalfEven y := by
  have hf : ⌊x⌋ ≤ ⌊y⌋ := Int.floor_mono h
  rcases lt_or_eq_of_le hf with hlt | heq
  · calc roundHalfEven x ≤ ⌊x⌋ + 1 := roundHalfEven_le_floor_add_one x
      _ ≤ ⌊y⌋ := hlt
      _ ≤ roundHalfEven y := floor_le_roundHalfEven y
  · have hfrac : x - ⌊x⌋ ≤ y - ⌊y⌋ := by
      rw [heq]
      linarith
    unfold roundHalfEven
    rw [heq]
    by_cases h1 : y - ⌊y⌋ < 1 / 2
    · have h2 : x - ((⌊y⌋ : ℤ) : ℚ) < 1 / 2 := by
        rw [heq] at hfrac
        linarith
      rw [if_pos h1, if_pos h2]
    · rw [if_neg h1]
      by_cases h3 : 1 / 2 < y - ⌊y⌋
      · rw [if_pos h3]
        split
        · omega
        · split
          · exact le_refl _
          · split <;> omega
      · rw [if_neg h3]
        have hy : y - ⌊y⌋ = 1 / 2 := le_antisymm (not_lt.mp h3) (not_lt.mp h1)
        by_cases h4 : x - ((⌊y⌋ : ℤ) : ℚ) < 1 / 2
        · rw [if_pos h4]
          split <;> omega
        · rw [if_neg h4]
          have h5 : ¬ (1 / 2 < x - ((⌊y⌋ : ℤ) : ℚ)) := by
            rw [heq] at hfrac
            linarith
          rw [if_neg h5]

theorem log_eq_of_bounds {q : ℚ} {L : ℤ} (h1 : (2 : ℚ) ^ L ≤ q) (h2 : q < (2 : ℚ) ^ (L + 1)) :
    Int.log 2 q = L := by
  have hq : 0 < q := lt_of_lt_of_le (zpow_pos (by norm_num) L) h1
  have ha : L ≤ Int.log 2 q :=
    (Int.zpow_le_iff_le_log (b := 2) (by norm_num) hq).mp (by exact_mod_cast h1)
  have hb : Int.log 2 q < L + 1 :=
    (Int.lt_zpow_iff_log_lt (b := 2) (by norm_num) hq).mp (by exact_mod_cast h2)
  omega

theorem scaled_bounds (n : ℕ) {q : ℚ} (hq : 0 < q) :
    ((2 ^ n : ℤ) : ℚ) ≤ q / (2 : ℚ) ^ ulpExponent n q ∧
      q / (2 : ℚ) ^ ulpExponent n q < ((2 ^ (n + 1) : ℤ) : ℚ) := by
  have hpos : (0 : ℚ) < (2 : ℚ) ^ ulpExponent n q := zpow_pos (by norm_num) _
  have h1 : (2 : ℚ) ^ Int.log 2 q ≤ q := by
    have := Int.zpow_log_le_self (b := 2) (by norm_num) hq
    exact_mod_cast this
  have h2 : q < (2 : ℚ) ^ (Int.log 2 q + 1) := by
    have := Int.lt_zpow_succ_log_self (b := 2) (by norm_num) q
    exact_mod_cast this
  constructor
  · rw [le_div_iff₀ hpos]
    have : ((2 ^ n : ℤ) : ℚ) * (2 : ℚ) ^ ulpExponent n q = (2 : ℚ) ^ Int.log 2 q := by
      unfold ulpExponent
      push_cast
      rw [← zpow_natCast, ← zpow_add₀ (by norm_num : (2 : ℚ) ≠ 0)]
      congr 1
      omega
    rw [this]
    exact h1
  · rw [div_lt_iff₀ hpos]
    have : ((2 ^ (n + 1) : ℤ) : ℚ) * (2 : ℚ) ^ ulpExponent n q = (2 : ℚ) ^ (Int.log 2 q + 1) := by
      unfold ulpExponent
      push_cast
      rw [← zpow_natCast, ← zpow_add₀ (by norm_num : (2 : ℚ) ≠ 0)]
      congr 1
      push_cast
      omega
    rw [this]
    exact h2

theorem roundHalfEven_scaled_bounds (n : ℕ) {q : ℚ} (hq : 0 < q) :
    (2 ^ n : ℤ) ≤ roundHalfEven (q / (2 : ℚ) ^ ulpExponent n q) ∧
      roundHalfEven (q / (2 : ℚ) ^ ulpExponent n q) ≤ (2 ^ (n + 1) : ℤ) := by
  obtain ⟨h1, h2⟩ := scaled_bounds n hq
  constructor
  · have := roundHalfEven_mono h1
    rwa [roundHalfEven_intCast] at this
  · have := roundHalfEven_mono h2.le
    rwa [roundHalfEven_intCast] at this

theorem roundNearestEven_of_pos (n : ℕ) {q : ℚ} (hq : 0 < q) :
    roundNearestEven n q
      = (roundHalfEven (q / (2 : ℚ) ^ ulpExponent n q) : ℚ) * (2 : ℚ) ^ ulpExponent n q := by
  unfold roundNearestEven
  rw [if_pos hq]

theorem roundNearestEven_zero (n : ℕ) : roundNearestEven n 0 = 0 := by
  unfold roundNearestEven
  simp

theorem roundNearestEven_pos (n : ℕ) {q : ℚ} (hq : 0 < q) : 0 < roundNearestEven n q := by
  rw [roundNearestEven_of_pos n hq]
  apply mul_pos
  · have h := (roundHalfEven_scaled_bounds n hq).1
    have : (0 : ℤ) < roundHalfEven (q / (2 : ℚ) ^ ulpExponent n q) :=
      lt_of_lt_of_le (by positivity) h
    exact_mod_cast this
  · exact zpow_pos (by norm_num) _

/-- The value `2 ^ L` bounds the rounded value from below and `2 ^ (L + 1)` from
above, `L` being the binary exponent of the argument. -/
theorem roundNearestEven_bounds (n : ℕ) {q : ℚ} (hq : 0 < q) :
    (2 : ℚ) ^ Int.log 2 q ≤ roundNearestEven n q ∧
      roundNearestEven n q ≤ (2 : ℚ) ^ (Int.log 2 q + 1) := by
  rw [roundNearestEven_of_pos n hq]
  obtain ⟨h1, h2⟩ := roundHalfEven_scaled_bounds n hq
  have hpos : (0 : ℚ) < (2 : ℚ) ^ ulpExponent n q := zpow_pos (by norm_num) _
  have e1 : (2 : ℚ) ^ Int.log 2 q = ((2 ^ n : ℤ) : ℚ) * (2 : ℚ) ^ ulpExponent n q := by
    unfold ulpExponent
    push_cast
    rw [← zpow_natCast, ← zpow_add₀ (by norm_num : (2 : ℚ) ≠ 0)]
    congr 1
    omega
  have e2 : (2 : ℚ) ^ (Int.log 2 q + 1)
      = ((2 ^ (n + 1) : ℤ) : ℚ) * (2 : ℚ) ^ ulpExponent n q := by
    unfold ulpExponent
    push_cast
    rw [← zpow_natCast, ← zpow_add₀ (by norm_num : (2 : ℚ) ≠ 0)]
    congr 1
    push_cast
    omega
  rw [e1, e2]
  constructor
  · exact mul_le_mul_of_nonneg_right (by exact_mod_cast h1) hpos.le
  · exact mul_le_mul_of_nonneg_right (by exact_mod_cast h2) hpos.le

theorem roundNearestEven_mono_of_pos (n : ℕ) {x y : ℚ} (hx : 0 < x) (hxy : x ≤ y) :
    roundNearestEven n x ≤ roundNearestEven n y := by
  have hy : 0 < y := lt_of_lt_of_le hx hxy
  have hlog : Int.log 2 x ≤ Int.log 2 y := Int.log_mono_right hx hxy
  rcases lt_or_eq_of_le hlog with hlt | heq
  · calc roundNearestEven n x ≤ (2 : ℚ) ^ (Int.log 2 x + 1) := (roundNearestEven_bounds n hx).2
      _ ≤ (2 : ℚ) ^ Int.log 2 y := zpow_le_zpow_right₀ (by norm_num) (by omega)
      _ ≤ roundNearestEven n y := (roundNearestEven_bounds n hy).1
  · rw [roundNearestEven_of_pos n hx, roundNearestEven_of_pos n hy]
    have he : ulpExponent n x = ulpExponent n y := by
      unfold ulpExponent
      rw [heq]
    rw [he]
    have hpos : (0 : ℚ) < (2 : ℚ) ^ ulpExponent n y := zpow_pos (by norm_num) _
    apply mul_le_mul_of_nonneg_right _ hpos.le
    have : roundHalfEven (x / (2 : ℚ) ^ ulpExponent n y)
        ≤ roundHalfEven (y / (2 : ℚ) ^ ulpExponent n y) :=
      roundHalfEven_mono (div_le_div_of_nonneg_right hxy hpos.le)
    exact_mod_cast this

theorem roundNearestEven_mono_of_nonneg (n : ℕ) {x y : ℚ} (hx : 0 ≤ x) (hxy : x ≤ y) :
    roundNearestEven n x ≤ roundNearestEven n y := by
  rcases lt_or_eq_of_le hx with h | h
  · exact roundNearestEven_mono_of_pos n h hxy
  · rw [← h, roundNearestEven_zero]
    rcases lt_or_eq_of_le (h ▸ hxy : (0 : ℚ) ≤ y) with hy | hy
    · exact (roundNearestEven_pos n hy).le
    · rw [← hy, roundNearestEven_zero]

/-- A value `m * 2 ^ k` with `2 ^ n <= m < 2 ^ (n + 1)` belongs to the format
and is left as it is. -/
theorem roundNearestEven_of_representable (n : ℕ) (m k : ℤ) (h1 : (2 ^ n : ℤ) ≤ m)
    (h2 : m < (2 ^ (n + 1) : ℤ)) :
    roundNearestEven n ((m : ℚ) * (2 : ℚ) ^ k) = (m : ℚ) * (2 : ℚ) ^ k := by
  have hk : (0 : ℚ) < (2 : ℚ) ^ k := zpow_pos (by norm_num) _
  have hm : (0 : ℚ) < (m : ℚ) := by
    have : (0 : ℤ) < m := lt_of_lt_of_le (by positivity) h1
    exact_mod_cast this
  have hq : (0 : ℚ) < (m : ℚ) * (2 : ℚ) ^ k := mul_pos hm hk
  have hlog : Int.log 2 ((m : ℚ) * (2 : ℚ) ^ k) = k + n := by
    apply log_eq_of_bounds
    · rw [zpow_add₀ (by norm_num : (2 : ℚ) ≠ 0), mul_comm, zpow_natCast]
      apply mul_le_mul_of_nonneg_right _ hk.le
      exact_mod_cast h1
    · rw [show k + (n : ℤ) + 1 = k + ((n + 1 : ℕ) : ℤ) by push_cast; ring,
        zpow_add₀ (by norm_num : (2 : ℚ) ≠ 0), mul_comm ((2 : ℚ) ^ k), zpow_natCast]
      apply mul_lt_mul_of_pos_right _ hk
      exact_mod_cast h2
  rw [roundNearestEven_of_pos n hq]
  have he : ulpExponent n ((m : ℚ) * (2 : ℚ) ^ k) = k := by
    unfold ulpExponent
    rw [hlog]
    ring
  rw [he, mul_div_assoc, div_self hk.ne', mul_one, roundHalfEven_intCast]

theorem roundNearestEven_idem_of_nonneg (n : ℕ) {q : ℚ} (hq : 0 ≤ q) :
    roundNearestEven n (roundNearestEven n q) = roundNearestEven n q := by
  rcases lt_or_eq_of_le hq with h | h
  · rw [roundNearestEven_of_pos n h]
    obtain ⟨h1, h2⟩ := roundHalfEven_scaled_bounds n h
    rcases lt_or_eq_of_le h2 with hlt | heq
    · exact roundNearestEven_of_representable n _ _ h1 hlt
    · rw [heq]
      have : (((2 ^ (n + 1) : ℤ) : ℚ)) * (2 : ℚ) ^ ulpExponent n q
          = ((2 ^ n : ℤ) : ℚ) * (2 : ℚ) ^ (ulpExponent n q + 1) := by
        push_cast
        rw [zpow_add₀ (by norm_num : (2 : ℚ) ≠ 0)]
        ring
      rw [this]
      exact roundNearestEven_of_representable n _ _ (le_refl _)
        (by
          have : (2 : ℤ) ^ n < 2 ^ (n + 1) := by
            rw [pow_succ]
            have : (0 : ℤ) < 2 ^ n := by positivity
            omega
          exact this)
  · rw [← h, roundNearestEven_zero, roundNearestEven_zero]

theorem roundNearestEven_of_log (n : ℕ) {q : ℚ} {L : ℤ} (h1 : (2 : ℚ) ^ L ≤ q)
    (h2 : q < (2 : ℚ) ^ (L + 1)) :
    roundNearestEven n q
      = (roundHalfEven (q / (2 : ℚ) ^ (L - (n : ℤ))) : ℚ) * (2 : ℚ) ^ (L - (n : ℤ)) := by
  have hq : 0 < q := lt_of_lt_of_le (zpow_pos (by norm_num) L) h1
  rw [roundNearestEven_of_pos n hq]
  unfold ulpExponent
  rw [log_eq_of_bounds h1 h2]

theorem roundHalfEven_of_tie_even (m : ℤ) (hm : m % 2 = 0) :
    roundHalfEven ((m : ℚ) + 1 / 2) = m := by
  have hfl : ⌊(m : ℚ) + 1 / 2⌋ = m := by
    rw [Int.floor_eq_iff]
    constructor <;> norm_num
  unfold roundHalfEven
  rw [hfl]
  norm_num
  exact Int.dvd_of_emod_eq_zero hm

theorem roundHalfEven_of_lt_half (m : ℤ) (r : ℚ) (h0 : 0 ≤ r) (h1 : r < 1 / 2) :
    roundHalfEven ((m : ℚ) + r) = m := by
  have hfl : ⌊(m : ℚ) + r⌋ = m := by
    rw [Int.floor_eq_iff]
    constructor <;> linarith
  unfold roundHalfEven
  rw [hfl, if_pos (by linarith)]

theorem binary64_one : binary64 1 = 1 := by
  have h := roundNearestEven_of_representable 52 (2 ^ 52) (-52) (le_refl _) (by norm_num)
  have e : (((2 ^ 52 : ℤ) : ℚ)) * (2 : ℚ) ^ (-52 : ℤ) = 1 := by norm_num
  rw [e] at h
  exact h

theorem binary64_tie : binary64 (1 + 1 / 2 ^ 53) = 1 := by
  unfold binary64
  rw [roundNearestEven_of_log 52 (L := 0) (by norm_num) (by norm_num)]
  have e : (1 + 1 / 2 ^ 53 : ℚ) / (2 : ℚ) ^ ((0 : ℤ) - ((52 : ℕ) : ℤ))
      = ((2 ^ 52 : ℤ) : ℚ) + 1 / 2 := by norm_num
  rw [e, roundHalfEven_of_tie_even _ (by norm_num)]
  norm_num

theorem binary64_two_thirds : binary64 (2 / 3) < 2 / 3 := by
  unfold binary64
  rw [roundNearestEven_of_log 52 (L := -1) (by norm_num) (by norm_num)]
  have e : (2 / 3 : ℚ) / (2 : ℚ) ^ ((-1 : ℤ) - ((52 : ℕ) : ℤ))
      = ((6004799503160661 : ℤ) : ℚ) + 1 / 3 := by norm_num
  rw [e, roundHalfEven_of_lt_half _ _ (by norm_num) (by norm_num)]
  norm_num

/-! ## Lemmas on the rounded `SetupMaps` -/

/-- A fold of updates that each apply `step` at key `key x` of a map-like
store, read through `get`. -/
theorem get_foldl_step {S K V α : Type} [DecidableEq K]
    (get : S → K → Option V) (upd : S → α → S) (key : α → K) (step : V → α → V) (d : V)
    (hself : ∀ s x, get (upd s x) (key x) = some (step ((get s (key x)).getD d) x))
    (hne : ∀ s x k, k ≠ key x → get (upd s x) k = get s k) (k : K) :
    ∀ (l : List α) (s : S),
      get (l.foldl upd s) k
        = if (get s k).isSome || l.any (fun x => decide (key x = k)) then
            some ((l.filter (fun x => decide (key x = k))).foldl step ((get s k).getD d))
          else none
  | [], s => by
    cases h : get s k <;> simp [h]
  | x :: l, s => by
    rw [List.foldl_cons, get_foldl_step get upd key step d hself hne k l]
    by_cases hx : key x = k
    · subst hx
      rw [hself]
      simp
    · rw [hne s x k (Ne.symm hx)]
      simp [hx]

theorem ideTagger_withRounding (fp : FloatArith) (geo : CRTGeoAlg) (ide : Ptr AuxDetIDE) :
    ideTagger (withRounding fp geo) ide = Rounded.ideTagger fp geo ide := by
  have h : ∀ x : ℚ, 2 * (x / 2) = x := fun x => by ring
  simp only [ideTagger, Rounded.ideTagger, withRounding, h]

theorem depositsOf_withRounding (fp : FloatArith) (geo : CRTGeoAlg) (M : StdMap Int Int)
    (a : Int) (t : CRTTagger) (l : List (Ptr AuxDetIDE)) :
    depositsOf (withRounding fp geo) M a t l = Rounded.depositsOf fp geo M a t l := by
  unfold depositsOf Rounded.depositsOf
  simp only [ideTagger_withRounding]

theorem rounded_categoryLoop_eq (fp : FloatArith) (geo : CRTGeoAlg) (self : State)
    (ideVec : List (Ptr AuxDetIDE)) :
    Rounded.SetupMaps.categoryLoop fp geo self ideVec
      = SetupMaps.categoryLoop (withRounding fp geo) self ideVec := by
  unfold Rounded.SetupMaps.categoryLoop SetupMaps.categoryLoop
  simp only [ideTagger_withRounding]

theorem rounded_fillLoop_foldl (fp : FloatArith) (geo : CRTGeoAlg) :
    ∀ (ideVec : List (Ptr AuxDetIDE)) (s : State),
      Rounded.SetupMaps.fillLoop fp geo s ideVec
        = { s with
            fMCPnIDEsMap :=
              ideVec.foldl
                (fun m ide =>
                  StdMap.subscript [] (fun byTagger =>
                    StdMap.subscript 0 (fun n => n + 1) byTagger
                      (ideTagger (withRounding fp geo) ide))
                    m (rollUp s.fTrackIDMotherMap ide.obj.trackID))
                s.fMCPnIDEsMap
            fMCPIDEsEnergyMap :=
              ideVec.foldl
                (fun m ide =>
                  StdMap.subscript [] (fun byTagger =>
                    StdMap.subscript 0 (fun e => fp.add e ide.obj.energyDeposited) byTagger
                      (ideTagger (withRounding fp geo) ide))
                    m (rollUp s.fTrackIDMotherMap ide.obj.trackID))
                s.fMCPIDEsEnergyMap
            fIDERecoMap :=
              ideVec.foldl
                (fun m ide => StdMap.subscript false (fun _ => false) m (ide.key : Int))
                s.fIDERecoMap }
  | [], s => rfl
  | ide :: ideVec, s => by
    have ih := rounded_fillLoop_foldl fp geo ideVec
    unfold Rounded.SetupMaps.fillLoop at ih ⊢
    rw [List.foldl_cons, ih]
    simp only [RollUpID_eq, List.foldl_cons, ideTagger_withRounding]

theorem rounded_SetupMaps_motherMap (fp : FloatArith) (geo : CRTGeoAlg) (self : State)
    (maps : List (StdMap Int (List Int))) (ideVec : List (Ptr AuxDetIDE)) :
    (Rounded.SetupMaps fp geo self maps ideVec).fTrackIDMotherMap = motherMapOf maps := by
  simp only [Rounded.SetupMaps, rounded_categoryLoop_eq, motherLoop_eq, categoryLoop_eq,
    initLoop_foldl, rounded_fillLoop_foldl, motherMapOf]

theorem rounded_SetupMaps_energyMap (fp : FloatArith) (geo : CRTGeoAlg) (self : State)
    (maps : List (StdMap Int (List Int))) (ideVec : List (Ptr AuxDetIDE)) :
    (Rounded.SetupMaps fp geo self maps ideVec).fMCPIDEsEnergyMap
      = ideVec.foldl
          (fun m ide =>
            StdMap.subscript [] (fun byTagger =>
              StdMap.subscript 0 (fun e => fp.add e ide.obj.energyDeposited) byTagger
                (ideTagger (withRounding fp geo) ide))
              m (rollUp (motherMapOf maps) ide.obj.trackID))
          ((ideVec.foldl
              (fun c ide =>
                StdMap.subscript () (fun _ => ()) c
                  (toLex (rollUp (motherMapOf maps) ide.obj.trackID,
                    ideTagger (withRounding fp geo) ide)))
              ([] : StdMap (Lex (Int × CRTTagger)) Unit)).foldl
            (fun m category =>
              StdMap.subscript [] (fun byTagger =>
                StdMap.subscript 0 (fun _ => 0) byTagger (ofLex category.1).2)
                m (ofLex category.1).1)
            []) := by
  simp only [Rounded.SetupMaps, rounded_categoryLoop_eq, motherLoop_eq, categoryLoop_eq,
    initLoop_foldl, rounded_fillLoop_foldl, motherMapOf]

/-- The energy the rounded `SetupMaps` stores at (a, t): nothing when no
deposit belongs to the pair, otherwise the accumulation, in event order, of the
energies of the deposits of the pair. -/
theorem rounded_SetupMaps_find2_energy (fp : FloatArith) (geo : CRTGeoAlg) (self : State)
    (maps : List (StdMap Int (List Int))) (ideVec : List (Ptr AuxDetIDE)) (a : Int)
    (t : CRTTagger) :
    find2 (Rounded.SetupMaps fp geo self maps ideVec).fMCPIDEsEnergyMap a t
      = if (Rounded.depositsOf fp geo (motherMapOf maps) a t ideVec).isEmpty then none
        else some (accumulate fp
          ((Rounded.depositsOf fp geo (motherMapOf maps) a t ideVec).map
            (fun ide => ide.obj.energyDeposited))) := by
  rw [rounded_SetupMaps_energyMap]
  have h := get_foldl_step (S := StdMap Int (StdMap CRTTagger ℚ)) (K := Int × CRTTagger)
    (fun m k => find2 m k.1 k.2)
    (fun m (ide : Ptr AuxDetIDE) =>
      StdMap.subscript [] (fun byTagger =>
        StdMap.subscript 0 (fun e => fp.add e ide.obj.energyDeposited) byTagger
          (ideTagger (withRounding fp geo) ide))
        m (rollUp (motherMapOf maps) ide.obj.trackID))
    (fun ide => (rollUp (motherMapOf maps) ide.obj.trackID, ideTagger (withRounding fp geo) ide))
    (fun (v : ℚ) (ide : Ptr AuxDetIDE) => fp.add v ide.obj.energyDeposited) 0
    (fun s x => find2_subscript_self _ _ _ _ _)
    (fun s x k hk => find2_subscript_ne _ _ _ _ _ _ _ hk) (a, t) ideVec
  simp only at h
  rw [h, find2_init, filter_key_eq_depositsOf, any_key_eq_depositsOf, depositsOf_withRounding]
  by_cases he : (Rounded.depositsOf fp geo (motherMapOf maps) a t ideVec).isEmpty = true
  · simp [he]
  · simp [he, accumulate, List.foldl_map]

theorem rounded_SetupMaps_indexedEnergy (fp : FloatArith) (geo : CRTGeoAlg) (self : State)
    (maps : List (StdMap Int (List Int))) (ideVec : List (Ptr AuxDetIDE)) (a : Int)
    (t : CRTTagger) :
    indexedEnergy (Rounded.SetupMaps fp geo self maps ideVec) t a
      = accumulate fp
          ((Rounded.depositsOf fp geo (motherMapOf maps) a t ideVec).map
            (fun ide => ide.obj.energyDeposited)) := by
  rw [indexedEnergy_eq_find2, rounded_SetupMaps_find2_energy]
  by_cases he : (Rounded.depositsOf fp geo (motherMapOf maps) a t ideVec).isEmpty = true
  · rw [if_pos he, List.isEmpty_iff.mp he]
    rfl
  · rw [if_neg he]
    rfl

/-! ## Lemmas on the rounded `TruthMatching` -/

theorem rounded_ideLoop_eq (fp : FloatArith) (stripHit : Ptr CRTStripHit) :
    ∀ (assnIDEVec : List (Ptr AuxDetIDE × FEBTruthInfo)) (acc : Accum),
      Rounded.TruthMatching.ideLoop fp stripHit assnIDEVec acc
        = (retained stripHit assnIDEVec).foldl (Rounded.TruthMatching.addDeposit fp) acc
  | [], _ => rfl
  | entry :: rest, acc => by
    have ih := rounded_ideLoop_eq fp stripHit rest
    unfold Rounded.TruthMatching.ideLoop retained at ih ⊢
    rw [List.foldl_cons]
    cases hc : channelMatches entry.2 stripHit
    · simp only [Bool.false_eq_true, if_false, List.filter_cons, hc]
      exact ih acc
    · simp only [if_true, List.filter_cons, hc, List.map_cons, List.foldl_cons]
      exact ih _

theorem rounded_addDeposit_foldl (fp : FloatArith) :
    ∀ (deposits : List (Ptr AuxDetIDE)) (acc : Accum),
      deposits.foldl (Rounded.TruthMatching.addDeposit fp) acc
        = { self := acc.self
            idToEnergyMap :=
              deposits.foldl
                (fun m ide =>
                  StdMap.subscript 0 (fun e => fp.add e ide.obj.energyDeposited) m
                    (rollUp acc.self.fTrackIDMotherMap ide.obj.trackID))
                acc.idToEnergyMap
            totalEnergy :=
              (deposits.map (fun ide => ide.obj.energyDeposited)).foldl fp.add
                acc.totalEnergy }
  | [], acc => rfl
  | ide :: rest, acc => by
    rw [List.foldl_cons, rounded_addDeposit_foldl fp rest]
    simp only [Rounded.TruthMatching.addDeposit, RollUpID_eq, List.foldl_cons, List.map_cons]

theorem rounded_stripHit_eq_matchOf (fp : FloatArith) (geo : CRTGeoAlg) (ndebug : Bool)
    (event : EventAssns) (self : State) (stripHit : Ptr CRTStripHit)
    (hfeb : (event.stripHitToFEBData stripHit.key).length = 1) :
    Rounded.TruthMatching.stripHit fp geo ndebug event self stripHit
      = .ok (Rounded.matchOf fp (geo.ChannelToTaggerEnum stripHit.obj.channel) self
          (hitDeposits event stripHit)) := by
  simp only [Rounded.TruthMatching.stripHit, febOf_of_length_one ndebug _ hfeb,
    rounded_ideLoop_eq, Rounded.matchOf, hitDeposits]

theorem rounded_hitLoop_eq (fp : FloatArith) (ndebug : Bool) (event : EventAssns) :
    ∀ (hits : List (Ptr CRTStripHit)) (acc : Accum),
      (∀ h ∈ hits, (event.stripHitToFEBData h.key).length = 1) →
      Rounded.TruthMatching.hitLoop fp ndebug event hits acc
        = .ok ((hits.flatMap (hitDeposits event)).foldl
            (Rounded.TruthMatching.addDeposit fp) acc)
  | [], _, _ => rfl
  | h :: rest, acc, hall => by
    rw [Rounded.TruthMatching.hitLoop,
      febOf_of_length_one ndebug _ (hall h (List.mem_cons_self _ _))]
    simp only []
    rw [rounded_hitLoop_eq fp ndebug event rest _
        (fun x hx => hall x (List.mem_cons_of_mem _ hx)),
      rounded_ideLoop_eq, List.flatMap_cons, List.foldl_append]
    rfl

theorem rounded_cluster_eq_matchOf (fp : FloatArith) (ndebug : Bool) (event : EventAssns)
    (self : State) (cluster : Ptr CRTCluster)
    (hfeb : ∀ h ∈ event.clusterToStripHits cluster.key,
      (event.stripHitToFEBData h.key).length = 1) :
    Rounded.TruthMatching.cluster fp ndebug event self cluster
      = .ok (Rounded.matchOf fp cluster.obj.tagger self (clusterDeposits event cluster)) := by
  simp only [Rounded.TruthMatching.cluster, rounded_hitLoop_eq fp ndebug event _ _ hfeb,
    Rounded.matchOf, clusterDeposits]

theorem rounded_run_eq_matchOf (fp : FloatArith) (geo : CRTGeoAlg) (ndebug : Bool)
    (event : EventAssns) (self : State) (q : TruthQuery) (hboard : q.OneBoard event) :
    Rounded.run fp geo ndebug event self q
      = .ok (Rounded.matchOf fp (q.tagger geo) self (q.deposits event)) := by
  cases q with
  | ofStripHit stripHit => exact rounded_stripHit_eq_matchOf fp geo ndebug event self stripHit hboard
  | ofCluster cluster => exact rounded_cluster_eq_matchOf fp ndebug event self cluster hboard

theorem rounded_find_energyMapOf (fp : FloatArith) (M : StdMap Int Int)
    (deposits : List (Ptr AuxDetIDE)) (a : Int) :
    StdMap.find (Rounded.energyMapOf fp M deposits) a
      = if deposits.any (fun ide => decide (rollUp M ide.obj.trackID = a)) then
          some (Rounded.energyOf fp M a deposits)
        else none := by
  have h := get_foldl_step (S := StdMap Int ℚ) (K := Int)
    (fun m k => StdMap.find m k)
    (fun m (ide : Ptr AuxDetIDE) =>
      StdMap.subscript 0 (fun e => fp.add e ide.obj.energyDeposited) m
        (rollUp M ide.obj.trackID))
    (fun ide => rollUp M ide.obj.trackID)
    (fun (v : ℚ) (ide : Ptr AuxDetIDE) => fp.add v ide.obj.energyDeposited) 0
    (fun s x => StdMap.find_subscript_self _ _ _ _)
    (fun s x k hk => StdMap.find_subscript_ne _ _ _ _ _ hk) a deposits []
  simp only [StdMap.find, Option.isSome_none, Bool.false_or, Option.getD_none] at h
  unfold Rounded.energyMapOf Rounded.energyOf accumulate
  rw [h, List.foldl_map]

theorem rounded_ordered_energyMapOf (fp : FloatArith) (M : StdMap Int Int)
    (deposits : List (Ptr AuxDetIDE)) :
    StdMap.Ordered (Rounded.energyMapOf fp M deposits) := by
  unfold Rounded.energyMapOf
  have : ∀ (l : List (Ptr AuxDetIDE)) (m : StdMap Int ℚ), StdMap.Ordered m →
      StdMap.Ordered (l.foldl
        (fun m ide =>
          StdMap.subscript 0 (fun e => fp.add e ide.obj.energyDeposited) m
            (rollUp M ide.obj.trackID)) m) := by
    intro l
    induction l with
    | nil => intro m h; exact h
    | cons x l ih =>
      intro m h
      exact ih _ (StdMap.ordered_subscript _ _ _ _ h)
  exact this deposits [] List.Pairwise.nil

theorem rounded_matchOf_eq (fp : FloatArith) (tagger : CRTTagger) (self : State)
    (deposits : List (Ptr AuxDetIDE)) :
    Rounded.matchOf fp tagger self deposits
      = (let best :=
           (Rounded.energyMapOf fp self.fTrackIDMotherMap deposits).foldl
             (Rounded.TruthMatching.selectStep fp tagger (Rounded.totalOf fp deposits))
             { self := self, trackid := -99999, bestPur := .finite 0, comp := .finite 0 }
         ({ trackid := best.trackid, completeness := best.comp, purity := best.bestPur },
          best.self)) := by
  simp only [Rounded.matchOf, rounded_addDeposit_foldl, Rounded.TruthMatching.select,
    Rounded.energyMapOf, Rounded.totalOf, accumulate]

theorem rounded_energyOf_mem (fp : FloatArith) (M : StdMap Int Int)
    (deposits : List (Ptr AuxDetIDE)) (e : Int × ℚ)
    (he : e ∈ Rounded.energyMapOf fp M deposits) :
    deposits.any (fun ide => decide (rollUp M ide.obj.trackID = e.1)) = true ∧
      e.2 = Rounded.energyOf fp M e.1 deposits := by
  have h := StdMap.find_of_mem_ordered _ (rounded_ordered_energyMapOf fp M deposits) e he
  rw [rounded_find_energyMapOf] at h
  by_cases ha : deposits.any (fun ide => decide (rollUp M ide.obj.trackID = e.1)) = true
  · simp only [ha, if_true, Option.some.injEq] at h
    exact ⟨ha, h.symm⟩
  · simp [ha] at h

theorem rounded_mem_energyMapOf (fp : FloatArith) (M : StdMap Int Int)
    (deposits : List (Ptr AuxDetIDE)) (a : Int)
    (ha : deposits.any (fun ide => decide (rollUp M ide.obj.trackID = a)) = true) :
    (a, Rounded.energyOf fp M a deposits) ∈ Rounded.energyMapOf fp M deposits := by
  apply StdMap.mem_of_find
  rw [rounded_find_energyMapOf]
  simp only [ha, if_true]

/-! ## Laws of the rounded operations -/

/-- Rounding to nearest, ties to even, has the properties the proofs use. -/
theorem ieee_lawful : ieee.Lawful where
  mono := fun _ _ hx hxy => roundNearestEven_mono_of_nonneg 52 hx hxy
  idem := fun _ hx => roundNearestEven_idem_of_nonneg 52 hx
  zero := roundNearestEven_zero 52
  one := binary64_one
  pos := fun _ hx => roundNearestEven_pos 52 hx

theorem binary64_of_representable (m k : ℤ) (h1 : (2 ^ 52 : ℤ) ≤ m) (h2 : m < (2 ^ 53 : ℤ)) :
    binary64 ((m : ℚ) * (2 : ℚ) ^ k) = (m : ℚ) * (2 : ℚ) ^ k :=
  roundNearestEven_of_representable 52 m k h1 h2

theorem binary64_two_pow (k : ℤ) : binary64 ((2 : ℚ) ^ k) = (2 : ℚ) ^ k := by
  have h := binary64_of_representable (2 ^ 52) (k - 52) (le_refl _) (by norm_num)
  have e : (((2 ^ 52 : ℤ)) : ℚ) * (2 : ℚ) ^ (k - 52) = (2 : ℚ) ^ k := by
    rw [zpow_sub₀ (by norm_num : (2 : ℚ) ≠ 0)]
    push_cast
    field_simp
    ring
  rw [e] at h
  exact h

theorem binary64_two : binary64 2 = 2 := by
  simpa using binary64_two_pow 1

theorem binary64_half : binary64 (1 / 2) = 1 / 2 := by
  have h := binary64_two_pow (-1)
  norm_num at h
  simpa using h

theorem binary64_ulp_half : binary64 (1 / 2 ^ 53) = 1 / 2 ^ 53 := by
  have h := binary64_two_pow (-53)
  have e : (2 : ℚ) ^ (-53 : ℤ) = 1 / 2 ^ 53 := by
    rw [zpow_neg, one_div]
    norm_cast
  rw [e] at h
  exact h

theorem binary64_ulp : binary64 (1 / 2 ^ 52) = 1 / 2 ^ 52 := by
  have h := binary64_two_pow (-52)
  have e : (2 : ℚ) ^ (-52 : ℤ) = 1 / 2 ^ 52 := by
    rw [zpow_neg, one_div]
    norm_cast
  rw [e] at h
  exact h

theorem binary64_one_add_ulp : binary64 (1 + 1 / 2 ^ 52) = 1 + 1 / 2 ^ 52 := by
  have h := binary64_of_representable (2 ^ 52 + 1) (-52) (by norm_num) (by norm_num)
  have e : (((2 ^ 52 + 1 : ℤ)) : ℚ) * (2 : ℚ) ^ (-52 : ℤ) = 1 + 1 / 2 ^ 52 := by
    rw [zpow_neg]
    push_cast
    norm_num
  rw [e] at h
  exact h

theorem foldl_add_nonneg (fp : FloatArith) (hfp : fp.Lawful) :
    ∀ (l : List ℚ) (a : ℚ), 0 ≤ a → (∀ x ∈ l, 0 ≤ x) → 0 ≤ l.foldl fp.add a
  | [], _, ha, _ => ha
  | x :: l, a, ha, h => by
    rw [List.foldl_cons]
    apply foldl_add_nonneg fp hfp l _ _ (fun y hy => h y (List.mem_cons_of_mem _ hy))
    have hx := h x (List.mem_cons_self _ _)
    have := hfp.mono 0 (a + x) (le_refl _) (add_nonneg ha hx)
    rw [hfp.zero] at this
    exact this

theorem foldl_add_pos_of_pos (fp : FloatArith) (hfp : fp.Lawful) :
    ∀ (l : List ℚ) (a : ℚ), 0 < a → (∀ x ∈ l, 0 ≤ x) → 0 < l.foldl fp.add a
  | [], _, ha, _ => ha
  | x :: l, a, ha, h => by
    rw [List.foldl_cons]
    apply foldl_add_pos_of_pos fp hfp l _ _ (fun y hy => h y (List.mem_cons_of_mem _ hy))
    exact hfp.pos _ (add_pos_of_pos_of_nonneg ha (h x (List.mem_cons_self _ _)))

theorem foldl_add_pos (fp : FloatArith) (hfp : fp.Lawful) :
    ∀ (l : List ℚ) (a : ℚ), 0 ≤ a → (∀ x ∈ l, 0 ≤ x) → (∃ x ∈ l, 0 < x) →
      0 < l.foldl fp.add a
  | [], _, _, _, hex => by
    obtain ⟨x, hx, _⟩ := hex
    simp at hx
  | x :: l, a, ha, h, hex => by
    rw [List.foldl_cons]
    have hx := h x (List.mem_cons_self _ _)
    have hl := fun y hy => h y (List.mem_cons_of_mem _ hy)
    by_cases hp : 0 < x
    · exact foldl_add_pos_of_pos fp hfp l _ (hfp.pos _ (add_pos_of_nonneg_of_pos ha hp)) hl
    · apply foldl_add_pos fp hfp l _ _ hl
      · obtain ⟨y, hy, hy0⟩ := hex
        rcases List.mem_cons.mp hy with rfl | hy
        · exact absurd hy0 hp
        · exact ⟨y, hy, hy0⟩
      · have := hfp.mono 0 (a + x) (le_refl _) (add_nonneg ha hx)
        rw [hfp.zero] at this
        exact this

/-- An accumulation of non-negative values is non-negative. -/
theorem accumulate_nonneg (fp : FloatArith) (hfp : fp.Lawful) (l : List ℚ)
    (h : ∀ x ∈ l, 0 ≤ x) : 0 ≤ accumulate fp l :=
  foldl_add_nonneg fp hfp l 0 (le_refl _) h

/-- An accumulation of non-negative values one of which is positive is
positive. -/
theorem accumulate_pos (fp : FloatArith) (hfp : fp.Lawful) (l : List ℚ)
    (h : ∀ x ∈ l, 0 ≤ x) (hex : ∃ x ∈ l, 0 < x) : 0 < accumulate fp l :=
  foldl_add_pos fp hfp l 0 (le_refl _) h hex

theorem foldl_add_of_all_zero (fp : FloatArith) (hfp : fp.Lawful) :
    ∀ (l : List ℚ), (∀ x ∈ l, x = 0) → l.foldl fp.add 0 = 0
  | [], _ => rfl
  | x :: l, h => by
    rw [List.foldl_cons, h x (List.mem_cons_self _ _)]
    have : fp.add 0 0 = 0 := by
      unfold FloatArith.add
      rw [add_zero, hfp.zero]
    rw [this]
    exact foldl_add_of_all_zero fp hfp l (fun y hy => h y (List.mem_cons_of_mem _ hy))

/-- An accumulation of zeros is zero. -/
theorem accumulate_of_all_zero (fp : FloatArith) (hfp : fp.Lawful) (l : List ℚ)
    (h : ∀ x ∈ l, x = 0) : accumulate fp l = 0 :=
  foldl_add_of_all_zero fp hfp l h

/-- A non-negative accumulation that is zero has only zeros. -/
theorem all_zero_of_accumulate_eq_zero (fp : FloatArith) (hfp : fp.Lawful) (l : List ℚ)
    (h : ∀ x ∈ l, 0 ≤ x) (h0 : accumulate fp l = 0) : ∀ x ∈ l, x = 0 := by
  intro x hx
  by_contra hne
  have hpos : 0 < x := lt_of_le_of_ne (h x hx) (Ne.symm hne)
  have := accumulate_pos fp hfp l h ⟨x, hx, hpos⟩
  rw [h0] at this
  exact lt_irrefl _ this

theorem foldl_add_le_of_sublist (fp : FloatArith) (hfp : fp.Lawful) {l1 l2 : List ℚ}
    (hsub : List.Sublist l1 l2) :
    ∀ (a b : ℚ), 0 ≤ a → a ≤ b → fp.rnd64 b = b → (∀ x ∈ l2, 0 ≤ x) →
      l1.foldl fp.add a ≤ l2.foldl fp.add b := by
  induction hsub with
  | slnil => intro a b _ hab _ _; exact hab
  | cons x _ ih =>
    intro a b ha hab hb h
    rw [List.foldl_cons]
    have hx := h x (List.mem_cons_self _ _)
    have hb0 : 0 ≤ b := le_trans ha hab
    have hstep : b ≤ fp.add b x := by
      have := hfp.mono b (b + x) hb0 (le_add_of_nonneg_right hx)
      rw [hb] at this
      exact this
    exact ih a _ ha (le_trans hab hstep) (hfp.idem _ (add_nonneg hb0 hx))
      (fun y hy => h y (List.mem_cons_of_mem _ hy))
  | cons₂ x _ ih =>
    intro a b ha hab _ h
    rw [List.foldl_cons, List.foldl_cons]
    have hx := h x (List.mem_cons_self _ _)
    have hb0 : 0 ≤ b := le_trans ha hab
    have h0 : 0 ≤ fp.add a x := by
      have := hfp.mono 0 (a + x) (le_refl _) (add_nonneg ha hx)
      rw [hfp.zero] at this
      exact this
    exact ih _ _ h0 (hfp.mono _ _ (add_nonneg ha hx) (add_le_add_right hab x))
      (hfp.idem _ (add_nonneg hb0 hx)) (fun y hy => h y (List.mem_cons_of_mem _ hy))

/-- Accumulating a sublist of non-negative values, in the same relative order,
gives at most the accumulation of the whole list. -/
theorem accumulate_le_of_sublist (fp : FloatArith) (hfp : fp.Lawful) {l1 l2 : List ℚ}
    (hsub : List.Sublist l1 l2) (h : ∀ x ∈ l2, 0 ≤ x) :
    accumulate fp l1 ≤ accumulate fp l2 :=
  foldl_add_le_of_sublist fp hfp hsub 0 0 (le_refl _) (le_refl _) hfp.zero h

/-! ## Lemmas on the rounded selection -/

theorem rounded_selectStep_indexedEnergy (fp : FloatArith) (tagger : CRTTagger) (T : ℚ)
    (best : Best) (entry : Int × ℚ) (id : Int) :
    indexedEnergy (Rounded.TruthMatching.selectStep fp tagger T best entry).self tagger id
      = indexedEnergy best.self tagger id := by
  unfold Rounded.TruthMatching.selectStep
  simp only []
  split
  · rw [indexedEnergy_eq_find2, indexedEnergy_eq_find2]
    by_cases h : id = entry.1
    · rw [h]
      simp only [find2_subscript_self]
      cases find2 best.self.fMCPIDEsEnergyMap entry.1 tagger <;> rfl
    · rw [find2_subscript_ne]
      intro hp
      exact h (congrArg Prod.fst hp)
  · rfl

/-- The rounded selection loop for a non-zero total energy: the computed
purities are finite, the kept purity is the largest one seen (or the initial
one), and the entry it comes from is the first of its computed purity. -/
theorem rounded_select_foldl_finite (fp : FloatArith) (tagger : CRTTagger) (T : ℚ)
    (hT : T ≠ 0) :
    ∀ (es : List (Int × ℚ)) (b0 : Best) (q0 : ℚ), b0.bestPur = .finite q0 →
      ∃ q, (es.foldl (Rounded.TruthMatching.selectStep fp tagger T) b0).bestPur = .finite q ∧
        q0 ≤ q ∧ (∀ e ∈ es, fp.rnd64 (e.2 / T) ≤ q) ∧
        (((es.foldl (Rounded.TruthMatching.selectStep fp tagger T) b0).trackid = b0.trackid ∧
          q = q0 ∧
          (es.foldl (Rounded.TruthMatching.selectStep fp tagger T) b0).comp = b0.comp) ∨
         (∃ pre e post, es = pre ++ e :: post ∧
          (es.foldl (Rounded.TruthMatching.selectStep fp tagger T) b0).trackid = e.1 ∧
          q = fp.rnd64 (e.2 / T) ∧ q0 < q ∧
          (es.foldl (Rounded.TruthMatching.selectStep fp tagger T) b0).comp
            = fp.div e.2 (indexedEnergy b0.self tagger e.1) ∧
          (∀ x ∈ pre, fp.rnd64 (x.2 / T) < q)))
  | [], b0, q0, h0 => ⟨q0, h0, le_refl _, by simp, Or.inl ⟨rfl, rfl, rfl⟩⟩
  | e :: es, b0, q0, h0 => by
    rw [List.foldl_cons]
    have hdiv : fp.div e.2 T = .finite (fp.rnd64 (e.2 / T)) := by simp [FloatArith.div, hT]
    by_cases hg : q0 < fp.rnd64 (e.2 / T)
    · have hstep : Rounded.TruthMatching.selectStep fp tagger T b0 e
          = { self := (Rounded.TruthMatching.selectStep fp tagger T b0 e).self
              trackid := e.1
              bestPur := .finite (fp.rnd64 (e.2 / T))
              comp := fp.div e.2 (indexedEnergy b0.self tagger e.1) } := by
        simp [Rounded.TruthMatching.selectStep, hdiv, h0, DoubleVal.gt, hg, indexedEnergy]
      obtain ⟨q, hq, hle, hall, hcase⟩ :=
        rounded_select_foldl_finite fp tagger T hT es
          (Rounded.TruthMatching.selectStep fp tagger T b0 e) (fp.rnd64 (e.2 / T))
          (by rw [hstep])
      refine ⟨q, hq, le_trans (le_of_lt hg) hle, ?_, ?_⟩
      · intro x hx
        rcases List.mem_cons.mp hx with rfl | hx
        · exact hle
        · exact hall x hx
      · right
        rcases hcase with ⟨h1, h2, h3⟩ | ⟨pre, e', post, hes, h1, h2, h3, h4, h5⟩
        · refine ⟨[], e, es, rfl, ?_, h2, by rw [h2]; exact hg, ?_, by simp⟩
          · rw [h1, hstep]
          · rw [h3, hstep]
        · refine ⟨e :: pre, e', post, by rw [hes]; rfl, h1, h2, lt_trans hg h3, ?_, ?_⟩
          · rw [h4, rounded_selectStep_indexedEnergy]
          · intro x hx
            rcases List.mem_cons.mp hx with rfl | hx
            · exact h3
            · exact h5 x hx
    · have hstep : Rounded.TruthMatching.selectStep fp tagger T b0 e = b0 := by
        simp [Rounded.TruthMatching.selectStep, hdiv, h0, DoubleVal.gt, hg]
      rw [hstep]
      obtain ⟨q, hq, hle, hall, hcase⟩ := rounded_select_foldl_finite fp tagger T hT es b0 q0 h0
      refine ⟨q, hq, hle, ?_, ?_⟩
      · intro x hx
        rcases List.mem_cons.mp hx with rfl | hx
        · exact le_trans (not_lt.mp hg) hle
        · exact hall x hx
      · rcases hcase with h | ⟨pre, e', post, hes, h1, h2, h3, h4, h5⟩
        · exact Or.inl h
        · right
          refine ⟨e :: pre, e', post, by rw [hes]; rfl, h1, h2, h3, h4, ?_⟩
          intro x hx
          rcases List.mem_cons.mp hx with rfl | hx
          · exact lt_of_le_of_lt (not_lt.mp hg) h3
          · exact h5 x hx

/-- The rounded selection for a non-zero computed total: the returned purity
is a number that no computed purity exceeds; either no computed purity is
positive and the initial values are returned, or the returned track id is the
first, in ascending id, of largest computed purity. -/
theorem rounded_matchOf_of_total_ne_zero (fp : FloatArith) (tagger : CRTTagger) (self : State)
    (deposits : List (Ptr AuxDetIDE)) (hT : Rounded.totalOf fp deposits ≠ 0) :
    ∃ p, (Rounded.matchOf fp tagger self deposits).1.purity = .finite p ∧
      (∀ b, deposits.any
          (fun ide => decide (rollUp self.fTrackIDMotherMap ide.obj.trackID = b)) = true →
        fp.rnd64 (Rounded.energyOf fp self.fTrackIDMotherMap b deposits
          / Rounded.totalOf fp deposits) ≤ p) ∧
      (((Rounded.matchOf fp tagger self deposits).1.trackid = -99999 ∧ p = 0 ∧
        (Rounded.matchOf fp tagger self deposits).1.completeness = .finite 0) ∨
       (∃ a, (Rounded.matchOf fp tagger self deposits).1.trackid = a ∧
        deposits.any
          (fun ide => decide (rollUp self.fTrackIDMotherMap ide.obj.trackID = a)) = true ∧
        p = fp.rnd64 (Rounded.energyOf fp self.fTrackIDMotherMap a deposits
          / Rounded.totalOf fp deposits) ∧
        0 < p ∧
        (Rounded.matchOf fp tagger self deposits).1.completeness
          = fp.div (Rounded.energyOf fp self.fTrackIDMotherMap a deposits)
              (indexedEnergy self tagger a) ∧
        (∀ b, deposits.any
            (fun ide => decide (rollUp self.fTrackIDMotherMap ide.obj.trackID = b)) = true →
          fp.rnd64 (Rounded.energyOf fp self.fTrackIDMotherMap b deposits
            / Rounded.totalOf fp deposits) = p → a ≤ b))) := by
  rw [rounded_matchOf_eq]
  simp only []
  obtain ⟨q, hq, hq0, hall, hcase⟩ :=
    rounded_select_foldl_finite fp tagger (Rounded.totalOf fp deposits) hT
      (Rounded.energyMapOf fp self.fTrackIDMotherMap deposits)
      { self := self, trackid := -99999, bestPur := .finite 0, comp := .finite 0 } 0 rfl
  refine ⟨q, hq, ?_, ?_⟩
  · intro b hb
    exact hall _ (rounded_mem_energyMapOf fp _ _ b hb)
  · rcases hcase with ⟨h1, hkeep, h3⟩ | ⟨pre, e, post, hes, h1, h2, h3, h4, h5⟩
    · exact Or.inl ⟨h1, hkeep, h3⟩
    · right
      have hmem : e ∈ Rounded.energyMapOf fp self.fTrackIDMotherMap deposits := by
        rw [hes]; exact List.mem_append_right _ (List.mem_cons_self _ _)
      obtain ⟨hany, he2⟩ := rounded_energyOf_mem fp _ _ e hmem
      refine ⟨e.1, h1, hany, ?_, h3, ?_, ?_⟩
      · rw [h2, he2]
      · rw [h4, he2]
      · intro b hb heq
        have hbm := rounded_mem_energyMapOf fp _ _ b hb
        have hord := rounded_ordered_energyMapOf fp self.fTrackIDMotherMap deposits
        rw [hes] at hbm hord
        rcases List.mem_append.mp hbm with hpre | hpost
        · have := h5 _ hpre
          simp only at this
          rw [heq] at this
          exact absurd this (lt_irrefl _)
        · rcases List.mem_cons.mp hpost with heq' | hpost'
          · have : b = e.1 := congrArg Prod.fst heq'
            exact le_of_eq this.symm
          · have hpw := (List.pairwise_append.mp hord).2.1
            have := (List.pairwise_cons.mp hpw).1 _ hpost'
            exact le_of_lt this

theorem rounded_energyOf_nonneg (fp : FloatArith) (hfp : fp.Lawful) (M : StdMap Int Int)
    (a : Int) (deposits : List (Ptr AuxDetIDE))
    (hnn : ∀ ide ∈ deposits, 0 ≤ ide.obj.energyDeposited) :
    0 ≤ Rounded.energyOf fp M a deposits := by
  unfold Rounded.energyOf
  apply accumulate_nonneg fp hfp
  intro x hx
  obtain ⟨ide, hide, rfl⟩ := List.mem_map.mp hx
  exact hnn ide (List.mem_of_mem_filter hide)

theorem rounded_totalOf_nonneg (fp : FloatArith) (hfp : fp.Lawful)
    (deposits : List (Ptr AuxDetIDE))
    (hnn : ∀ ide ∈ deposits, 0 ≤ ide.obj.energyDeposited) :
    0 ≤ Rounded.totalOf fp deposits := by
  unfold Rounded.totalOf
  apply accumulate_nonneg fp hfp
  intro x hx
  obtain ⟨ide, hide, rfl⟩ := List.mem_map.mp hx
  exact hnn ide hide

/-- With non-negative energies and a positive computed total, some ancestor
that received a deposit has a positive computed purity. -/
theorem rounded_exists_pos_purity (fp : FloatArith) (hfp : fp.Lawful) (M : StdMap Int Int)
    (deposits : List (Ptr AuxDetIDE))
    (hnn : ∀ ide ∈ deposits, 0 ≤ ide.obj.energyDeposited)
    (hpos : 0 < Rounded.totalOf fp deposits) :
    ∃ c, deposits.any (fun ide => decide (rollUp M ide.obj.trackID = c)) = true ∧
      0 < fp.rnd64 (Rounded.energyOf fp M c deposits / Rounded.totalOf fp deposits) := by
  have hex : ∃ ide ∈ deposits, 0 < ide.obj.energyDeposited := by
    by_contra hno
    have hz : ∀ x ∈ deposits.map (fun ide => ide.obj.energyDeposited), x = 0 := by
      intro x hx
      obtain ⟨ide, hide, rfl⟩ := List.mem_map.mp hx
      apply le_antisymm _ (hnn ide hide)
      by_contra hlt
      exact hno ⟨ide, hide, not_le.mp hlt⟩
    have := accumulate_of_all_zero fp hfp _ hz
    unfold Rounded.totalOf at hpos
    rw [this] at hpos
    exact lt_irrefl _ hpos
  obtain ⟨ide, hide, he⟩ := hex
  refine ⟨rollUp M ide.obj.trackID, ?_, ?_⟩
  · rw [List.any_eq_true]
    exact ⟨ide, hide, by simp⟩
  · apply hfp.pos
    apply div_pos _ hpos
    unfold Rounded.energyOf
    apply accumulate_pos fp hfp
    · intro x hx
      obtain ⟨i, hi, rfl⟩ := List.mem_map.mp hx
      exact hnn i (List.mem_of_mem_filter hi)
    · refine ⟨ide.obj.energyDeposited, ?_, he⟩
      apply List.mem_map.mpr
      exact ⟨ide, List.mem_filter.mpr ⟨hide, by simp⟩, rfl⟩

theorem rounded_selectStep_of_nan (fp : FloatArith) (tagger : CRTTagger) (T : ℚ) (best : Best)
    (entry : Int × ℚ) (h : fp.div entry.2 T = .nan) :
    Rounded.TruthMatching.selectStep fp tagger T best entry = best := by
  simp [Rounded.TruthMatching.selectStep, h, DoubleVal.gt]

theorem rounded_foldl_selectStep_of_nan (fp : FloatArith) (tagger : CRTTagger) (T : ℚ) :
    ∀ (es : List (Int × ℚ)) (b0 : Best), (∀ e ∈ es, fp.div e.2 T = .nan) →
      es.foldl (Rounded.TruthMatching.selectStep fp tagger T) b0 = b0
  | [], _, _ => rfl
  | e :: es, b0, h => by
    rw [List.foldl_cons,
      rounded_selectStep_of_nan fp tagger T b0 e (h e (List.mem_cons_self _ _))]
    exact rounded_foldl_selectStep_of_nan fp tagger T es b0
      (fun x hx => h x (List.mem_cons_of_mem _ hx))

/-- With non-negative energies and a zero computed total every deposit is
zero, every purity is `0 / 0`, no comparison succeeds and the sentinel is
returned. -/
theorem rounded_matchOf_of_total_zero (fp : FloatArith) (hfp : fp.Lawful) (tagger : CRTTagger)
    (self : State) (deposits : List (Ptr AuxDetIDE))
    (hnn : ∀ ide ∈ deposits, 0 ≤ ide.obj.energyDeposited)
    (hT : Rounded.totalOf fp deposits = 0) :
    Rounded.matchOf fp tagger self deposits = (sentinel, self) := by
  rw [rounded_matchOf_eq]
  simp only []
  rw [rounded_foldl_selectStep_of_nan]
  · rfl
  · intro e he
    obtain ⟨_, he2⟩ := rounded_energyOf_mem fp _ _ e he
    have hz : ∀ x ∈ deposits.map (fun ide => ide.obj.energyDeposited), x = 0 :=
      all_zero_of_accumulate_eq_zero fp hfp _
        (fun x hx => by
          obtain ⟨ide, hide, rfl⟩ := List.mem_map.mp hx
          exact hnn ide hide) hT
    have hE : e.2 = 0 := by
      rw [he2]
      unfold Rounded.energyOf
      apply accumulate_of_all_zero fp hfp
      intro x hx
      obtain ⟨ide, hide, rfl⟩ := List.mem_map.mp hx
      exact hz _ (List.mem_map.mpr ⟨ide, List.mem_of_mem_filter hide, rfl⟩)
    rw [hE, hT]
    simp [FloatArith.div, DoubleVal.div]

/-! ## Further lemmas on the rounded back-tracker -/

theorem rounded_read_energyMapOf (fp : FloatArith) (M : StdMap Int Int)
    (deposits : List (Ptr AuxDetIDE)) (a : Int) :
    StdMap.read 0 (Rounded.energyMapOf fp M deposits) a = Rounded.energyOf fp M a deposits := by
  unfold StdMap.read
  rw [rounded_find_energyMapOf]
  by_cases h : deposits.any (fun ide => decide (rollUp M ide.obj.trackID = a)) = true
  · rw [if_pos h]
    rfl
  · rw [if_neg h]
    have hnil : deposits.filter (fun ide => decide (rollUp M ide.obj.trackID = a)) = [] := by
      rw [List.filter_eq_nil_iff]
      intro ide hide hp
      exact h (List.any_eq_true.mpr ⟨ide, hide, hp⟩)
    simp [Rounded.energyOf, hnil, accumulate]

theorem rounded_ideLoop_energyMap (fp : FloatArith) (self : State) (stripHit : Ptr CRTStripHit)
    (assnIDEVec : List (Ptr AuxDetIDE × FEBTruthInfo)) :
    (Rounded.TruthMatching.ideLoop fp stripHit assnIDEVec
        { self := self, idToEnergyMap := [], totalEnergy := 0 }).idToEnergyMap
      = Rounded.energyMapOf fp self.fTrackIDMotherMap (retained stripHit assnIDEVec) := by
  rw [rounded_ideLoop_eq, rounded_addDeposit_foldl]
  rfl

/-- The member loop of the cluster overload runs the deposit loop of the
strip-hit overload for each member in turn, on the same accumulators. -/
theorem rounded_hitLoop_eq_foldl (fp : FloatArith) (ndebug : Bool) (event : EventAssns) :
    ∀ (hits : List (Ptr CRTStripHit)) (acc : Accum),
      (∀ h ∈ hits, (event.stripHitToFEBData h.key).length = 1) →
      Rounded.TruthMatching.hitLoop fp ndebug event hits acc
        = .ok (hits.foldl
            (fun acc h =>
              Rounded.TruthMatching.ideLoop fp h
                (event.febDataToIDEs ((event.stripHitToFEBData h.key).headD 0)) acc)
            acc)
  | [], _, _ => rfl
  | h :: rest, acc, hall => by
    have hX : Rounded.TruthMatching.ideLoop fp h
        (event.febDataToIDEs ((event.stripHitToFEBData h.key).headD 0)) acc
        = (hitDeposits event h).foldl (Rounded.TruthMatching.addDeposit fp) acc :=
      rounded_ideLoop_eq fp h _ acc
    have ih := rounded_hitLoop_eq_foldl fp ndebug event rest
      (Rounded.TruthMatching.ideLoop fp h
        (event.febDataToIDEs ((event.stripHitToFEBData h.key).headD 0)) acc)
      (fun x hx => hall x (List.mem_cons_of_mem _ hx))
    rw [rounded_hitLoop_eq fp ndebug event _ _
      (fun x hx => hall x (List.mem_cons_of_mem _ hx))] at ih
    rw [rounded_hitLoop_eq fp ndebug event _ _ hall, List.flatMap_cons, List.foldl_append,
      List.foldl_cons, ← ih, hX]

/-- The result of the rounded selection when one ancestor is known to have a
positive computed purity that no other reaches at a smaller or equal id. -/
theorem rounded_matchOf_of_winner (fp : FloatArith) (tagger : CRTTagger) (self : State)
    (deposits : List (Ptr AuxDetIDE)) (hT : Rounded.totalOf fp deposits ≠ 0) (a : Int)
    (ha : deposits.any
      (fun ide => decide (rollUp self.fTrackIDMotherMap ide.obj.trackID = a)) = true)
    (hpos : 0 < fp.rnd64 (Rounded.energyOf fp self.fTrackIDMotherMap a deposits
      / Rounded.totalOf fp deposits))
    (hmax : ∀ b, deposits.any
        (fun ide => decide (rollUp self.fTrackIDMotherMap ide.obj.trackID = b)) = true →
      fp.rnd64 (Rounded.energyOf fp self.fTrackIDMotherMap b deposits
          / Rounded.totalOf fp deposits)
        ≤ fp.rnd64 (Rounded.energyOf fp self.fTrackIDMotherMap a deposits
          / Rounded.totalOf fp deposits) ∧
      (fp.rnd64 (Rounded.energyOf fp self.fTrackIDMotherMap b deposits
          / Rounded.totalOf fp deposits)
        = fp.rnd64 (Rounded.energyOf fp self.fTrackIDMotherMap a deposits
          / Rounded.totalOf fp deposits) → a ≤ b)) :
    (Rounded.matchOf fp tagger self deposits).1
      = { trackid := a
          completeness :=
            fp.div (Rounded.energyOf fp self.fTrackIDMotherMap a deposits)
              (indexedEnergy self tagger a)
          purity :=
            .finite (fp.rnd64 (Rounded.energyOf fp self.fTrackIDMotherMap a deposits
              / Rounded.totalOf fp deposits)) } := by
  obtain ⟨p, hp, hall, hcase⟩ := rounded_matchOf_of_total_ne_zero fp tagger self deposits hT
  have heta : (Rounded.matchOf fp tagger self deposits).1
      = { trackid := (Rounded.matchOf fp tagger self deposits).1.trackid
          completeness := (Rounded.matchOf fp tagger self deposits).1.completeness
          purity := (Rounded.matchOf fp tagger self deposits).1.purity } := rfl
  rcases hcase with ⟨_, h0, _⟩ | ⟨a', h1, hany, h2, h3, h4, h5⟩
  · exfalso
    have := hall a ha
    rw [h0] at this
    exact absurd hpos (not_lt.mpr this)
  · have hle := hall a ha
    have hge := (hmax a' hany).1
    rw [← h2] at hge
    have hpa : fp.rnd64 (Rounded.energyOf fp self.fTrackIDMotherMap a deposits
        / Rounded.totalOf fp deposits) = p := le_antisymm hle hge
    have h1le : a' ≤ a := h5 a ha hpa
    have h2le : a ≤ a' := (hmax a' hany).2 (by rw [← h2, hpa])
    have haa : a' = a := le_antisymm h1le h2le
    rw [haa] at h1 h4
    rw [heta, h1, h4, hp, hpa]

/-! ## Worked examples of rounded arithmetic -/

theorem accumulate_singleton (fp : FloatArith) (a : ℚ) :
    accumulate fp [a] = fp.rnd64 (0 + a) := rfl

theorem accumulate_pair (fp : FloatArith) (a b : ℚ) :
    accumulate fp [a, b] = fp.rnd64 (fp.rnd64 (0 + a) + b) := rfl

theorem accumulate_triple (fp : FloatArith) (a b c : ℚ) :
    accumulate fp [a, b, c] = fp.rnd64 (fp.rnd64 (fp.rnd64 (0 + a) + b) + c) := rfl

theorem ieee_rnd64 (q : ℚ) : ieee.rnd64 q = binary64 q := rfl

theorem ok_of_fst {α β : Type} (x : α × β) (a : α) (h : x.1 = a) :
    (Except.ok x : Except Fault (α × β)) = .ok (a, x.2) := by
  subst h
  rfl

theorem ok_eta {α β : Type} (x : α × β) :
    (Except.ok x : Except Fault (α × β)) = .ok (x.1, x.2) := rfl

theorem div_of_ne_zero (fp : FloatArith) (a b : ℚ) (hb : b ≠ 0) :
    fp.div a b = .finite (fp.rnd64 (a / b)) := by
  simp [FloatArith.div, hb]

theorem accumulate_large_first :
    accumulate ieee [1, 1 / 2 ^ 53, 1 / 2 ^ 53] = 1 := by
  rw [accumulate_triple, ieee_rnd64, ieee_rnd64, ieee_rnd64, zero_add, binary64_one,
    binary64_tie, binary64_tie]

theorem accumulate_small_first :
    accumulate ieee [1 / 2 ^ 53, 1 / 2 ^ 53, 1] = 1 + 1 / 2 ^ 52 := by
  have e : (1 / 2 ^ 53 + 1 / 2 ^ 53 : ℚ) = 1 / 2 ^ 52 := by norm_num
  rw [accumulate_triple, ieee_rnd64, ieee_rnd64, ieee_rnd64, zero_add, binary64_ulp_half, e,
    binary64_ulp, add_comm, binary64_one_add_ulp]

theorem accumulate_small_pair :
    accumulate ieee [1 / 2 ^ 53, 1 / 2 ^ 53] = 1 / 2 ^ 52 := by
  have e : (1 / 2 ^ 53 + 1 / 2 ^ 53 : ℚ) = 1 / 2 ^ 52 := by norm_num
  rw [accumulate_pair, ieee_rnd64, ieee_rnd64, zero_add, binary64_ulp_half, e, binary64_ulp]

theorem accumulate_one : accumulate ieee [1] = 1 := by
  rw [accumulate_singleton, ieee_rnd64, zero_add, binary64_one]

theorem accumulate_one_ulp : accumulate ieee [1, 1 / 2 ^ 52] = 1 + 1 / 2 ^ 52 := by
  rw [accumulate_pair, ieee_rnd64, ieee_rnd64, zero_add, binary64_one, binary64_one_add_ulp]

/-- The energy a `binary64` accumulator holds depends on the order of the
additions and can differ from the exact sum: the energies 1, `2^-53`, `2^-53`
accumulate to 1 in this order and to `1 + 2^-52`, their exact sum, when the
small ones come first. -/
theorem accumulate_depends_on_order :
    accumulate ieee [1, 1 / 2 ^ 53, 1 / 2 ^ 53] = 1 ∧
    accumulate ieee [1 / 2 ^ 53, 1 / 2 ^ 53, 1] = 1 + 1 / 2 ^ 52 ∧
    ([1, 1 / 2 ^ 53, 1 / 2 ^ 53] : List ℚ).sum = 1 + 1 / 2 ^ 52 :=
  ⟨accumulate_large_first, accumulate_small_first, by norm_num⟩

theorem binary64_three : binary64 3 = 3 := by
  have h := binary64_of_representable (3 * 2 ^ 51) (-51) (by norm_num) (by norm_num)
  have e : (((3 * 2 ^ 51 : ℤ)) : ℚ) * (2 : ℚ) ^ (-51 : ℤ) = 3 := by
    rw [zpow_neg]
    push_cast
    norm_num
  rw [e] at h
  exact h

theorem binary64_four : binary64 4 = 4 := by
  have h := binary64_two_pow 2
  norm_num at h
  exact h

theorem binary64_quarter : binary64 (1 / 4) = 1 / 4 := by
  have h := binary64_two_pow (-2)
  have e : (2 : ℚ) ^ (-2 : ℤ) = 1 / 4 := by
    rw [zpow_neg]
    norm_num
  rw [e] at h
  exact h

theorem binary64_three_quarters : binary64 (3 / 4) = 3 / 4 := by
  have h := binary64_of_representable (3 * 2 ^ 51) (-53) (by norm_num) (by norm_num)
  have e : (((3 * 2 ^ 51 : ℤ)) : ℚ) * (2 : ℚ) ^ (-53 : ℤ) = 3 / 4 := by
    rw [zpow_neg]
    push_cast
    norm_num
  rw [e] at h
  exact h

theorem binary64_half_ulp_up : binary64 ((1 + 1 / 2 ^ 52) / 2) = (1 + 1 / 2 ^ 52) / 2 := by
  have h := binary64_of_representable (2 ^ 52 + 1) (-53) (by norm_num) (by norm_num)
  have e : (((2 ^ 52 + 1 : ℤ)) : ℚ) * (2 : ℚ) ^ (-53 : ℤ) = (1 + 1 / 2 ^ 52) / 2 := by
    rw [zpow_neg]
    push_cast
    norm_num
  rw [e] at h
  exact h
/-! ## Worked examples of the rounded back-tracker -/

theorem quartersQuery_deposits :
    exampleQuery.deposits quartersEvent = [exampleIDE 0 3 1, exampleIDE 1 4 3] := rfl

theorem quartersState_motherMap : quartersState.fTrackIDMotherMap = [] := by
  rw [quartersState, rounded_SetupMaps_motherMap]
  rfl

theorem roundingState_motherMap : roundingState.fTrackIDMotherMap = [] := by
  rw [roundingState, rounded_SetupMaps_motherMap]
  rfl

theorem energyOf_two_tracks (fp : FloatArith) (k1 k2 : Nat) (e1 e2 : ℚ) :
    Rounded.energyOf fp [] 3 [exampleIDE k1 3 e1, exampleIDE k2 4 e2] = accumulate fp [e1] ∧
    Rounded.energyOf fp [] 4 [exampleIDE k1 3 e1, exampleIDE k2 4 e2] = accumulate fp [e2] ∧
    Rounded.totalOf fp [exampleIDE k1 3 e1, exampleIDE k2 4 e2] = accumulate fp [e1, e2] :=
  ⟨rfl, rfl, rfl⟩

theorem received_two_tracks (k1 k2 : Nat) (e1 e2 : ℚ) (b : Int) :
    [exampleIDE k1 3 e1, exampleIDE k2 4 e2].any
        (fun ide => decide (rollUp [] ide.obj.trackID = b)) = true ↔ b = 3 ∨ b = 4 := by
  simp only [List.any_cons, List.any_nil, Bool.or_false, Bool.or_eq_true, decide_eq_true_eq]
  have h3 : rollUp [] (exampleIDE k1 3 e1).obj.trackID = 3 := rfl
  have h4 : rollUp [] (exampleIDE k2 4 e2).obj.trackID = 4 := rfl
  rw [h3, h4]
  constructor
  · rintro (h | h)
    · exact Or.inl h.symm
    · exact Or.inr h.symm
  · rintro (h | h)
    · exact Or.inl h.symm
    · exact Or.inr h.symm

/-- The rounded match of a deposit of energy 1 of track 3 and a deposit of
energy 3 of track 4: the computed purities are 1/4 and 3/4, and track 4 is
returned. -/
theorem quartersMatch (tagger : CRTTagger) :
    (Rounded.matchOf ieee tagger quartersState [exampleIDE 0 3 1, exampleIDE 1 4 3]).1
      = { trackid := 4
          completeness := ieee.div 3 (indexedEnergy quartersState tagger 4)
          purity := .finite (3 / 4) } := by
  obtain ⟨e3, e4, eT⟩ := energyOf_two_tracks ieee 0 1 1 3
  have a3 : accumulate ieee [3] = 3 := by
    rw [accumulate_singleton, ieee_rnd64, zero_add, binary64_three]
  have hT : Rounded.totalOf ieee [exampleIDE 0 3 1, exampleIDE 1 4 3] = 4 := by
    rw [eT, accumulate_pair, ieee_rnd64, ieee_rnd64, zero_add, binary64_one,
      show (1 + 3 : ℚ) = 4 from by norm_num, binary64_four]
  have h := rounded_matchOf_of_winner ieee tagger quartersState
    [exampleIDE 0 3 1, exampleIDE 1 4 3] (by rw [hT]; norm_num) 4
    (by rw [quartersState_motherMap, received_two_tracks]; exact Or.inr rfl)
    (by
      rw [quartersState_motherMap, e4, hT, a3, ieee_rnd64, binary64_three_quarters]
      norm_num)
    (by
      intro b hb
      rw [quartersState_motherMap, received_two_tracks] at hb
      rw [quartersState_motherMap]
      rcases hb with rfl | rfl
      · rw [e3, e4, hT, a3, accumulate_one, ieee_rnd64, ieee_rnd64, binary64_three_quarters,
          binary64_quarter]
        constructor
        · norm_num
        · intro h
          norm_num at h
      · exact ⟨le_refl _, fun _ => le_refl _⟩)
  rw [quartersState_motherMap, e4, hT, a3, ieee_rnd64, binary64_three_quarters] at h
  exact h

theorem quartersState_indexed : indexedEnergy quartersState 0 4 = 3 := by
  rw [quartersState, rounded_SetupMaps_indexedEnergy,
    show Rounded.depositsOf ieee exampleGeo (motherMapOf []) 4 0
        [exampleIDE 0 3 1, exampleIDE 1 4 3] = [exampleIDE 1 4 3] from rfl,
    show [exampleIDE 1 4 3].map (fun ide => ide.obj.energyDeposited) = [3] from rfl,
    accumulate_singleton, ieee_rnd64, zero_add, binary64_three]

/-- The energy the index holds in `binary64` for the deposits of
`roundingIDEs` is 1 in their order, and `1 + 2^-52`, their exact sum, when the
same deposits are indexed with the small ones first: the stored energy is the
accumulation in event order, which rounding can make differ from the exact
sum. -/
theorem SetupMaps_energy_depends_on_order :
    find2 (Rounded.SetupMaps ieee exampleGeo emptyState [] roundingIDEs).fMCPIDEsEnergyMap 3 0
      = some 1 ∧
    find2 (Rounded.SetupMaps ieee exampleGeo emptyState []
        [exampleIDE 1 3 (1 / 2 ^ 53), exampleIDE 2 3 (1 / 2 ^ 53),
         exampleIDE 0 3 1]).fMCPIDEsEnergyMap 3 0
      = some (1 + 1 / 2 ^ 52) := by
  constructor
  · rw [rounded_SetupMaps_find2_energy,
      show Rounded.depositsOf ieee exampleGeo (motherMapOf []) 3 0 roundingIDEs
        = roundingIDEs from rfl, if_neg (by simp [roundingIDEs]),
      show roundingIDEs.map (fun ide => ide.obj.energyDeposited)
        = [1, 1 / 2 ^ 53, 1 / 2 ^ 53] from rfl, accumulate_large_first]
  · rw [rounded_SetupMaps_find2_energy,
      show Rounded.depositsOf ieee exampleGeo (motherMapOf []) 3 0
          [exampleIDE 1 3 (1 / 2 ^ 53), exampleIDE 2 3 (1 / 2 ^ 53), exampleIDE 0 3 1]
        = [exampleIDE 1 3 (1 / 2 ^ 53), exampleIDE 2 3 (1 / 2 ^ 53), exampleIDE 0 3 1] from rfl,
      if_neg (by simp),
      show [exampleIDE 1 3 (1 / 2 ^ 53), exampleIDE 2 3 (1 / 2 ^ 53), exampleIDE 0 3 1].map
          (fun ide => ide.obj.energyDeposited)
        = [1 / 2 ^ 53, 1 / 2 ^ 53, 1] from rfl, accumulate_small_first]

/-- Claim C14. For a query whose hits each have exactly one board record,
whose retained deposits have non-negative energies and a positive accumulated
total, with the `double` operations rounded by any lawful `fp` (in particular
`ieee`), `TruthMatching` returns; the returned track id received a retained
deposit, the returned purity is the computed quotient of the energy
accumulated for the returned track id by the total, and it is at least the
computed quotient of the accumulated energy by the total of every ancestor
that received a retained deposit. -/
theorem C14_best_match_max_purity (fp : FloatArith) (hfp : fp.Lawful) (geo : CRTGeoAlg)
    (ndebug : Bool) (event : EventAssns) (self : State) (q : TruthQuery)
    (hboard : q.OneBoard event)
    (hnn : ∀ ide ∈ q.deposits event, 0 ≤ ide.obj.energyDeposited)
    (hpos : 0 < Rounded.totalOf fp (q.deposits event)) :
    ∃ r st, Rounded.run fp geo ndebug event self q = .ok (r, st) ∧
      (∃ ide ∈ q.deposits event, (RollUpID self ide.obj.trackID).1 = r.trackid) ∧
      r.purity
        = fp.div (Rounded.energyOf fp self.fTrackIDMotherMap r.trackid (q.deposits event))
            (Rounded.totalOf fp (q.deposits event)) ∧
      (∀ a, (∃ ide ∈ q.deposits event, (RollUpID self ide.obj.trackID).1 = a) →
        DoubleVal.le
          (fp.div (Rounded.energyOf fp self.fTrackIDMotherMap a (q.deposits event))
            (Rounded.totalOf fp (q.deposits event)))
          r.purity = true) := by
  obtain ⟨c, hc, hcpos⟩ :=
    rounded_exists_pos_purity fp hfp self.fTrackIDMotherMap (q.deposits event) hnn hpos
  obtain ⟨p, hp, hall, hcase⟩ :=
    rounded_matchOf_of_total_ne_zero fp (q.tagger geo) self (q.deposits event) (ne_of_gt hpos)
  refine ⟨(Rounded.matchOf fp (q.tagger geo) self (q.deposits event)).1,
    (Rounded.matchOf fp (q.tagger geo) self (q.deposits event)).2,
    rounded_run_eq_matchOf fp geo ndebug event self q hboard, ?_⟩
  rcases hcase with ⟨_, h0, _⟩ | ⟨a, ha, hany, hpa, _, _, _⟩
  · exfalso
    have := hall c hc
    rw [h0] at this
    exact absurd hcpos (not_lt.mpr this)
  · refine ⟨?_, ?_, ?_⟩
    · rw [ha]
      simpa only [RollUpID_eq] using (any_rollUp_iff _ _ _).mp hany
    · rw [ha, hp, hpa, div_of_ne_zero fp _ _ (ne_of_gt hpos)]
    · intro b hb
      simp only [RollUpID_eq] at hb
      rw [hp, div_of_ne_zero fp _ _ (ne_of_gt hpos)]
      simpa [DoubleVal.le] using hall b ((any_rollUp_iff _ _ _).mpr hb)

/-- Claim C14 in `binary64` at a strip hit on channel 5 whose board carries a
deposit of energy 1 of track 3 and a deposit of energy 3 of track 4: the
result is track 4 with purity 3/4 and completeness 1. -/
theorem C14_best_match_max_purity_witness :
    (∃ st, Rounded.run ieee exampleGeo false quartersEvent quartersState exampleQuery
      = .ok ({ trackid := 4, completeness := .finite 1, purity := .finite (3 / 4) }, st)) ∧
    ∃ r st, Rounded.run ieee exampleGeo false quartersEvent quartersState exampleQuery
        = .ok (r, st) ∧
      (∃ ide ∈ exampleQuery.deposits quartersEvent,
        (RollUpID quartersState ide.obj.trackID).1 = r.trackid) ∧
      r.purity
        = ieee.div (Rounded.energyOf ieee quartersState.fTrackIDMotherMap r.trackid
              (exampleQuery.deposits quartersEvent))
            (Rounded.totalOf ieee (exampleQuery.deposits quartersEvent)) ∧
      (∀ a, (∃ ide ∈ exampleQuery.deposits quartersEvent,
          (RollUpID quartersState ide.obj.trackID).1 = a) →
        DoubleVal.le
          (ieee.div (Rounded.energyOf ieee quartersState.fTrackIDMotherMap a
              (exampleQuery.deposits quartersEvent))
            (Rounded.totalOf ieee (exampleQuery.deposits quartersEvent)))
          r.purity = true) :=
  ⟨⟨_, by
      rw [rounded_run_eq_matchOf ieee exampleGeo false quartersEvent quartersState exampleQuery
        rfl, quartersQuery_deposits]
      have h := quartersMatch (exampleQuery.tagger exampleGeo)
      rw [show indexedEnergy quartersState (exampleQuery.tagger exampleGeo) 4 = 3
        from quartersState_indexed, div_of_ne_zero ieee 3 3 (by norm_num), ieee_rnd64,
        show (3 / 3 : ℚ) = 1 from by norm_num, binary64_one] at h
      exact ok_of_fst _ _ h⟩,
   C14_best_match_max_purity ieee ieee_lawful exampleGeo false quartersEvent quartersState
     exampleQuery rfl
     (by
       rw [quartersQuery_deposits]
       intro ide hide
       simp only [List.mem_cons, List.mem_singleton, List.not_mem_nil, or_false] at hide
       rcases hide with rfl | rfl <;> simp [exampleIDE])
     (by
       rw [quartersQuery_deposits, (energyOf_two_tracks ieee 0 1 1 3).2.2, accumulate_pair,
         ieee_rnd64, ieee_rnd64, zero_add, binary64_one, show (1 + 3 : ℚ) = 4 from by norm_num,
         binary64_four]
       norm_num)⟩

theorem accumulate_quad (fp : FloatArith) (a b c d : ℚ) :
    accumulate fp [a, b, c, d]
      = fp.rnd64 (fp.rnd64 (fp.rnd64 (fp.rnd64 (0 + a) + b) + c) + d) := rfl

theorem energyOf_one_three (fp : FloatArith) (k1 k2 k3 k4 : Nat) (e1 e2 e3 e4 : ℚ) :
    Rounded.energyOf fp [] 3
        [exampleIDE k1 3 e1, exampleIDE k2 4 e2, exampleIDE k3 4 e3, exampleIDE k4 4 e4]
      = accumulate fp [e1] ∧
    Rounded.energyOf fp [] 4
        [exampleIDE k1 3 e1, exampleIDE k2 4 e2, exampleIDE k3 4 e3, exampleIDE k4 4 e4]
      = accumulate fp [e2, e3, e4] ∧
    Rounded.totalOf fp
        [exampleIDE k1 3 e1, exampleIDE k2 4 e2, exampleIDE k3 4 e3, exampleIDE k4 4 e4]
      = accumulate fp [e1, e2, e3, e4] :=
  ⟨rfl, rfl, rfl⟩

theorem received_one_three (k1 k2 k3 k4 : Nat) (e1 e2 e3 e4 : ℚ) (b : Int) :
    [exampleIDE k1 3 e1, exampleIDE k2 4 e2, exampleIDE k3 4 e3, exampleIDE k4 4 e4].any
        (fun ide => decide (rollUp [] ide.obj.trackID = b)) = true ↔ b = 3 ∨ b = 4 := by
  simp only [List.any_cons, List.any_nil, Bool.or_false, Bool.or_eq_true, decide_eq_true_eq]
  have h1 : rollUp [] (exampleIDE k1 3 e1).obj.trackID = 3 := rfl
  have h2 : rollUp [] (exampleIDE k2 4 e2).obj.trackID = 4 := rfl
  have h3 : rollUp [] (exampleIDE k3 4 e3).obj.trackID = 4 := rfl
  have h4 : rollUp [] (exampleIDE k4 4 e4).obj.trackID = 4 := rfl
  rw [h1, h2, h3, h4]
  constructor
  · rintro (h | h | h | h)
    · exact Or.inl h.symm
    · exact Or.inr h.symm
    · exact Or.inr h.symm
    · exact Or.inr h.symm
  · rintro (h | h)
    · exact Or.inl h.symm
    · exact Or.inr (Or.inl h.symm)

/-- In `binary64`, 2 plus a quarter of a unit in the last place rounds to 2. -/
theorem binary64_two_add_small : binary64 (2 + 1 / 2 ^ 53) = 2 := by
  unfold binary64
  rw [roundNearestEven_of_log 52 (L := 1) (by norm_num) (by norm_num)]
  have e : (2 + 1 / 2 ^ 53 : ℚ) / (2 : ℚ) ^ ((1 : ℤ) - ((52 : ℕ) : ℤ))
      = ((2 ^ 52 : ℤ) : ℚ) + 1 / 4 := by norm_num
  rw [e, roundHalfEven_of_lt_half _ _ (by norm_num) (by norm_num)]
  norm_num

theorem orderMatchLargeFirst (tagger : CRTTagger) :
    (Rounded.matchOf ieee tagger emptyState
        [exampleIDE 0 3 1, exampleIDE 1 4 1, exampleIDE 2 4 (1 / 2 ^ 53),
         exampleIDE 3 4 (1 / 2 ^ 53)]).1.trackid = 3 := by
  have hM : emptyState.fTrackIDMotherMap = [] := rfl
  obtain ⟨e3, e4, eT⟩ := energyOf_one_three ieee 0 1 2 3 1 1 (1 / 2 ^ 53) (1 / 2 ^ 53)
  have hT : Rounded.totalOf ieee
      [exampleIDE 0 3 1, exampleIDE 1 4 1, exampleIDE 2 4 (1 / 2 ^ 53),
       exampleIDE 3 4 (1 / 2 ^ 53)] = 2 := by
    rw [eT, accumulate_quad, ieee_rnd64, ieee_rnd64, ieee_rnd64, ieee_rnd64, zero_add,
      binary64_one, show (1 + 1 : ℚ) = 2 from by norm_num, binary64_two,
      binary64_two_add_small, binary64_two_add_small]
  have h := rounded_matchOf_of_winner ieee tagger emptyState
    [exampleIDE 0 3 1, exampleIDE 1 4 1, exampleIDE 2 4 (1 / 2 ^ 53),
     exampleIDE 3 4 (1 / 2 ^ 53)] (by rw [hT]; norm_num) 3
    (by rw [hM, received_one_three]; exact Or.inl rfl)
    (by
      rw [hM, e3, hT, accumulate_one, ieee_rnd64, binary64_half]
      norm_num)
    (by
      intro b hb
      rw [hM, received_one_three] at hb
      rw [hM]
      rcases hb with rfl | rfl
      · exact ⟨le_refl _, fun _ => le_refl _⟩
      · rw [e3, e4, accumulate_one, accumulate_large_first]
        exact ⟨le_refl _, fun _ => by decide⟩)
  exact congrArg TruthMatchMetrics.trackid h

theorem orderMatchSmallFirst (tagger : CRTTagger) :
    (Rounded.matchOf ieee tagger emptyState
        [exampleIDE 0 3 1, exampleIDE 2 4 (1 / 2 ^ 53), exampleIDE 3 4 (1 / 2 ^ 53),
         exampleIDE 1 4 1]).1.trackid = 4 := by
  have hM : emptyState.fTrackIDMotherMap = [] := rfl
  obtain ⟨e3, e4, eT⟩ := energyOf_one_three ieee 0 2 3 1 1 (1 / 2 ^ 53) (1 / 2 ^ 53) 1
  have hT : Rounded.totalOf ieee
      [exampleIDE 0 3 1, exampleIDE 2 4 (1 / 2 ^ 53), exampleIDE 3 4 (1 / 2 ^ 53),
       exampleIDE 1 4 1] = 2 := by
    rw [eT, accumulate_quad, ieee_rnd64, ieee_rnd64, ieee_rnd64, ieee_rnd64, zero_add,
      binary64_one, binary64_tie, binary64_tie, show (1 + 1 : ℚ) = 2 from by norm_num,
      binary64_two]
  have h := rounded_matchOf_of_winner ieee tagger emptyState
    [exampleIDE 0 3 1, exampleIDE 2 4 (1 / 2 ^ 53), exampleIDE 3 4 (1 / 2 ^ 53),
     exampleIDE 1 4 1] (by rw [hT]; norm_num) 4
    (by rw [hM, received_one_three]; exact Or.inr rfl)
    (by
      rw [hM, e4, hT, accumulate_small_first, ieee_rnd64, binary64_half_ulp_up]
      norm_num)
    (by
      intro b hb
      rw [hM, received_one_three] at hb
      rw [hM]
      rcases hb with rfl | rfl
      · rw [e3, e4, hT, accumulate_one, accumulate_small_first, ieee_rnd64, ieee_rnd64,
          binary64_half_ulp_up, binary64_half]
        constructor
        · norm_num
        · intro h
          norm_num at h
      · exact ⟨le_refl _, fun _ => le_refl _⟩)
  exact congrArg TruthMatchMetrics.trackid h

/-- Which ancestors share the largest computed purity depends on the order in
which the deposits were read. Track 3 deposits 1; track 4 deposits 1, `2^-53`
and `2^-53`. Read with the large deposit of track 4 first, track 4 accumulates
1, the two computed purities are equal and track 3 is returned; read with the
small deposits of track 4 first, track 4 accumulates `1 + 2^-52`, its computed
purity is the larger one and track 4 is returned. -/
theorem tie_depends_on_read_order :
    List.Perm (exampleQuery.deposits orderEventSmallFirst)
      (exampleQuery.deposits orderEventLargeFirst) ∧
    (∃ r st, Rounded.run ieee exampleGeo false orderEventLargeFirst emptyState exampleQuery
      = .ok (r, st) ∧ r.trackid = 3) ∧
    (∃ r st, Rounded.run ieee exampleGeo false orderEventSmallFirst emptyState exampleQuery
      = .ok (r, st) ∧ r.trackid = 4) := by
  have hdA : exampleQuery.deposits orderEventLargeFirst
      = [exampleIDE 0 3 1, exampleIDE 1 4 1, exampleIDE 2 4 (1 / 2 ^ 53),
         exampleIDE 3 4 (1 / 2 ^ 53)] := rfl
  have hdB : exampleQuery.deposits orderEventSmallFirst
      = [exampleIDE 0 3 1, exampleIDE 2 4 (1 / 2 ^ 53), exampleIDE 3 4 (1 / 2 ^ 53),
         exampleIDE 1 4 1] := rfl
  refine ⟨?_, ?_, ?_⟩
  · rw [hdA, hdB]
    have hp : List.Perm
        ([exampleIDE 2 4 (1 / 2 ^ 53), exampleIDE 3 4 (1 / 2 ^ 53)] ++ [exampleIDE 1 4 1])
        ([exampleIDE 1 4 1] ++ [exampleIDE 2 4 (1 / 2 ^ 53), exampleIDE 3 4 (1 / 2 ^ 53)]) :=
      List.perm_append_comm
    exact List.Perm.cons (exampleIDE 0 3 1) hp
  · refine ⟨(Rounded.matchOf ieee (exampleQuery.tagger exampleGeo) emptyState
        (exampleQuery.deposits orderEventLargeFirst)).1,
      (Rounded.matchOf ieee (exampleQuery.tagger exampleGeo) emptyState
        (exampleQuery.deposits orderEventLargeFirst)).2,
      (rounded_run_eq_matchOf ieee exampleGeo false orderEventLargeFirst emptyState
        exampleQuery rfl).trans (ok_eta _), ?_⟩
    rw [hdA]
    exact orderMatchLargeFirst _
  · refine ⟨(Rounded.matchOf ieee (exampleQuery.tagger exampleGeo) emptyState
        (exampleQuery.deposits orderEventSmallFirst)).1,
      (Rounded.matchOf ieee (exampleQuery.tagger exampleGeo) emptyState
        (exampleQuery.deposits orderEventSmallFirst)).2,
      (rounded_run_eq_matchOf ieee exampleGeo false orderEventSmallFirst emptyState
        exampleQuery rfl).trans (ok_eta _), ?_⟩
    rw [hdB]
    exact orderMatchSmallFirst _
theorem energyOf_one_track (fp : FloatArith) (k1 k2 k3 : Nat) (e1 e2 e3 : ℚ) :
    Rounded.energyOf fp [] 3 [exampleIDE k1 3 e1, exampleIDE k2 3 e2, exampleIDE k3 3 e3]
      = accumulate fp [e1, e2, e3] ∧
    Rounded.totalOf fp [exampleIDE k1 3 e1, exampleIDE k2 3 e2, exampleIDE k3 3 e3]
      = accumulate fp [e1, e2, e3] :=
  ⟨rfl, rfl⟩

theorem received_one_track (k1 k2 k3 : Nat) (e1 e2 e3 : ℚ) (b : Int) :
    [exampleIDE k1 3 e1, exampleIDE k2 3 e2, exampleIDE k3 3 e3].any
        (fun ide => decide (rollUp [] ide.obj.trackID = b)) = true ↔ b = 3 := by
  simp only [List.any_cons, List.any_nil, Bool.or_false, Bool.or_eq_true, decide_eq_true_eq]
  have h1 : rollUp [] (exampleIDE k1 3 e1).obj.trackID = 3 := rfl
  have h2 : rollUp [] (exampleIDE k2 3 e2).obj.trackID = 3 := rfl
  have h3 : rollUp [] (exampleIDE k3 3 e3).obj.trackID = 3 := rfl
  rw [h1, h2, h3]
  constructor
  · rintro (h | h | h) <;> exact h.symm
  · intro h
    exact Or.inl h.symm

theorem roundingState_indexed : indexedEnergy roundingState 0 3 = 1 := by
  rw [roundingState, rounded_SetupMaps_indexedEnergy,
    show Rounded.depositsOf ieee exampleGeo (motherMapOf []) 3 0 roundingIDEs
      = roundingIDEs from rfl,
    show roundingIDEs.map (fun ide => ide.obj.energyDeposited)
      = [1, 1 / 2 ^ 53, 1 / 2 ^ 53] from rfl, accumulate_large_first]

/-- The rounded match of the deposits of `roundingIDEs` read with the small
ones first, in the state indexed in the order of `roundingIDEs`: the query
accumulates `1 + 2^-52`, the index holds 1. -/
theorem smallFirstMatch :
    (Rounded.matchOf ieee 0 roundingState
        [exampleIDE 1 3 (1 / 2 ^ 53), exampleIDE 2 3 (1 / 2 ^ 53), exampleIDE 0 3 1]).1
      = { trackid := 3
          completeness := .finite (1 + 1 / 2 ^ 52)
          purity := .finite 1 } := by
  obtain ⟨e3, eT⟩ := energyOf_one_track ieee 1 2 0 (1 / 2 ^ 53) (1 / 2 ^ 53) 1
  have hne : (1 + 1 / 2 ^ 52 : ℚ) ≠ 0 := by norm_num
  have h := rounded_matchOf_of_winner ieee 0 roundingState
    [exampleIDE 1 3 (1 / 2 ^ 53), exampleIDE 2 3 (1 / 2 ^ 53), exampleIDE 0 3 1]
    (by rw [eT, accumulate_small_first]; exact hne) 3
    (by rw [roundingState_motherMap, received_one_track])
    (by
      rw [roundingState_motherMap, e3, eT, accumulate_small_first, div_self hne, ieee_rnd64,
        binary64_one]
      norm_num)
    (by
      intro b hb
      rw [roundingState_motherMap, received_one_track] at hb
      rw [hb]
      exact ⟨le_refl _, fun _ => le_refl _⟩)
  rw [roundingState_motherMap, e3, eT, accumulate_small_first, div_self hne, ieee_rnd64,
    binary64_one, roundingState_indexed, div_of_ne_zero ieee _ 1 (by norm_num), div_one,
    ieee_rnd64, binary64_one_add_ulp] at h
  exact h

/-! ## The claims on completeness and on cluster matching with rounded arithmetic -/

/-- Claim C20, counterexample to the statement as written. In `binary64` the
index is built from three deposits of track 3 with energies 1, `2^-53`,
`2^-53`, all non-negative and in tagger 0; the board of the strip hit on
channel 5 (tagger 0) lists each of the three once, the two small ones first.
The index accumulates 1, the query accumulates `1 + 2^-52`, and the returned
completeness `1 + 2^-52` exceeds 1. -/
theorem C20_completeness_le_one_counterexample :
    (∀ ide ∈ roundingIDEs, 0 ≤ ide.obj.energyDeposited) ∧
    (∀ feb ∈ roundingEventSmallFirst.stripHitToFEBData (exampleHit 0 5 0).key,
      ((roundingEventSmallFirst.febDataToIDEs feb).map Prod.fst).Nodup) ∧
    (∀ feb ∈ roundingEventSmallFirst.stripHitToFEBData (exampleHit 0 5 0).key,
      ∀ entry ∈ roundingEventSmallFirst.febDataToIDEs feb, entry.1 ∈ roundingIDEs) ∧
    (∀ ide ∈ hitDeposits roundingEventSmallFirst (exampleHit 0 5 0),
      Rounded.ideTagger ieee exampleGeo ide
        = exampleGeo.ChannelToTaggerEnum (exampleHit 0 5 0).obj.channel) ∧
    (∃ st, Rounded.TruthMatching.stripHit ieee exampleGeo false roundingEventSmallFirst
        roundingState (exampleHit 0 5 0)
      = .ok ({ trackid := 3, completeness := .finite (1 + 1 / 2 ^ 52), purity := .finite 1 },
          st)) ∧
    DoubleVal.le (.finite (1 + 1 / 2 ^ 52)) (.finite 1) = false := by
  refine ⟨?_, ?_, ?_, fun _ _ => rfl, ?_, ?_⟩
  · intro ide hide
    simp only [roundingIDEs, List.mem_cons, List.mem_singleton, List.not_mem_nil,
      or_false] at hide
    rcases hide with rfl | rfl | rfl <;> simp [exampleIDE]
  · intro feb _
    simp [roundingEventSmallFirst, exampleIDE]
  · intro feb _ entry hentry
    simp only [roundingEventSmallFirst, List.mem_cons, List.mem_singleton, List.not_mem_nil,
      or_false] at hentry
    rcases hentry with rfl | rfl | rfl <;> simp [roundingIDEs]
  · exact ⟨_, by
      rw [rounded_stripHit_eq_matchOf ieee exampleGeo false roundingEventSmallFirst _
        (exampleHit 0 5 0) rfl,
        show hitDeposits roundingEventSmallFirst (exampleHit 0 5 0)
          = [exampleIDE 1 3 (1 / 2 ^ 53), exampleIDE 2 3 (1 / 2 ^ 53), exampleIDE 0 3 1]
          from rfl,
        show exampleGeo.ChannelToTaggerEnum (exampleHit 0 5 0).obj.channel = 0 from rfl]
      exact ok_of_fst _ _ smallFirstMatch⟩
  · simp [DoubleVal.le]

/-- Claim C20, amended. For a strip hit with exactly one board record, in the
state `SetupMaps` builds from deposits of non-negative energy, with the
`float` and `double` operations rounded by any lawful `fp` (in particular
`ieee`): if the deposits the board's association lists are a subsequence of
the deposits given to `SetupMaps` (each listed deposit is indexed, none is
listed more often than indexed, and they are listed in the order of the
index), and every retained deposit's position-derived tagger is the hit's
channel-derived tagger, then `TruthMatching` returns a completeness that is
at most 1. -/
theorem C20_completeness_le_one (fp : FloatArith) (hfp : fp.Lawful) (geo : CRTGeoAlg)
    (ndebug : Bool) (event : EventAssns) (self : State) (maps : List (StdMap Int (List Int)))
    (ideVec : List (Ptr AuxDetIDE)) (stripHit : Ptr CRTStripHit)
    (hboard : (event.stripHitToFEBData stripHit.key).length = 1)
    (hidx : ∀ ide ∈ ideVec, 0 ≤ ide.obj.energyDeposited)
    (hsub : ∀ feb ∈ event.stripHitToFEBData stripHit.key,
      List.Sublist ((event.febDataToIDEs feb).map Prod.fst) ideVec)
    (htag : ∀ ide ∈ hitDeposits event stripHit,
      Rounded.ideTagger fp geo ide = geo.ChannelToTaggerEnum stripHit.obj.channel) :
    ∃ r st, Rounded.TruthMatching.stripHit fp geo ndebug event
        (Rounded.SetupMaps fp geo self maps ideVec) stripHit = .ok (r, st) ∧
      DoubleVal.le r.completeness (.finite 1) = true := by
  obtain ⟨feb, hfeb⟩ : ∃ feb, event.stripHitToFEBData stripHit.key = [feb] := by
    match h : event.stripHitToFEBData stripHit.key, hboard with
    | [feb], _ => exact ⟨feb, rfl⟩
  have hdeps : hitDeposits event stripHit = retained stripHit (event.febDataToIDEs feb) := by
    unfold hitDeposits
    rw [hfeb]
    rfl
  have hsl : List.Sublist (hitDeposits event stripHit) ideVec := by
    rw [hdeps]
    exact (List.Sublist.map _ (List.filter_sublist _)).trans
      (hsub feb (by rw [hfeb]; exact List.mem_singleton.mpr rfl))
  have hnn : ∀ ide ∈ hitDeposits event stripHit, 0 ≤ ide.obj.energyDeposited :=
    fun ide hide => hidx ide (hsl.subset hide)
  refine ⟨(Rounded.matchOf fp (geo.ChannelToTaggerEnum stripHit.obj.channel)
      (Rounded.SetupMaps fp geo self maps ideVec) (hitDeposits event stripHit)).1,
    (Rounded.matchOf fp (geo.ChannelToTaggerEnum stripHit.obj.channel)
      (Rounded.SetupMaps fp geo self maps ideVec) (hitDeposits event stripHit)).2,
    rounded_stripHit_eq_matchOf fp geo ndebug event _ stripHit hboard, ?_⟩
  by_cases hT : Rounded.totalOf fp (hitDeposits event stripHit) = 0
  · rw [rounded_matchOf_of_total_zero fp hfp _ _ _ hnn hT]
    simp [sentinel, DoubleVal.le]
  · obtain ⟨p, _, _, hcase⟩ :=
      rounded_matchOf_of_total_ne_zero fp (geo.ChannelToTaggerEnum stripHit.obj.channel)
        (Rounded.SetupMaps fp geo self maps ideVec) (hitDeposits event stripHit) hT
    rcases hcase with ⟨_, _, hcomp⟩ | ⟨a, _, _, hpa, hppos, hcomp, _⟩
    · rw [hcomp]
      simp [DoubleVal.le]
    · have hTpos : 0 < Rounded.totalOf fp (hitDeposits event stripHit) :=
        lt_of_le_of_ne (rounded_totalOf_nonneg fp hfp _ hnn) (Ne.symm hT)
      rw [rounded_SetupMaps_motherMap] at hpa hcomp
      have hE0 : 0 ≤ Rounded.energyOf fp (motherMapOf maps) a (hitDeposits event stripHit) :=
        rounded_energyOf_nonneg fp hfp _ _ _ hnn
      have hE : 0 < Rounded.energyOf fp (motherMapOf maps) a (hitDeposits event stripHit) := by
        rcases lt_or_eq_of_le hE0 with h | h
        · exact h
        · exfalso
          rw [hpa, ← h, zero_div, hfp.zero] at hppos
          exact lt_irrefl _ hppos
      have hle : Rounded.energyOf fp (motherMapOf maps) a (hitDeposits event stripHit)
          ≤ accumulate fp
              ((Rounded.depositsOf fp geo (motherMapOf maps) a
                (geo.ChannelToTaggerEnum stripHit.obj.channel) ideVec).map
                  (fun ide => ide.obj.energyDeposited)) := by
        unfold Rounded.energyOf
        apply accumulate_le_of_sublist fp hfp
        · apply List.Sublist.map
          have hfil : (hitDeposits event stripHit).filter
              (fun ide => decide (rollUp (motherMapOf maps) ide.obj.trackID = a))
              = (hitDeposits event stripHit).filter
                (fun ide => decide (rollUp (motherMapOf maps) ide.obj.trackID = a) &&
                  decide (Rounded.ideTagger fp geo ide
                    = geo.ChannelToTaggerEnum stripHit.obj.channel)) := by
            apply List.filter_congr
            intro ide hide
            simp [htag ide hide]
          rw [hfil]
          exact hsl.filter _
        · intro x hx
          obtain ⟨ide, hide, rfl⟩ := List.mem_map.mp hx
          exact hidx ide (List.mem_of_mem_filter hide)
      rw [hcomp, rounded_SetupMaps_indexedEnergy]
      have hD : 0 < accumulate fp
          ((Rounded.depositsOf fp geo (motherMapOf maps) a
            (geo.ChannelToTaggerEnum stripHit.obj.channel) ideVec).map
              (fun ide => ide.obj.energyDeposited)) := lt_of_lt_of_le hE hle
      rw [div_of_ne_zero fp _ _ hD.ne']
      have h1 := hfp.mono _ 1 (div_nonneg hE0 hD.le) ((div_le_one hD).mpr hle)
      rw [hfp.one] at h1
      simpa [DoubleVal.le] using h1

/-- Claim C20, amended, in `binary64` at the strip hit on channel 5 of an
event whose board lists the three deposits of `roundingIDEs` in the order in
which they were indexed. -/
theorem C20_completeness_le_one_witness :
    ∃ r st, Rounded.TruthMatching.stripHit ieee exampleGeo false roundingEventInOrder
        (Rounded.SetupMaps ieee exampleGeo emptyState [] roundingIDEs) (exampleHit 0 5 0)
        = .ok (r, st) ∧
      DoubleVal.le r.completeness (.finite 1) = true :=
  C20_completeness_le_one ieee ieee_lawful exampleGeo false roundingEventInOrder emptyState []
    roundingIDEs (exampleHit 0 5 0) rfl
    (by
      intro ide hide
      simp only [roundingIDEs, List.mem_cons, List.mem_singleton, List.not_mem_nil,
        or_false] at hide
      rcases hide with rfl | rfl | rfl <;> simp [exampleIDE])
    (fun _ _ => List.Sublist.refl _)
    (fun _ _ => rfl)
/-- Claim C26, counterexample to the statement as written. In `binary64` a
cluster has two member hits; the first retains a deposit of energy 1 of
track 3, the second two deposits of energy `2^-53` of track 3. The cluster
overload accumulates 1 for track 3, because each small deposit is rounded
away when added to 1; the strip-hit loops accumulate 1 and `2^-52`, whose sum,
exact or rounded, is `1 + 2^-52`. -/
theorem C26_cluster_is_merged_hits_counterexample :
    (∀ h ∈ roundingEventTwoHits.clusterToStripHits twoHitCluster.key,
      (roundingEventTwoHits.stripHitToFEBData h.key).length = 1) ∧
    (∃ acc,
      Rounded.TruthMatching.hitLoop ieee false roundingEventTwoHits
          (roundingEventTwoHits.clusterToStripHits twoHitCluster.key)
          { self := emptyState, idToEnergyMap := [], totalEnergy := 0 } = .ok acc ∧
        StdMap.read 0 acc.idToEnergyMap 3 = 1) ∧
    (roundingEventTwoHits.clusterToStripHits twoHitCluster.key).map (fun h =>
        StdMap.read 0
          (Rounded.TruthMatching.ideLoop ieee h
            (roundingEventTwoHits.febDataToIDEs
              ((roundingEventTwoHits.stripHitToFEBData h.key).headD 0))
            { self := emptyState, idToEnergyMap := [], totalEnergy := 0 }).idToEnergyMap
          3)
      = [1, 1 / 2 ^ 52] ∧
    ([1, 1 / 2 ^ 52] : List ℚ).sum = 1 + 1 / 2 ^ 52 ∧
    accumulate ieee [1, 1 / 2 ^ 52] = 1 + 1 / 2 ^ 52 ∧
    (1 : ℚ) ≠ 1 + 1 / 2 ^ 52 := by
  have hM : emptyState.fTrackIDMotherMap = [] := rfl
  have hall : ∀ h ∈ roundingEventTwoHits.clusterToStripHits twoHitCluster.key,
      (roundingEventTwoHits.stripHitToFEBData h.key).length = 1 := fun _ _ => rfl
  refine ⟨hall, ?_, ?_, by norm_num, accumulate_one_ulp, by norm_num⟩
  · refine ⟨_, rounded_hitLoop_eq ieee false roundingEventTwoHits _ _ hall, ?_⟩
    rw [rounded_addDeposit_foldl]
    show StdMap.read 0 (Rounded.energyMapOf ieee emptyState.fTrackIDMotherMap
      ((roundingEventTwoHits.clusterToStripHits twoHitCluster.key).flatMap
        (hitDeposits roundingEventTwoHits))) 3 = 1
    rw [rounded_read_energyMapOf, hM,
      show (roundingEventTwoHits.clusterToStripHits twoHitCluster.key).flatMap
          (hitDeposits roundingEventTwoHits)
        = [exampleIDE 0 3 1, exampleIDE 1 3 (1 / 2 ^ 53), exampleIDE 2 3 (1 / 2 ^ 53)]
        from rfl,
      (energyOf_one_track ieee 0 1 2 1 (1 / 2 ^ 53) (1 / 2 ^ 53)).1, accumulate_large_first]
  · show [StdMap.read 0
        (Rounded.TruthMatching.ideLoop ieee (exampleHit 0 5 0)
          (roundingEventTwoHits.febDataToIDEs
            ((roundingEventTwoHits.stripHitToFEBData (exampleHit 0 5 0).key).headD 0))
          { self := emptyState, idToEnergyMap := [], totalEnergy := 0 }).idToEnergyMap 3,
      StdMap.read 0
        (Rounded.TruthMatching.ideLoop ieee (exampleHit 1 5 0)
          (roundingEventTwoHits.febDataToIDEs
            ((roundingEventTwoHits.stripHitToFEBData (exampleHit 1 5 0).key).headD 0))
          { self := emptyState, idToEnergyMap := [], totalEnergy := 0 }).idToEnergyMap 3]
      = [1, 1 / 2 ^ 52]
    rw [rounded_ideLoop_energyMap, rounded_ideLoop_energyMap, rounded_read_energyMapOf,
      rounded_read_energyMapOf, hM,
      show Rounded.energyOf ieee [] 3
          (retained (exampleHit 0 5 0)
            (roundingEventTwoHits.febDataToIDEs
              ((roundingEventTwoHits.stripHitToFEBData (exampleHit 0 5 0).key).headD 0)))
        = accumulate ieee [1] from rfl,
      show Rounded.energyOf ieee [] 3
          (retained (exampleHit 1 5 0)
            (roundingEventTwoHits.febDataToIDEs
              ((roundingEventTwoHits.stripHitToFEBData (exampleHit 1 5 0).key).headD 0)))
        = accumulate ieee [1 / 2 ^ 53, 1 / 2 ^ 53] from rfl,
      accumulate_one, accumulate_small_pair]

/-- Claim C26, amended. For a cluster whose member hits each have exactly one
board record, with the `double` operations rounded by any `fp` (in particular
`ieee`), `TruthMatching(cluster)` returns; when the cluster has exactly one
member hit `h` and its stored tagger is the channel-derived tagger of `h`,
`TruthMatching(h)` returns the same track id, completeness and purity (and
leaves the same state); and in general the cluster overload runs the deposit
loop of the strip-hit overload for each member hit in turn on the same
accumulators, so that the energy it accumulates for an ancestor is the
`double` accumulation, in member order and within a member in association
order, of the energies of the merged retained deposits of that ancestor, and
the total is the accumulation of all merged retained deposits. -/
theorem C26_cluster_is_merged_hits (fp : FloatArith) (geo : CRTGeoAlg) (ndebug : Bool)
    (event : EventAssns) (self : State) (cluster : Ptr CRTCluster)
    (hboard : ∀ h ∈ event.clusterToStripHits cluster.key,
      (event.stripHitToFEBData h.key).length = 1) :
    ∃ r st, Rounded.TruthMatching.cluster fp ndebug event self cluster = .ok (r, st) ∧
      (∀ h, event.clusterToStripHits cluster.key = [h] →
        cluster.obj.tagger = geo.ChannelToTaggerEnum h.obj.channel →
        Rounded.TruthMatching.stripHit fp geo ndebug event self h = .ok (r, st)) ∧
      ∃ acc,
        Rounded.TruthMatching.hitLoop fp ndebug event (event.clusterToStripHits cluster.key)
            { self := self, idToEnergyMap := [], totalEnergy := 0 } = .ok acc ∧
        acc = (event.clusterToStripHits cluster.key).foldl
            (fun acc h =>
              Rounded.TruthMatching.ideLoop fp h
                (event.febDataToIDEs ((event.stripHitToFEBData h.key).headD 0)) acc)
            { self := self, idToEnergyMap := [], totalEnergy := 0 } ∧
        (∀ a, StdMap.read 0 acc.idToEnergyMap a
          = accumulate fp
              ((((event.clusterToStripHits cluster.key).flatMap (hitDeposits event)).filter
                (fun ide => decide ((RollUpID self ide.obj.trackID).1 = a))).map
                  (fun ide => ide.obj.energyDeposited))) ∧
        acc.totalEnergy
          = accumulate fp
              (((event.clusterToStripHits cluster.key).flatMap (hitDeposits event)).map
                (fun ide => ide.obj.energyDeposited)) := by
  refine ⟨(Rounded.matchOf fp cluster.obj.tagger self (clusterDeposits event cluster)).1,
    (Rounded.matchOf fp cluster.obj.tagger self (clusterDeposits event cluster)).2,
    rounded_cluster_eq_matchOf fp ndebug event self cluster hboard, ?_, ?_⟩
  · intro h hone htag
    rw [rounded_stripHit_eq_matchOf fp geo ndebug event self h
      (hboard h (by rw [hone]; exact List.mem_singleton.mpr rfl)), ← htag]
    have hdeps : clusterDeposits event cluster = hitDeposits event h := by
      unfold clusterDeposits
      rw [hone]
      simp
    rw [hdeps]
  · refine ⟨_, rounded_hitLoop_eq fp ndebug event _ _ hboard, ?_, ?_, ?_⟩
    · have h1 := rounded_hitLoop_eq fp ndebug event (event.clusterToStripHits cluster.key)
        { self := self, idToEnergyMap := [], totalEnergy := 0 } hboard
      have h2 := rounded_hitLoop_eq_foldl fp ndebug event (event.clusterToStripHits cluster.key)
        { self := self, idToEnergyMap := [], totalEnergy := 0 } hboard
      rw [h1] at h2
      injection h2
    · intro a
      rw [rounded_addDeposit_foldl]
      show StdMap.read 0 (Rounded.energyMapOf fp self.fTrackIDMotherMap
        ((event.clusterToStripHits cluster.key).flatMap (hitDeposits event))) a = _
      rw [rounded_read_energyMapOf]
      simp only [RollUpID_eq]
      rfl
    · rw [rounded_addDeposit_foldl]
      rfl

/-- Claim C26, amended, in `binary64` at the cluster of two member hits that
retain the deposits of energy 1 and of energies `2^-53`, `2^-53`: the cluster
overload returns, and it accumulates for every ancestor what the two deposit
loops run in turn accumulate. -/
theorem C26_cluster_is_merged_hits_witness :
    ∃ r st, Rounded.TruthMatching.cluster ieee false roundingEventTwoHits roundingState
        twoHitCluster = .ok (r, st) ∧
      ∃ acc,
        Rounded.TruthMatching.hitLoop ieee false roundingEventTwoHits
            (roundingEventTwoHits.clusterToStripHits twoHitCluster.key)
            { self := roundingState, idToEnergyMap := [], totalEnergy := 0 } = .ok acc ∧
        acc = (roundingEventTwoHits.clusterToStripHits twoHitCluster.key).foldl
            (fun acc h =>
              Rounded.TruthMatching.ideLoop ieee h
                (roundingEventTwoHits.febDataToIDEs
                  ((roundingEventTwoHits.stripHitToFEBData h.key).headD 0)) acc)
            { self := roundingState, idToEnergyMap := [], totalEnergy := 0 } ∧
        (∀ a, StdMap.read 0 acc.idToEnergyMap a
          = accumulate ieee
              ((((roundingEventTwoHits.clusterToStripHits twoHitCluster.key).flatMap
                  (hitDeposits roundingEventTwoHits)).filter
                (fun ide => decide ((RollUpID roundingState ide.obj.trackID).1 = a))).map
                  (fun ide => ide.obj.energyDeposited))) ∧
        acc.totalEnergy
          = accumulate ieee
              (((roundingEventTwoHits.clusterToStripHits twoHitCluster.key).flatMap
                  (hitDeposits roundingEventTwoHits)).map
                (fun ide => ide.obj.energyDeposited)) := by
  obtain ⟨r, st, h1, _, h3⟩ := C26_cluster_is_merged_hits ieee exampleGeo false
    roundingEventTwoHits roundingState twoHitCluster (fun _ _ => rfl)
  exact ⟨r, st, h1, h3⟩

/-! ## The claim on the averaged time stamps at its failing input -/

/-- Claim C5 fails in the code at three coincident hits that carry the Unix
time 1700000000: `CreateClusters` hands the three hits to
`CharacteriseCluster`, whose 32-bit accumulator wraps at their sum 5100000000,
and the stored `unixS` is 268344234, while the truncated mean of the three
values is 1700000000. -/
theorem C5_truncated_mean_failing_input :
    CreateClusters exampleGeo 5
        [exampleStamped 0 1 0 1700000000, exampleStamped 1 1 0 1700000000,
         exampleStamped 2 1 0 1700000000] 5
      = .ok [({ ts0 := 0, ts1 := 0, unixS := 268344234, nHits := 3, tagger := 0,
                threeD := false },
              [exampleStamped 0 1 0 1700000000, exampleStamped 1 1 0 1700000000,
               exampleStamped 2 1 0 1700000000])] ∧
    CharacteriseCluster exampleGeo
        [exampleStamped 0 1 0 1700000000, exampleStamped 1 1 0 1700000000,
         exampleStamped 2 1 0 1700000000] 4
      = .ok { ts0 := 0, ts1 := 0, unixS := 268344234, nHits := 3, tagger := 0,
              threeD := false } ∧
    ([exampleStamped 0 1 0 1700000000, exampleStamped 1 1 0 1700000000,
        exampleStamped 2 1 0 1700000000].map (fun h => h.obj.unixS)).sum / 3 = 1700000000 ∧
    (5100000000 % UINT32_SIZE) / 3 = 268344234 :=
  ⟨rfl, rfl, rfl, rfl⟩

end sbnd.crt
